import Mathlib

/-! # Fluid simulator: embedding of `Simulator.hpp`, `Fixed.hpp` and `FastFixed.hpp`

The C++ program is embedded shallowly.

* Two-dimensional arrays are total functions on `Int × Int` together with the
  allocated extent; every access of the source is an explicit bounds check that
  fails with `Err.outOfBounds` outside the allocation.
* `assert` is a check that fails with its own error value.
* The three numeric slots `type_p`, `type_v`, `type_vf` are type parameters
  `P`, `V`, `VF`; the operations the simulator uses on them are the fields of
  `Scalars`.
* Recursion of the propagation kernels is bounded by a stack budget `depth`,
  the two `do … while` loops by an iteration budget `iters`; running out of
  either is `Err.outOfFuel`.
* `rnd` (the global `std::mt19937_64`) is the stream of its future outputs.
-/

namespace Fluid

/-- Ways in which an execution can stop without a result. -/
inductive Err where
  | outOfBounds
  | getAssert
  | noDirection
  | moveAssert
  | flowAssert
  | divByZero
  | outOfFuel
  deriving DecidableEq, Repr

/-- The array `deltas` of `Simulator.hpp`. -/
def deltas : List (Int × Int) := [(-1, 0), (1, 0), (0, -1), (0, 1)]

/-- Operations of the numeric slots `type_p` (`P`), `type_v` (`V`) and
`type_vf` (`VF`) that `Simulator.hpp` uses. `a > b` is `lt b a` and `a >= b`
is `le b a`. -/
structure Scalars (P V VF : Type) where
  /-- value-initialised `type_p{}` -/
  pDefault : P
  /-- `type_p(int)` -/
  pOfInt : Int → P
  /-- `static_cast<type_p>(0.8)` -/
  p08 : P
  /-- `static_cast<type_p>(type_v)` -/
  pOfV : V → P
  pAdd : P → P → P
  pSub : P → P → P
  pMul : P → P → P
  /-- `a / b`; there is no result when the division is by zero in an integer representation -/
  pDiv : P → P → Option P
  pLt : P → P → Bool
  pLe : P → P → Bool
  pEq : P → P → Bool
  /-- value-initialised `type_v{}` -/
  vDefault : V
  /-- `static_cast<type_v>(int)` -/
  vOfInt : Int → V
  vOfP : P → V
  vOfVF : VF → V
  vAdd : V → V → V
  vSub : V → V → V
  vLt : V → V → Bool
  /-- value-initialised `type_vf{}` -/
  vfDefault : VF
  vfOfV : V → VF
  vfOfP : P → VF
  vfAdd : VF → VF → VF
  vfEq : VF → VF → Bool
  vfLe : VF → VF → Bool
  /-- `Random01` as a function of the 64-bit generator output -/
  random01 : Nat → P

/-- Assignment to one element of a two-dimensional array. -/
def upd {α : Type} (a : Int → Int → α) (x y : Int) (v : α) : Int → Int → α :=
  fun x1 y1 => if x1 = x ∧ y1 = y then v else a x1 y1

/-- `Simulator::VectorField`: `n × m` cells of `deltas.size()` scalars. -/
structure VectorField (T : Type) where
  n : Nat
  m : Nat
  v : Int → Int → Nat → T

/-- The index is inside the allocation of the vector field. -/
def VectorField.inb {T : Type} (f : VectorField T) (x y : Int) : Prop :=
  0 ≤ x ∧ x < f.n ∧ 0 ≤ y ∧ y < f.m

instance {T : Type} (f : VectorField T) (x y : Int) : Decidable (f.inb x y) := by
  unfold VectorField.inb; infer_instance

/-- Position of `(dx, dy)` in `deltas` (`std::ranges::find`); `deltas.size()` when absent. -/
def deltaIndex (dx dy : Int) : Nat := deltas.indexOf (dx, dy)

/-- `VectorField::Get`, read through the returned reference. -/
def VectorField.Get {T : Type} (f : VectorField T) (x y dx dy : Int) : Except Err T :=
  if deltaIndex dx dy < deltas.length then
    if f.inb x y then .ok (f.v x y (deltaIndex dx dy)) else .error .outOfBounds
  else .error .getAssert

/-- `VectorField::Get`, assignment through the returned reference. -/
def VectorField.Put {T : Type} (f : VectorField T) (x y dx dy : Int) (val : T) :
    Except Err (VectorField T) :=
  if deltaIndex dx dy < deltas.length then
    if f.inb x y then
      .ok { f with v := fun x1 y1 i =>
              if x1 = x ∧ y1 = y ∧ i = deltaIndex dx dy then val else f.v x1 y1 i }
    else .error .outOfBounds
  else .error .getAssert

/-- `VectorField::Add`: `Get(x, y, dx, dy) += dv`. -/
def VectorField.Add {T : Type} (add : T → T → T) (f : VectorField T) (x y dx dy : Int) (dv : T) :
    Except Err (VectorField T) := do
  let cur ← f.Get x y dx dy
  f.Put x y dx dy (add cur dv)

/-- State of `class Simulator`. The arrays `field`, `p`, `old_p`, `dirs`,
`last_use` are allocated with `N` rows and `M + 1` columns (the last column is
the line terminator), the two vector fields with `N × M` cells. -/
structure Simulator (P V VF : Type) where
  N : Nat
  M : Nat
  field : Int → Int → Char
  rho : Char → P
  p : Int → Int → P
  old_p : Int → Int → P
  dirs : Int → Int → Int
  last_use : Int → Int → Int
  UT : Int
  g : V
  velocity : VectorField V
  velocity_flow : VectorField VF
  /-- future outputs of the generator `rnd` -/
  rnd : Nat → Nat

section Kernels

variable {P V VF : Type}

/-- The index is inside the allocation of the `ArrayType` members. -/
def Simulator.inb (s : Simulator P V VF) (x y : Int) : Prop :=
  0 ≤ x ∧ x < s.N ∧ 0 ≤ y ∧ y < (s.M : Int) + 1

instance (s : Simulator P V VF) (x y : Int) : Decidable (s.inb x y) := by
  unfold Simulator.inb; infer_instance

/-- Read of `a[x][y]` for one of the `ArrayType` members. -/
def Simulator.rd {α : Type} (s : Simulator P V VF) (a : Int → Int → α) (x y : Int) :
    Except Err α :=
  if s.inb x y then .ok (a x y) else .error .outOfBounds

/-- The write `last_use[x][y] = val`. -/
def Simulator.setLastUse (s : Simulator P V VF) (x y : Int) (val : Int) :
    Except Err (Simulator P V VF) :=
  if s.inb x y then .ok { s with last_use := upd s.last_use x y val } else .error .outOfBounds

/-- The write `p[x][y] = val`. -/
def Simulator.setP (s : Simulator P V VF) (x y : Int) (val : P) :
    Except Err (Simulator P V VF) :=
  if s.inb x y then .ok { s with p := upd s.p x y val } else .error .outOfBounds

/-- The write `dirs[x][y] = val`. -/
def Simulator.setDirs (s : Simulator P V VF) (x y : Int) (val : Int) :
    Except Err (Simulator P V VF) :=
  if s.inb x y then .ok { s with dirs := upd s.dirs x y val } else .error .outOfBounds

/-- One call of the generator `rnd()`: its 64-bit output and the state after it. -/
def Simulator.nextRnd (s : Simulator P V VF) : Nat × Simulator P V VF :=
  (s.rnd 0 % 2 ^ 64, { s with rnd := fun i => s.rnd (i + 1) })

/-- `Simulator::Random01`. -/
def Simulator.Random01 (A : Scalars P V VF) (s : Simulator P V VF) : P × Simulator P V VF :=
  (A.random01 s.nextRnd.1, s.nextRnd.2)

/-- The quotient `a / b` of two `type_p` values. -/
def divide (A : Scalars P V VF) (a b : P) : Except Err P :=
  match A.pDiv a b with
  | some q => .ok q
  | none => .error .divByZero

/-- A loop `for (c : cs) body` whose body neither breaks nor returns. -/
def forEach {σ β : Type} (body : σ → β → Except Err σ) : List β → σ → Except Err σ
  | [], s => .ok s
  | c :: cs, s => do
    let s1 ← body s c
    forEach body cs s1

/-- Cells `(x, y)` with `x < n`, `y < m` in row-major order: the nested loops of `Run`. -/
def cells (n m : Nat) : List (Int × Int) :=
  (List.range n).flatMap fun (x : Nat) => (List.range m).map fun (y : Nat) => ((x : Int), (y : Int))

/-! ### `PropagateStop` -/

/-- First loop of `PropagateStop`: the value of `stop` after it. -/
def stopScan (A : Scalars P V VF) (s : Simulator P V VF) (x y : Int) :
    List (Int × Int) → Except Err Bool
  | [] => .ok true
  | (dx, dy) :: rest => do
    let c ← s.rd s.field (x + dx) (y + dy)
    if c = '#' then stopScan A s x y rest else
    let lu ← s.rd s.last_use (x + dx) (y + dy)
    if ¬ lu < s.UT - 1 then stopScan A s x y rest else
    let v ← s.velocity.Get x y dx dy
    if A.vLt (A.vOfInt 0) v then .ok false else stopScan A s x y rest

/-- Second loop of `PropagateStop`; `call` is the recursive call. -/
def stopSpread (A : Scalars P V VF) (call : Simulator P V VF → Int → Int → Except Err
    (Simulator P V VF))
    (x y : Int) : List (Int × Int) → Simulator P V VF → Except Err (Simulator P V VF)
  | [], s => .ok s
  | (dx, dy) :: rest, s => do
    let c ← s.rd s.field (x + dx) (y + dy)
    if c = '#' then stopSpread A call x y rest s else
    let lu ← s.rd s.last_use (x + dx) (y + dy)
    if lu = s.UT then stopSpread A call x y rest s else
    let v ← s.velocity.Get x y dx dy
    if A.vLt (A.vOfInt 0) v then stopSpread A call x y rest s else
    let s1 ← call s (x + dx) (y + dy)
    stopSpread A call x y rest s1

/-- `Simulator::PropagateStop`. -/
def PropagateStop (A : Scalars P V VF) :
    Nat → Simulator P V VF → Int → Int → Bool → Except Err (Simulator P V VF)
  | 0, _, _, _, _ => .error .outOfFuel
  | depth + 1, s, x, y, force => do
    let stop ← (if force then .ok true else stopScan A s x y deltas : Except Err Bool)
    if stop = false then .ok s else
    let s1 ← s.setLastUse x y s.UT
    stopSpread A (fun s2 nx ny => PropagateStop A depth s2 nx ny false) x y deltas s1

/-! ### `MoveProb` -/

/-- Loop of `MoveProb`, `sum` being the accumulator. -/
def moveProbLoop (A : Scalars P V VF) (s : Simulator P V VF) (x y : Int) :
    List (Int × Int) → P → Except Err P
  | [], sum => .ok sum
  | (dx, dy) :: rest, sum => do
    let c ← s.rd s.field (x + dx) (y + dy)
    if c = '#' then moveProbLoop A s x y rest sum else
    let lu ← s.rd s.last_use (x + dx) (y + dy)
    if lu = s.UT then moveProbLoop A s x y rest sum else
    let v ← s.velocity.Get x y dx dy
    if A.vLt v (A.vOfInt 0) then moveProbLoop A s x y rest sum else
    moveProbLoop A s x y rest (A.pAdd sum (A.pOfV v))

/-- `Simulator::MoveProb`. -/
def MoveProb (A : Scalars P V VF) (s : Simulator P V VF) (x y : Int) : Except Err P :=
  moveProbLoop A s x y deltas (A.pOfInt 0)

/-! ### `PropagateMove` -/

/-- `Simulator::ParticleParams`. -/
structure ParticleParams (P V : Type) where
  type : Char
  cur_p : P
  v : Nat → V

/-- Value-initialised `ParticleParams pp{}`. -/
def ParticleParams.init (A : Scalars P V VF) : ParticleParams P V :=
  { type := Char.ofNat 0, cur_p := A.pDefault, v := fun _ => A.vDefault }

/-- `ParticleParams::SwapWith(x, y, velocity, p, field)`. -/
def ParticleParams.SwapWith (pp : ParticleParams P V) (s : Simulator P V VF) (x y : Int) :
    Except Err (ParticleParams P V × Simulator P V VF) :=
  if s.inb x y then
    if s.velocity.inb x y then
      .ok ({ type := s.field x y, cur_p := s.p x y, v := s.velocity.v x y },
           { s with
             field := upd s.field x y pp.type
             p := upd s.p x y pp.cur_p
             velocity := { s.velocity with
               v := fun x1 y1 => if x1 = x ∧ y1 = y then pp.v else s.velocity.v x1 y1 } })
    else .error .outOfBounds
  else .error .outOfBounds

/-- The three `SwapWith` calls at the end of `PropagateMove`. -/
def swapCells (A : Scalars P V VF) (s : Simulator P V VF) (x y nx ny : Int) :
    Except Err (Simulator P V VF) := do
  let (pp1, s1) ← (ParticleParams.init A).SwapWith s x y
  let (pp2, s2) ← pp1.SwapWith s1 nx ny
  let (_, s3) ← pp2.SwapWith s2 x y
  .ok s3

/-- The loop of `PropagateMove` that fills `tres`: the array and the final `sum`. -/
def tresLoop (A : Scalars P V VF) (s : Simulator P V VF) (x y : Int) :
    List (Int × Int) → P → Except Err (List P × P)
  | [], sum => .ok ([], sum)
  | (dx, dy) :: rest, sum => do
    let c ← s.rd s.field (x + dx) (y + dy)
    if c = '#' then (fun r => (sum :: r.1, r.2)) <$> tresLoop A s x y rest sum else
    let lu ← s.rd s.last_use (x + dx) (y + dy)
    if lu = s.UT then (fun r => (sum :: r.1, r.2)) <$> tresLoop A s x y rest sum else
    let v ← s.velocity.Get x y dx dy
    if A.vLt v (A.vOfInt 0) then (fun r => (sum :: r.1, r.2)) <$> tresLoop A s x y rest sum else
    (fun r => (A.pAdd sum (A.pOfV v) :: r.1, r.2)) <$>
      tresLoop A s x y rest (A.pAdd sum (A.pOfV v))

/-- `std::ranges::upper_bound(tres, p) - tres.begin()`: the first index whose
element is greater than `p`, the length when there is none. -/
def upperBound (A : Scalars P V VF) (tres : List P) (p : P) : Nat :=
  tres.findIdx fun t => A.pLt p t

/-- The `do … while (!ret)` loop of `PropagateMove`; `call` is the recursive
call `PropagateMove(nx, ny, false)`. The result carries `ret`, `nx`, `ny`.
The source subscripts `deltas[d]` without a check; an index `d` outside
`deltas`, a read past the end of the array, is the error `noDirection`. -/
def moveLoop (A : Scalars P V VF)
    (call : Simulator P V VF → Int → Int → Except Err (Simulator P V VF × Bool)) (x y : Int) :
    Nat → Simulator P V VF → Int → Int → Except Err (Simulator P V VF × Bool × Int × Int)
  | 0, _, _, _ => .error .outOfFuel
  | iters + 1, s, nx, ny => do
    let (tres, sum) ← tresLoop A s x y deltas (A.pOfInt 0)
    if A.pEq sum (A.pOfInt 0) then .ok (s, false, nx, ny) else
    let (r, s1) := s.Random01 A
    let d := upperBound A tres (A.pMul r sum)
    match deltas.get? d with
    | none => .error .noDirection
    | some (dx, dy) => do
      let v ← s1.velocity.Get x y dx dy
      if ¬ A.vLt (A.vOfInt 0) v then .error .moveAssert else
      let c ← s1.rd s1.field (x + dx) (y + dy)
      if c = '#' then .error .moveAssert else
      let lu ← s1.rd s1.last_use (x + dx) (y + dy)
      if ¬ lu < s1.UT then .error .moveAssert else
      if lu = s1.UT - 1 then .ok (s1, true, x + dx, y + dy) else
      let (s2, ret) ← call s1 (x + dx) (y + dy)
      if ret then .ok (s2, true, x + dx, y + dy) else moveLoop A call x y iters s2 (x + dx) (y + dy)

/-- The loop after the `do … while` of `PropagateMove`. -/
def moveStops (A : Scalars P V VF) (depth : Nat) (x y : Int) :
    List (Int × Int) → Simulator P V VF → Except Err (Simulator P V VF)
  | [], s => .ok s
  | (dx, dy) :: rest, s => do
    let c ← s.rd s.field (x + dx) (y + dy)
    if c = '#' then moveStops A depth x y rest s else
    let lu ← s.rd s.last_use (x + dx) (y + dy)
    if ¬ lu < s.UT - 1 then moveStops A depth x y rest s else
    let v ← s.velocity.Get x y dx dy
    if ¬ A.vLt v (A.vOfInt 0) then moveStops A depth x y rest s else
    let s1 ← PropagateStop A depth s (x + dx) (y + dy) false
    moveStops A depth x y rest s1

/-- `Simulator::PropagateMove`. -/
def PropagateMove (A : Scalars P V VF) (iters : Nat) :
    Nat → Simulator P V VF → Int → Int → Bool → Except Err (Simulator P V VF × Bool)
  | 0, _, _, _, _ => .error .outOfFuel
  | depth + 1, s, x, y, is_first => do
    let s1 ← s.setLastUse x y (s.UT - if is_first then 1 else 0)
    let (s2, ret, nx, ny) ←
      moveLoop A (fun s3 x3 y3 => PropagateMove A iters depth s3 x3 y3 false) x y iters s1 (-1) (-1)
    let s4 ← s2.setLastUse x y s2.UT
    let s5 ← moveStops A depth x y deltas s4
    if ret ∧ ¬ is_first then do
      let s6 ← swapCells A s5 x y nx ny
      .ok (s6, ret)
    else .ok (s5, ret)

/-! ### `PropagateFlow` -/

/-- The loop of `PropagateFlow` with its three exits; `call` is the recursive call. -/
def flowDirs (A : Scalars P V VF)
    (call : Simulator P V VF → Int → Int → P →
      Except Err (Simulator P V VF × P × Bool × (Int × Int)))
    (x y : Int) (lim : P) :
    List (Int × Int) → Simulator P V VF → P →
      Except Err (Simulator P V VF × P × Bool × (Int × Int))
  | [], s, ret => do
    let s1 ← s.setLastUse x y s.UT
    .ok (s1, ret, false, (0, 0))
  | (dx, dy) :: rest, s, ret => do
    let c ← s.rd s.field (x + dx) (y + dy)
    if c = '#' then flowDirs A call x y lim rest s ret else
    let lu ← s.rd s.last_use (x + dx) (y + dy)
    if ¬ lu < s.UT then flowDirs A call x y lim rest s ret else
    let cap ← s.velocity.Get x y dx dy
    let flow ← s.velocity_flow.Get x y dx dy
    if A.vfEq flow (A.vfOfV cap) then flowDirs A call x y lim rest s ret else
    let res := A.vSub cap (A.vOfVF flow)
    let vp := if A.pLt (A.pOfV res) lim then A.pOfV res else lim
    if lu = s.UT - 1 then do
      let vf ← s.velocity_flow.Add A.vfAdd x y dx dy (A.vfOfP vp)
      let s1 ← ({ s with velocity_flow := vf }).setLastUse x y s.UT
      .ok (s1, vp, true, (x + dx, y + dy))
    else do
      let (s1, t, prop, e) ← call s (x + dx) (y + dy) vp
      if prop then do
        let vf ← s1.velocity_flow.Add A.vfAdd x y dx dy (A.vfOfP t)
        let s2 ← ({ s1 with velocity_flow := vf }).setLastUse x y s1.UT
        .ok (s2, t, decide (e ≠ (x, y)), e)
      else flowDirs A call x y lim rest s1 (A.pAdd ret t)

/-- `Simulator::PropagateFlow`. -/
def PropagateFlow (A : Scalars P V VF) :
    Nat → Simulator P V VF → Int → Int → P →
      Except Err (Simulator P V VF × P × Bool × (Int × Int))
  | 0, _, _, _, _ => .error .outOfFuel
  | depth + 1, s, x, y, lim => do
    let s1 ← s.setLastUse x y (s.UT - 1)
    flowDirs A (fun s2 nx ny vp => PropagateFlow A depth s2 nx ny vp) x y lim deltas s1 (A.pOfInt 0)

/-! ### `Run` -/

/-- Body of the loop at the start of `Run` that fills `dirs`, for one cell. -/
def dirsCell (s : Simulator P V VF) (c : Int × Int) : Except Err (Simulator P V VF) := do
  let ch ← s.rd s.field c.1 c.2
  if ch = '#' then .ok s else
  forEach (fun s1 (d : Int × Int) => do
      let cn ← s1.rd s1.field (c.1 + d.1) (c.2 + d.2)
      let cur ← s1.rd s1.dirs c.1 c.2
      s1.setDirs c.1 c.2 (cur + if cn ≠ '#' then 1 else 0)) deltas s

/-- Phase 1 (gravity), body for one cell. -/
def gravityCell (A : Scalars P V VF) (s : Simulator P V VF) (c : Int × Int) :
    Except Err (Simulator P V VF) := do
  let ch ← s.rd s.field c.1 c.2
  if ch = '#' then .ok s else
  let below ← s.rd s.field (c.1 + 1) c.2
  if below ≠ '#' then do
    let vel ← s.velocity.Add A.vAdd c.1 c.2 1 0 s.g
    .ok { s with velocity := vel }
  else .ok s

/-- Phase 2, body of the loop over `deltas` for the cell `(x, y)`. The local
`total_delta_p` is never read and is left out. -/
def pressureDir (A : Scalars P V VF) (x y : Int) (s : Simulator P V VF) (d : Int × Int) :
    Except Err (Simulator P V VF) := do
  let cn ← s.rd s.field (x + d.1) (y + d.2)
  if cn = '#' then .ok s else
  let pn ← s.rd s.old_p (x + d.1) (y + d.2)
  let pc ← s.rd s.old_p x y
  if ¬ A.pLt pn pc then .ok s else
  let force := A.pSub pc pn
  let contr ← s.velocity.Get (x + d.1) (y + d.2) (-d.1) (-d.2)
  if A.pLe force (A.pMul (A.pOfV contr) (s.rho cn)) then do
    let q ← divide A force (s.rho cn)
    let vel ← s.velocity.Put (x + d.1) (y + d.2) (-d.1) (-d.2) (A.vSub contr (A.vOfP q))
    .ok { s with velocity := vel }
  else do
    let force1 := A.pSub force (A.pMul (A.pOfV contr) (s.rho cn))
    let vel1 ← s.velocity.Put (x + d.1) (y + d.2) (-d.1) (-d.2) (A.vOfInt 0)
    let cc ← s.rd s.field x y
    let q ← divide A force1 (s.rho cc)
    let vel2 ← vel1.Add A.vAdd x y d.1 d.2 (A.vOfP q)
    let dr ← s.rd s.dirs x y
    let q1 ← divide A force1 (A.pOfInt dr)
    let cur ← s.rd s.p x y
    ({ s with velocity := vel2 }).setP x y (A.pSub cur q1)

/-- Phase 2, body for one cell. -/
def pressureCell (A : Scalars P V VF) (s : Simulator P V VF) (c : Int × Int) :
    Except Err (Simulator P V VF) := do
  let ch ← s.rd s.field c.1 c.2
  if ch = '#' then .ok s else forEach (pressureDir A c.1 c.2) deltas s

/-- Phase 3, one cell of one pass of the `do … while (prop)` loop; the state
carries the flag `prop`. -/
def flowCell (A : Scalars P V VF) (depth : Nat) (sp : Simulator P V VF × Bool) (c : Int × Int) :
    Except Err (Simulator P V VF × Bool) := do
  let ch ← sp.1.rd sp.1.field c.1 c.2
  if ch = '#' then .ok sp else
  let lu ← sp.1.rd sp.1.last_use c.1 c.2
  if lu = sp.1.UT then .ok sp else
  let (s1, tt, _, _) ← PropagateFlow A depth sp.1 c.1 c.2 (A.pOfInt 1)
  .ok (s1, if A.pLt (A.pOfInt 0) tt then true else sp.2)

/-- Phase 3, the `do … while (prop)` loop. -/
def flowPasses (A : Scalars P V VF) (depth : Nat) :
    Nat → Simulator P V VF → Except Err (Simulator P V VF)
  | 0, _ => .error .outOfFuel
  | iters + 1, s => do
    let (s1, prop) ← forEach (flowCell A depth) (cells s.N s.M) ({ s with UT := s.UT + 2 }, false)
    if prop then flowPasses A depth iters s1 else .ok s1

/-- Phase 3, write-back of the flow, body of the loop over `deltas` for `(x, y)`. -/
def applyDir (A : Scalars P V VF) (x y : Int) (s : Simulator P V VF) (d : Int × Int) :
    Except Err (Simulator P V VF) := do
  let old_v ← s.velocity.Get x y d.1 d.2
  let new_v ← s.velocity_flow.Get x y d.1 d.2
  if ¬ A.vLt (A.vOfInt 0) old_v then .ok s else
  if ¬ A.vfLe new_v (A.vfOfV old_v) then .error .flowAssert else
  let vel ← s.velocity.Put x y d.1 d.2 (A.vOfVF new_v)
  let cc ← s.rd s.field x y
  let force0 := A.pMul (A.pOfV (A.vSub old_v (A.vOfVF new_v))) (s.rho cc)
  let force := if cc = '.' then A.pMul force0 A.p08 else force0
  let cn ← s.rd s.field (x + d.1) (y + d.2)
  if cn = '#' then do
    let dr ← s.rd s.dirs x y
    let q ← divide A force (A.pOfInt dr)
    let cur ← s.rd s.p x y
    ({ s with velocity := vel }).setP x y (A.pAdd cur q)
  else do
    let dr ← s.rd s.dirs (x + d.1) (y + d.2)
    let q ← divide A force (A.pOfInt dr)
    let cur ← s.rd s.p (x + d.1) (y + d.2)
    ({ s with velocity := vel }).setP (x + d.1) (y + d.2) (A.pAdd cur q)

/-- Phase 3, write-back of the flow, body for one cell. -/
def applyCell (A : Scalars P V VF) (s : Simulator P V VF) (c : Int × Int) :
    Except Err (Simulator P V VF) := do
  let ch ← s.rd s.field c.1 c.2
  if ch = '#' then .ok s else forEach (applyDir A c.1 c.2) deltas s

/-- Phase 4, body for one cell; the state carries the flag `prop`. -/
def moveCell (A : Scalars P V VF) (iters depth : Nat) (sp : Simulator P V VF × Bool)
    (c : Int × Int) : Except Err (Simulator P V VF × Bool) := do
  let ch ← sp.1.rd sp.1.field c.1 c.2
  if ch = '#' then .ok sp else
  let lu ← sp.1.rd sp.1.last_use c.1 c.2
  if lu = sp.1.UT then .ok sp else
  let (r, s1) := sp.1.Random01 A
  let mp ← MoveProb A s1 c.1 c.2
  if A.pLt r mp then do
    let (s2, _) ← PropagateMove A iters depth s1 c.1 c.2 true
    .ok (s2, true)
  else do
    let s2 ← PropagateStop A depth s1 c.1 c.2 true
    .ok (s2, sp.2)

/-- Phases 1 and 2 of a tick. -/
def phase12 (A : Scalars P V VF) (s : Simulator P V VF) : Except Err (Simulator P V VF) := do
  let s1 ← forEach (gravityCell A) (cells s.N s.M) s
  forEach (pressureCell A) (cells s1.N s1.M) { s1 with old_p := s1.p }

/-- Phase 3 up to the end of the `do … while (prop)` loop. -/
def phase3 (A : Scalars P V VF) (iters depth : Nat) (s : Simulator P V VF) :
    Except Err (Simulator P V VF) :=
  flowPasses A depth iters
    { s with velocity_flow := { n := s.N, m := s.M, v := fun _ _ _ => A.vfDefault } }

/-- Phase 3 after the loop: write-back of the flow. -/
def phase3Apply (A : Scalars P V VF) (s : Simulator P V VF) : Except Err (Simulator P V VF) :=
  forEach (applyCell A) (cells s.N s.M) s

/-- Phase 4: the resulting state and the flag `prop`. -/
def phase4 (A : Scalars P V VF) (iters depth : Nat) (s : Simulator P V VF) :
    Except Err (Simulator P V VF × Bool) :=
  forEach (moveCell A iters depth) (cells s.N s.M) ({ s with UT := s.UT + 2 }, false)

/-- One iteration of the main loop of `Run`: the state after it and whether
the tick is reported (`prop`). Printing and `SaveToFile` do not touch the state. -/
def tick (A : Scalars P V VF) (iters depth : Nat) (s : Simulator P V VF) :
    Except Err (Simulator P V VF × Bool) := do
  let s1 ← phase12 A s
  let s2 ← phase3 A iters depth s1
  let s3 ← phase3Apply A s2
  phase4 A iters depth s3

/-- The first `n` iterations of the main loop of `Run`. -/
def ticks (A : Scalars P V VF) (iters depth : Nat) :
    Nat → Simulator P V VF → Except Err (Simulator P V VF)
  | 0, s => .ok s
  | n + 1, s => do
    let s1 ← ticks A iters depth n s
    let (s2, _) ← tick A iters depth s1
    .ok s2

/-- The loop of `Run` that fills `dirs`. -/
def initDirs (s : Simulator P V VF) : Except Err (Simulator P V VF) :=
  forEach dirsCell (cells s.N s.M) s

/-- The constant `t` of `Simulator.hpp`. -/
def t : Nat := 5000

/-- `Simulator::Run` cut off after `n` iterations of its main loop. -/
def runTicks (A : Scalars P V VF) (iters depth n : Nat) (s : Simulator P V VF) :
    Except Err (Simulator P V VF) := do
  let s0 ← initDirs s
  ticks A iters depth n s0

/-- `Simulator::Run`. -/
def Run (A : Scalars P V VF) (iters depth : Nat) (s : Simulator P V VF) :
    Except Err (Simulator P V VF) :=
  runTicks A iters depth t s

/-- The simulator as the constructors leave it: `field`, `rho` and `g` from the
arguments, everything else value-initialised. -/
def Simulator.init (A : Scalars P V VF) (N M : Nat) (field : Int → Int → Char)
    (rho : Char → P) (g : V) (rnd : Nat → Nat) : Simulator P V VF :=
  { N := N, M := M, field := field, rho := rho
    p := fun _ _ => A.pDefault, old_p := fun _ _ => A.pDefault
    dirs := fun _ _ => 0, last_use := fun _ _ => 0, UT := 0, g := g
    velocity := { n := N, m := M, v := fun _ _ _ => A.vDefault }
    velocity_flow := { n := N, m := M, v := fun _ _ _ => A.vfDefault }
    rnd := rnd }

end Kernels

/-! ## `Fixed<N, K>` -/

/-- Conversion of an integer to the `N`-bit signed type (two's complement). -/
def wrap (N : Nat) (x : Int) : Int := Int.bmod x (2 ^ N)

/-- The integer is a value of the `N`-bit signed type. -/
def inRange (N : Nat) (x : Int) : Prop := -(2 : Int) ^ (N - 1) ≤ x ∧ x < (2 : Int) ^ (N - 1)

instance (N : Nat) (x : Int) : Decidable (inRange N x) := by
  unfold inRange; infer_instance

/-- The widths for which `SelectIntType<N>` names a type. -/
def validWidth (N : Nat) : Prop := N = 8 ∨ N = 16 ∨ N = 32 ∨ N = 64

instance (N : Nat) : Decidable (validWidth N) := by
  unfold validWidth; infer_instance

/-- `class Fixed<N, K>`: the member `v_` of the `N`-bit type `Type`. -/
structure Fixed (N K : Nat) where
  v_ : Int
  deriving DecidableEq, Repr

/-- `Fixed::from_raw(Type raw_value)`; the argument is converted to `Type`. -/
def Fixed.from_raw (N K : Nat) (raw_value : Int) : Fixed N K := { v_ := wrap N raw_value }

/-- `Fixed::raw_value()`. -/
def Fixed.raw_value {N K : Nat} (a : Fixed N K) : Int := a.v_

/-- `Fixed::Fixed(int value) : v_(value << K)`. The shift is done in `int`
(32 bits): it has no defined result for `K ≥ 32`, otherwise it is
`value · 2^K` reduced to 32 bits, which is then converted to `Type`. -/
def Fixed.ofInt (N K : Nat) (value : Int) : Option (Fixed N K) :=
  if K < 32 then some { v_ := wrap N (wrap 32 (wrap 32 value * 2 ^ K)) } else none

/-- Width of `DoubleLengthType` in `operator*` and `operator/`. -/
def doubleLength (N : Nat) : Nat := if N ≤ 32 then 64 else 128

/-- `operator*(Fixed a, Fixed b)`: the product is formed in `DoubleLengthType`
(no result when it overflows there), shifted right by `K` and converted to `Type`. -/
def Fixed.mul {N K : Nat} (a b : Fixed N K) : Option (Fixed N K) :=
  if inRange (doubleLength N) (a.v_ * b.v_) then
    some (Fixed.from_raw N K (wrap N ((a.v_ * b.v_) >>> K)))
  else none

/-- Width of the type in which a shift or a sum of `Type` values is computed:
`int` after integer promotion for the widths up to 32, the type itself above. -/
def promoted (N : Nat) : Nat := if N ≤ 32 then 32 else N

/-- `operator+(Fixed a, Fixed b)`: the sum is formed in the promoted type (no
result when it overflows there) and converted to `Type` by `from_raw`. -/
def Fixed.add {N K : Nat} (a b : Fixed N K) : Option (Fixed N K) :=
  if inRange (promoted N) (a.v_ + b.v_) then some (Fixed.from_raw N K (a.v_ + b.v_)) else none

/-- `operator-(Fixed a, Fixed b)`. -/
def Fixed.sub {N K : Nat} (a b : Fixed N K) : Option (Fixed N K) :=
  if inRange (promoted N) (a.v_ - b.v_) then some (Fixed.from_raw N K (a.v_ - b.v_)) else none

/-- Unary `operator-()`. -/
def Fixed.neg {N K : Nat} (a : Fixed N K) : Option (Fixed N K) :=
  if inRange (promoted N) (-a.v_) then some (Fixed.from_raw N K (-a.v_)) else none

/-- `operator/(Fixed a, Fixed b)`: the dividend is converted to
`DoubleLengthType` and shifted left by `K` there (reduced to the width of that
type), the quotient truncates toward zero and is converted to `Type`. There is
no result for a zero divisor, for a shift count that is not below the width,
and for a quotient outside `DoubleLengthType`. -/
def Fixed.div {N K : Nat} (a b : Fixed N K) : Option (Fixed N K) :=
  if b.v_ = 0 then none
  else if K < doubleLength N then
    if inRange (doubleLength N) ((wrap (doubleLength N) (a.v_ * 2 ^ K)).tdiv b.v_) then
      some (Fixed.from_raw N K (wrap N ((wrap (doubleLength N) (a.v_ * 2 ^ K)).tdiv b.v_)))
    else none
  else none

/-- `Fixed(const Fixed<N2, K2>& other)`: `other.raw_value() >> (K2 - K)` when
`K2 > K`, otherwise `other.raw_value() << (K - K2)`, converted to `Type`. The
shift is done on the promoted value of the source type `Fixed<N2, K2>::Type`:
a left shift is reduced to that width, and there is no defined result for a
count that is not below it. -/
def Fixed.ofFixed (N K : Nat) {N2 K2 : Nat} (other : Fixed N2 K2) : Option (Fixed N K) :=
  if K2 > K then
    if K2 - K < promoted N2 then some { v_ := wrap N (other.raw_value >>> (K2 - K)) } else none
  else
    if K - K2 < promoted N2 then
      some { v_ := wrap N (wrap (promoted N2) (other.raw_value * 2 ^ (K - K2))) }
    else none

/-- The friend `min(Fixed& a, Fixed<OtherN, OtherK>& b)`:
`auto x = static_cast<Fixed>(b); if (a.v_ < x.v) return a; return x;`.
The source spells the member of `x` as `v`; the class declares only `v_`, and
the comparison is read as `a.v_ < x.v_`. The result is `none` when the
conversion of `b` has no defined result. -/
def Fixed.min {N K N2 K2 : Nat} (a : Fixed N K) (b : Fixed N2 K2) : Option (Fixed N K) :=
  (Fixed.ofFixed N K b).bind fun x => if a.v_ < x.v_ then some a else some x

/-- The friend `max(Fixed& a, Fixed<OtherN, OtherK>& b)`:
`auto x = static_cast<Fixed>(b); if (a.v_ < x.v) return x; return a;`,
with the same reading of `x.v` as in `Fixed.min`. -/
def Fixed.max {N K N2 K2 : Nat} (a : Fixed N K) (b : Fixed N2 K2) : Option (Fixed N K) :=
  (Fixed.ofFixed N K b).bind fun x => if a.v_ < x.v_ then some x else some a

/-- Conversion of a floating-point value to an integer type: the fractional
part is discarded (truncation toward zero). -/
def truncate (q : ℚ) : Int := q.num.tdiv q.den

/-- `Fixed(double value)` and `Fixed(float value)`:
`static_cast<Type>(value * static_cast<Type>(1ULL << K))`, for an argument
whose value is the rational `value`. The scale `1ULL << K` is converted to
`Type` first, the product with this power of two is exact, and the conversion
to `Type` truncates toward zero and has no defined result outside the range of
`Type`. -/
def Fixed.ofFloat (N K : Nat) (value : ℚ) : Option (Fixed N K) :=
  if K < 64 then
    if inRange N (truncate (value * (wrap N (2 ^ K) : Int))) then
      some { v_ := truncate (value * (wrap N (2 ^ K) : Int)) }
    else none
  else none

/-- The rational `x` lies in the range of values of `Fixed<N, K>`. -/
def Fixed.representable (N K : Nat) (x : ℚ) : Prop :=
  -(2 : ℚ) ^ (N - 1) / 2 ^ K ≤ x ∧ x < (2 : ℚ) ^ (N - 1) / 2 ^ K

/-- `Simulator::Random01` for `type_p = Fixed<N, K>`:
`type_p::from_raw(rnd() & (1 << type_p::getK()) - 1)` for the generator output
`r`. The shift and the subtraction are done in `int`: no defined result for
`K ≥ 32`, nor when `(1 << K) - 1` overflows; the mask is then converted to the
64-bit unsigned type of `rnd()`, and the masked value to `Type`. -/
def Fixed.Random01 (N K : Nat) (r : Nat) : Option (Fixed N K) :=
  if K < 32 then
    if inRange 32 (wrap 32 (2 ^ K) - 1) then
      some (Fixed.from_raw N K
        (((r % 2 ^ 64) &&& ((wrap 32 (2 ^ K) - 1) % 2 ^ 64).toNat : Nat) : Int))
    else none
  else none

/-! ## `FastFixed<N, K>` -/

/-- Widths of `int_fast8_t`, `int_fast16_t`, `int_fast32_t` and `int_fast64_t`,
which the C library chooses. -/
structure FastWidths where
  fast8 : Nat
  fast16 : Nat
  fast32 : Nat
  fast64 : Nat
  deriving DecidableEq, Repr

/-- Every `int_fastN_t` has at least `N` bits and is one of the signed integer
types of 8, 16, 32 or 64 bits. -/
def FastWidths.Valid (w : FastWidths) : Prop :=
  8 ≤ w.fast8 ∧ 16 ≤ w.fast16 ∧ 32 ≤ w.fast32 ∧ 64 ≤ w.fast64 ∧
    validWidth w.fast8 ∧ validWidth w.fast16 ∧ validWidth w.fast32 ∧ validWidth w.fast64

instance (w : FastWidths) : Decidable w.Valid := by
  unfold FastWidths.Valid; infer_instance

/-- The fast types of glibc on x86-64: `signed char`, and `long` for the other three. -/
def glibc64 : FastWidths := { fast8 := 8, fast16 := 64, fast32 := 64, fast64 := 64 }

/-- Width of `SelectFastIntType<N>::Type`; `0` stands for `void` (`N > 64`). -/
def fastWidth (w : FastWidths) (N : Nat) : Nat :=
  if N ≤ 8 then w.fast8 else if N ≤ 16 then w.fast16 else if N ≤ 32 then w.fast32
  else if N ≤ 64 then w.fast64 else 0

/-- `class FastFixed<N, K>`: the member `v_` of the fast type `Type`. -/
structure FastFixed (N K : Nat) where
  v_ : Int
  deriving DecidableEq, Repr

/-- `FastFixed::from_raw(Type raw_value)`. -/
def FastFixed.from_raw (w : FastWidths) (N K : Nat) (raw_value : Int) : FastFixed N K :=
  { v_ := wrap (fastWidth w N) raw_value }

/-- `FastFixed::raw_value()`. -/
def FastFixed.raw_value {N K : Nat} (a : FastFixed N K) : Int := a.v_

/-- `operator+(FastFixed a, FastFixed b)`. -/
def FastFixed.add (w : FastWidths) {N K : Nat} (a b : FastFixed N K) : Option (FastFixed N K) :=
  if inRange (promoted (fastWidth w N)) (a.v_ + b.v_) then
    some (FastFixed.from_raw w N K (a.v_ + b.v_))
  else none

/-- `operator-(FastFixed a, FastFixed b)`. -/
def FastFixed.sub (w : FastWidths) {N K : Nat} (a b : FastFixed N K) : Option (FastFixed N K) :=
  if inRange (promoted (fastWidth w N)) (a.v_ - b.v_) then
    some (FastFixed.from_raw w N K (a.v_ - b.v_))
  else none

/-- Unary `operator-()` of `FastFixed`. -/
def FastFixed.neg (w : FastWidths) {N K : Nat} (a : FastFixed N K) : Option (FastFixed N K) :=
  if inRange (promoted (fastWidth w N)) (-a.v_) then some (FastFixed.from_raw w N K (-a.v_))
  else none

/-- `operator*(FastFixed a, FastFixed b)`: as for `Fixed`, with the fast type
in place of `Type`. -/
def FastFixed.mul (w : FastWidths) {N K : Nat} (a b : FastFixed N K) : Option (FastFixed N K) :=
  if inRange (doubleLength N) (a.v_ * b.v_) then
    some (FastFixed.from_raw w N K (wrap (fastWidth w N) ((a.v_ * b.v_) >>> K)))
  else none

/-- `operator/(FastFixed a, FastFixed b)`: as for `Fixed`, with the fast type
in place of `Type`. -/
def FastFixed.div (w : FastWidths) {N K : Nat} (a b : FastFixed N K) : Option (FastFixed N K) :=
  if b.v_ = 0 then none
  else if K < doubleLength N then
    if inRange (doubleLength N) ((wrap (doubleLength N) (a.v_ * 2 ^ K)).tdiv b.v_) then
      some (FastFixed.from_raw w N K
        (wrap (fastWidth w N) ((wrap (doubleLength N) (a.v_ * 2 ^ K)).tdiv b.v_)))
    else none
  else none

/-- `FastFixed(const FastFixed<N2, K2>& other)`: as for `Fixed`, the shift
being done on the promoted value of the fast type of the source. -/
def FastFixed.ofFastFixed (w : FastWidths) (N K : Nat) {N2 K2 : Nat} (other : FastFixed N2 K2) :
    Option (FastFixed N K) :=
  if K2 > K then
    if K2 - K < promoted (fastWidth w N2) then
      some { v_ := wrap (fastWidth w N) (other.raw_value >>> (K2 - K)) }
    else none
  else
    if K - K2 < promoted (fastWidth w N2) then
      some (FastFixed.mk (wrap (fastWidth w N)
        (wrap (promoted (fastWidth w N2)) (other.raw_value * 2 ^ (K - K2)))))
    else none

/-- The friend `min(FastFixed& a, FastFixed<N1, K1>& b)` of `FastFixed.hpp`:
`auto x = static_cast<FastFixed>(b); if (a.v_ < x.v) return a; return x;`
(`x.v` read as `x.v_`, the only data member). -/
def FastFixed.min (w : FastWidths) {N K N2 K2 : Nat} (a : FastFixed N K) (b : FastFixed N2 K2) :
    Option (FastFixed N K) :=
  (FastFixed.ofFastFixed w N K b).bind fun x => if a.v_ < x.v_ then some a else some x

/-- The friend `max(FastFixed& a, FastFixed<N1, K1>& b)` of `FastFixed.hpp`:
`auto x = static_cast<FastFixed>(b); if (a.v_ < x.v) return b; return x;`.
The first branch returns `b`, which the return type `FastFixed` converts with
the converting constructor once more; the second returns `x`. -/
def FastFixed.max (w : FastWidths) {N K N2 K2 : Nat} (a : FastFixed N K) (b : FastFixed N2 K2) :
    Option (FastFixed N K) :=
  (FastFixed.ofFastFixed w N K b).bind fun x =>
    if a.v_ < x.v_ then FastFixed.ofFastFixed w N K b else some x

/-- The value `raw · 2^(-K)` a `Fixed<N, K>` stands for. -/
def Fixed.value {N K : Nat} (a : Fixed N K) : ℚ := (a.v_ : ℚ) / 2 ^ K

/-- The numeric slots all instantiated with one fixed-point format with `K`
fractional bits whose storage never overflows: the operators of `Fixed` on the
raw integers, without the conversion to `Type`. `c08` is the raw value of
`static_cast<type_p>(0.8)`. -/
def exactScalars (K : Nat) (c08 : Int) : Scalars Int Int Int :=
  { pDefault := 0
    pOfInt := fun n => n * 2 ^ K
    p08 := c08
    pOfV := fun v => v
    pAdd := fun a b => a + b
    pSub := fun a b => a - b
    pMul := fun a b => (a * b) >>> K
    pDiv := fun a b => if b = 0 then none else some ((a * 2 ^ K).tdiv b)
    pLt := fun a b => decide (a < b)
    pLe := fun a b => decide (a ≤ b)
    pEq := fun a b => decide (a = b)
    vDefault := 0
    vOfInt := fun n => n * 2 ^ K
    vOfP := fun v => v
    vOfVF := fun v => v
    vAdd := fun a b => a + b
    vSub := fun a b => a - b
    vLt := fun a b => decide (a < b)
    vfDefault := 0
    vfOfV := fun v => v
    vfOfP := fun v => v
    vfAdd := fun a b => a + b
    vfEq := fun a b => decide (a = b)
    vfLe := fun a b => decide (a ≤ b)
    random01 := fun r => r % 2 ^ K }

/-- Number of binary digits of `n`, for `n < 2^64`. -/
def bitLength (n : Nat) : Nat :=
  ((List.range 64).filter fun k => decide (2 ^ k ≤ n)).length

/-- `static_cast<float>(n)` for a 64-bit unsigned `n`, as the integer it
denotes: `n` rounded to 24 significant binary digits, to nearest, a tie to the
even significand. -/
def toFloat (n : Nat) : Nat :=
  if bitLength n ≤ 24 then n else
    if 2 * (n % 2 ^ (bitLength n - 24)) < 2 ^ (bitLength n - 24) ∨
        (2 * (n % 2 ^ (bitLength n - 24)) = 2 ^ (bitLength n - 24) ∧
          n / 2 ^ (bitLength n - 24) % 2 = 0) then
      n / 2 ^ (bitLength n - 24) * 2 ^ (bitLength n - 24)
    else (n / 2 ^ (bitLength n - 24) + 1) * 2 ^ (bitLength n - 24)

/-- A numeric type whose `Random01` reaches `1`, as the one of `float` does:
`static_cast<float>(rnd()) / static_cast<float>(std::mt19937_64::max())` is the
quotient of two equal values, `1.0f`, for every generator output that
`static_cast<float>` rounds to the same value as `max() = 2^64 - 1`. The other
operations, and `Random01` at the other outputs, are those of `exactScalars`. -/
def floatEdgeScalars (K : Nat) (c08 : Int) : Scalars Int Int Int :=
  { exactScalars K c08 with
    random01 := fun r => if toFloat r = toFloat (2 ^ 64 - 1) then 2 ^ K else r % 2 ^ K }

/-! ## Specification vocabulary -/

/-- The errors of an access outside an allocation. -/
def Err.isAccess : Err → Prop
  | .outOfBounds => True
  | .getAssert => True
  | _ => False

/-- The errors that are defects of the program on a well-formed input: an
access outside an allocation and the failure of the assertion of `Run`. -/
def Err.isDefect : Err → Prop
  | .outOfBounds => True
  | .getAssert => True
  | .flowAssert => True
  | _ => False

/-- No error of the kinds `bad` occurs in `m`, and its result, if there is
one, satisfies `Q`. -/
def Post {α : Type} (bad : Err → Prop) (m : Except Err α) (Q : α → Prop) : Prop :=
  match m with
  | .ok a => Q a
  | .error e => ¬ bad e

/-- The execution `m` makes no access outside the allocation of `field`, `p`,
`old_p`, `dirs`, `last_use`, `velocity` or `velocity_flow`: it does not stop at
a subscript of these arrays that is out of range or at the assertion of
`VectorField::Get`. The subscript `deltas[d]` of `PropagateMove` is not covered:
an index `d` outside `deltas` is `Err.noDirection`. -/
def InBounds {α : Type} (m : Except Err α) : Prop :=
  m ≠ .error .outOfBounds ∧ m ≠ .error .getAssert

section Vocabulary

variable {P V VF : Type}

/-- A cell of the `N × M` grid that is not a wall. -/
def Simulator.Open (s : Simulator P V VF) (x y : Int) : Prop :=
  0 ≤ x ∧ x < s.N ∧ 0 ≤ y ∧ y < s.M ∧ s.field x y ≠ '#'

instance (s : Simulator P V VF) (x y : Int) : Decidable (s.Open x y) := by
  unfold Simulator.Open; infer_instance

/-- Rows `0` and `N - 1` and columns `0` and `M - 1` consist of `'#'`. -/
def Simulator.wallBoundary (s : Simulator P V VF) : Prop :=
  ∀ c ∈ cells s.N s.M,
    (c.1 = 0 ∨ c.1 = (s.N : Int) - 1 ∨ c.2 = 0 ∨ c.2 = (s.M : Int) - 1) → s.field c.1 c.2 = '#'

instance (s : Simulator P V VF) : Decidable s.wallBoundary := by
  unfold Simulator.wallBoundary; infer_instance

/-- The shape the constructors establish: both vector fields are `N × M`, and
the grid has a wall boundary. -/
structure Simulator.WF (s : Simulator P V VF) : Prop where
  boundary : s.wallBoundary
  vn : s.velocity.n = s.N
  vm : s.velocity.m = s.M
  fn : s.velocity_flow.n = s.N
  fm : s.velocity_flow.m = s.M

/-- What a particle carries: the character, the pressure and the velocity row of a cell. -/
def Simulator.content (s : Simulator P V VF) (c : Int × Int) : Char × P × (Nat → V) :=
  (s.field c.1 c.2, s.p c.1 c.2, s.velocity.v c.1 c.2)

/-- Relation between the states before and after any part of a tick: the
dimensions, `rho`, `g`, `dirs` and the set of walls are the same, and outside
the open cells `field`, `p`, `velocity` and `last_use` are the same. -/
structure Frozen (s s1 : Simulator P V VF) : Prop where
  N : s1.N = s.N
  M : s1.M = s.M
  vn : s1.velocity.n = s.velocity.n
  vm : s1.velocity.m = s.velocity.m
  fn : s1.velocity_flow.n = s.velocity_flow.n
  fm : s1.velocity_flow.m = s.velocity_flow.m
  rho : s1.rho = s.rho
  g : s1.g = s.g
  dirs : s1.dirs = s.dirs
  walls : ∀ x y, s1.field x y = '#' ↔ s.field x y = '#'
  closed : ∀ x y, ¬ s.Open x y → s1.content (x, y) = s.content (x, y) ∧
    s1.last_use x y = s.last_use x y

/-- Relation between the states before and after a call of a propagation
kernel: besides `Frozen`, `UT` and `old_p` are the same, a stamp in `last_use`
is kept or replaced by `UT` or `UT - 1`, and the contents of the cells are
those of before, permuted among the open cells. -/
structure Frame (s s1 : Simulator P V VF) extends Frozen s s1 : Prop where
  UT : s1.UT = s.UT
  old_p : s1.old_p = s.old_p
  stamp : ∀ x y, s1.last_use x y = s.last_use x y ∨ s1.last_use x y = s.UT ∨
    s1.last_use x y = s.UT - 1
  perm : ∃ σ : Equiv.Perm (Int × Int), (∀ c, ¬ s.Open c.1 c.2 → σ c = c) ∧
    ∀ c, s1.content c = s.content (σ c)

/-- Relation between the states before and after a step of phases 1 to 3
outside the kernels: besides `Frozen`, only `p`, `old_p` and `velocity` may differ. -/
structure Smooth (s s1 : Simulator P V VF) extends Frozen s s1 : Prop where
  field : s1.field = s.field
  last_use : s1.last_use = s.last_use
  UT : s1.UT = s.UT
  velocity_flow : s1.velocity_flow = s.velocity_flow
  rnd : s1.rnd = s.rnd

/-- Number of the directions `ds` in which the neighbour of `(x, y)` is not `'#'`. -/
def Simulator.countOpen (s : Simulator P V VF) (x y : Int) (ds : List (Int × Int)) : Int :=
  ((ds.filter fun d => decide (s.field (x + d.1) (y + d.2) ≠ '#')).length : Int)

/-- Number of the four neighbours of `(x, y)` whose character is not `'#'`. -/
def Simulator.openNeighbours (s : Simulator P V VF) (x y : Int) : Int :=
  s.countOpen x y deltas

/-- What holds after the loop that fills `dirs` and any number of ticks. -/
structure Ran (s s1 : Simulator P V VF) : Prop where
  wf : s1.WF
  N : s1.N = s.N
  M : s1.M = s.M
  walls : ∀ x y, s1.field x y = '#' ↔ s.field x y = '#'
  closed : ∀ x y, ¬ s.Open x y → s1.content (x, y) = s.content (x, y) ∧
    s1.last_use x y = s.last_use x y
  dirs : ∀ x y, s1.dirs x y = if s.Open x y then s.openNeighbours x y else 0

/-- Sign conventions of the numeric slots that hold for `float`, `double` and
the fixed-point types: `Random01` is not below zero, zero is not below zero,
and a value-initialised velocity is not above zero. -/
structure Scalars.Sane (A : Scalars P V VF) : Prop where
  random_nonneg : ∀ r, A.pLt (A.random01 r) (A.pOfInt 0) = false
  zero_irrefl : A.pLt (A.pOfInt 0) (A.pOfInt 0) = false
  default_not_pos : A.vLt (A.vOfInt 0) A.vDefault = false

/-- A grid of three rows and three columns whose border is walls and whose
centre is not a wall. -/
structure Simulator.Ring (s : Simulator P V VF) : Prop where
  wf : s.WF
  N : s.N = 3
  M : s.M = 3
  walls : ∀ c ∈ cells 3 3, c ≠ (1, 1) → s.field c.1 c.2 = '#'
  centre : s.field 1 1 ≠ '#'

/-- No velocity component of the cell `(1, 1)` is above zero. -/
def Simulator.Quiet (A : Scalars P V VF) (s : Simulator P V VF) : Prop :=
  ∀ i, i < deltas.length → A.vLt (A.vOfInt 0) (s.velocity.v 1 1 i) = false

/-- The states differ in bookkeeping only: `field`, `p`, `velocity` and the
dimensions are the same. -/
structure Idle (s s1 : Simulator P V VF) : Prop where
  N : s1.N = s.N
  M : s1.M = s.M
  field : s1.field = s.field
  p : s1.p = s.p
  velocity : s1.velocity = s.velocity
  fn : s1.velocity_flow.n = s.velocity_flow.n
  fm : s1.velocity_flow.m = s.velocity_flow.m

/-- No velocity component is negative. -/
def Simulator.NonNeg (s : Simulator Int Int Int) : Prop :=
  ∀ x y i, 0 ≤ s.velocity.v x y i

/-- The density of the material of every open cell is positive. -/
def Simulator.RhoPos (s : Simulator Int Int Int) : Prop :=
  ∀ x y, s.Open x y → 0 < s.rho (s.field x y)

/-- Every flow component lies between zero and the velocity component it is
taken from. -/
def Simulator.FlowOK (s : Simulator Int Int Int) : Prop :=
  ∀ x y i, 0 ≤ s.velocity_flow.v x y i ∧ s.velocity_flow.v x y i ≤ s.velocity.v x y i

/-- Cells that carry a stamp of the current pass, other than those in `E`,
have the same flow row and the same stamp in `s1` as in `s`. -/
def Keep (E : Int → Int → Prop) (s s1 : Simulator Int Int Int) : Prop :=
  ∀ a b, ¬ E a b → s.UT - 1 ≤ s.last_use a b →
    s1.velocity_flow.v a b = s.velocity_flow.v a b ∧ s1.last_use a b = s.last_use a b

/-- The cell carries a stamp of the current pass. -/
def Simulator.Stamped (s : Simulator P V VF) (x y : Int) : Prop :=
  s.last_use x y = s.UT ∨ s.last_use x y = s.UT - 1

/-- The state `s1` differs from `s` at most in `last_use`, `velocity_flow` and `rnd`. -/
def Still (s s1 : Simulator P V VF) : Prop :=
  s1.field = s.field ∧ s1.p = s.p ∧ s1.velocity = s.velocity

/-- The cells `(x, y)` and `(nx, ny)` have exchanged `field`, `p` and the
velocity row between `s` and `s1`, and nothing else differs. -/
def Exchanged (s s1 : Simulator P V VF) (x y nx ny : Int) : Prop :=
  s1.field x y = s.field nx ny ∧ s1.field nx ny = s.field x y ∧
  s1.p x y = s.p nx ny ∧ s1.p nx ny = s.p x y ∧
  (∀ i, s1.velocity.v x y i = s.velocity.v nx ny i) ∧
  (∀ i, s1.velocity.v nx ny i = s.velocity.v x y i) ∧
  (∀ a b, ¬ (a = x ∧ b = y) → ¬ (a = nx ∧ b = ny) →
    s1.field a b = s.field a b ∧ s1.p a b = s.p a b ∧
    ∀ i, s1.velocity.v a b i = s.velocity.v a b i) ∧
  s1.last_use = s.last_use ∧ s1.dirs = s.dirs ∧ s1.velocity_flow = s.velocity_flow ∧
  s1.UT = s.UT ∧ s1.old_p = s.old_p ∧ s1.N = s.N ∧ s1.M = s.M ∧
  s1.velocity.n = s.velocity.n ∧ s1.velocity.m = s.velocity.m ∧
  s1.rho = s.rho ∧ s1.g = s.g ∧ s1.rnd = s.rnd

/-- Relation between the states before and after a call of `PropagateStop` or
`PropagateMove`: a stamp in `last_use` is kept or replaced by `UT`, and `UT`
and `velocity_flow` are the same. -/
structure Marks (s s1 : Simulator P V VF) : Prop where
  UT : s1.UT = s.UT
  stamp : ∀ x y, s1.last_use x y = s.last_use x y ∨ s1.last_use x y = s.UT
  flow : s1.velocity_flow = s.velocity_flow

/-- No stamp in `last_use` is above `UT`. -/
def Simulator.Capped (s : Simulator P V VF) : Prop :=
  ∀ x y, s.last_use x y ≤ s.UT

/-- No flow component is negative. -/
def Simulator.FlowNN (s : Simulator Int Int Int) : Prop :=
  ∀ x y i, 0 ≤ s.velocity_flow.v x y i

/-- For every non-wall cell `dirs` holds the number of its non-wall neighbours. -/
def Simulator.DirsOK (s : Simulator P V VF) : Prop :=
  ∀ x y, s.Open x y → s.dirs x y = s.openNeighbours x y

/-- All four neighbours of `(x, y)` are walls. -/
def Simulator.Alone (s : Simulator P V VF) (x y : Int) : Prop :=
  ∀ d ∈ deltas, s.field (x + d.1) (y + d.2) = '#'

/-- A non-wall cell without a non-wall neighbour has no positive velocity component. -/
def Simulator.Lonely (s : Simulator Int Int Int) : Prop :=
  ∀ x y, s.Open x y → s.Alone x y → ∀ i, s.velocity.v x y i ≤ 0

/-- Relation between two states: the walls are the same, and the velocity row
of every cell whose four neighbours are walls is the same. -/
structure Kept (s s1 : Simulator P V VF) : Prop where
  walls : ∀ x y, s1.field x y = '#' ↔ s.field x y = '#'
  rows : ∀ x y, s.Alone x y → s1.velocity.v x y = s.velocity.v x y

/-- The invariant of a run in exact arithmetic. -/
structure Simulator.Exact (s : Simulator Int Int Int) : Prop where
  wf : s.WF
  g : 0 ≤ s.g
  rho : s.RhoPos
  nonneg : s.NonNeg
  flow : s.FlowNN
  dirs : s.DirsOK
  lonely : s.Lonely
  capped : s.Capped

/-- Number of the cells of the grid whose character is `ch`. -/
def Simulator.count (s : Simulator P V VF) (ch : Char) : Nat :=
  ((cells s.N s.M).filter fun c => decide (s.field c.1 c.2 = ch)).length

/-- The field of `s1` is the field of `s` with its characters permuted among
the open cells; the dimensions are the same. -/
structure Rearranged (s s1 : Simulator P V VF) : Prop where
  N : s1.N = s.N
  M : s1.M = s.M
  perm : ∃ σ : Equiv.Perm (Int × Int), (∀ c, ¬ s.Open c.1 c.2 → σ c = c) ∧
    ∀ c, s1.field c.1 c.2 = s.field (σ c).1 (σ c).2

end Vocabulary

/-- The execution `m` has a result, and the result passes the test `q`. -/
def okAnd {α : Type} (m : Except Err α) (q : α → Bool) : Bool :=
  match m with
  | .ok a => q a
  | .error _ => false

/-- The execution `m` stops with the error `e`. -/
def failsWith {α : Type} (m : Except Err α) (e : Err) : Bool :=
  match m with
  | .ok _ => false
  | .error e1 => decide (e1 = e)

/-! ## Example inputs -/

/-- The field given by the lines of an input file. -/
def fieldOfRows (rows : List (List Char)) : Int → Int → Char := fun x y =>
  if 0 ≤ x ∧ 0 ≤ y then (rows.getD x.toNat []).getD y.toNat (Char.ofNat 0) else Char.ofNat 0

/-- The minimal grid: a ring of walls around the single cell `c`. -/
def ringField (c : Char) : Int → Int → Char :=
  fieldOfRows [['#', '#', '#'], ['#', c, '#'], ['#', '#', '#']]

/-- A drop of fluid above one cell of air: four rows, three columns. -/
def dropField : Int → Int → Char :=
  fieldOfRows [['#', '#', '#'], ['#', '.', '#'], ['#', ' ', '#'], ['#', '#', '#']]

/-- Densities `rho_air = 0.01`, `rho_fluid = 1000` as raw values with 16 fractional bits. -/
def dropRho : Char → Int := fun c => if c = '.' then 1000 * 65536 else 655

/-- A drop of fluid in a box of two by two open cells. -/
def boxField : Int → Int → Char :=
  fieldOfRows [['#', '#', '#', '#'], ['#', '.', ' ', '#'], ['#', ' ', ' ', '#'],
    ['#', '#', '#', '#']]

/-- The simulator for `boxField` in `exactScalars 16`, `g = 0.1`, with a
generator that always returns `0`. -/
def boxSim : Simulator Int Int Int :=
  Simulator.init (exactScalars 16 52428) 4 4 boxField dropRho 6553 fun _ => 0

/-- The box of four open cells at the start of a pass with `UT = 2`, no cell
stamped, with the velocity `1` from `(1, 1)` to `(1, 2)` and a negative
velocity from `(1, 2)` to `(2, 2)`. -/
def loopSim : Simulator Int Int Int :=
  { boxSim with
    UT := 2
    velocity := { n := 4, m := 4, v := fun x y i =>
      if x = 1 ∧ y = 1 ∧ i = 3 then 65536 else if x = 1 ∧ y = 2 ∧ i = 1 then -1 else 0 } }

/-- The state `loopSim` with a generator whose every output is `2^64 - 1`. -/
def edgeSim : Simulator Int Int Int :=
  { loopSim with rnd := fun _ => 2 ^ 64 - 1 }

/-- A generator stream whose fifth output is `2^64 - 1`, the others `0`. -/
def edgeStream : Nat → Nat := fun i => if i = 4 then 2 ^ 64 - 1 else 0

/-- A wall inside the grid, at `(1, 1)`, next to the open cell `(1, 2)`. -/
def innerWallField : Int → Int → Char :=
  fieldOfRows [['#', '#', '#', '#'], ['#', '#', ' ', '#'], ['#', '#', '#', '#']]

/-- The simulator for `innerWallField` in `exactScalars 16`. -/
def innerWallSim : Simulator Int Int Int :=
  Simulator.init (exactScalars 16 52428) 3 4 innerWallField dropRho 6553 fun _ => 0

/-- The simulator for `dropField` in `exactScalars 16`, `g = 0.1`, with the
generator stream `rnd`. -/
def dropSim (rnd : Nat → Nat) : Simulator Int Int Int :=
  Simulator.init (exactScalars 16 52428) 4 3 dropField dropRho 6553 rnd

/-! # Theorems -/

/-! ## Reasoning about executions -/

theorem Post.ok {α : Type} {bad : Err → Prop} {Q : α → Prop} {a : α} (h : Q a) :
    Post bad (.ok a) Q := h

theorem Post.error {α : Type} {bad : Err → Prop} {Q : α → Prop} {e : Err} (h : ¬ bad e) :
    Post bad (.error e : Except Err α) Q := h

theorem Post.elim {α : Type} {bad : Err → Prop} {m : Except Err α} {Q : α → Prop}
    (h : Post bad m Q) {a : α} (ha : m = .ok a) : Q a := by
  subst ha; exact h

theorem Post.not_bad {α : Type} {bad : Err → Prop} {m : Except Err α} {Q : α → Prop}
    (h : Post bad m Q) {e : Err} (he : m = .error e) : ¬ bad e := by
  subst he; exact h

theorem Post.bind {α β : Type} {bad : Err → Prop} {m : Except Err α} {f : α → Except Err β}
    {Q : β → Prop} (h : Post bad m fun a => Post bad (f a) Q) : Post bad (m >>= f) Q := by
  cases m with
  | error e => exact h
  | ok a => exact h

theorem Post.mono {α : Type} {bad : Err → Prop} {m : Except Err α} {Q R : α → Prop}
    (h : Post bad m Q) (hQR : ∀ a, Q a → R a) : Post bad m R := by
  cases m with
  | error e => exact h
  | ok a => exact hQR a h

theorem Post.weaken {α : Type} {bad bad1 : Err → Prop} {m : Except Err α} {Q : α → Prop}
    (h : Post bad m Q) (hb : ∀ e, bad1 e → bad e) : Post bad1 m Q := by
  cases m with
  | error e => exact fun h1 => h (hb e h1)
  | ok a => exact h

theorem Post.map {α β : Type} {bad : Err → Prop} {m : Except Err α} {f : α → β} {Q : β → Prop}
    (h : Post bad m fun a => Q (f a)) : Post bad (f <$> m) Q := by
  cases m with
  | error e => exact h
  | ok a => exact h

theorem Post.ite {α : Type} {bad : Err → Prop} {c : Prop} [Decidable c] {m1 m2 : Except Err α}
    {Q : α → Prop} (h1 : c → Post bad m1 Q) (h2 : ¬ c → Post bad m2 Q) :
    Post bad (if c then m1 else m2) Q := by
  split
  · exact h1 ‹_›
  · exact h2 ‹_›

theorem Post.and {α : Type} {bad : Err → Prop} {m : Except Err α} {Q R : α → Prop}
    (h1 : Post bad m Q) (h2 : Post bad m R) : Post bad m fun a => Q a ∧ R a := by
  cases m with
  | error e => exact h1
  | ok a => exact ⟨h1, h2⟩

section
variable {P V VF : Type}

theorem Post.rd {α : Type} {bad : Err → Prop} {s : Simulator P V VF} {a : Int → Int → α}
    {x y : Int} {Q : α → Prop} (hin : s.inb x y) (h : Q (a x y)) : Post bad (s.rd a x y) Q := by
  unfold Simulator.rd
  rw [if_pos hin]; exact h

theorem Post.get {T : Type} {bad : Err → Prop} {f : VectorField T} {x y dx dy : Int}
    {Q : T → Prop} (hd : deltaIndex dx dy < deltas.length) (hin : f.inb x y)
    (h : Q (f.v x y (deltaIndex dx dy))) : Post bad (f.Get x y dx dy) Q := by
  unfold VectorField.Get
  rw [if_pos hd, if_pos hin]; exact h

theorem Post.put {T : Type} {bad : Err → Prop} {f : VectorField T} {x y dx dy : Int} {val : T}
    {Q : VectorField T → Prop} (hd : deltaIndex dx dy < deltas.length) (hin : f.inb x y)
    (h : Q { f with v := fun x1 y1 i =>
            if x1 = x ∧ y1 = y ∧ i = deltaIndex dx dy then val else f.v x1 y1 i }) :
    Post bad (f.Put x y dx dy val) Q := by
  unfold VectorField.Put
  rw [if_pos hd, if_pos hin]; exact h

theorem Post.add {T : Type} {bad : Err → Prop} {add : T → T → T} {f : VectorField T}
    {x y dx dy : Int} {dv : T} {Q : VectorField T → Prop}
    (hd : deltaIndex dx dy < deltas.length) (hin : f.inb x y)
    (h : Q { f with v := fun x1 y1 i =>
            if x1 = x ∧ y1 = y ∧ i = deltaIndex dx dy
            then add (f.v x y (deltaIndex dx dy)) dv else f.v x1 y1 i }) :
    Post bad (f.Add add x y dx dy dv) Q := by
  unfold VectorField.Add
  exact Post.bind (Post.get hd hin (Post.put hd hin h))

theorem Post.setLastUse {bad : Err → Prop} {s : Simulator P V VF} {x y val : Int}
    {Q : Simulator P V VF → Prop} (hin : s.inb x y)
    (h : Q { s with last_use := upd s.last_use x y val }) :
    Post bad (s.setLastUse x y val) Q := by
  unfold Simulator.setLastUse
  rw [if_pos hin]; exact h

theorem Post.setP {bad : Err → Prop} {s : Simulator P V VF} {x y : Int} {val : P}
    {Q : Simulator P V VF → Prop} (hin : s.inb x y) (h : Q { s with p := upd s.p x y val }) :
    Post bad (s.setP x y val) Q := by
  unfold Simulator.setP
  rw [if_pos hin]; exact h

theorem Post.setDirs {bad : Err → Prop} {s : Simulator P V VF} {x y val : Int}
    {Q : Simulator P V VF → Prop} (hin : s.inb x y)
    (h : Q { s with dirs := upd s.dirs x y val }) : Post bad (s.setDirs x y val) Q := by
  unfold Simulator.setDirs
  rw [if_pos hin]; exact h

theorem Post.divide {bad : Err → Prop} {A : Scalars P V VF} {a b : P} {Q : P → Prop}
    (hb : ¬ bad .divByZero) (h : ∀ q, Q q) : Post bad (Fluid.divide A a b) Q := by
  unfold Fluid.divide
  cases A.pDiv a b with
  | none => exact hb
  | some q => exact h q

/-- Loop rule: an invariant of the body is an invariant of the loop. -/
theorem Post.forEach {σ β : Type} {bad : Err → Prop} {body : σ → β → Except Err σ}
    {I : σ → Prop} (cs : List β) (hbody : ∀ s c, c ∈ cs → I s → Post bad (body s c) I) (s : σ)
    (hs : I s) : Post bad (Fluid.forEach body cs s) I := by
  induction cs generalizing s with
  | nil => exact Post.ok hs
  | cons c cs ih =>
    unfold Fluid.forEach
    refine Post.bind (Post.mono (hbody s c (List.mem_cons_self _ _) hs) fun s1 h1 => ?_)
    exact ih (fun s2 c2 hc2 => hbody s2 c2 (List.mem_cons_of_mem _ hc2)) s1 h1

/-- Loop rule: what the body establishes for its own element and keeps for the
others holds for all elements after the loop. -/
theorem Post.forEach_all {σ β : Type} {bad : Err → Prop} {body : σ → β → Except Err σ}
    {I : σ → Prop} {C : β → σ → Prop} (cs : List β)
    (hbody : ∀ s c, c ∈ cs → I s →
      Post bad (body s c) fun s1 => I s1 ∧ C c s1 ∧ ∀ c1, C c1 s → C c1 s1)
    (s : σ) (hs : I s) :
    Post bad (Fluid.forEach body cs s) fun s1 => I s1 ∧ ∀ c ∈ cs, C c s1 := by
  have key : ∀ (l : List β), (∀ c ∈ l, c ∈ cs) → ∀ s, I s →
      Post bad (Fluid.forEach body l s) fun s1 =>
        I s1 ∧ (∀ c ∈ l, C c s1) ∧ ∀ c1, C c1 s → C c1 s1 := by
    intro l
    induction l with
    | nil => exact fun _ s hs => Post.ok ⟨hs, fun _ h => absurd h (List.not_mem_nil _), fun _ h =>
        h⟩
    | cons c l ih =>
      intro hl s hs
      unfold Fluid.forEach
      refine Post.bind (Post.mono (hbody s c (hl c (List.mem_cons_self _ _)) hs) fun s1 h1 => ?_)
      refine Post.mono (ih (fun c2 hc2 => hl c2 (List.mem_cons_of_mem _ hc2)) s1 h1.1)
        fun s2 h2 => ⟨h2.1, fun c2 hc2 => ?_, fun c1 hc1 => h2.2.2 c1 (h1.2.2 c1 hc1)⟩
      rcases List.mem_cons.mp hc2 with rfl | hmem
      · exact h2.2.2 _ h1.2.1
      · exact h2.2.1 c2 hmem
  exact Post.mono (key cs (fun _ h => h) s hs) fun s1 h1 => ⟨h1.1, h1.2.1⟩

/-! ## The exchange of two cells -/

theorem upd_same {α : Type} (a : Int → Int → α) (x y : Int) (v : α) : upd a x y v x y = v := by
  simp [upd]

theorem upd_other {α : Type} (a : Int → Int → α) (x y x1 y1 : Int) (v : α)
    (h : ¬ (x1 = x ∧ y1 = y)) : upd a x y v x1 y1 = a x1 y1 := by
  simp [upd, h]

theorem ok_bind {α β : Type} (a : α) (f : α → Except Err β) :
    ((Except.ok a : Except Err α) >>= f) = f a := rfl

theorem SwapWith_ok (pp : ParticleParams P V) (s : Simulator P V VF) (x y : Int)
    (h1 : s.inb x y) (h2 : s.velocity.inb x y) :
    pp.SwapWith s x y = .ok
      ({ type := s.field x y, cur_p := s.p x y, v := s.velocity.v x y },
       { s with
         field := upd s.field x y pp.type
         p := upd s.p x y pp.cur_p
         velocity := { s.velocity with
           v := fun x1 y1 => if x1 = x ∧ y1 = y then pp.v else s.velocity.v x1 y1 } }) := by
  simp [ParticleParams.SwapWith, h1, h2]

theorem swapCells_spec (A : Scalars P V VF) (s : Simulator P V VF) (x y nx ny : Int)
    (hxy : s.inb x y ∧ s.velocity.inb x y) (hn : s.inb nx ny ∧ s.velocity.inb nx ny)
    (hne : ¬ (nx = x ∧ ny = y)) :
    ∃ s1, swapCells A s x y nx ny = .ok s1 ∧ Exchanged s s1 x y nx ny := by
  have hne2 : ¬ (x = nx ∧ y = ny) := fun h => hne ⟨h.1.symm, h.2.symm⟩
  unfold swapCells Exchanged
  rw [SwapWith_ok _ s x y hxy.1 hxy.2, ok_bind]
  simp only []
  rw [SwapWith_ok _ _ nx ny ?_ ?_, ok_bind]
  rotate_left
  · exact hn.1
  · exact hn.2
  simp only []
  rw [SwapWith_ok _ _ x y ?_ ?_, ok_bind]
  rotate_left
  · exact hxy.1
  · exact hxy.2
  refine ⟨_, rfl, ?_⟩
  simp only [upd, hne, hne2, and_self, if_true, if_false, true_and, implies_true]
  refine ⟨fun a b h1 h2 => ?_, trivial⟩
  simp only [h1, h2, if_false, true_and, implies_true, and_self]

/-- C1. The three `SwapWith` calls at the end of `PropagateMove` exchange
`field`, `p` and the velocity row of two distinct in-bounds cells and leave
every other cell and every other member of the simulator as they were. -/
theorem swapCells_exchange (A : Scalars P V VF) (s : Simulator P V VF) (x y nx ny : Int)
    (hxy : s.inb x y ∧ s.velocity.inb x y) (hn : s.inb nx ny ∧ s.velocity.inb nx ny)
    (hne : ¬ (nx = x ∧ ny = y)) :
    ∃ s1, swapCells A s x y nx ny = .ok s1 ∧ Exchanged s s1 x y nx ny :=
  swapCells_spec A s x y nx ny hxy hn hne

theorem swapCells_exchange_witness :
    ∃ s1, swapCells (exactScalars 16 52428) (dropSim fun _ => 0) 1 1 2 1 = .ok s1 ∧
      Exchanged (dropSim fun _ => 0) s1 1 1 2 1 :=
  swapCells_exchange (exactScalars 16 52428) (dropSim fun _ => 0) 1 1 2 1
    (by decide) (by decide) (by decide)

/-! ## Cells, walls and frames -/

theorem mem_cells {n m : Nat} {x y : Int} :
    (x, y) ∈ cells n m ↔ 0 ≤ x ∧ x < n ∧ 0 ≤ y ∧ y < m := by
  unfold cells
  rw [List.mem_flatMap]
  constructor
  · rintro ⟨a, ha, hm⟩
    rw [List.mem_map] at hm
    obtain ⟨b, hb, hxy⟩ := hm
    rw [List.mem_range] at ha hb
    cases hxy
    omega
  · rintro ⟨h1, h2, h3, h4⟩
    refine ⟨x.toNat, List.mem_range.mpr (by omega),
      List.mem_map.mpr ⟨y.toNat, List.mem_range.mpr (by omega), ?_⟩⟩
    rw [Int.toNat_of_nonneg h1, Int.toNat_of_nonneg h3]

theorem mem_deltas {d : Int × Int} (h : d ∈ deltas) :
    d = (-1, 0) ∨ d = (1, 0) ∨ d = (0, -1) ∨ d = (0, 1) := by
  simpa [deltas] using h

theorem deltaIndex_lt {d : Int × Int} (h : d ∈ deltas) : deltaIndex d.1 d.2 < deltas.length := by
  rcases mem_deltas h with rfl | rfl | rfl | rfl <;> decide

theorem deltaIndex_neg_lt {d : Int × Int} (h : d ∈ deltas) :
    deltaIndex (-d.1) (-d.2) < deltas.length := by
  rcases mem_deltas h with rfl | rfl | rfl | rfl <;> decide

/-- With a wall boundary an open cell has all four neighbours inside the grid. -/
theorem Simulator.Open.interior {s : Simulator P V VF} {x y : Int} (hb : s.wallBoundary)
    (h : s.Open x y) : 1 ≤ x ∧ x + 1 < s.N ∧ 1 ≤ y ∧ y + 1 < s.M := by
  obtain ⟨h1, h2, h3, h4, h5⟩ := h
  have hw := hb (x, y) (mem_cells.mpr ⟨h1, h2, h3, h4⟩)
  simp only at hw
  by_contra hc
  exact h5 (hw (by omega))

theorem Simulator.WF.inb {s : Simulator P V VF} (hw : s.WF) {x y : Int} (h : s.Open x y) :
    s.inb x y ∧ s.velocity.inb x y ∧ s.velocity_flow.inb x y := by
  obtain ⟨h1, h2, h3, h4, _⟩ := h
  refine ⟨⟨h1, h2, h3, by omega⟩, ⟨h1, ?_, h3, ?_⟩, ⟨h1, ?_, h3, ?_⟩⟩
  · rw [hw.vn]; exact h2
  · rw [hw.vm]; exact h4
  · rw [hw.fn]; exact h2
  · rw [hw.fm]; exact h4

/-- With a wall boundary the neighbours of an open cell are allocated. -/
theorem Simulator.WF.inb_next {s : Simulator P V VF} (hw : s.WF) {x y : Int} (h : s.Open x y)
    {d : Int × Int} (hd : d ∈ deltas) :
    s.inb (x + d.1) (y + d.2) ∧ s.velocity.inb (x + d.1) (y + d.2) := by
  obtain ⟨h1, h2, h3, h4⟩ := h.interior hw.boundary
  unfold Simulator.inb VectorField.inb
  rw [hw.vn, hw.vm]
  rcases mem_deltas hd with rfl | rfl | rfl | rfl <;> simp only <;> omega

/-- With a wall boundary a neighbour of an open cell that is not a wall is open. -/
theorem Simulator.WF.open_next {s : Simulator P V VF} (hw : s.WF) {x y : Int} (h : s.Open x y)
    {d : Int × Int} (hd : d ∈ deltas) (hc : s.field (x + d.1) (y + d.2) ≠ '#') :
    s.Open (x + d.1) (y + d.2) := by
  obtain ⟨h1, h2, h3, h4⟩ := h.interior hw.boundary
  unfold Simulator.Open
  refine ⟨?_, ?_, ?_, ?_, hc⟩ <;>
    rcases mem_deltas hd with rfl | rfl | rfl | rfl <;> simp only <;> omega

theorem Frozen.frozen_refl (s : Simulator P V VF) : Frozen s s :=
  ⟨rfl, rfl, rfl, rfl, rfl, rfl, rfl, rfl, rfl, fun _ _ => Iff.rfl, fun _ _ _ => ⟨rfl, rfl⟩⟩

theorem Frozen.open_iff {s s1 : Simulator P V VF} (h : Frozen s s1) (x y : Int) :
    s1.Open x y ↔ s.Open x y := by
  unfold Simulator.Open
  rw [h.N, h.M, Ne, Ne, h.walls]

theorem Frozen.frozen_trans {s s1 s2 : Simulator P V VF} (h1 : Frozen s s1) (h2 : Frozen s1 s2) :
    Frozen s s2 where
  N := h2.N.trans h1.N
  M := h2.M.trans h1.M
  vn := h2.vn.trans h1.vn
  vm := h2.vm.trans h1.vm
  fn := h2.fn.trans h1.fn
  fm := h2.fm.trans h1.fm
  rho := h2.rho.trans h1.rho
  g := h2.g.trans h1.g
  dirs := h2.dirs.trans h1.dirs
  walls := fun x y => (h2.walls x y).trans (h1.walls x y)
  closed := fun x y hc => by
    have c2 := h2.closed x y (fun ho => hc ((h1.open_iff x y).mp ho))
    have c1 := h1.closed x y hc
    exact ⟨c2.1.trans c1.1, c2.2.trans c1.2⟩

theorem Frozen.wallBoundary {s s1 : Simulator P V VF} (h : Frozen s s1) (hb : s.wallBoundary) :
    s1.wallBoundary := by
  intro c hc hedge
  rw [h.N, h.M] at hc hedge
  exact (h.walls c.1 c.2).mpr (hb c hc hedge)

theorem Frozen.wf {s s1 : Simulator P V VF} (h : Frozen s s1) (hw : s.WF) : s1.WF where
  boundary := h.wallBoundary hw.boundary
  vn := by rw [h.vn, h.N, hw.vn]
  vm := by rw [h.vm, h.M, hw.vm]
  fn := by rw [h.fn, h.N, hw.fn]
  fm := by rw [h.fm, h.M, hw.fm]

theorem Frame.frame_refl (s : Simulator P V VF) : Frame s s where
  toFrozen := Frozen.frozen_refl s
  UT := rfl
  old_p := rfl
  stamp := fun _ _ => Or.inl rfl
  perm := ⟨1, fun _ _ => rfl, fun _ => rfl⟩

theorem Frame.frame_trans {s s1 s2 : Simulator P V VF} (h1 : Frame s s1) (h2 : Frame s1 s2) :
    Frame s s2 where
  toFrozen := h1.toFrozen.frozen_trans h2.toFrozen
  UT := h2.UT.trans h1.UT
  old_p := h2.old_p.trans h1.old_p
  stamp := fun x y => by
    have a := h1.stamp x y
    have b := h2.stamp x y
    rw [h1.UT] at b
    rcases b with b | b | b
    · rw [b]; exact a
    · exact Or.inr (Or.inl b)
    · exact Or.inr (Or.inr b)
  perm := by
    obtain ⟨σ1, f1, c1⟩ := h1.perm
    obtain ⟨σ2, f2, c2⟩ := h2.perm
    refine ⟨σ1 * σ2, fun c hc => ?_, fun c => ?_⟩
    · have : σ2 c = c := f2 c (fun ho => hc ((h1.open_iff c.1 c.2).mp ho))
      rw [Equiv.Perm.mul_apply, this, f1 c hc]
    · rw [c2, c1, Equiv.Perm.mul_apply]

theorem Frame.stamped {s s1 : Simulator P V VF} (h : Frame s s1) {x y : Int}
    (hs : s.Stamped x y) : s1.Stamped x y := by
  unfold Simulator.Stamped at *
  rw [h.UT]
  rcases h.stamp x y with a | a | a
  · rw [a]; exact hs
  · exact Or.inl a
  · exact Or.inr a

/-- A step that leaves `field`, `p` and `velocity` alone is a frame step when
it stamps open cells only, with `UT` or `UT - 1`. -/
theorem Frame.of_still {s s1 : Simulator P V VF} (hN : s1.N = s.N) (hM : s1.M = s.M)
    (hfn : s1.velocity_flow.n = s.velocity_flow.n) (hfm : s1.velocity_flow.m = s.velocity_flow.m)
    (hrho : s1.rho = s.rho) (hg : s1.g = s.g) (hdirs : s1.dirs = s.dirs) (hUT : s1.UT = s.UT)
    (hold : s1.old_p = s.old_p) (hstill : Still s s1)
    (hstamp : ∀ x y, s1.last_use x y = s.last_use x y ∨
      (s.Open x y ∧ (s1.last_use x y = s.UT ∨ s1.last_use x y = s.UT - 1))) :
    Frame s s1 where
  N := hN
  M := hM
  vn := by rw [hstill.2.2]
  vm := by rw [hstill.2.2]
  fn := hfn
  fm := hfm
  rho := hrho
  g := hg
  dirs := hdirs
  walls := fun x y => by rw [hstill.1]
  closed := fun x y hc => by
    refine ⟨?_, ?_⟩
    · unfold Simulator.content; rw [hstill.1, hstill.2.1, hstill.2.2]
    · rcases hstamp x y with a | a
      · exact a
      · exact absurd a.1 hc
  UT := hUT
  old_p := hold
  stamp := fun x y => by
    rcases hstamp x y with a | a
    · exact Or.inl a
    · exact Or.inr a.2
  perm := ⟨1, fun _ _ => rfl, fun c => by
    unfold Simulator.content; rw [hstill.1, hstill.2.1, hstill.2.2]; rfl⟩

theorem Still.still_refl (s : Simulator P V VF) : Still s s := ⟨rfl, rfl, rfl⟩

theorem Still.still_trans {s s1 s2 : Simulator P V VF} (h1 : Still s s1) (h2 : Still s1 s2) :
    Still s s2 :=
  ⟨h2.1.trans h1.1, h2.2.1.trans h1.2.1, h2.2.2.trans h1.2.2⟩

theorem Frame.stampCell (s : Simulator P V VF) (x y val : Int) (ho : s.Open x y)
    (hv : val = s.UT ∨ val = s.UT - 1) :
    Frame s { s with last_use := upd s.last_use x y val } := by
  refine Frame.of_still rfl rfl rfl rfl rfl rfl rfl rfl rfl ⟨rfl, rfl, rfl⟩ fun a b => ?_
  by_cases hab : a = x ∧ b = y
  · obtain ⟨rfl, rfl⟩ := hab
    exact Or.inr ⟨ho, by simpa [upd] using hv⟩
  · exact Or.inl (by simp [upd, hab])

theorem Frame.setFlow (s : Simulator P V VF) (v : Int → Int → Nat → VF) :
    Frame s { s with velocity_flow := { s.velocity_flow with v := v } } :=
  Frame.of_still rfl rfl rfl rfl rfl rfl rfl rfl rfl ⟨rfl, rfl, rfl⟩ fun _ _ => Or.inl rfl

theorem Frame.nextRnd (s : Simulator P V VF) : Frame s s.nextRnd.2 :=
  Frame.of_still rfl rfl rfl rfl rfl rfl rfl rfl rfl ⟨rfl, rfl, rfl⟩ fun _ _ => Or.inl rfl

/-! ## The propagation kernels keep the frame -/

theorem stopScan_post {b : Err → Prop} (A : Scalars P V VF) {s : Simulator P V VF} (hw : s.WF)
    {x y : Int}
    (ho : s.Open x y) (ds : List (Int × Int)) (hds : ∀ d ∈ ds, d ∈ deltas) :
    Post b (stopScan A s x y ds) fun _ => True := by
  induction ds with
  | nil => exact Post.ok trivial
  | cons d rest ih =>
    obtain ⟨dx, dy⟩ := d
    have hd := hds (dx, dy) (List.mem_cons_self _ _)
    have ih := ih fun d h => hds d (List.mem_cons_of_mem _ h)
    have hnb := hw.inb_next ho hd
    have hin := hw.inb ho
    simp only [stopScan]
    refine Post.bind (Post.rd hnb.1 ?_)
    refine Post.ite (fun _ => ih) fun _ => ?_
    refine Post.bind (Post.rd hnb.1 ?_)
    refine Post.ite (fun _ => ih) fun _ => ?_
    refine Post.bind (Post.get (deltaIndex_lt hd) hin.2.1 ?_)
    exact Post.ite (fun _ => Post.ok trivial) fun _ => ih

theorem stopSpread_post {b : Err → Prop} (A : Scalars P V VF)
    (call : Simulator P V VF → Int → Int → Except Err (Simulator P V VF))
    (hcall : ∀ s nx ny, s.WF → s.Open nx ny →
      Post b (call s nx ny) fun s1 => Frame s s1 ∧ Still s s1)
    (x y : Int) (ds : List (Int × Int)) (hds : ∀ d ∈ ds, d ∈ deltas)
    (s : Simulator P V VF) (hw : s.WF) (ho : s.Open x y) :
    Post b (stopSpread A call x y ds s) fun s1 => Frame s s1 ∧ Still s s1 := by
  induction ds generalizing s with
  | nil => exact Post.ok ⟨Frame.frame_refl s, Still.still_refl s⟩
  | cons d rest ih =>
    obtain ⟨dx, dy⟩ := d
    have hd := hds (dx, dy) (List.mem_cons_self _ _)
    have ih := ih fun d h => hds d (List.mem_cons_of_mem _ h)
    have hnb := hw.inb_next ho hd
    have hin := hw.inb ho
    simp only [stopSpread]
    refine Post.bind (Post.rd hnb.1 ?_)
    refine Post.ite (fun _ => ih s hw ho) fun hc => ?_
    refine Post.bind (Post.rd hnb.1 ?_)
    refine Post.ite (fun _ => ih s hw ho) fun _ => ?_
    refine Post.bind (Post.get (deltaIndex_lt hd) hin.2.1 ?_)
    refine Post.ite (fun _ => ih s hw ho) fun _ => ?_
    refine Post.bind (Post.mono (hcall s _ _ hw (hw.open_next ho hd hc)) fun s1 h1 => ?_)
    refine Post.mono (ih s1 (h1.1.wf hw) ((h1.1.open_iff x y).mpr ho)) fun s2 h2 => ?_
    exact ⟨h1.1.frame_trans h2.1, h1.2.still_trans h2.2⟩

theorem PropagateStop_post {b : Err → Prop} (hf : ¬ b .outOfFuel) (A : Scalars P V VF)
    (depth : Nat) (s : Simulator P V VF) (x y : Int)
    (force : Bool) (hw : s.WF) (ho : s.Open x y) :
    Post b (PropagateStop A depth s x y force) fun s1 =>
      Frame s s1 ∧ Still s s1 ∧ (force = true → s1.Stamped x y) := by
  induction depth generalizing s x y force with
  | zero => exact Post.error hf
  | succ depth ih =>
    have hin := hw.inb ho
    simp only [PropagateStop]
    refine Post.bind ?_
    have hscan : Post b
        (if force = true then Except.ok true else stopScan A s x y deltas)
        fun stop => force = true → stop = true := by
      refine Post.ite (fun _ => Post.ok fun _ => rfl) fun hf => ?_
      exact Post.mono (stopScan_post A hw ho deltas fun _ h => h) fun _ _ h => absurd h hf
    refine Post.mono hscan fun stop hstop => ?_
    refine Post.ite (fun hs => ?_) fun _ => ?_
    · refine Post.ok ⟨Frame.frame_refl s, Still.still_refl s, fun hf => ?_⟩
      rw [hstop hf] at hs
      cases hs
    · refine Post.bind (Post.setLastUse hin.1 ?_)
      have hf1 := Frame.stampCell s x y s.UT ho (Or.inl rfl)
      refine Post.mono (stopSpread_post A _ (fun s2 nx ny hw2 ho2 =>
        Post.mono (ih s2 nx ny false hw2 ho2) fun s3 h3 => ⟨h3.1, h3.2.1⟩) x y deltas
        (fun _ h => h) _ (hf1.wf hw) ((hf1.open_iff x y).mpr ho)) fun s2 h2 => ?_
      refine ⟨hf1.frame_trans h2.1, Still.still_trans ⟨rfl, rfl, rfl⟩ h2.2, fun _ => ?_⟩
      refine h2.1.stamped (Or.inl ?_)
      simp [upd]

theorem moveProbLoop_post {b : Err → Prop} (A : Scalars P V VF) {s : Simulator P V VF} (hw : s.WF)
    {x y : Int}
    (ho : s.Open x y) (ds : List (Int × Int)) (hds : ∀ d ∈ ds, d ∈ deltas) (sum : P) :
    Post b (moveProbLoop A s x y ds sum) fun _ => True := by
  induction ds generalizing sum with
  | nil => exact Post.ok trivial
  | cons d rest ih =>
    obtain ⟨dx, dy⟩ := d
    have hd := hds (dx, dy) (List.mem_cons_self _ _)
    have ih := ih fun d h => hds d (List.mem_cons_of_mem _ h)
    have hnb := hw.inb_next ho hd
    have hin := hw.inb ho
    simp only [moveProbLoop]
    refine Post.bind (Post.rd hnb.1 ?_)
    refine Post.ite (fun _ => ih _) fun _ => ?_
    refine Post.bind (Post.rd hnb.1 ?_)
    refine Post.ite (fun _ => ih _) fun _ => ?_
    refine Post.bind (Post.get (deltaIndex_lt hd) hin.2.1 ?_)
    exact Post.ite (fun _ => ih _) fun _ => ih _

theorem tresLoop_post {b : Err → Prop} (A : Scalars P V VF) {s : Simulator P V VF} (hw : s.WF)
    {x y : Int}
    (ho : s.Open x y) (ds : List (Int × Int)) (hds : ∀ d ∈ ds, d ∈ deltas) (sum : P) :
    Post b (tresLoop A s x y ds sum) fun _ => True := by
  induction ds generalizing sum with
  | nil => exact Post.ok trivial
  | cons d rest ih =>
    obtain ⟨dx, dy⟩ := d
    have hd := hds (dx, dy) (List.mem_cons_self _ _)
    have ih := ih fun d h => hds d (List.mem_cons_of_mem _ h)
    have hnb := hw.inb_next ho hd
    have hin := hw.inb ho
    simp only [tresLoop]
    refine Post.bind (Post.rd hnb.1 ?_)
    refine Post.ite (fun _ => Post.map (Post.mono (ih _) fun _ _ => trivial)) fun _ => ?_
    refine Post.bind (Post.rd hnb.1 ?_)
    refine Post.ite (fun _ => Post.map (Post.mono (ih _) fun _ _ => trivial)) fun _ => ?_
    refine Post.bind (Post.get (deltaIndex_lt hd) hin.2.1 ?_)
    exact Post.ite (fun _ => Post.map (Post.mono (ih _) fun _ _ => trivial))
      fun _ => Post.map (Post.mono (ih _) fun _ _ => trivial)

theorem Frame.of_exchanged {s s1 : Simulator P V VF} {x y nx ny : Int}
    (h : Exchanged s s1 x y nx ny) (ho : s.Open x y) (hn : s.Open nx ny) : Frame s s1 := by
  obtain ⟨f1, f2, p1, p2, v1, v2, hother, hlu, hdirs, hvf, hUT, hold, hN, hM, hvn, hvm, hrho,
    hg, _⟩ := h
  have hcont : ∀ c, s1.content c = s.content (Equiv.swap (x, y) (nx, ny) c) := by
    intro c
    by_cases h1 : c = (x, y)
    · subst h1
      rw [Equiv.swap_apply_left]
      simp only [Simulator.content, f1, p1]
      rw [funext v1]
    · by_cases h2 : c = (nx, ny)
      · subst h2
        rw [Equiv.swap_apply_right]
        simp only [Simulator.content, f2, p2]
        rw [funext v2]
      · rw [Equiv.swap_apply_of_ne_of_ne h1 h2]
        obtain ⟨a, b⟩ := c
        have := hother a b (fun hh => h1 (by rw [hh.1, hh.2])) (fun hh => h2 (by rw [hh.1, hh.2]))
        simp only [Simulator.content, this.1, this.2.1]
        rw [funext this.2.2]
  have hfix : ∀ c : Int × Int, ¬ s.Open c.1 c.2 → Equiv.swap (x, y) (nx, ny) c = c := by
    intro c hc
    refine Equiv.swap_apply_of_ne_of_ne ?_ ?_
    · rintro rfl; exact hc ho
    · rintro rfl; exact hc hn
  have hswapOpen : ∀ c : Int × Int, s.Open c.1 c.2 →
      s.Open (Equiv.swap (x, y) (nx, ny) c).1 (Equiv.swap (x, y) (nx, ny) c).2 := by
    intro c hc
    by_cases h1 : c = (x, y)
    · subst h1; rw [Equiv.swap_apply_left]; exact hn
    · by_cases h2 : c = (nx, ny)
      · subst h2; rw [Equiv.swap_apply_right]; exact ho
      · rw [Equiv.swap_apply_of_ne_of_ne h1 h2]; exact hc
  have hfield : ∀ a b, s1.field a b =
      s.field (Equiv.swap (x, y) (nx, ny) (a, b)).1 (Equiv.swap (x, y) (nx, ny) (a, b)).2 :=
    fun a b => congrArg Prod.fst (hcont (a, b))
  exact
    { N := hN, M := hM, vn := hvn, vm := hvm, fn := by rw [hvf], fm := by rw [hvf]
      rho := hrho, g := hg, dirs := hdirs
      walls := fun a b => by
        rw [hfield]
        by_cases hc : s.Open a b
        · have h1 := hswapOpen (a, b) hc
          exact ⟨fun hh => absurd hh h1.2.2.2.2, fun hh => absurd hh hc.2.2.2.2⟩
        · rw [hfix (a, b) hc]
      closed := fun a b hc => by
        refine ⟨?_, by rw [hlu]⟩
        rw [hcont, hfix (a, b) hc]
      UT := hUT, old_p := hold
      stamp := fun a b => Or.inl (by rw [hlu])
      perm := ⟨Equiv.swap (x, y) (nx, ny), hfix, hcont⟩ }

theorem moveLoop_post {b : Err → Prop} (hf : ¬ b .outOfFuel) (hm : ¬ b .moveAssert)
    (hn : ¬ b .noDirection) (A : Scalars P V VF)
    (call : Simulator P V VF → Int → Int → Except Err (Simulator P V VF × Bool))
    (hcall : ∀ s nx ny, s.WF → s.Open nx ny →
      Post b (call s nx ny) fun r => Frame s r.1 ∧ (r.2 = false → Still s r.1))
    (x y : Int) (iters : Nat) (s : Simulator P V VF) (nx ny : Int) (hw : s.WF) (ho : s.Open x y) :
    Post b (moveLoop A call x y iters s nx ny) fun r =>
      Frame s r.1 ∧ (r.2.1 = false → Still s r.1) ∧
      (r.2.1 = true → s.Open r.2.2.1 r.2.2.2 ∧ ¬ (r.2.2.1 = x ∧ r.2.2.2 = y)) := by
  induction iters generalizing s nx ny with
  | zero => exact Post.error hf
  | succ iters ih =>
    have hin := hw.inb ho
    simp only [moveLoop]
    refine Post.bind (Post.mono (tresLoop_post A hw ho deltas (fun _ h => h) _) fun ts _ => ?_)
    obtain ⟨tres, sum⟩ := ts
    simp only []
    refine Post.ite (fun _ => Post.ok ⟨Frame.frame_refl s, fun _ => Still.still_refl s,
      fun h => Bool.noConfusion h⟩) fun _ => ?_
    simp only [Simulator.Random01]
    have hf1 := Frame.nextRnd s
    have hw1 := hf1.wf hw
    have ho1 := (hf1.open_iff x y).mpr ho
    cases hget : deltas.get? (upperBound A tres (A.pMul (A.random01 s.nextRnd.1) sum)) with
    | none => exact Post.error hn
    | some d =>
      obtain ⟨dx, dy⟩ := d
      have hd : (dx, dy) ∈ deltas := List.get?_mem hget
      have hnb := hw1.inb_next ho1 hd
      have hin1 := hw1.inb ho1
      have hne : ¬ (x + dx = x ∧ y + dy = y) := by
        rcases mem_deltas hd with h | h | h | h <;> cases h <;> omega
      simp only []
      refine Post.bind (Post.get (deltaIndex_lt hd) hin1.2.1 ?_)
      refine Post.ite (fun _ => Post.error hm) fun _ => ?_
      refine Post.bind (Post.rd hnb.1 ?_)
      refine Post.ite (fun _ => Post.error hm) fun hc => ?_
      have hon1 : s.nextRnd.2.Open (x + dx) (y + dy) := hw1.open_next ho1 hd hc
      have hon : s.Open (x + dx) (y + dy) := (hf1.open_iff _ _).mp hon1
      refine Post.bind (Post.rd hnb.1 ?_)
      refine Post.ite (fun _ => Post.error hm) fun _ => ?_
      refine Post.ite (fun _ => Post.ok ⟨hf1, fun h => Bool.noConfusion h,
        fun _ => ⟨hon, hne⟩⟩) fun _ => ?_
      refine Post.bind (Post.mono (hcall _ _ _ hw1 hon1) fun r hr => ?_)
      obtain ⟨s2, ret⟩ := r
      simp only []
      have hf2 : Frame s s2 := hf1.frame_trans hr.1
      refine Post.ite (fun _ => Post.ok ⟨hf2, fun h => Bool.noConfusion h,
        fun _ => ⟨hon, hne⟩⟩) fun hret => ?_
      have hstill2 : Still s s2 := Still.still_trans ⟨rfl, rfl, rfl⟩ (hr.2 (by simpa using hret))
      refine Post.mono (ih s2 _ _ (hf2.wf hw) ((hf2.open_iff x y).mpr ho)) fun r3 h3 => ?_
      refine ⟨hf2.frame_trans h3.1, fun h => hstill2.still_trans (h3.2.1 h), fun h => ?_⟩
      have := h3.2.2 h
      exact ⟨(hf2.open_iff _ _).mp this.1, this.2⟩

theorem moveStops_post {b : Err → Prop} (hf : ¬ b .outOfFuel) (A : Scalars P V VF) (depth : Nat)
    (x y : Int) (ds : List (Int × Int))
    (hds : ∀ d ∈ ds, d ∈ deltas) (s : Simulator P V VF) (hw : s.WF) (ho : s.Open x y) :
    Post b (moveStops A depth x y ds s) fun s1 => Frame s s1 ∧ Still s s1 := by
  induction ds generalizing s with
  | nil => exact Post.ok ⟨Frame.frame_refl s, Still.still_refl s⟩
  | cons d rest ih =>
    obtain ⟨dx, dy⟩ := d
    have hd := hds (dx, dy) (List.mem_cons_self _ _)
    have ih := ih fun d h => hds d (List.mem_cons_of_mem _ h)
    have hnb := hw.inb_next ho hd
    have hin := hw.inb ho
    simp only [moveStops]
    refine Post.bind (Post.rd hnb.1 ?_)
    refine Post.ite (fun _ => ih s hw ho) fun hc => ?_
    refine Post.bind (Post.rd hnb.1 ?_)
    refine Post.ite (fun _ => ih s hw ho) fun _ => ?_
    refine Post.bind (Post.get (deltaIndex_lt hd) hin.2.1 ?_)
    refine Post.ite (fun _ => ih s hw ho) fun _ => ?_
    refine Post.bind (Post.mono
      (PropagateStop_post hf A depth s _ _ false hw (hw.open_next ho hd hc)) fun s1 h1 => ?_)
    refine Post.mono (ih s1 (h1.1.wf hw) ((h1.1.open_iff x y).mpr ho)) fun s2 h2 => ?_
    exact ⟨h1.1.frame_trans h2.1, h1.2.1.still_trans h2.2⟩

theorem PropagateMove_post {b : Err → Prop} (hf : ¬ b .outOfFuel) (hm : ¬ b .moveAssert)
    (hn : ¬ b .noDirection) (A : Scalars P V VF) (iters depth : Nat) (s : Simulator P V VF)
    (x y : Int) (is_first : Bool) (hw : s.WF) (ho : s.Open x y) :
    Post b (PropagateMove A iters depth s x y is_first) fun r =>
      Frame s r.1 ∧ (r.2 = false → Still s r.1) ∧ r.1.Stamped x y := by
  induction depth generalizing s x y is_first with
  | zero => exact Post.error hf
  | succ depth ih =>
    have hin := hw.inb ho
    simp only [PropagateMove]
    refine Post.bind (Post.setLastUse hin.1 ?_)
    have hf1 := Frame.stampCell s x y (s.UT - if is_first = true then 1 else 0) ho
      (by cases is_first <;> simp)
    have hw1 := hf1.wf hw
    have ho1 := (hf1.open_iff x y).mpr ho
    refine Post.bind (Post.mono (moveLoop_post hf hm hn A _ (fun s3 x3 y3 hw3 ho3 =>
      Post.mono (ih s3 x3 y3 false hw3 ho3) fun r hr => ⟨hr.1, hr.2.1⟩) x y iters _ (-1) (-1)
      hw1 ho1) fun r hr => ?_)
    obtain ⟨s2, ret, nx, ny⟩ := r
    simp only [] at hr ⊢
    have hw2 := hr.1.wf hw1
    have ho2 := (hr.1.open_iff x y).mpr ho1
    refine Post.bind (Post.setLastUse (hw2.inb ho2).1 ?_)
    have hf3 := Frame.stampCell s2 x y s2.UT ho2 (Or.inl rfl)
    have hw3 := hf3.wf hw2
    have ho3 := (hf3.open_iff x y).mpr ho2
    refine Post.bind (Post.mono (moveStops_post hf A depth x y deltas (fun _ h => h) _ hw3 ho3)
      fun s5 h5 => ?_)
    have hst5 : s5.Stamped x y := h5.1.stamped (Or.inl (by simp [upd]))
    have hf5 : Frame s s5 := (hf1.frame_trans hr.1).frame_trans (hf3.frame_trans h5.1)
    have hstill5 : ret = false → Still s s5 := fun h =>
      (Still.still_trans ⟨rfl, rfl, rfl⟩ (hr.2.1 h)).still_trans (Still.still_trans ⟨rfl, rfl, rfl⟩
          h5.2)
    refine Post.ite (fun hc => ?_) fun _ => Post.ok ⟨hf5, hstill5, hst5⟩
    have hret : ret = true := hc.1
    have hn := hr.2.2 hret
    have hw5 := hf5.wf hw
    have ho5 : s5.Open x y := (hf5.open_iff x y).mpr ho
    have hn5 : s5.Open nx ny :=
      (hf5.open_iff nx ny).mpr ((hf1.open_iff nx ny).mp hn.1)
    obtain ⟨s6, h6, hex⟩ := swapCells_spec A s5 x y nx ny
      ⟨(hw5.inb ho5).1, (hw5.inb ho5).2.1⟩ ⟨(hw5.inb hn5).1, (hw5.inb hn5).2.1⟩ hn.2
    rw [h6]
    have hf6 := Frame.of_exchanged hex ho5 hn5
    refine Post.ok ⟨hf5.frame_trans hf6, fun h => ?_, hf6.stamped hst5⟩
    rw [hret] at h
    cases h

theorem flowDirs_post {b : Err → Prop} (A : Scalars P V VF)
    (call : Simulator P V VF → Int → Int → P →
      Except Err (Simulator P V VF × P × Bool × (Int × Int)))
    (hcall : ∀ s nx ny vp, s.WF → s.Open nx ny →
      Post b (call s nx ny vp) fun r => Frame s r.1 ∧ Still s r.1)
    (x y : Int) (lim : P) (ds : List (Int × Int)) (hds : ∀ d ∈ ds, d ∈ deltas)
    (s : Simulator P V VF) (ret : P) (hw : s.WF) (ho : s.Open x y) :
    Post b (flowDirs A call x y lim ds s ret) fun r =>
      Frame s r.1 ∧ Still s r.1 ∧ r.1.Stamped x y := by
  have hstampUT : ∀ s0 : Simulator P V VF,
      ({ s0 with last_use := upd s0.last_use x y s0.UT } : Simulator P V VF).Stamped x y :=
    fun s0 => Or.inl (by simp [upd])
  induction ds generalizing s ret with
  | nil =>
    simp only [flowDirs]
    refine Post.bind (Post.setLastUse (hw.inb ho).1 (Post.ok ?_))
    exact ⟨Frame.stampCell s x y s.UT ho (Or.inl rfl), ⟨rfl, rfl, rfl⟩, hstampUT s⟩
  | cons d rest ih =>
    obtain ⟨dx, dy⟩ := d
    have hd := hds (dx, dy) (List.mem_cons_self _ _)
    have ih := ih fun d h => hds d (List.mem_cons_of_mem _ h)
    have hnb := hw.inb_next ho hd
    have hin := hw.inb ho
    simp only [flowDirs]
    refine Post.bind (Post.rd hnb.1 ?_)
    refine Post.ite (fun _ => ih s ret hw ho) fun hc => ?_
    refine Post.bind (Post.rd hnb.1 ?_)
    refine Post.ite (fun _ => ih s ret hw ho) fun _ => ?_
    refine Post.bind (Post.get (deltaIndex_lt hd) hin.2.1 ?_)
    refine Post.bind (Post.get (deltaIndex_lt hd) hin.2.2 ?_)
    refine Post.ite (fun _ => ih s ret hw ho) fun _ => ?_
    refine Post.ite (fun _ => ?_) fun _ => ?_
    · refine Post.bind (Post.add (deltaIndex_lt hd) hin.2.2 ?_)
      refine Post.bind (Post.setLastUse hin.1 (Post.ok ?_))
      refine ⟨Frame.frame_trans (Frame.setFlow s _) (Frame.stampCell _ x y _ ?_ ?_),
        ⟨rfl, rfl, rfl⟩, hstampUT _⟩
      · exact ((Frame.setFlow s _).open_iff x y).mpr ho
      · exact Or.inl rfl
    · refine Post.bind (Post.mono (hcall s _ _ _ hw (hw.open_next ho hd hc)) fun r hr => ?_)
      obtain ⟨s1, tt, prop, e⟩ := r
      simp only [] at hr ⊢
      have hw1 := hr.1.wf hw
      have ho1 := (hr.1.open_iff x y).mpr ho
      have hin1 := hw1.inb ho1
      refine Post.ite (fun _ => ?_) fun _ => ?_
      · refine Post.bind (Post.add (deltaIndex_lt hd) hin1.2.2 ?_)
        refine Post.bind (Post.setLastUse hin1.1 (Post.ok ?_))
        refine ⟨hr.1.frame_trans (Frame.frame_trans (Frame.setFlow s1 _) (Frame.stampCell _ x y _
            ?_ ?_)),
          hr.2.still_trans ⟨rfl, rfl, rfl⟩, hstampUT _⟩
        · exact ((Frame.setFlow s1 _).open_iff x y).mpr ho1
        · exact Or.inl rfl
      · refine Post.mono (ih s1 _ hw1 ho1) fun r2 h2 => ?_
        exact ⟨hr.1.frame_trans h2.1, hr.2.still_trans h2.2.1, h2.2.2⟩

theorem PropagateFlow_post {b : Err → Prop} (hf : ¬ b .outOfFuel) (A : Scalars P V VF)
    (depth : Nat) (s : Simulator P V VF) (x y : Int)
    (lim : P) (hw : s.WF) (ho : s.Open x y) :
    Post b (PropagateFlow A depth s x y lim) fun r =>
      Frame s r.1 ∧ Still s r.1 ∧ r.1.Stamped x y := by
  induction depth generalizing s x y lim with
  | zero => exact Post.error hf
  | succ depth ih =>
    simp only [PropagateFlow]
    refine Post.bind (Post.setLastUse (hw.inb ho).1 ?_)
    have hf1 := Frame.stampCell s x y (s.UT - 1) ho (Or.inr rfl)
    refine Post.mono (flowDirs_post A _ (fun s2 nx ny vp hw2 ho2 =>
      Post.mono (ih s2 nx ny vp hw2 ho2) fun r hr => ⟨hr.1, hr.2.1⟩) x y lim deltas
      (fun _ h => h) _ _ (hf1.wf hw) ((hf1.open_iff x y).mpr ho)) fun r hr => ?_
    exact ⟨hf1.frame_trans hr.1, Still.still_trans ⟨rfl, rfl, rfl⟩ hr.2.1, hr.2.2⟩

/-! ## The phases of a tick keep the walls -/

theorem Smooth.smooth_refl (s : Simulator P V VF) : Smooth s s :=
  { toFrozen := Frozen.frozen_refl s, field := rfl, last_use := rfl, UT := rfl, velocity_flow :=
      rfl,
    rnd := rfl }

theorem Smooth.smooth_trans {s s1 s2 : Simulator P V VF} (h1 : Smooth s s1) (h2 : Smooth s1 s2) :
    Smooth s s2 :=
  { toFrozen := h1.toFrozen.frozen_trans h2.toFrozen
    field := h2.field.trans h1.field
    last_use := h2.last_use.trans h1.last_use
    UT := h2.UT.trans h1.UT
    velocity_flow := h2.velocity_flow.trans h1.velocity_flow
    rnd := h2.rnd.trans h1.rnd }

/-- A step that changes `p`, `old_p` and `velocity` only, and `p` and
`velocity` only at open cells, is smooth. -/
theorem Smooth.of_open {s s1 : Simulator P V VF} (hN : s1.N = s.N) (hM : s1.M = s.M)
    (hvn : s1.velocity.n = s.velocity.n) (hvm : s1.velocity.m = s.velocity.m)
    (hrho : s1.rho = s.rho) (hg : s1.g = s.g) (hdirs : s1.dirs = s.dirs)
    (hfield : s1.field = s.field) (hlu : s1.last_use = s.last_use) (hUT : s1.UT = s.UT)
    (hvf : s1.velocity_flow = s.velocity_flow) (hrnd : s1.rnd = s.rnd)
    (hp : ∀ x y, ¬ s.Open x y → s1.p x y = s.p x y)
    (hv : ∀ x y, ¬ s.Open x y → s1.velocity.v x y = s.velocity.v x y) : Smooth s s1 :=
  { N := hN, M := hM, vn := hvn, vm := hvm, fn := by rw [hvf], fm := by rw [hvf], rho := hrho
    g := hg, dirs := hdirs
    walls := fun x y => by rw [hfield]
    closed := fun x y hc => by
      refine ⟨?_, by rw [hlu]⟩
      unfold Simulator.content
      simp only [hfield, hp x y hc, hv x y hc]
    field := hfield, last_use := hlu, UT := hUT, velocity_flow := hvf, rnd := hrnd }

theorem Smooth.setVel (s : Simulator P V VF) (x y : Int) (ho : s.Open x y)
    (v : Int → Int → Nat → V)
    (hv : ∀ a b, ¬ (a = x ∧ b = y) → v a b = s.velocity.v a b) :
    Smooth s { s with velocity := { s.velocity with v := v } } := by
  refine Smooth.of_open rfl rfl rfl rfl rfl rfl rfl rfl rfl rfl rfl rfl (fun _ _ _ => rfl)
    fun a b hc => hv a b ?_
  rintro ⟨rfl, rfl⟩
  exact hc ho

theorem Smooth.writeP (s : Simulator P V VF) (x y : Int) (ho : s.Open x y) (val : P) :
    Smooth s { s with p := upd s.p x y val } := by
  refine Smooth.of_open rfl rfl rfl rfl rfl rfl rfl rfl rfl rfl rfl rfl (fun a b hc => ?_)
    fun _ _ _ => rfl
  refine upd_other _ _ _ _ _ _ ?_
  rintro ⟨rfl, rfl⟩
  exact hc ho

theorem Smooth.setOldP (s : Simulator P V VF) (q : Int → Int → P) :
    Smooth s { s with old_p := q } :=
  Smooth.of_open rfl rfl rfl rfl rfl rfl rfl rfl rfl rfl rfl rfl (fun _ _ _ => rfl)
    fun _ _ _ => rfl

theorem putRow_other {T : Type} (f : VectorField T) (x y : Int) (k : Nat) (val : T) (a b : Int)
    (h : ¬ (a = x ∧ b = y)) :
    (fun i => if a = x ∧ b = y ∧ i = k then val else f.v a b i) = f.v a b := by
  funext i
  rw [if_neg]
  rintro ⟨h1, h2, _⟩
  exact h ⟨h1, h2⟩

theorem inb_of_mem_cells {s : Simulator P V VF} {c : Int × Int} (h : c ∈ cells s.N s.M) :
    s.inb c.1 c.2 := by
  obtain ⟨h1, h2, h3, h4⟩ := mem_cells.mp h
  exact ⟨h1, h2, h3, by omega⟩

theorem open_of_mem_cells {s : Simulator P V VF} {c : Int × Int} (h : c ∈ cells s.N s.M)
    (hc : s.field c.1 c.2 ≠ '#') : s.Open c.1 c.2 := by
  obtain ⟨h1, h2, h3, h4⟩ := mem_cells.mp h
  exact ⟨h1, h2, h3, h4, hc⟩

theorem gravityCell_post {b : Err → Prop} (A : Scalars P V VF) {s : Simulator P V VF} (hw : s.WF)
    {c : Int × Int}
    (hc : c ∈ cells s.N s.M) : Post b (gravityCell A s c) fun s1 => Smooth s s1 := by
  unfold gravityCell
  refine Post.bind (Post.rd (inb_of_mem_cells hc) ?_)
  refine Post.ite (fun _ => Post.ok (Smooth.smooth_refl s)) fun hne => ?_
  have ho := open_of_mem_cells hc hne
  have hd : ((1 : Int), (0 : Int)) ∈ deltas := by decide
  have hnb := hw.inb_next ho hd
  simp only [add_zero] at hnb
  refine Post.bind (Post.rd hnb.1 ?_)
  refine Post.ite (fun _ => ?_) fun _ => Post.ok (Smooth.smooth_refl s)
  refine Post.bind (Post.add (deltaIndex_lt hd) (hw.inb ho).2.1 (Post.ok ?_))
  exact Smooth.setVel s c.1 c.2 ho _ fun a b hab => putRow_other _ _ _ _ _ _ _ hab

theorem pressureDir_post {b : Err → Prop} (hv : ¬ b .divByZero) (A : Scalars P V VF)
    {s : Simulator P V VF} (hw : s.WF) {x y : Int}
    (ho : s.Open x y) {d : Int × Int} (hd : d ∈ deltas) :
    Post b (pressureDir A x y s d) fun s1 => Smooth s s1 := by
  have hnb := hw.inb_next ho hd
  have hin := hw.inb ho
  unfold pressureDir
  refine Post.bind (Post.rd hnb.1 ?_)
  refine Post.ite (fun _ => Post.ok (Smooth.smooth_refl s)) fun hne => ?_
  have hon := hw.open_next ho hd hne
  refine Post.bind (Post.rd hnb.1 ?_)
  refine Post.bind (Post.rd hin.1 ?_)
  refine Post.ite (fun _ => Post.ok (Smooth.smooth_refl s)) fun _ => ?_
  refine Post.bind (Post.get (deltaIndex_neg_lt hd) hnb.2 ?_)
  refine Post.ite (fun _ => ?_) fun _ => ?_
  · refine Post.bind (Post.divide hv fun q => ?_)
    refine Post.bind (Post.put (deltaIndex_neg_lt hd) hnb.2 (Post.ok ?_))
    exact Smooth.setVel s _ _ hon _ fun a b hab => putRow_other _ _ _ _ _ _ _ hab
  · refine Post.bind (Post.put (deltaIndex_neg_lt hd) hnb.2 ?_)
    refine Post.bind (Post.rd hin.1 ?_)
    refine Post.bind (Post.divide hv fun q => ?_)
    refine Post.bind (Post.add (deltaIndex_lt hd) hin.2.1 ?_)
    refine Post.bind (Post.rd hin.1 ?_)
    refine Post.bind (Post.divide hv fun q1 => ?_)
    refine Post.bind (Post.rd hin.1 ?_)
    refine Post.setP hin.1 ?_
    have h1 := Smooth.setVel s _ _ hon _ fun a b hab =>
      putRow_other s.velocity (x + d.1) (y + d.2) (deltaIndex (-d.1) (-d.2)) (A.vOfInt 0) a b hab
    have ho1 := (h1.open_iff x y).mpr ho
    refine h1.smooth_trans (Smooth.smooth_trans (Smooth.setVel _ x y ho1 _ fun a b hab =>
      putRow_other _ _ _ _ _ _ _ hab) (Smooth.writeP _ x y ?_ _))
    exact ho1

theorem forEach_smooth {bad : Err → Prop} {β : Type}
    {body : Simulator P V VF → β → Except Err (Simulator P V VF)} (cs : List β)
    (s : Simulator P V VF) (hw : s.WF)
    (hbody : ∀ s1 c, c ∈ cs → s1.WF → Frozen s s1 → Post bad (body s1 c) fun s2 => Smooth s1 s2) :
    Post bad (forEach body cs s) fun s1 => Smooth s s1 := by
  refine Post.mono (Post.forEach (I := fun s1 => Smooth s s1) cs (fun s1 c hc h1 => ?_) s
    (Smooth.smooth_refl s)) fun _ h => h
  exact Post.mono (hbody s1 c hc (h1.wf hw) h1.toFrozen) fun s2 h2 => h1.smooth_trans h2

theorem pressureCell_post {b : Err → Prop} (hv : ¬ b .divByZero) (A : Scalars P V VF)
    {s : Simulator P V VF} (hw : s.WF)
    {c : Int × Int} (hc : c ∈ cells s.N s.M) :
    Post b (pressureCell A s c) fun s1 => Smooth s s1 := by
  unfold pressureCell
  refine Post.bind (Post.rd (inb_of_mem_cells hc) ?_)
  refine Post.ite (fun _ => Post.ok (Smooth.smooth_refl s)) fun hne => ?_
  have ho := open_of_mem_cells hc hne
  exact forEach_smooth deltas s hw fun s1 d hd hw1 hf =>
    pressureDir_post hv A hw1 ((hf.open_iff _ _).mpr ho) hd

theorem phase12_post {b : Err → Prop} (hv : ¬ b .divByZero) (A : Scalars P V VF)
    {s : Simulator P V VF} (hw : s.WF) :
    Post b (phase12 A s) fun s1 => Smooth s s1 := by
  unfold phase12
  refine Post.bind (Post.mono (forEach_smooth (cells s.N s.M) s hw fun s1 c hc hw1 hf =>
    gravityCell_post A hw1 (by rw [hf.N, hf.M]; exact hc)) fun s1 h1 => ?_)
  have h2 := h1.smooth_trans (Smooth.setOldP s1 s1.p)
  refine Post.mono (forEach_smooth (cells s1.N s1.M) _ (h2.wf hw) fun s2 c hc hw2 hf =>
    pressureCell_post hv A hw2 (by rw [hf.N, hf.M]; exact hc)) fun s2 h3 => h2.smooth_trans h3

theorem applyDir_post {b : Err → Prop} (hv : ¬ b .divByZero) (ha : ¬ b .flowAssert)
    (A : Scalars P V VF) {s : Simulator P V VF} (hw : s.WF) {x y : Int}
    (ho : s.Open x y) {d : Int × Int} (hd : d ∈ deltas) :
    Post b (applyDir A x y s d) fun s1 => Smooth s s1 := by
  have hnb := hw.inb_next ho hd
  have hin := hw.inb ho
  unfold applyDir
  refine Post.bind (Post.get (deltaIndex_lt hd) hin.2.1 ?_)
  refine Post.bind (Post.get (deltaIndex_lt hd) hin.2.2 ?_)
  refine Post.ite (fun _ => Post.ok (Smooth.smooth_refl s)) fun _ => ?_
  refine Post.ite (fun _ => Post.error ha) fun _ => ?_
  refine Post.bind (Post.put (deltaIndex_lt hd) hin.2.1 ?_)
  refine Post.bind (Post.rd hin.1 ?_)
  refine Post.bind (Post.rd hnb.1 ?_)
  have h1 := Smooth.setVel s x y ho _ fun a b hab =>
    putRow_other s.velocity x y (deltaIndex d.1 d.2)
      (A.vOfVF (s.velocity_flow.v x y (deltaIndex d.1 d.2))) a b hab
  refine Post.ite (fun _ => ?_) fun hne => ?_
  · refine Post.bind (Post.rd hin.1 ?_)
    refine Post.bind (Post.divide hv fun q => ?_)
    refine Post.bind (Post.rd hin.1 ?_)
    refine Post.setP hin.1 ?_
    exact h1.smooth_trans (Smooth.writeP _ x y ((h1.open_iff x y).mpr ho) _)
  · have hon := hw.open_next ho hd hne
    refine Post.bind (Post.rd hnb.1 ?_)
    refine Post.bind (Post.divide hv fun q => ?_)
    refine Post.bind (Post.rd hnb.1 ?_)
    refine Post.setP hnb.1 ?_
    exact h1.smooth_trans (Smooth.writeP _ _ _ ((h1.open_iff _ _).mpr hon) _)

theorem applyCell_post {b : Err → Prop} (hv : ¬ b .divByZero) (ha : ¬ b .flowAssert)
    (A : Scalars P V VF) {s : Simulator P V VF} (hw : s.WF)
    {c : Int × Int} (hc : c ∈ cells s.N s.M) :
    Post b (applyCell A s c) fun s1 => Smooth s s1 := by
  unfold applyCell
  refine Post.bind (Post.rd (inb_of_mem_cells hc) ?_)
  refine Post.ite (fun _ => Post.ok (Smooth.smooth_refl s)) fun hne => ?_
  have ho := open_of_mem_cells hc hne
  exact forEach_smooth deltas s hw fun s1 d hd hw1 hf =>
    applyDir_post hv ha A hw1 ((hf.open_iff _ _).mpr ho) hd

theorem phase3Apply_post {b : Err → Prop} (hv : ¬ b .divByZero) (ha : ¬ b .flowAssert)
    (A : Scalars P V VF) {s : Simulator P V VF} (hw : s.WF) :
    Post b (phase3Apply A s) fun s1 => Smooth s s1 := by
  unfold phase3Apply
  exact forEach_smooth (cells s.N s.M) s hw fun s1 c hc hw1 hf =>
    applyCell_post hv ha A hw1 (by rw [hf.N, hf.M]; exact hc)

theorem Frozen.setUT (s : Simulator P V VF) (u : Int) : Frozen s { s with UT := u } :=
  ⟨rfl, rfl, rfl, rfl, rfl, rfl, rfl, rfl, rfl, fun _ _ => Iff.rfl, fun _ _ _ => ⟨rfl, rfl⟩⟩

theorem Frozen.resetFlow (s : Simulator P V VF) (vf : VectorField VF)
    (hn : vf.n = s.velocity_flow.n) (hm : vf.m = s.velocity_flow.m) :
    Frozen s { s with velocity_flow := vf } :=
  ⟨rfl, rfl, rfl, rfl, hn, hm, rfl, rfl, rfl, fun _ _ => Iff.rfl, fun _ _ _ => ⟨rfl, rfl⟩⟩

theorem open_mem_cells {s : Simulator P V VF} {x y : Int} (h : s.Open x y) :
    (x, y) ∈ cells s.N s.M :=
  mem_cells.mpr ⟨h.1, h.2.1, h.2.2.1, h.2.2.2.1⟩

theorem flowCell_post {b : Err → Prop} (hf : ¬ b .outOfFuel) (A : Scalars P V VF) (depth : Nat)
    (sp : Simulator P V VF × Bool)
    (hw : sp.1.WF) {c : Int × Int} (hc : c ∈ cells sp.1.N sp.1.M) :
    Post b (flowCell A depth sp c) fun r =>
      Frame sp.1 r.1 ∧ Still sp.1 r.1 ∧ (r.1.Open c.1 c.2 → r.1.Stamped c.1 c.2) := by
  unfold flowCell
  refine Post.bind (Post.rd (inb_of_mem_cells hc) ?_)
  refine Post.ite (fun hwall => Post.ok ⟨Frame.frame_refl _, Still.still_refl _, fun ho => ?_⟩) fun
      hne => ?_
  · exact absurd hwall ho.2.2.2.2
  refine Post.bind (Post.rd (inb_of_mem_cells hc) ?_)
  refine Post.ite (fun hlu => Post.ok ⟨Frame.frame_refl _, Still.still_refl _, fun _ => Or.inl hlu⟩)
    fun _ => ?_
  refine Post.bind (Post.mono
    (PropagateFlow_post hf A depth sp.1 c.1 c.2 _ hw (open_of_mem_cells hc hne)) fun r hr => ?_)
  exact Post.ok ⟨hr.1, hr.2.1, fun _ => hr.2.2⟩

/-- One sweep over the grid with a body that is a frame step, keeps the
preorder `R` and stamps the cell it is called for, when that cell is open:
afterwards all open cells carry a stamp of the pass. -/
theorem sweep_post {bad : Err → Prop} (R : Simulator P V VF → Simulator P V VF → Prop)
    (hrefl : ∀ a, R a a) (htrans : ∀ a b c, R a b → R b c → R a c)
    {body : Simulator P V VF × Bool → Int × Int → Except Err (Simulator P V VF × Bool)}
    (s : Simulator P V VF) (hw : s.WF)
    (hbody : ∀ sp c, sp.1.WF → c ∈ cells sp.1.N sp.1.M →
      Post bad (body sp c) fun r =>
        Frame sp.1 r.1 ∧ R sp.1 r.1 ∧ (r.1.Open c.1 c.2 → r.1.Stamped c.1 c.2))
    (flag : Bool) :
    Post bad (forEach body (cells s.N s.M) (s, flag)) fun r =>
      Frame s r.1 ∧ R s r.1 ∧ ∀ x y, r.1.Open x y → r.1.Stamped x y := by
  refine Post.mono (Post.forEach_all (I := fun sp => Frame s sp.1 ∧ R s sp.1)
    (C := fun c sp => sp.1.Open c.1 c.2 → sp.1.Stamped c.1 c.2) (cells s.N s.M)
    (fun sp c hc hI => ?_) (s, flag) ⟨Frame.frame_refl s, hrefl s⟩)
    fun r hr => ⟨hr.1.1, hr.1.2, fun x y ho => ?_⟩
  · refine Post.mono (hbody sp c (hI.1.wf hw) (by rw [hI.1.N, hI.1.M]; exact hc)) fun r hr => ?_
    refine ⟨⟨hI.1.frame_trans hr.1, htrans _ _ _ hI.2 hr.2.1⟩, hr.2.2, fun c1 hq ho1 => ?_⟩
    exact hr.1.stamped (hq ((hr.1.open_iff _ _).mp ho1))
  · refine hr.2 (x, y) ?_ ho
    have := open_mem_cells ho
    rw [hr.1.1.N, hr.1.1.M] at this
    exact this

theorem flowPasses_post {b : Err → Prop} (hf : ¬ b .outOfFuel) (A : Scalars P V VF)
    (depth iters : Nat) (s : Simulator P V VF)
    (hw : s.WF) :
    Post b (flowPasses A depth iters s) fun s1 =>
      Frozen s s1 ∧ Still s s1 ∧ s1.old_p = s.old_p ∧
        ∀ x y, s1.Open x y → s1.Stamped x y := by
  induction iters generalizing s with
  | zero => exact Post.error hf
  | succ iters ih =>
    simp only [flowPasses]
    have h0 := Frozen.setUT s (s.UT + 2)
    refine Post.bind (Post.mono (sweep_post Still Still.still_refl (fun _ _ _ => Still.still_trans)
      { s with UT := s.UT + 2 } (h0.wf hw) (fun sp c hwp hc =>
        flowCell_post hf A depth sp hwp hc) false) fun r hr => ?_)
    obtain ⟨s1, prop⟩ := r
    simp only [] at hr ⊢
    have hfz : Frozen s s1 := h0.frozen_trans hr.1.toFrozen
    have hst : Still s s1 := Still.still_trans ⟨rfl, rfl, rfl⟩ hr.2.1
    refine Post.ite (fun _ => ?_) fun _ => Post.ok ⟨hfz, hst, hr.1.old_p, hr.2.2⟩
    refine Post.mono (ih s1 (hfz.wf hw)) fun s2 h2 => ?_
    exact ⟨hfz.frozen_trans h2.1, hst.still_trans h2.2.1, h2.2.2.1.trans hr.1.old_p, h2.2.2.2⟩

theorem phase3_post {b : Err → Prop} (hf : ¬ b .outOfFuel) (A : Scalars P V VF)
    (iters depth : Nat) (s : Simulator P V VF)
    (hw : s.WF) :
    Post b (phase3 A iters depth s) fun s1 =>
      Frozen s s1 ∧ Still s s1 ∧ s1.old_p = s.old_p ∧
        ∀ x y, s1.Open x y → s1.Stamped x y := by
  unfold phase3
  have h0 := Frozen.resetFlow s { n := s.N, m := s.M, v := fun _ _ _ => A.vfDefault }
    hw.fn.symm hw.fm.symm
  refine Post.mono (flowPasses_post hf A depth iters _ (h0.wf hw)) fun s1 h1 => ?_
  exact ⟨h0.frozen_trans h1.1, Still.still_trans ⟨rfl, rfl, rfl⟩ h1.2.1, h1.2.2.1, h1.2.2.2⟩

theorem moveCell_post {b : Err → Prop} (hf : ¬ b .outOfFuel) (hm : ¬ b .moveAssert)
    (hn : ¬ b .noDirection) (A : Scalars P V VF) (iters depth : Nat) (sp : Simulator P V VF × Bool)
    (hw : sp.1.WF) {c : Int × Int} (hc : c ∈ cells sp.1.N sp.1.M) :
    Post b (moveCell A iters depth sp c) fun r =>
      Frame sp.1 r.1 ∧ True ∧ (r.1.Open c.1 c.2 → r.1.Stamped c.1 c.2) := by
  unfold moveCell
  refine Post.bind (Post.rd (inb_of_mem_cells hc) ?_)
  refine Post.ite (fun hwall => Post.ok ⟨Frame.frame_refl _, trivial, fun ho => ?_⟩) fun hne => ?_
  · exact absurd hwall ho.2.2.2.2
  refine Post.bind (Post.rd (inb_of_mem_cells hc) ?_)
  refine Post.ite (fun hlu => Post.ok ⟨Frame.frame_refl _, trivial, fun _ => Or.inl hlu⟩)
    fun _ => ?_
  simp only [Simulator.Random01]
  have hf1 := Frame.nextRnd sp.1
  have hw1 := hf1.wf hw
  have ho1 : sp.1.nextRnd.2.Open c.1 c.2 :=
    (hf1.open_iff _ _).mpr (open_of_mem_cells hc hne)
  refine Post.bind (Post.mono (moveProbLoop_post A hw1 ho1 deltas (fun _ h => h) _)
    fun mp _ => ?_)
  refine Post.ite (fun _ => ?_) fun _ => ?_
  · refine Post.bind (Post.mono (PropagateMove_post hf hm hn A iters depth _ c.1 c.2 true hw1 ho1)
      fun r hr => ?_)
    exact Post.ok ⟨hf1.frame_trans hr.1, trivial, fun _ => hr.2.2⟩
  · refine Post.bind (Post.mono (PropagateStop_post hf A depth _ c.1 c.2 true hw1 ho1)
      fun r hr => ?_)
    exact Post.ok ⟨hf1.frame_trans hr.1, trivial, fun _ => hr.2.2 rfl⟩

theorem phase4_post {b : Err → Prop} (hf : ¬ b .outOfFuel) (hm : ¬ b .moveAssert)
    (hn : ¬ b .noDirection) (A : Scalars P V VF) (iters depth : Nat) (s : Simulator P V VF)
    (hw : s.WF) :
    Post b (phase4 A iters depth s) fun r =>
      Frame { s with UT := s.UT + 2 } r.1 ∧ ∀ x y, r.1.Open x y → r.1.Stamped x y := by
  unfold phase4
  have h0 := Frozen.setUT s (s.UT + 2)
  refine Post.mono (sweep_post (fun _ _ => True) (fun _ => trivial) (fun _ _ _ _ _ => trivial)
    { s with UT := s.UT + 2 } (h0.wf hw) (fun sp c hwp hc =>
      moveCell_post hf hm hn A iters depth sp hwp hc) false) fun r hr => ⟨hr.1, hr.2.2⟩

theorem tick_post {b : Err → Prop} (hf : ¬ b .outOfFuel) (hm : ¬ b .moveAssert)
    (hn : ¬ b .noDirection) (hv : ¬ b .divByZero) (ha : ¬ b .flowAssert) (A : Scalars P V VF)
    (iters depth : Nat) (s : Simulator P V VF) (hw : s.WF) :
    Post b (tick A iters depth s) fun r =>
      Frozen s r.1 ∧ ∀ x y, r.1.Open x y → r.1.Stamped x y := by
  unfold tick
  refine Post.bind (Post.mono (phase12_post hv A hw) fun s1 h1 => ?_)
  refine Post.bind (Post.mono (phase3_post hf A iters depth s1 (h1.wf hw)) fun s2 h2 => ?_)
  have hf2 := h1.toFrozen.frozen_trans h2.1
  refine Post.bind (Post.mono (phase3Apply_post hv ha A (hf2.wf hw)) fun s3 h3 => ?_)
  have hf3 := hf2.frozen_trans h3.toFrozen
  refine Post.mono (phase4_post hf hm hn A iters depth s3 (hf3.wf hw)) fun r hr => ?_
  exact ⟨hf3.frozen_trans ((Frozen.setUT s3 _).frozen_trans hr.1.toFrozen), hr.2⟩

theorem ticks_post {b : Err → Prop} (hf : ¬ b .outOfFuel) (hm : ¬ b .moveAssert)
    (hn : ¬ b .noDirection) (hv : ¬ b .divByZero) (ha : ¬ b .flowAssert) (A : Scalars P V VF)
    (iters depth n : Nat) (s : Simulator P V VF)
    (hw : s.WF) : Post b (ticks A iters depth n s) fun s1 => Frozen s s1 := by
  induction n with
  | zero => exact Post.ok (Frozen.frozen_refl s)
  | succ n ih =>
    simp only [ticks]
    refine Post.bind (Post.mono ih fun s1 h1 => ?_)
    refine Post.bind (Post.mono (tick_post hf hm hn hv ha A iters depth s1 (h1.wf hw)) fun r hr =>
        ?_)
    exact Post.ok (h1.frozen_trans hr.1)

/-! ## `dirs` -/

theorem okAnd_elim {α : Type} {m : Except Err α} {q : α → Bool} (h : okAnd m q = true) :
    ∃ a, m = .ok a ∧ q a = true := by
  cases m with
  | error e => exact absurd h (by simp [okAnd])
  | ok a => exact ⟨a, rfl, h⟩

theorem Post.total {α : Type} {m : Except Err α} {Q : α → Prop}
    (h : Post (fun _ => True) m Q) : ∃ a, m = .ok a ∧ Q a := by
  cases m with
  | error e => exact absurd trivial h
  | ok a => exact ⟨a, rfl, h⟩

theorem cells_nodup (n m : Nat) : (cells n m).Nodup := by
  unfold cells
  rw [List.nodup_flatMap]
  refine ⟨fun x _ => ?_, ?_⟩
  · refine List.Nodup.map (fun a b hab => ?_) (List.nodup_range m)
    simpa using hab
  · refine List.Pairwise.imp_of_mem (R := fun a b => a ≠ b) ?_ (List.nodup_range n)
    intro a b _ _ hab
    simp only [Function.onFun, List.Disjoint, List.mem_map]
    rintro c ⟨y1, _, rfl⟩ ⟨y2, _, h2⟩
    simp only [Prod.mk.injEq, Nat.cast_inj] at h2
    exact hab h2.1.symm

theorem dirsLoop_post (s : Simulator P V VF) (x y : Int) (ds : List (Int × Int))
    (hin : s.inb x y) (hds : ∀ d ∈ ds, s.inb (x + d.1) (y + d.2)) :
    Post (fun _ => True)
      (forEach (fun s1 (d : Int × Int) => do
          let cn ← s1.rd s1.field (x + d.1) (y + d.2)
          let cur ← s1.rd s1.dirs x y
          s1.setDirs x y (cur + if cn ≠ '#' then 1 else 0)) ds s)
      fun s1 => s1 = { s with dirs := upd s.dirs x y (s.dirs x y + s.countOpen x y ds) } := by
  induction ds generalizing s with
  | nil =>
    refine Post.ok ?_
    have : upd s.dirs x y (s.dirs x y + s.countOpen x y []) = s.dirs := by
      funext a b
      by_cases hab : a = x ∧ b = y
      · obtain ⟨rfl, rfl⟩ := hab
        simp [upd, Simulator.countOpen]
      · simp [upd, hab]
    rw [this]
  | cons d ds ih =>
    unfold forEach
    refine Post.bind (Post.bind (Post.rd (hds d (List.mem_cons_self _ _)) ?_))
    refine Post.bind (Post.rd hin ?_)
    refine Post.setDirs hin ?_
    refine Post.mono (ih _ hin fun d1 h1 => hds d1 (List.mem_cons_of_mem _ h1)) fun s1 h1 => ?_
    rw [h1]
    have key : ∀ v : Int, v = s.dirs x y + (if s.field (x + d.1) (y + d.2) ≠ '#' then 1 else 0) →
        upd (upd s.dirs x y v) x y
          (upd s.dirs x y v x y + Simulator.countOpen { s with dirs := upd s.dirs x y v } x y ds) =
        upd s.dirs x y (s.dirs x y + s.countOpen x y (d :: ds)) := by
      intro v hv
      funext a b
      by_cases hab : a = x ∧ b = y
      · obtain ⟨rfl, rfl⟩ := hab
        simp only [upd, and_self, if_true, Simulator.countOpen, List.filter_cons, hv]
        by_cases hc : s.field (a + d.1) (b + d.2) = '#'
        · simp [hc]
        · simp [hc]; ring
      · simp [upd, hab]
    simp only [key _ rfl]

theorem dirsCell_post (s : Simulator P V VF) (hw : s.WF) (c : Int × Int)
    (hc : c ∈ cells s.N s.M) :
    Post (fun _ => True) (dirsCell s c) fun s1 =>
      s1 = { s with dirs := upd s.dirs c.1 c.2 (if s.Open c.1 c.2
                then s.dirs c.1 c.2 + s.openNeighbours c.1 c.2 else s.dirs c.1 c.2) } := by
  have hupd : upd s.dirs c.1 c.2 (s.dirs c.1 c.2) = s.dirs := by
    funext a b
    by_cases hab : a = c.1 ∧ b = c.2
    · obtain ⟨rfl, rfl⟩ := hab
      simp [upd]
    · simp [upd, hab]
  unfold dirsCell
  refine Post.bind (Post.rd (inb_of_mem_cells hc) ?_)
  refine Post.ite (fun hwall => Post.ok ?_) fun hne => ?_
  · rw [if_neg (fun ho : s.Open c.1 c.2 => ho.2.2.2.2 hwall), hupd]
  · have ho := open_of_mem_cells hc hne
    rw [if_pos ho]
    exact dirsLoop_post s c.1 c.2 deltas (hw.inb ho).1 fun d hd => (hw.inb_next ho hd).1

theorem initLoop_post (s : Simulator P V VF) (hw : s.WF) (cs : List (Int × Int))
    (hcs : ∀ c ∈ cs, c ∈ cells s.N s.M) (hnd : cs.Nodup) :
    Post (fun _ => True) (forEach dirsCell cs s) fun s1 =>
      s1 = { s with dirs := s1.dirs } ∧
      ∀ x y, s1.dirs x y =
        if (x, y) ∈ cs ∧ s.Open x y then s.dirs x y + s.openNeighbours x y else s.dirs x y := by
  induction cs generalizing s with
  | nil => exact Post.ok ⟨rfl, fun x y => by simp⟩
  | cons c cs ih =>
    unfold forEach
    refine Post.bind (Post.mono (dirsCell_post s hw c (hcs c (List.mem_cons_self _ _)))
      fun s1 h1 => ?_)
    have hfield : s1.field = s.field := by rw [h1]
    have hN : s1.N = s.N := by rw [h1]
    have hM : s1.M = s.M := by rw [h1]
    have hdirs : s1.dirs = upd s.dirs c.1 c.2 (if s.Open c.1 c.2
        then s.dirs c.1 c.2 + s.openNeighbours c.1 c.2 else s.dirs c.1 c.2) := by rw [h1]
    have hw1 : s1.WF := by
      rw [h1]; exact ⟨hw.boundary, hw.vn, hw.vm, hw.fn, hw.fm⟩
    have hopen : ∀ x y, s1.Open x y ↔ s.Open x y := fun x y => by
      unfold Simulator.Open; rw [hfield, hN, hM]
    have hcount : ∀ x y, s1.openNeighbours x y = s.openNeighbours x y := fun x y => by
      unfold Simulator.openNeighbours Simulator.countOpen; rw [hfield]
    refine Post.mono (ih s1 hw1 (fun c1 hc1 => by
      rw [hN, hM]; exact hcs c1 (List.mem_cons_of_mem _ hc1))
      (List.nodup_cons.mp hnd).2) fun s2 h2 => ?_
    refine ⟨?_, fun x y => ?_⟩
    · have h3 := h2.1
      rw [h1] at h3
      exact h3
    · rw [h2.2 x y, hcount, hdirs]
      have hnotin := (List.nodup_cons.mp hnd).1
      by_cases hxy : (x, y) = c
      · subst hxy
        simp only [hnotin, false_and, if_false, List.mem_cons, true_or, true_and, upd, and_self,
          if_true]
      · have hxy1 : ¬ (x = c.1 ∧ y = c.2) := fun h => hxy (Prod.ext h.1 h.2)
        simp only [upd, hxy1, if_false, List.mem_cons, hxy, false_or, hopen]

theorem initDirs_post (s : Simulator P V VF) (hw : s.WF) (hz : ∀ x y, s.dirs x y = 0) :
    Post (fun _ => True) (initDirs s) fun s1 =>
      s1 = { s with dirs := s1.dirs } ∧
      ∀ x y, s1.dirs x y = if s.Open x y then s.openNeighbours x y else 0 := by
  unfold initDirs
  refine Post.mono (initLoop_post s hw (cells s.N s.M) (fun _ h => h) (cells_nodup _ _))
    fun s1 h1 => ⟨h1.1, fun x y => ?_⟩
  rw [h1.2 x y, hz x y, zero_add]
  by_cases ho : s.Open x y
  · rw [if_pos ⟨open_mem_cells ho, ho⟩, if_pos ho]
  · rw [if_neg (fun h => ho h.2), if_neg ho]

/-! ## Walls, `dirs` and stamps over a run -/

theorem init_wf (A : Scalars P V VF) (N M : Nat) (field : Int → Int → Char) (rho : Char → P)
    (g : V) (rnd : Nat → Nat) (hb : (Simulator.init A N M field rho g rnd).wallBoundary) :
    (Simulator.init A N M field rho g rnd).WF :=
  ⟨hb, rfl, rfl, rfl, rfl⟩

theorem Ran.open_iff_init {s s1 : Simulator P V VF} (h : Ran s s1) (x y : Int) :
    s1.Open x y ↔ s.Open x y := by
  unfold Simulator.Open
  rw [h.N, h.M, Ne, Ne, h.walls]

theorem runTicks_post {b : Err → Prop} (hf : ¬ b .outOfFuel) (hm : ¬ b .moveAssert)
    (hn : ¬ b .noDirection) (hv : ¬ b .divByZero) (ha : ¬ b .flowAssert) (A : Scalars P V VF)
    (iters depth n : Nat) (s : Simulator P V VF)
    (hw : s.WF) (hz : ∀ x y, s.dirs x y = 0) :
    Post b (runTicks A iters depth n s) fun s1 => Ran s s1 := by
  unfold runTicks
  refine Post.bind (Post.mono (Post.weaken (initDirs_post s hw hz) fun _ _ => trivial)
    fun s0 h0 => ?_)
  have hfield : s0.field = s.field := by rw [h0.1]
  have hN : s0.N = s.N := by rw [h0.1]
  have hM : s0.M = s.M := by rw [h0.1]
  have hw0 : s0.WF := by
    rw [h0.1]; exact ⟨hw.boundary, hw.vn, hw.vm, hw.fn, hw.fm⟩
  have hcont : ∀ c, s0.content c = s.content c := fun c => by rw [h0.1]; rfl
  have hlu : s0.last_use = s.last_use := by rw [h0.1]
  have hopen : ∀ x y, s0.Open x y ↔ s.Open x y := fun x y => by
    unfold Simulator.Open; rw [hfield, hN, hM]
  refine Post.mono (ticks_post hf hm hn hv ha A iters depth n s0 hw0) fun s1 h1 => ?_
  exact
    { wf := h1.wf hw0
      N := h1.N.trans hN
      M := h1.M.trans hM
      walls := fun x y => by rw [h1.walls, hfield]
      closed := fun x y hc => by
        have := h1.closed x y (fun ho => hc ((hopen x y).mp ho))
        rw [this.1, this.2, hcont, hlu]
        exact ⟨rfl, rfl⟩
      dirs := fun x y => by rw [h1.dirs, h0.2] }

theorem wall_not_open {s : Simulator P V VF} {x y : Int} (h : s.field x y = '#') :
    ¬ s.Open x y := fun ho => ho.2.2.2.2 h

/-- C2. On a grid with a wall boundary, after any number of ticks of `Run` and
for any generator stream, every cell that is `'#'` in the input is `'#'` and
has its initial `p` and its initial velocity entries, and no other cell is
`'#'`. -/
theorem walls_never_change (A : Scalars P V VF) (iters depth n N M : Nat)
    (field : Int → Int → Char) (rho : Char → P) (g : V) (rnd : Nat → Nat)
    (hb : (Simulator.init A N M field rho g rnd).wallBoundary) (s1 : Simulator P V VF)
    (hrun : runTicks A iters depth n (Simulator.init A N M field rho g rnd) = .ok s1)
    (x y : Int) :
    (field x y = '#' →
      s1.field x y = '#' ∧ s1.p x y = A.pDefault ∧ ∀ i, s1.velocity.v x y i = A.vDefault) ∧
    (field x y ≠ '#' → s1.field x y ≠ '#') := by
  have hran := (runTicks_post (b := Err.isAccess) (fun h => h) (fun h => h) (fun h => h) (fun h =>
      h) (fun h => h) A iters depth n _ (init_wf A N M field rho g rnd hb)
    (fun _ _ => rfl)).elim hrun
  refine ⟨fun hwall => ?_, fun hne hc => hne ((hran.walls x y).mp hc)⟩
  have hcl := (hran.closed x y (wall_not_open hwall)).1
  refine ⟨(hran.walls x y).mpr hwall, ?_, fun i => ?_⟩
  · exact congrArg (fun c => c.2.1) hcl
  · exact congrFun (congrArg (fun c => c.2.2) hcl) i

set_option maxRecDepth 100000 in
theorem walls_never_change_witness :
    ∃ s1, runTicks (exactScalars 16 52428) 5 5 4 boxSim = .ok s1 ∧
      s1.field 1 1 = ' ' ∧ s1.field 2 1 = '.' ∧
      ∀ x y, (boxField x y = '#' →
          s1.field x y = '#' ∧ s1.p x y = 0 ∧ ∀ i, s1.velocity.v x y i = 0) ∧
        (boxField x y ≠ '#' → s1.field x y ≠ '#') := by
  obtain ⟨s1, h1, hq⟩ := okAnd_elim (m := runTicks (exactScalars 16 52428) 5 5 4 boxSim)
    (q := fun s => decide (s.field 1 1 = ' ' ∧ s.field 2 1 = '.')) (by decide)
  have hq1 := of_decide_eq_true hq
  exact ⟨s1, h1, hq1.1, hq1.2, fun x y =>
    walls_never_change (exactScalars 16 52428) 5 5 4 4 4 boxField dropRho 6553 (fun _ => 0)
      (by decide) s1 h1 x y⟩

/-- C3, as the code has it. After the loop that fills `dirs` and after every
tick, `dirs[x][y]` of a cell of the grid that is not a wall is the number of
its four neighbours that are not walls, and `dirs[x][y]` of every other cell
is `0`. -/
theorem dirs_counts_open_neighbours (A : Scalars P V VF) (iters depth n N M : Nat)
    (field : Int → Int → Char) (rho : Char → P) (g : V) (rnd : Nat → Nat)
    (hb : (Simulator.init A N M field rho g rnd).wallBoundary) (s1 : Simulator P V VF)
    (hrun : runTicks A iters depth n (Simulator.init A N M field rho g rnd) = .ok s1)
    (x y : Int) :
    s1.dirs x y = if s1.Open x y then s1.openNeighbours x y else 0 := by
  have hran := (runTicks_post (b := Err.isAccess) (fun h => h) (fun h => h) (fun h => h) (fun h =>
      h) (fun h => h) A iters depth n _ (init_wf A N M field rho g rnd hb)
    (fun _ _ => rfl)).elim hrun
  rw [hran.dirs x y]
  have hcount : s1.openNeighbours x y =
      (Simulator.init A N M field rho g rnd).openNeighbours x y := by
    have hfun : (fun d : Int × Int => decide (s1.field (x + d.1) (y + d.2) ≠ '#')) =
        fun d => decide ((Simulator.init A N M field rho g rnd).field (x + d.1) (y + d.2) ≠ '#') :=
            by
      funext d
      simp only [ne_eq, hran.walls]
    unfold Simulator.openNeighbours Simulator.countOpen
    rw [hfun]
  rw [hcount]
  by_cases ho : (Simulator.init A N M field rho g rnd).Open x y
  · rw [if_pos ho, if_pos ((hran.open_iff_init x y).mpr ho)]
  · rw [if_neg ho, if_neg (fun h => ho ((hran.open_iff_init x y).mp h))]

set_option maxRecDepth 100000 in
theorem dirs_counts_open_neighbours_witness :
    ∃ s1, runTicks (exactScalars 16 52428) 5 5 4 boxSim = .ok s1 ∧
      s1.dirs 1 1 = 2 ∧
      ∀ x y, s1.dirs x y = if s1.Open x y then s1.openNeighbours x y else 0 := by
  obtain ⟨s1, h1, hq⟩ := okAnd_elim (m := runTicks (exactScalars 16 52428) 5 5 4 boxSim)
    (q := fun s => decide (s.dirs 1 1 = 2)) (by decide)
  exact ⟨s1, h1, of_decide_eq_true hq, fun x y =>
    dirs_counts_open_neighbours (exactScalars 16 52428) 5 5 4 4 4 boxField dropRho 6553
      (fun _ => 0) (by decide) s1 h1 x y⟩

set_option maxRecDepth 100000 in
/-- C3 fails at a wall: in `innerWallField` the cell `(1, 1)` is a wall with
the open neighbour `(1, 2)`, and its `dirs` entry after the loop of `Run` is
`0`, not `1`. -/
theorem dirs_wall_counterexample :
    ∃ s1, runTicks (exactScalars 16 52428) 5 5 0 innerWallSim = .ok s1 ∧
      innerWallSim.wallBoundary ∧ s1.field 1 1 = '#' ∧ s1.field 1 2 = ' ' ∧
      s1.dirs 1 1 = 0 ∧ s1.openNeighbours 1 1 = 1 := by
  obtain ⟨s1, h1, hq⟩ := okAnd_elim (m := runTicks (exactScalars 16 52428) 5 5 0 innerWallSim)
    (q := fun s => decide (s.field 1 1 = '#' ∧ s.field 1 2 = ' ' ∧ s.dirs 1 1 = 0 ∧
      s.openNeighbours 1 1 = 1)) (by decide)
  have hq1 := of_decide_eq_true hq
  exact ⟨s1, h1, by decide, hq1⟩

/-- C5. On a grid with a wall boundary, in every tick, right after the
`do … while` loop of phase 3 and right after the loop of phase 4 every cell has
`last_use[x][y]` equal to `0`, `UT - 1` or `UT`. -/
theorem last_use_after_passes (A : Scalars P V VF) (iters depth n N M : Nat)
    (field : Int → Int → Char) (rho : Char → P) (g : V) (rnd : Nat → Nat)
    (hb : (Simulator.init A N M field rho g rnd).wallBoundary)
    (s1 s2 s3 : Simulator P V VF)
    (hrun : runTicks A iters depth n (Simulator.init A N M field rho g rnd) = .ok s1)
    (h12 : phase12 A s1 = .ok s2) (h3 : phase3 A iters depth s2 = .ok s3) :
    (∀ x y, s3.last_use x y = 0 ∨ s3.last_use x y = s3.UT - 1 ∨ s3.last_use x y = s3.UT) ∧
    ∀ s4 r, phase3Apply A s3 = .ok s4 → phase4 A iters depth s4 = .ok r →
      ∀ x y, r.1.last_use x y = 0 ∨ r.1.last_use x y = r.1.UT - 1 ∨
        r.1.last_use x y = r.1.UT := by
  have hran := (runTicks_post (b := Err.isAccess) (fun h => h) (fun h => h) (fun h => h) (fun h =>
      h) (fun h => h) A iters depth n _ (init_wf A N M field rho g rnd hb)
    (fun _ _ => rfl)).elim hrun
  have hp12 := (phase12_post (b := Err.isAccess) (fun h => h) A hran.wf).elim h12
  have hw2 := hp12.wf hran.wf
  have hp3 := (phase3_post (b := Err.isAccess) (fun h => h) A iters depth s2 hw2).elim h3
  have hf3 : Frozen s1 s3 := hp12.toFrozen.frozen_trans hp3.1
  have key : ∀ s5 : Simulator P V VF, Frozen s1 s5 → (∀ x y, s5.Open x y → s5.Stamped x y) →
      ∀ x y, s5.last_use x y = 0 ∨ s5.last_use x y = s5.UT - 1 ∨ s5.last_use x y = s5.UT := by
    intro s5 hf hst x y
    by_cases ho : s5.Open x y
    · rcases hst x y ho with h | h
      · exact Or.inr (Or.inr h)
      · exact Or.inr (Or.inl h)
    · have ho1 : ¬ s1.Open x y := fun h => ho ((hf.open_iff x y).mpr h)
      have ho0 : ¬ (Simulator.init A N M field rho g rnd).Open x y :=
        fun h => ho1 ((hran.open_iff_init x y).mpr h)
      left
      rw [(hf.closed x y ho1).2, (hran.closed x y ho0).2]
      rfl
  refine ⟨key s3 hf3 hp3.2.2.2, fun s4 r h3a h4 => ?_⟩
  have hpa := (phase3Apply_post (b := Err.isAccess) (fun h => h) (fun h => h) A (hf3.wf
      hran.wf)).elim h3a
  have hf4 : Frozen s1 s4 := hf3.frozen_trans hpa.toFrozen
  have hp4 := (phase4_post (b := Err.isAccess) (fun h => h) (fun h => h) (fun h => h) A iters depth
      s4 (hf4.wf hran.wf)).elim h4
  exact key r.1 (hf4.frozen_trans ((Frozen.setUT s4 _).frozen_trans hp4.1.toFrozen)) hp4.2

theorem bind_ok_elim {α β : Type} {m : Except Err α} {f : α → Except Err β} {b : β}
    (h : (m >>= f) = .ok b) : ∃ a, m = .ok a ∧ f a = .ok b := by
  cases m with
  | error e => cases h
  | ok a => exact ⟨a, rfl, h⟩

set_option maxRecDepth 100000 in
theorem last_use_after_passes_witness :
    ∃ s1 s2 s3 s4 r, runTicks (exactScalars 16 52428) 5 5 3 boxSim = .ok s1 ∧
      phase12 (exactScalars 16 52428) s1 = .ok s2 ∧
      phase3 (exactScalars 16 52428) 5 5 s2 = .ok s3 ∧
      phase3Apply (exactScalars 16 52428) s3 = .ok s4 ∧
      phase4 (exactScalars 16 52428) 5 5 s4 = .ok r ∧ r.2 = true ∧
      (∀ x y, s3.last_use x y = 0 ∨ s3.last_use x y = s3.UT - 1 ∨ s3.last_use x y = s3.UT) ∧
      ∀ x y, r.1.last_use x y = 0 ∨ r.1.last_use x y = r.1.UT - 1 ∨
        r.1.last_use x y = r.1.UT := by
  obtain ⟨r, h, hq⟩ := okAnd_elim
    (m := runTicks (exactScalars 16 52428) 5 5 3 boxSim >>= fun s1 =>
      phase12 (exactScalars 16 52428) s1 >>= fun s2 =>
      phase3 (exactScalars 16 52428) 5 5 s2 >>= fun s3 =>
      phase3Apply (exactScalars 16 52428) s3 >>= fun s4 =>
      phase4 (exactScalars 16 52428) 5 5 s4)
    (q := fun r => r.2) (by decide)
  obtain ⟨s1, h1, h⟩ := bind_ok_elim h
  obtain ⟨s2, h2, h⟩ := bind_ok_elim h
  obtain ⟨s3, h3, h⟩ := bind_ok_elim h
  obtain ⟨s4, h4, h5⟩ := bind_ok_elim h
  have hthm := last_use_after_passes (exactScalars 16 52428) 5 5 3 4 4 boxField dropRho 6553
    (fun _ => 0) (by decide) s1 s2 s3 h1 h2 h3
  exact ⟨s1, s2, s3, s4, r, h1, h2, h3, h4, h5, hq, hthm.1, hthm.2 s4 r h4 h5⟩

/-! ## The grid of one open cell -/

theorem Idle.idle_refl (s : Simulator P V VF) : Idle s s := ⟨rfl, rfl, rfl, rfl, rfl, rfl, rfl⟩

theorem Idle.idle_trans {s s1 s2 : Simulator P V VF} (h1 : Idle s s1) (h2 : Idle s1 s2) :
    Idle s s2 :=
  ⟨h2.N.trans h1.N, h2.M.trans h1.M, h2.field.trans h1.field, h2.p.trans h1.p,
    h2.velocity.trans h1.velocity, h2.fn.trans h1.fn, h2.fm.trans h1.fm⟩

theorem Idle.ring {s s1 : Simulator P V VF} (h : Idle s s1) (hr : s.Ring) : s1.Ring where
  wf :=
    { boundary := by
        intro c hc hedge
        rw [h.N, h.M] at hc hedge
        rw [h.field]
        exact hr.wf.boundary c hc hedge
      vn := by rw [h.velocity, h.N]; exact hr.wf.vn
      vm := by rw [h.velocity, h.M]; exact hr.wf.vm
      fn := by rw [h.fn, h.N]; exact hr.wf.fn
      fm := by rw [h.fm, h.M]; exact hr.wf.fm }
  N := h.N.trans hr.N
  M := h.M.trans hr.M
  walls := by rw [h.field]; exact hr.walls
  centre := by rw [h.field]; exact hr.centre

theorem Idle.quiet {A : Scalars P V VF} {s s1 : Simulator P V VF} (h : Idle s s1)
    (hq : s.Quiet A) : s1.Quiet A := by
  unfold Simulator.Quiet
  rw [h.velocity]
  exact hq

theorem Simulator.Ring.open_centre {s : Simulator P V VF} (hr : s.Ring) : s.Open 1 1 := by
  unfold Simulator.Open
  rw [hr.N, hr.M]
  exact ⟨by decide, by decide, by decide, by decide, hr.centre⟩

theorem Simulator.Ring.wall_next {s : Simulator P V VF} (hr : s.Ring) {d : Int × Int}
    (hd : d ∈ deltas) : s.field (1 + d.1) (1 + d.2) = '#' := by
  rcases mem_deltas hd with rfl | rfl | rfl | rfl
  · exact hr.walls (0, 1) (by decide) (by decide)
  · exact hr.walls (2, 1) (by decide) (by decide)
  · exact hr.walls (1, 0) (by decide) (by decide)
  · exact hr.walls (1, 2) (by decide) (by decide)

theorem Simulator.Ring.wall_or_centre {s : Simulator P V VF} (hr : s.Ring) {c : Int × Int}
    (hc : c ∈ cells s.N s.M) : s.field c.1 c.2 = '#' ∨ c = (1, 1) := by
  rw [hr.N, hr.M] at hc
  by_cases h : c = (1, 1)
  · exact Or.inr h
  · exact Or.inl (hr.walls c hc h)

theorem ring_stopSpread (A : Scalars P V VF)
    (call : Simulator P V VF → Int → Int → Except Err (Simulator P V VF))
    {s : Simulator P V VF} (hr : s.Ring) (ds : List (Int × Int)) (hds : ∀ d ∈ ds, d ∈ deltas) :
    stopSpread A call 1 1 ds s = .ok s := by
  induction ds with
  | nil => rfl
  | cons d rest ih =>
    obtain ⟨dx, dy⟩ := d
    have hd := hds (dx, dy) (List.mem_cons_self _ _)
    have hnb := hr.wf.inb_next hr.open_centre hd
    have hwall := hr.wall_next hd
    simp only [stopSpread, Simulator.rd, if_pos hnb.1, ok_bind, hwall, if_true]
    exact ih fun d h => hds d (List.mem_cons_of_mem _ h)

theorem ring_PropagateStop (A : Scalars P V VF) (depth : Nat) {s : Simulator P V VF}
    (hr : s.Ring) :
    PropagateStop A (depth + 1) s 1 1 true =
      .ok { s with last_use := upd s.last_use 1 1 s.UT } := by
  have hin := hr.wf.inb hr.open_centre
  have hr1 : Simulator.Ring ({ s with last_use := upd s.last_use 1 1 s.UT } : Simulator P V VF) :=
    Idle.ring (s := s) ⟨rfl, rfl, rfl, rfl, rfl, rfl, rfl⟩ hr
  simp only [PropagateStop, if_true, ok_bind, Simulator.setLastUse, if_pos hin.1]
  exact ring_stopSpread A _ hr1 deltas fun _ h => h

theorem ring_moveProbLoop (A : Scalars P V VF) {s : Simulator P V VF} (hr : s.Ring)
    (ds : List (Int × Int)) (hds : ∀ d ∈ ds, d ∈ deltas) (sum : P) :
    moveProbLoop A s 1 1 ds sum = .ok sum := by
  induction ds with
  | nil => rfl
  | cons d rest ih =>
    obtain ⟨dx, dy⟩ := d
    have hd := hds (dx, dy) (List.mem_cons_self _ _)
    have hnb := hr.wf.inb_next hr.open_centre hd
    have hwall := hr.wall_next hd
    simp only [moveProbLoop, Simulator.rd, if_pos hnb.1, ok_bind, hwall, if_true]
    exact ih fun d h => hds d (List.mem_cons_of_mem _ h)

theorem ring_flowDirs (A : Scalars P V VF)
    (call : Simulator P V VF → Int → Int → P →
      Except Err (Simulator P V VF × P × Bool × (Int × Int)))
    (lim : P) {s : Simulator P V VF} (hr : s.Ring) (ds : List (Int × Int))
    (hds : ∀ d ∈ ds, d ∈ deltas) (ret : P) :
    flowDirs A call 1 1 lim ds s ret =
      .ok ({ s with last_use := upd s.last_use 1 1 s.UT }, ret, false, (0, 0)) := by
  induction ds with
  | nil =>
    have hin := hr.wf.inb hr.open_centre
    simp only [flowDirs, Simulator.setLastUse, if_pos hin.1, ok_bind]
  | cons d rest ih =>
    obtain ⟨dx, dy⟩ := d
    have hd := hds (dx, dy) (List.mem_cons_self _ _)
    have hnb := hr.wf.inb_next hr.open_centre hd
    have hwall := hr.wall_next hd
    simp only [flowDirs, Simulator.rd, if_pos hnb.1, ok_bind, hwall, if_true]
    exact ih fun d h => hds d (List.mem_cons_of_mem _ h)

theorem ring_PropagateFlow (A : Scalars P V VF) (depth : Nat) (lim : P) {s : Simulator P V VF}
    (hr : s.Ring) :
    ∃ s1, PropagateFlow A (depth + 1) s 1 1 lim = .ok (s1, A.pOfInt 0, false, (0, 0)) ∧
      Idle s s1 ∧ s1.UT = s.UT := by
  have hin := hr.wf.inb hr.open_centre
  have hr1 : Simulator.Ring
      ({ s with last_use := upd s.last_use 1 1 (s.UT - 1) } : Simulator P V VF) :=
    Idle.ring (s := s) ⟨rfl, rfl, rfl, rfl, rfl, rfl, rfl⟩ hr
  simp only [PropagateFlow, Simulator.setLastUse, if_pos hin.1, ok_bind]
  rw [ring_flowDirs A _ lim hr1 deltas (fun _ h => h)]
  exact ⟨_, rfl, ⟨rfl, rfl, rfl, rfl, rfl, rfl, rfl⟩, rfl⟩

theorem cells_three : cells 3 3 =
    [(0, 0), (0, 1), (0, 2), (1, 0), (1, 1), (1, 2), (2, 0), (2, 1), (2, 2)] := by
  decide

/-- A loop over the grid of one open cell whose body passes over walls does
what its body does at the centre. -/
theorem forEach_ring {σ : Type} (body : σ → Int × Int → Except Err σ) {I : σ → Prop}
    {R : σ → σ → Prop}
    (hwall : ∀ sp c, I sp → c ∈ cells 3 3 → c ≠ (1, 1) → body sp c = .ok sp)
    (hcentre : ∀ sp, I sp → ∃ sp1, body sp (1, 1) = .ok sp1 ∧ I sp1 ∧ R sp sp1)
    (sp : σ) (hsp : I sp) :
    ∃ sp1, forEach body (cells 3 3) sp = .ok sp1 ∧ I sp1 ∧ R sp sp1 := by
  obtain ⟨sp1, h1, hI1, hR⟩ := hcentre sp hsp
  refine ⟨sp1, ?_, hI1, hR⟩
  rw [cells_three]
  simp only [forEach]
  rw [hwall sp (0, 0) hsp (by decide) (by decide), ok_bind,
    hwall sp (0, 1) hsp (by decide) (by decide), ok_bind,
    hwall sp (0, 2) hsp (by decide) (by decide), ok_bind,
    hwall sp (1, 0) hsp (by decide) (by decide), ok_bind, h1, ok_bind,
    hwall sp1 (1, 2) hI1 (by decide) (by decide), ok_bind,
    hwall sp1 (2, 0) hI1 (by decide) (by decide), ok_bind,
    hwall sp1 (2, 1) hI1 (by decide) (by decide), ok_bind,
    hwall sp1 (2, 2) hI1 (by decide) (by decide), ok_bind]

theorem forEach_id {σ β : Type} {body : σ → β → Except Err σ} (cs : List β) (s : σ)
    (h : ∀ c ∈ cs, body s c = .ok s) : forEach body cs s = .ok s := by
  induction cs with
  | nil => rfl
  | cons c cs ih =>
    simp only [forEach, h c (List.mem_cons_self _ _), ok_bind]
    exact ih fun c1 h1 => h c1 (List.mem_cons_of_mem _ h1)

theorem Simulator.Ring.rd_wall {s : Simulator P V VF} (hr : s.Ring) {c : Int × Int}
    (hc : c ∈ cells 3 3) (hne : c ≠ (1, 1)) : s.rd s.field c.1 c.2 = .ok '#' := by
  have hin : s.inb c.1 c.2 := inb_of_mem_cells (by rw [hr.N, hr.M]; exact hc)
  unfold Simulator.rd
  rw [if_pos hin, hr.walls c hc hne]

theorem Simulator.Ring.rd_centre {α : Type} {s : Simulator P V VF} (hr : s.Ring)
    (a : Int → Int → α) : s.rd a 1 1 = .ok (a 1 1) := by
  unfold Simulator.rd
  rw [if_pos (hr.wf.inb hr.open_centre).1]

theorem Simulator.Ring.rd_next {s : Simulator P V VF} (hr : s.Ring) {d : Int × Int}
    (hd : d ∈ deltas) : s.rd s.field (1 + d.1) (1 + d.2) = .ok '#' := by
  unfold Simulator.rd
  rw [if_pos (hr.wf.inb_next hr.open_centre hd).1, hr.wall_next hd]

theorem ring_phase12 (A : Scalars P V VF) {s : Simulator P V VF} (hr : s.Ring) :
    ∃ s1, phase12 A s = .ok s1 ∧ Idle s s1 ∧ s1.UT = s.UT := by
  have hg : forEach (gravityCell A) (cells s.N s.M) s = .ok s := by
    refine forEach_id _ s fun c hc => ?_
    rcases hr.wall_or_centre hc with hwall | rfl
    · have hin : s.inb c.1 c.2 := inb_of_mem_cells hc
      simp only [gravityCell, Simulator.rd, if_pos hin, ok_bind, hwall, if_true]
    · have hnext := hr.rd_next (d := (1, 0)) (by decide)
      simp only [add_zero] at hnext
      simp only [gravityCell, hr.rd_centre, ok_bind, if_neg hr.centre, hnext]
      simp
  have hr1 : Simulator.Ring ({ s with old_p := s.p } : Simulator P V VF) :=
    Idle.ring (s := s) ⟨rfl, rfl, rfl, rfl, rfl, rfl, rfl⟩ hr
  have hp : ∀ s1 : Simulator P V VF, s1.Ring →
      forEach (pressureCell A) (cells s1.N s1.M) s1 = .ok s1 := by
    intro s1 h1
    refine forEach_id _ s1 fun c hc => ?_
    rcases h1.wall_or_centre hc with hwall | rfl
    · have hin : s1.inb c.1 c.2 := inb_of_mem_cells hc
      simp only [pressureCell, Simulator.rd, if_pos hin, ok_bind, hwall, if_true]
    · simp only [pressureCell, h1.rd_centre, ok_bind, if_neg h1.centre]
      refine forEach_id _ s1 fun d hd => ?_
      simp only [pressureDir, h1.rd_next hd, ok_bind, if_true]
  refine ⟨{ s with old_p := s.p }, ?_, ⟨rfl, rfl, rfl, rfl, rfl, rfl, rfl⟩, rfl⟩
  unfold phase12
  rw [hg, ok_bind]
  exact hp _ hr1

theorem ring_phase3Apply (A : Scalars P V VF) {s : Simulator P V VF} (hr : s.Ring)
    (hq : s.Quiet A) : phase3Apply A s = .ok s := by
  unfold phase3Apply
  refine forEach_id _ s fun c hc => ?_
  rcases hr.wall_or_centre hc with hwall | rfl
  · have hin : s.inb c.1 c.2 := inb_of_mem_cells hc
    simp only [applyCell, Simulator.rd, if_pos hin, ok_bind, hwall, if_true]
  · simp only [applyCell, hr.rd_centre, ok_bind, if_neg hr.centre]
    refine forEach_id _ s fun d hd => ?_
    have hin := hr.wf.inb hr.open_centre
    have hv := hq (deltaIndex d.1 d.2) (deltaIndex_lt hd)
    simp only [applyDir, VectorField.Get, if_pos (deltaIndex_lt hd), if_pos hin.2.1,
      if_pos hin.2.2, ok_bind, hv]
    simp

theorem ring_phase3 (A : Scalars P V VF) (hA : A.Sane) (iters depth : Nat)
    {s : Simulator P V VF} (hr : s.Ring) :
    ∃ s1, phase3 A (iters + 1) (depth + 1) s = .ok s1 ∧ Idle s s1 ∧ s1.UT = s.UT + 2 := by
  have hi0 : Idle s ({ s with
      velocity_flow := { n := s.N, m := s.M, v := fun _ _ _ => A.vfDefault },
      UT := s.UT + 2 } : Simulator P V VF) :=
    ⟨rfl, rfl, rfl, rfl, rfl, hr.wf.fn.symm, hr.wf.fm.symm⟩
  have hr0 := hi0.ring hr
  obtain ⟨sp1, h1, hI1, hR⟩ := forEach_ring (flowCell A (depth + 1))
    (I := fun sp => sp.1.Ring ∧ sp.2 = false)
    (R := fun sp sp1 => Idle sp.1 sp1.1 ∧ sp1.1.UT = sp.1.UT)
    (fun sp c hI hc hne => by
      simp only [flowCell, hI.1.rd_wall hc hne, ok_bind, if_true])
    (fun sp hI => by
      by_cases hlu : sp.1.last_use 1 1 = sp.1.UT
      · refine ⟨sp, ?_, hI, Idle.idle_refl _, rfl⟩
        simp only [flowCell, hI.1.rd_centre, ok_bind, if_neg hI.1.centre, if_pos hlu]
      · obtain ⟨s1, hf, hidle, hUT⟩ := ring_PropagateFlow A depth (A.pOfInt 1) hI.1
        refine ⟨(s1, false), ?_, ⟨hidle.ring hI.1, rfl⟩, hidle, hUT⟩
        simp only [flowCell, hI.1.rd_centre, ok_bind, if_neg hI.1.centre, if_neg hlu, hf,
          hA.zero_irrefl, hI.2]
        rfl)
    ({ s with velocity_flow := { n := s.N, m := s.M, v := fun _ _ _ => A.vfDefault },
              UT := s.UT + 2 }, false) ⟨hr0, rfl⟩
  obtain ⟨s1, flag⟩ := sp1
  simp only at hI1 hR h1
  refine ⟨s1, ?_, hi0.idle_trans hR.1, hR.2⟩
  unfold phase3
  simp only [flowPasses]
  rw [hr.N, hr.M]
  rw [hr.N, hr.M] at h1
  rw [h1, ok_bind, hI1.2]
  rfl

theorem ring_phase4 (A : Scalars P V VF) (hA : A.Sane) (iters depth : Nat)
    {s : Simulator P V VF} (hr : s.Ring) :
    ∃ s1, phase4 A iters (depth + 1) s = .ok (s1, false) ∧ Idle s s1 ∧ s1.UT = s.UT + 2 := by
  have hi0 : Idle s ({ s with UT := s.UT + 2 } : Simulator P V VF) :=
    ⟨rfl, rfl, rfl, rfl, rfl, rfl, rfl⟩
  have hr0 := hi0.ring hr
  obtain ⟨sp1, h1, hI1, hR⟩ := forEach_ring (moveCell A iters (depth + 1))
    (I := fun sp => sp.1.Ring ∧ sp.2 = false)
    (R := fun sp sp1 => Idle sp.1 sp1.1 ∧ sp1.1.UT = sp.1.UT)
    (fun sp c hI hc hne => by
      simp only [moveCell, hI.1.rd_wall hc hne, ok_bind, if_true])
    (fun sp hI => by
      by_cases hlu : sp.1.last_use 1 1 = sp.1.UT
      · refine ⟨sp, ?_, hI, Idle.idle_refl _, rfl⟩
        simp only [moveCell, hI.1.rd_centre, ok_bind, if_neg hI.1.centre, if_pos hlu]
      · have hr2 : sp.1.nextRnd.2.Ring :=
          Idle.ring (s := sp.1) ⟨rfl, rfl, rfl, rfl, rfl, rfl, rfl⟩ hI.1
        refine ⟨({ sp.1.nextRnd.2 with
            last_use := upd sp.1.nextRnd.2.last_use 1 1 sp.1.nextRnd.2.UT }, false), ?_,
          ⟨Idle.ring (s := sp.1) ⟨rfl, rfl, rfl, rfl, rfl, rfl, rfl⟩ hI.1, rfl⟩,
          ⟨rfl, rfl, rfl, rfl, rfl, rfl, rfl⟩, rfl⟩
        simp only [moveCell, hI.1.rd_centre, ok_bind, if_neg hI.1.centre, if_neg hlu,
          Simulator.Random01, MoveProb, ring_moveProbLoop A hr2 deltas (fun _ h => h),
          hA.random_nonneg, ring_PropagateStop A depth hr2, hI.2]
        rfl)
    ({ s with UT := s.UT + 2 }, false) ⟨hr0, rfl⟩
  obtain ⟨s1, flag⟩ := sp1
  simp only at hI1 hR h1
  refine ⟨s1, ?_, hi0.idle_trans hR.1, hR.2⟩
  unfold phase4
  rw [hr.N, hr.M]
  rw [hr.N, hr.M] at h1
  rw [h1, hI1.2]

theorem ring_tick (A : Scalars P V VF) (hA : A.Sane) (iters depth : Nat)
    {s : Simulator P V VF} (hr : s.Ring) (hq : s.Quiet A) :
    ∃ s1, tick A (iters + 1) (depth + 1) s = .ok (s1, false) ∧ Idle s s1 ∧
      s1.UT = s.UT + 4 := by
  obtain ⟨s1, h1, i1, u1⟩ := ring_phase12 A hr
  obtain ⟨s2, h2, i2, u2⟩ := ring_phase3 A hA iters depth (i1.ring hr)
  have hr2 := i2.ring (i1.ring hr)
  have h3 := ring_phase3Apply A hr2 (i2.quiet (i1.quiet hq))
  obtain ⟨s4, h4, i4, u4⟩ := ring_phase4 A hA (iters + 1) depth hr2
  refine ⟨s4, ?_, (i1.idle_trans i2).idle_trans i4, by rw [u4, u2, u1]; ring⟩
  unfold tick
  rw [h1, ok_bind, h2, ok_bind, h3, ok_bind, h4]

theorem ring_ticks (A : Scalars P V VF) (hA : A.Sane) (iters depth n : Nat)
    {s : Simulator P V VF} (hr : s.Ring) (hq : s.Quiet A) :
    ∃ s1, ticks A (iters + 1) (depth + 1) n s = .ok s1 ∧ Idle s s1 ∧
      s1.UT = s.UT + 4 * n := by
  induction n with
  | zero => exact ⟨s, rfl, Idle.idle_refl s, by simp⟩
  | succ n ih =>
    obtain ⟨s1, h1, i1, u1⟩ := ih
    obtain ⟨s2, h2, i2, u2⟩ := ring_tick A hA iters depth (i1.ring hr) (i1.quiet hq)
    refine ⟨s2, ?_, i1.idle_trans i2, by rw [u2, u1]; push_cast; ring⟩
    simp only [ticks, h1, ok_bind, h2]

theorem ring_init (A : Scalars P V VF) (hA : A.Sane) (field : Int → Int → Char)
    (rho : Char → P) (g : V) (rnd : Nat → Nat)
    (hwalls : ∀ c ∈ cells 3 3, c ≠ (1, 1) → field c.1 c.2 = '#') (hcentre : field 1 1 ≠ '#') :
    (Simulator.init A 3 3 field rho g rnd).Ring ∧ (Simulator.init A 3 3 field rho g rnd).Quiet A :=
        by
  refine ⟨⟨⟨fun c hc hedge => hwalls c hc ?_, rfl, rfl, rfl, rfl⟩, rfl, rfl, hwalls, hcentre⟩,
    fun _ _ => hA.default_not_pos⟩
  rintro rfl
  have h : (1 : Int) = 0 ∨ (1 : Int) = ((3 : Nat) : Int) - 1 ∨ (1 : Int) = 0 ∨
      (1 : Int) = ((3 : Nat) : Int) - 1 := hedge
  revert h
  decide

/-- The run on the grid of one open cell: every tick leaves `field`, `p` and
`velocity` alone, does not report, and advances `UT` by four. -/
theorem ring_runTicks (A : Scalars P V VF) (hA : A.Sane) (iters depth n : Nat)
    (field : Int → Int → Char) (rho : Char → P) (g : V) (rnd : Nat → Nat)
    (hwalls : ∀ c ∈ cells 3 3, c ≠ (1, 1) → field c.1 c.2 = '#') (hcentre : field 1 1 ≠ '#') :
    ∃ s1, runTicks A (iters + 1) (depth + 1) n (Simulator.init A 3 3 field rho g rnd) = .ok s1 ∧
      Idle (Simulator.init A 3 3 field rho g rnd) s1 ∧ s1.UT = 4 * n ∧ s1.Ring ∧ s1.Quiet A := by
  obtain ⟨hr, hq⟩ := ring_init A hA field rho g rnd hwalls hcentre
  obtain ⟨s0, h0, hd0, _⟩ := (initDirs_post _ hr.wf (fun _ _ => rfl)).total
  have hi0 : Idle (Simulator.init A 3 3 field rho g rnd) s0 := by
    rw [hd0]; exact ⟨rfl, rfl, rfl, rfl, rfl, rfl, rfl⟩
  have hu0 : s0.UT = 0 := by rw [hd0]; rfl
  obtain ⟨s1, h1, hi1, hu1⟩ := ring_ticks A hA iters depth n (hi0.ring hr) (hi0.quiet hq)
  refine ⟨s1, ?_, hi0.idle_trans hi1, by rw [hu1, hu0, zero_add], hi1.ring (hi0.ring hr),
    hi1.quiet (hi0.quiet hq)⟩
  unfold runTicks
  rw [h0, ok_bind, h1]

theorem exactScalars_sane (K : Nat) (c08 : Int) : (exactScalars K c08).Sane where
  random_nonneg := fun r => by
    have : (0 : Int) ≤ (r : Int) % 2 ^ K := Int.emod_nonneg _ (by positivity)
    simp only [exactScalars, zero_mul, decide_eq_false_iff_not, not_lt]
    exact_mod_cast this
  zero_irrefl := by simp [exactScalars]
  default_not_pos := by simp [exactScalars]

/-- C6, as the code has it. On the minimal grid (a ring of walls around one
space cell), for any densities and `g`, the 5000 ticks of `Run` leave the
field equal to the input and end with `UT = 20000`: each tick adds 2 to `UT`
in its one sweep of phase 3 and 2 in phase 4. -/
theorem minimal_grid_run (A : Scalars P V VF) (hA : A.Sane) (iters depth : Nat)
    (hi : 0 < iters) (hd : 0 < depth) (field : Int → Int → Char) (rho : Char → P) (g : V)
    (rnd : Nat → Nat) (hwalls : ∀ c ∈ cells 3 3, c ≠ (1, 1) → field c.1 c.2 = '#')
    (hcentre : field 1 1 = ' ') :
    ∃ s1, Run A iters depth (Simulator.init A 3 3 field rho g rnd) = .ok s1 ∧
      s1.field = field ∧ s1.UT = 20000 := by
  obtain ⟨i, rfl⟩ : ∃ i, iters = i + 1 := ⟨iters - 1, by omega⟩
  obtain ⟨j, rfl⟩ : ∃ j, depth = j + 1 := ⟨depth - 1, by omega⟩
  obtain ⟨s1, h1, hidle, hUT, _⟩ := ring_runTicks A hA i j t field rho g rnd hwalls
    (by rw [hcentre]; decide)
  exact ⟨s1, h1, hidle.field, by rw [hUT]; rfl⟩

theorem minimal_grid_run_witness :
    ∃ s1, Run (exactScalars 16 52428) 1 1
        (Simulator.init (exactScalars 16 52428) 3 3 (ringField ' ') dropRho 6553 fun _ => 0) =
          .ok s1 ∧ s1.field = ringField ' ' ∧ s1.UT = 20000 :=
  minimal_grid_run (exactScalars 16 52428) (exactScalars_sane 16 52428) 1 1 (by decide)
    (by decide) (ringField ' ') dropRho 6553 (fun _ => 0) (by decide) (by decide)

/-- C6 fails as stated: on the minimal grid with `rho_air = 0.01`,
`rho_fluid = 1000`, `g = 0.1` (raw values with 16 fractional bits) the run
ends with `UT = 20000`, not `10000`. -/
theorem minimal_grid_UT_counterexample :
    ∃ s1, Run (exactScalars 16 52428) 1 1
        (Simulator.init (exactScalars 16 52428) 3 3 (ringField ' ') dropRho 6553 fun _ => 0) =
          .ok s1 ∧ s1.field = ringField ' ' ∧ s1.UT = 20000 ∧ ¬ s1.UT = 10000 := by
  obtain ⟨s1, h1, hidle, hUT, _⟩ := ring_runTicks (exactScalars 16 52428)
    (exactScalars_sane 16 52428) 0 0 t (ringField ' ') dropRho 6553 (fun _ => 0) (by decide)
    (by decide)
  have h20 : s1.UT = 20000 := by rw [hUT]; rfl
  exact ⟨s1, h1, hidle.field, h20, by rw [h20]; decide⟩

/-- C7. On a grid of three rows and three columns whose border is walls and
whose centre is not a wall, every tick of `Run` ends with the flag `prop`
false (so no tick is reported and `PropagateMove`, whose call sets the flag,
is not called) and leaves `field`, `p` and `velocity` as they were. -/
theorem single_cell_never_moves (A : Scalars P V VF) (hA : A.Sane) (iters depth n : Nat)
    (hi : 0 < iters) (hd : 0 < depth) (field : Int → Int → Char) (rho : Char → P) (g : V)
    (rnd : Nat → Nat) (hwalls : ∀ c ∈ cells 3 3, c ≠ (1, 1) → field c.1 c.2 = '#')
    (hcentre : field 1 1 ≠ '#') :
    ∃ s1 s2, runTicks A iters depth n (Simulator.init A 3 3 field rho g rnd) = .ok s1 ∧
      tick A iters depth s1 = .ok (s2, false) ∧
      s2.field = s1.field ∧ s2.p = s1.p ∧ s2.velocity = s1.velocity := by
  obtain ⟨i, rfl⟩ : ∃ i, iters = i + 1 := ⟨iters - 1, by omega⟩
  obtain ⟨j, rfl⟩ : ∃ j, depth = j + 1 := ⟨depth - 1, by omega⟩
  obtain ⟨s1, h1, _, _, hr, hq⟩ := ring_runTicks A hA i j n field rho g rnd hwalls hcentre
  obtain ⟨s2, h2, hidle, _⟩ := ring_tick A hA i j hr hq
  exact ⟨s1, s2, h1, h2, hidle.field, hidle.p, hidle.velocity⟩

theorem single_cell_never_moves_witness :
    ∃ s1 s2, runTicks (exactScalars 16 52428) 1 1 7
        (Simulator.init (exactScalars 16 52428) 3 3 (ringField '.') dropRho 6553 fun _ => 0) =
          .ok s1 ∧
      tick (exactScalars 16 52428) 1 1 s1 = .ok (s2, false) ∧
      s2.field = s1.field ∧ s2.p = s1.p ∧ s2.velocity = s1.velocity :=
  single_cell_never_moves (exactScalars 16 52428) (exactScalars_sane 16 52428) 1 1 7 (by decide)
    (by decide) (ringField '.') dropRho 6553 (fun _ => 0) (by decide) (by decide)

/-! ## Exact fixed-point arithmetic: velocities and flows -/

theorem Post.and_weak {α : Type} {bad : Err → Prop} {m : Except Err α} {Q R : α → Prop}
    (h1 : Post bad m Q) (h2 : Post (fun _ => False) m R) : Post bad m fun a => Q a ∧ R a := by
  cases m with
  | error e => exact h1
  | ok a => exact ⟨h1, h2⟩

theorem forEach_smooth_inv {bad : Err → Prop} {β : Type}
    {body : Simulator Int Int Int → β → Except Err (Simulator Int Int Int)}
    (J : Simulator Int Int Int → Prop) (cs : List β) (s : Simulator Int Int Int) (hw : s.WF)
    (hJ : J s)
    (hbody : ∀ s1 c, c ∈ cs → s1.WF → Frozen s s1 → J s1 →
      Post bad (body s1 c) fun s2 => Smooth s1 s2 ∧ J s2) :
    Post bad (forEach body cs s) fun s1 => Smooth s s1 ∧ J s1 := by
  refine Post.mono (Post.forEach (I := fun s1 => Smooth s s1 ∧ J s1) cs (fun s1 c hc h1 => ?_) s
    ⟨Smooth.smooth_refl s, hJ⟩) fun _ h => h
  exact Post.mono (hbody s1 c hc (h1.1.wf hw) h1.1.toFrozen h1.2)
    fun s2 h2 => ⟨h1.1.smooth_trans h2.1, h2.2⟩

theorem nonNeg_put {s : Simulator Int Int Int} (hn : s.NonNeg) (x y : Int) (k : Nat) (val : Int)
    (hval : 0 ≤ val) (a b : Int) (i : Nat) :
    0 ≤ if a = x ∧ b = y ∧ i = k then val else s.velocity.v a b i := by
  split
  · exact hval
  · exact hn a b i

theorem gravityCell_nonneg {b : Err → Prop} (K : Nat) (c08 : Int) {s : Simulator Int Int Int}
    (hw : s.WF) {c : Int × Int} (hc : c ∈ cells s.N s.M) (hg : 0 ≤ s.g) (hn : s.NonNeg) :
    Post b (gravityCell (exactScalars K c08) s c) fun s1 => s1.NonNeg := by
  unfold gravityCell
  refine Post.bind (Post.rd (inb_of_mem_cells hc) ?_)
  refine Post.ite (fun _ => Post.ok hn) fun hne => ?_
  have ho := open_of_mem_cells hc hne
  have hd : ((1 : Int), (0 : Int)) ∈ deltas := by decide
  have hnb := hw.inb_next ho hd
  simp only [add_zero] at hnb
  refine Post.bind (Post.rd hnb.1 ?_)
  refine Post.ite (fun _ => ?_) fun _ => Post.ok hn
  refine Post.bind (Post.add (deltaIndex_lt hd) (hw.inb ho).2.1 (Post.ok ?_))
  exact fun a b i => nonNeg_put hn _ _ _ _ (add_nonneg (hn _ _ _) hg) a b i

theorem shiftRight_nonneg {a : Int} (K : Nat) (h : 0 ≤ a) : 0 ≤ a >>> K := by
  rw [Int.shiftRight_eq_div_pow]
  exact Int.ediv_nonneg h (by positivity)

/-- If `force ≤ ⌊contr · rho / 2^K⌋` then the quotient `force / rho` in fixed
point is at most `contr`. -/
theorem quotient_le_of_le_product {K : Nat} {force contr rho : Int} (hrho : 0 < rho)
    (hforce : 0 ≤ force) (h : force ≤ (contr * rho) >>> K) :
    (force * 2 ^ K).tdiv rho ≤ contr := by
  have hpow : (0 : Int) < 2 ^ K := by positivity
  rw [Int.shiftRight_eq_div_pow] at h
  have h1 : force * 2 ^ K ≤ contr * rho := by
    have := Int.ediv_mul_le (contr * rho) (ne_of_gt hpow)
    have h2 : force * 2 ^ K ≤ contr * rho / 2 ^ K * 2 ^ K :=
      Int.mul_le_mul_of_nonneg_right (by exact_mod_cast h) (le_of_lt hpow)
    push_cast at this h2 ⊢
    omega
  rw [Int.tdiv_eq_ediv (by positivity) (le_of_lt hrho)]
  exact Int.ediv_le_of_le_mul hrho h1

theorem quotient_nonneg {K : Nat} {force rho : Int} (hrho : 0 < rho) (hforce : 0 ≤ force) :
    0 ≤ (force * 2 ^ K).tdiv rho := by
  rw [Int.tdiv_eq_ediv (by positivity) (le_of_lt hrho)]
  exact Int.ediv_nonneg (by positivity) (le_of_lt hrho)

theorem Post.divide_eq {bad : Err → Prop} {A : Scalars P V VF} {a b : P} {Q : P → Prop}
    (hb : ¬ bad .divByZero) (h : ∀ q, A.pDiv a b = some q → Q q) :
    Post bad (Fluid.divide A a b) Q := by
  unfold Fluid.divide
  cases hq : A.pDiv a b with
  | none => exact hb
  | some q => exact h q hq

theorem nonneg_upd (v : Int → Int → Nat → Int) (hv : ∀ a b i, 0 ≤ v a b i) (x y : Int) (k : Nat)
    (val : Int) (hval : 0 ≤ val) (a b : Int) (i : Nat) :
    0 ≤ if a = x ∧ b = y ∧ i = k then val else v a b i := by
  split
  · exact hval
  · exact hv a b i

theorem exact_div {K : Nat} {c08 a b q : Int} (h : (exactScalars K c08).pDiv a b = some q) :
    b ≠ 0 ∧ q = (a * 2 ^ K).tdiv b := by
  simp only [exactScalars] at h
  split at h
  · cases h
  · exact ⟨‹_›, (Option.some.inj h).symm⟩

theorem pressureDir_nonneg {b : Err → Prop} (hv : ¬ b .divByZero) (K : Nat) (c08 : Int)
    {s : Simulator Int Int Int} (hw : s.WF) {x y : Int} (ho : s.Open x y) {d : Int × Int}
    (hd : d ∈ deltas) (hrho : s.RhoPos) (hn : s.NonNeg) :
    Post b (pressureDir (exactScalars K c08) x y s d) fun s1 => s1.NonNeg := by
  have hnb := hw.inb_next ho hd
  have hin := hw.inb ho
  unfold pressureDir
  refine Post.bind (Post.rd hnb.1 ?_)
  refine Post.ite (fun _ => Post.ok hn) fun hne => ?_
  have hon := hw.open_next ho hd hne
  refine Post.bind (Post.rd hnb.1 ?_)
  refine Post.bind (Post.rd hin.1 ?_)
  refine Post.ite (fun _ => Post.ok hn) fun hlt => ?_
  have hforce : 0 < s.old_p x y - s.old_p (x + d.1) (y + d.2) := by
    simp only [exactScalars, decide_eq_true_eq, not_not] at hlt
    omega
  refine Post.bind (Post.get (deltaIndex_neg_lt hd) hnb.2 ?_)
  have hcontr := hn (x + d.1) (y + d.2) (deltaIndex (-d.1) (-d.2))
  have hrn := hrho _ _ hon
  have hrc := hrho _ _ ho
  refine Post.ite (fun hle => ?_) fun hnle => ?_
  · refine Post.bind (Post.divide_eq hv fun q hq => ?_)
    refine Post.bind (Post.put (deltaIndex_neg_lt hd) hnb.2 (Post.ok ?_))
    have hq1 := (exact_div hq).2
    simp only [exactScalars, decide_eq_true_eq] at hle hq1
    refine fun a b i => nonneg_upd _ hn _ _ _ _ ?_ a b i
    have := quotient_le_of_le_product hrn (le_of_lt hforce) hle
    simp only [exactScalars]
    omega
  · refine Post.bind (Post.put (deltaIndex_neg_lt hd) hnb.2 ?_)
    refine Post.bind (Post.rd hin.1 ?_)
    refine Post.bind (Post.divide_eq hv fun q hq => ?_)
    refine Post.bind (Post.add (deltaIndex_lt hd) hin.2.1 ?_)
    refine Post.bind (Post.rd hin.1 ?_)
    refine Post.bind (Post.divide hv fun q1 => ?_)
    refine Post.bind (Post.rd hin.1 ?_)
    refine Post.setP hin.1 ?_
    have hq1 := (exact_div hq).2
    simp only [exactScalars, decide_eq_true_eq, not_le] at hnle hq1
    have hq0 : 0 ≤ q := by
      rw [hq1]
      exact quotient_nonneg hrc (by omega)
    have h0 : ∀ a b i, 0 ≤ (if a = x + d.1 ∧ b = y + d.2 ∧ i = deltaIndex (-d.1) (-d.2)
        then (exactScalars K c08).vOfInt 0 else s.velocity.v a b i) :=
      fun a b i => nonneg_upd _ hn _ _ _ _ (by simp [exactScalars]) a b i
    refine fun a b i => nonneg_upd _ h0 _ _ _ _ ?_ a b i
    have := h0 x y (deltaIndex d.1 d.2)
    simp only [exactScalars] at this ⊢
    omega

theorem smooth_rhoPos {s s1 : Simulator Int Int Int} (h : Smooth s s1) (hr : s.RhoPos) :
    s1.RhoPos := by
  intro x y ho
  rw [h.field, h.rho]
  exact hr x y ((h.open_iff x y).mp ho)

theorem pressureCell_nonneg {b : Err → Prop} (hv : ¬ b .divByZero) (K : Nat) (c08 : Int)
    {s : Simulator Int Int Int} (hw : s.WF) {c : Int × Int} (hc : c ∈ cells s.N s.M)
    (hrho : s.RhoPos) (hn : s.NonNeg) :
    Post b (pressureCell (exactScalars K c08) s c) fun s1 => Smooth s s1 ∧ s1.NonNeg := by
  unfold pressureCell
  refine Post.bind (Post.rd (inb_of_mem_cells hc) ?_)
  refine Post.ite (fun _ => Post.ok ⟨Smooth.smooth_refl s, hn⟩) fun hne => ?_
  have ho := open_of_mem_cells hc hne
  refine Post.mono (forEach_smooth_inv (fun s1 => s1.NonNeg ∧ s1.RhoPos) deltas s hw ⟨hn, hrho⟩
    fun s1 d hd hw1 hf hJ => ?_) fun s1 h1 => ⟨h1.1, h1.2.1⟩
  have ho1 := (hf.open_iff _ _).mpr ho
  refine Post.mono (Post.and (pressureDir_post hv (exactScalars K c08) hw1 ho1 hd)
    (pressureDir_nonneg hv K c08 hw1 ho1 hd hJ.2 hJ.1)) fun s2 h2 => ?_
  exact ⟨h2.1, h2.2, smooth_rhoPos h2.1 hJ.2⟩

theorem phase12_nonneg {b : Err → Prop} (hv : ¬ b .divByZero) (K : Nat) (c08 : Int)
    {s : Simulator Int Int Int} (hw : s.WF) (hg : 0 ≤ s.g) (hrho : s.RhoPos) (hn : s.NonNeg) :
    Post b (phase12 (exactScalars K c08) s) fun s1 => Smooth s s1 ∧ s1.NonNeg := by
  unfold phase12
  refine Post.bind (Post.mono (forEach_smooth_inv Simulator.NonNeg (cells s.N s.M) s hw hn
    fun s1 c hc hw1 hf hn1 => Post.and (gravityCell_post (exactScalars K c08) hw1
        (by rw [hf.N, hf.M]; exact hc))
      (gravityCell_nonneg K c08 hw1 (by rw [hf.N, hf.M]; exact hc) (by rw [hf.g]; exact hg) hn1))
    fun s1 h1 => ?_)
  have h2 := h1.1.smooth_trans (Smooth.setOldP s1 s1.p)
  have hw2 := h2.wf hw
  refine Post.mono (forEach_smooth_inv (fun s2 => s2.NonNeg ∧ s2.RhoPos) (cells s1.N s1.M) _ hw2
    ⟨fun a b i => h1.2 a b i, smooth_rhoPos h2 hrho⟩ fun s2 c hc hw3 hf hJ => ?_) fun s2 h3 =>
      ⟨h2.smooth_trans h3.1, h3.2.1⟩
  have hc2 : c ∈ cells s2.N s2.M := by rw [hf.N, hf.M]; exact hc
  refine Post.mono (pressureCell_nonneg hv K c08 hw3 hc2 hJ.2 hJ.1) fun s3 h3 => ?_
  exact ⟨h3.1, h3.2, smooth_rhoPos h3.1 hJ.2⟩

theorem flowOK_add {s : Simulator Int Int Int} (hflow : s.FlowOK) (x y : Int) (k : Nat)
    (val : Int) (h0 : 0 ≤ val) (hle : val ≤ s.velocity.v x y k) (a c : Int) (i : Nat) :
    0 ≤ (if a = x ∧ c = y ∧ i = k then val else s.velocity_flow.v a c i) ∧
      (if a = x ∧ c = y ∧ i = k then val else s.velocity_flow.v a c i) ≤ s.velocity.v a c i := by
  split
  · rename_i h
    obtain ⟨rfl, rfl, rfl⟩ := h
    exact ⟨h0, hle⟩
  · exact hflow a c i

theorem row_other (v : Int → Int → Nat → Int) (x y : Int) (k : Nat) (val : Int) (a c : Int)
    (h : ¬ (a = x ∧ c = y)) :
    (fun i => if a = x ∧ c = y ∧ i = k then val else v a c i) = v a c := by
  funext i
  rw [if_neg]
  rintro ⟨h1, h2, _⟩
  exact h ⟨h1, h2⟩

theorem flowDirs_flow {b : Err → Prop} (K : Nat) (c08 : Int)
    (call : Simulator Int Int Int → Int → Int → Int →
      Except Err (Simulator Int Int Int × Int × Bool × (Int × Int)))
    (hcall : ∀ s nx ny vp, s.WF → s.Open nx ny → s.FlowOK → 0 < vp →
      s.last_use nx ny < s.UT - 1 →
      Post b (call s nx ny vp) fun r => Frame s r.1 ∧ Still s r.1 ∧ r.1.FlowOK ∧
        (r.2.2.1 = true → 0 < r.2.1 ∧ r.2.1 ≤ vp) ∧ Keep (fun _ _ => False) s r.1)
    (x y lim : Int) (hlim : 0 < lim) (ds : List (Int × Int)) (hds : ∀ d ∈ ds, d ∈ deltas)
    (s : Simulator Int Int Int) (ret : Int) (hw : s.WF) (ho : s.Open x y) (hflow : s.FlowOK)
    (hstamp : s.last_use x y = s.UT - 1) :
    Post b (flowDirs (exactScalars K c08) call x y lim ds s ret) fun r =>
      r.1.FlowOK ∧ (r.2.2.1 = true → 0 < r.2.1 ∧ r.2.1 ≤ lim) ∧
        Keep (fun a c => a = x ∧ c = y) s r.1 := by
  induction ds generalizing s ret with
  | nil =>
    simp only [flowDirs]
    refine Post.bind (Post.setLastUse (hw.inb ho).1 (Post.ok ⟨hflow, fun h => ?_, ?_⟩))
    · exact Bool.noConfusion h
    · intro a c hE _
      exact ⟨rfl, upd_other _ _ _ _ _ _ hE⟩
  | cons d rest ih =>
    obtain ⟨dx, dy⟩ := d
    have hd := hds (dx, dy) (List.mem_cons_self _ _)
    have ih := ih fun d h => hds d (List.mem_cons_of_mem _ h)
    have hnb := hw.inb_next ho hd
    have hin := hw.inb ho
    simp only [flowDirs]
    refine Post.bind (Post.rd hnb.1 ?_)
    refine Post.ite (fun _ => ih s ret hw ho hflow hstamp) fun hc => ?_
    refine Post.bind (Post.rd hnb.1 ?_)
    refine Post.ite (fun _ => ih s ret hw ho hflow hstamp) fun hlu => ?_
    refine Post.bind (Post.get (deltaIndex_lt hd) hin.2.1 ?_)
    refine Post.bind (Post.get (deltaIndex_lt hd) hin.2.2 ?_)
    refine Post.ite (fun _ => ih s ret hw ho hflow hstamp) fun hneq => ?_
    have hfl := hflow x y (deltaIndex dx dy)
    have hres : 0 < s.velocity.v x y (deltaIndex dx dy) -
        s.velocity_flow.v x y (deltaIndex dx dy) := by
      simp only [exactScalars, decide_eq_true_eq] at hneq
      omega
    have hvp : ∀ vp : Int, vp = (if (s.velocity.v x y (deltaIndex dx dy) -
          s.velocity_flow.v x y (deltaIndex dx dy) < lim)
        then s.velocity.v x y (deltaIndex dx dy) - s.velocity_flow.v x y (deltaIndex dx dy)
        else lim) →
        0 < vp ∧ vp ≤ lim ∧ vp ≤ s.velocity.v x y (deltaIndex dx dy) -
          s.velocity_flow.v x y (deltaIndex dx dy) := by
      intro vp hvp
      split at hvp <;> omega
    simp only [exactScalars, decide_eq_true_eq, not_not] at hlu ⊢
    have hvp1 := hvp _ rfl
    refine Post.ite (fun _ => ?_) fun hnot => ?_
    · refine Post.bind (Post.add (deltaIndex_lt hd) hin.2.2 ?_)
      refine Post.bind (Post.setLastUse hin.1 (Post.ok ⟨?_, fun _ => ⟨hvp1.1, hvp1.2.1⟩, ?_⟩))
      · exact fun a c i => flowOK_add hflow x y _ _ (by omega) (by omega) a c i
      · intro a c hE _
        exact ⟨row_other _ _ _ _ _ _ _ hE, upd_other _ _ _ _ _ _ hE⟩
    · have hon := hw.open_next ho hd hc
      refine Post.bind (Post.mono (hcall s _ _ _ hw hon hflow hvp1.1 (by omega)) fun r hr => ?_)
      obtain ⟨s1, tt, prop, e⟩ := r
      obtain ⟨hf1, hst1, hflow1, hprop1, hkeep1⟩ := hr
      simp only [] at hf1 hst1 hflow1 hprop1 hkeep1 ⊢
      have hw1 := hf1.wf hw
      have ho1 := (hf1.open_iff x y).mpr ho
      have hin1 := hw1.inb ho1
      have hk := hkeep1 x y (fun h => h) (by omega)
      have hstamp1 : s1.last_use x y = s1.UT - 1 := by rw [hk.2, hf1.UT, hstamp]
      refine Post.ite (fun hp => ?_) fun _ => ?_
      · have hp1 := hprop1 hp
        refine Post.bind (Post.add (deltaIndex_lt hd) hin1.2.2 ?_)
        refine Post.bind (Post.setLastUse hin1.1 (Post.ok ⟨?_, fun _ => ⟨hp1.1, le_trans hp1.2
            hvp1.2.1⟩, ?_⟩))
        · have e1 : s1.velocity_flow.v x y (deltaIndex dx dy) =
              s.velocity_flow.v x y (deltaIndex dx dy) := by rw [hk.1]
          have e2 : s1.velocity.v x y (deltaIndex dx dy) =
              s.velocity.v x y (deltaIndex dx dy) := by rw [hst1.2.2]
          exact fun a c i => flowOK_add hflow1 x y _ _ (by omega) (by omega) a c i
        · intro a c hE hge
          have h1 := hkeep1 a c (fun h => h) hge
          refine ⟨?_, ?_⟩
          · exact (row_other _ _ _ _ _ _ _ hE).trans h1.1
          · exact (upd_other _ _ _ _ _ _ hE).trans h1.2
      · refine Post.mono (ih s1 _ hw1 ho1 hflow1 hstamp1) fun r2 h2 => ⟨h2.1, h2.2.1, ?_⟩
        intro a c hE hge
        have h1 := hkeep1 a c (fun h => h) hge
        have h3 := h2.2.2 a c hE (by rw [h1.2, hf1.UT]; exact hge)
        exact ⟨h3.1.trans h1.1, h3.2.trans h1.2⟩

theorem PropagateFlow_flow {b : Err → Prop} (hf : ¬ b .outOfFuel) (K : Nat) (c08 : Int)
    (depth : Nat) (s : Simulator Int Int Int) (x y lim : Int) (hlim : 0 < lim) (hw : s.WF)
    (ho : s.Open x y) (hflow : s.FlowOK) :
    Post b (PropagateFlow (exactScalars K c08) depth s x y lim) fun r =>
      Frame s r.1 ∧ Still s r.1 ∧ r.1.FlowOK ∧ (r.2.2.1 = true → 0 < r.2.1 ∧ r.2.1 ≤ lim) ∧
        (s.last_use x y < s.UT - 1 → Keep (fun _ _ => False) s r.1) := by
  induction depth generalizing s x y lim with
  | zero => exact Post.error hf
  | succ depth ih =>
    refine Post.mono (Post.and (PropagateFlow_post hf (exactScalars K c08) (depth + 1) s x y lim
      hw ho) ?_) fun r hr => ⟨hr.1.1, hr.1.2.1, hr.2⟩
    simp only [PropagateFlow]
    refine Post.bind (Post.setLastUse (hw.inb ho).1 ?_)
    have hf1 := Frame.stampCell s x y (s.UT - 1) ho (Or.inr rfl)
    refine Post.mono (flowDirs_flow K c08 _ (fun s2 nx ny vp hw2 ho2 hfl2 hvp2 hlu2 =>
      Post.mono (ih s2 nx ny vp hvp2 hw2 ho2 hfl2) fun r hr =>
        ⟨hr.1, hr.2.1, hr.2.2.1, hr.2.2.2.1, hr.2.2.2.2 hlu2⟩) x y lim hlim deltas
      (fun _ h => h) _ _ (hf1.wf hw) ((hf1.open_iff x y).mpr ho) hflow (upd_same _ _ _ _))
      fun r hr => ⟨hr.1, hr.2.1, fun hfresh => ?_⟩
    intro a c _ hge
    have hE : ¬ (a = x ∧ c = y) := by
      rintro ⟨rfl, rfl⟩
      omega
    have h1 := hr.2.2 a c hE (by
      show s.UT - 1 ≤ upd s.last_use x y (s.UT - 1) a c
      rw [upd_other _ _ _ _ _ _ hE]; exact hge)
    exact ⟨h1.1, h1.2.trans (upd_other _ _ _ _ _ _ hE)⟩

theorem Post.assume {α : Type} {bad : Err → Prop} {m : Except Err α} {Q : α → Prop} {h : Prop}
    (h0 : Post bad m fun _ => True) (h1 : h → Post bad m Q) : Post bad m fun a => h → Q a := by
  by_cases hh : h
  · exact Post.mono (h1 hh) fun _ q _ => q
  · exact Post.mono h0 fun _ _ hc => absurd hc hh

theorem exact_one_pos (K : Nat) (c08 : Int) : 0 < (exactScalars K c08).pOfInt 1 := by
  simp only [exactScalars, one_mul]
  positivity

theorem flowCell_flow {b : Err → Prop} (hf : ¬ b .outOfFuel) (K : Nat) (c08 : Int) (depth : Nat)
    (sp : Simulator Int Int Int × Bool) (hw : sp.1.WF) {c : Int × Int}
    (hc : c ∈ cells sp.1.N sp.1.M) (hflow : sp.1.FlowOK) :
    Post b (flowCell (exactScalars K c08) depth sp c) fun r => r.1.FlowOK := by
  unfold flowCell
  refine Post.bind (Post.rd (inb_of_mem_cells hc) ?_)
  refine Post.ite (fun _ => Post.ok hflow) fun hne => ?_
  refine Post.bind (Post.rd (inb_of_mem_cells hc) ?_)
  refine Post.ite (fun _ => Post.ok hflow) fun _ => ?_
  refine Post.bind (Post.mono (PropagateFlow_flow hf K c08 depth sp.1 c.1 c.2 _
    (exact_one_pos K c08) hw (open_of_mem_cells hc hne) hflow) fun r hr => ?_)
  exact Post.ok hr.2.2.1

theorem flowPasses_flow {b : Err → Prop} (hf : ¬ b .outOfFuel) (K : Nat) (c08 : Int)
    (depth iters : Nat) (s : Simulator Int Int Int) (hw : s.WF) (hflow : s.FlowOK) :
    Post b (flowPasses (exactScalars K c08) depth iters s) fun s1 => s1.FlowOK := by
  induction iters generalizing s with
  | zero => exact Post.error hf
  | succ iters ih =>
    simp only [flowPasses]
    have h0 := Frozen.setUT s (s.UT + 2)
    refine Post.bind (Post.mono (sweep_post (fun a c => a.FlowOK → c.FlowOK) (fun _ h => h)
      (fun _ _ _ h1 h2 h => h2 (h1 h)) { s with UT := s.UT + 2 } (h0.wf hw) (fun sp c hwp hc =>
        Post.mono (Post.and (flowCell_post hf (exactScalars K c08) depth sp hwp hc)
          (Post.assume (Post.mono (flowCell_post hf (exactScalars K c08) depth sp hwp hc)
            fun _ _ => trivial) fun hfl => flowCell_flow hf K c08 depth sp hwp hc hfl))
          fun r hr => ⟨hr.1.1, hr.2, hr.1.2.2⟩) false) fun r hr => ?_)
    obtain ⟨s1, prop⟩ := r
    simp only [] at hr ⊢
    have hfl1 : s1.FlowOK := hr.2.1 hflow
    refine Post.ite (fun _ => ?_) fun _ => Post.ok hfl1
    exact ih s1 ((h0.frozen_trans hr.1.toFrozen).wf hw) hfl1

theorem phase3_flow {b : Err → Prop} (hf : ¬ b .outOfFuel) (K : Nat) (c08 : Int)
    (iters depth : Nat) (s : Simulator Int Int Int) (hw : s.WF) (hn : s.NonNeg) :
    Post b (phase3 (exactScalars K c08) iters depth s) fun s1 => s1.FlowOK := by
  unfold phase3
  have h0 := Frozen.resetFlow s
    { n := s.N, m := s.M, v := fun _ _ _ => (exactScalars K c08).vfDefault }
    hw.fn.symm hw.fm.symm
  exact flowPasses_flow hf K c08 depth iters _ (h0.wf hw) fun x y i => ⟨le_refl _, hn x y i⟩

theorem applyDir_exact {b : Err → Prop} (hv : ¬ b .divByZero) (K : Nat) (c08 : Int)
    {s : Simulator Int Int Int} (hw : s.WF) {x y : Int} (ho : s.Open x y) {d : Int × Int}
    (hd : d ∈ deltas) (hflow : s.FlowOK) (hn : s.NonNeg) :
    Post b (applyDir (exactScalars K c08) x y s d) fun s1 =>
      Smooth s s1 ∧ s1.FlowOK ∧ s1.NonNeg := by
  have hnb := hw.inb_next ho hd
  have hin := hw.inb ho
  have hfl := hflow x y (deltaIndex d.1 d.2)
  have hnew : ∀ a c i, (0 ≤ (if a = x ∧ c = y ∧ i = deltaIndex d.1 d.2
        then (exactScalars K c08).vOfVF (s.velocity_flow.v x y (deltaIndex d.1 d.2))
        else s.velocity.v a c i)) ∧
      (0 ≤ s.velocity_flow.v a c i ∧ s.velocity_flow.v a c i ≤
        (if a = x ∧ c = y ∧ i = deltaIndex d.1 d.2
          then (exactScalars K c08).vOfVF (s.velocity_flow.v x y (deltaIndex d.1 d.2))
          else s.velocity.v a c i)) := by
    intro a c i
    split
    · rename_i h
      obtain ⟨rfl, rfl, rfl⟩ := h
      exact ⟨hfl.1, hfl.1, le_refl _⟩
    · exact ⟨hn a c i, hflow a c i⟩
  have h1 := Smooth.setVel s x y ho _ fun a c hab =>
    putRow_other s.velocity x y (deltaIndex d.1 d.2)
      ((exactScalars K c08).vOfVF (s.velocity_flow.v x y (deltaIndex d.1 d.2))) a c hab
  unfold applyDir
  refine Post.bind (Post.get (deltaIndex_lt hd) hin.2.1 ?_)
  refine Post.bind (Post.get (deltaIndex_lt hd) hin.2.2 ?_)
  refine Post.ite (fun _ => Post.ok ⟨Smooth.smooth_refl s, hflow, hn⟩) fun _ => ?_
  refine Post.ite (fun hbad => ?_) fun _ => ?_
  · exact absurd (by simp only [exactScalars, decide_eq_true_eq]; exact hfl.2) hbad
  refine Post.bind (Post.put (deltaIndex_lt hd) hin.2.1 ?_)
  refine Post.bind (Post.rd hin.1 ?_)
  refine Post.bind (Post.rd hnb.1 ?_)
  refine Post.ite (fun _ => ?_) fun hne => ?_
  · refine Post.bind (Post.rd hin.1 ?_)
    refine Post.bind (Post.divide hv fun q => ?_)
    refine Post.bind (Post.rd hin.1 ?_)
    refine Post.setP hin.1 ?_
    exact ⟨h1.smooth_trans (Smooth.writeP _ x y ((h1.open_iff x y).mpr ho) _),
      fun a c i => (hnew a c i).2, fun a c i => (hnew a c i).1⟩
  · have hon := hw.open_next ho hd hne
    refine Post.bind (Post.rd hnb.1 ?_)
    refine Post.bind (Post.divide hv fun q => ?_)
    refine Post.bind (Post.rd hnb.1 ?_)
    refine Post.setP hnb.1 ?_
    exact ⟨h1.smooth_trans (Smooth.writeP _ _ _ ((h1.open_iff _ _).mpr hon) _),
      fun a c i => (hnew a c i).2, fun a c i => (hnew a c i).1⟩

theorem applyCell_exact {b : Err → Prop} (hv : ¬ b .divByZero) (K : Nat) (c08 : Int)
    {s : Simulator Int Int Int} (hw : s.WF) {c : Int × Int} (hc : c ∈ cells s.N s.M)
    (hflow : s.FlowOK) (hn : s.NonNeg) :
    Post b (applyCell (exactScalars K c08) s c) fun s1 =>
      Smooth s s1 ∧ s1.FlowOK ∧ s1.NonNeg := by
  unfold applyCell
  refine Post.bind (Post.rd (inb_of_mem_cells hc) ?_)
  refine Post.ite (fun _ => Post.ok ⟨Smooth.smooth_refl s, hflow, hn⟩) fun hne => ?_
  have ho := open_of_mem_cells hc hne
  exact forEach_smooth_inv (fun s1 => s1.FlowOK ∧ s1.NonNeg) deltas s hw ⟨hflow, hn⟩
    fun s1 d hd hw1 hf hJ => applyDir_exact hv K c08 hw1 ((hf.open_iff _ _).mpr ho) hd hJ.1 hJ.2

theorem phase3Apply_exact {b : Err → Prop} (hv : ¬ b .divByZero) (K : Nat) (c08 : Int)
    {s : Simulator Int Int Int} (hw : s.WF) (hflow : s.FlowOK) (hn : s.NonNeg) :
    Post b (phase3Apply (exactScalars K c08) s) fun s1 =>
      Smooth s s1 ∧ s1.FlowOK ∧ s1.NonNeg := by
  unfold phase3Apply
  exact forEach_smooth_inv (fun s1 => s1.FlowOK ∧ s1.NonNeg) (cells s.N s.M) s hw ⟨hflow, hn⟩
    fun s1 c hc hw1 hf hJ =>
      applyCell_exact hv K c08 hw1 (by rw [hf.N, hf.M]; exact hc) hJ.1 hJ.2

theorem Frame.nonNeg {s s1 : Simulator Int Int Int} (h : Frame s s1) (hn : s.NonNeg) :
    s1.NonNeg := by
  obtain ⟨σ, _, hcont⟩ := h.perm
  intro x y i
  have := congrArg (fun c => c.2.2 i) (hcont (x, y))
  simp only [Simulator.content] at this
  rw [this]
  exact hn _ _ i

theorem Frame.rhoPos {s s1 : Simulator Int Int Int} (h : Frame s s1) (hr : s.RhoPos) :
    s1.RhoPos := by
  obtain ⟨σ, hfix, hcont⟩ := h.perm
  intro x y ho
  have hfield := congrArg (fun c => c.1) (hcont (x, y))
  simp only [Simulator.content] at hfield
  have hopen : s.Open (σ (x, y)).1 (σ (x, y)).2 := by
    by_contra hc
    have h1 := hfix (σ (x, y)) hc
    have h2 : σ (x, y) = (x, y) := σ.injective h1
    rw [h2] at hc
    exact hc ((h.open_iff x y).mp ho)
  rw [hfield, h.rho]
  exact hr _ _ hopen

theorem tick_exact {b : Err → Prop} (hf : ¬ b .outOfFuel) (hm : ¬ b .moveAssert)
    (hn : ¬ b .noDirection) (hv : ¬ b .divByZero) (K : Nat) (c08 : Int) (iters depth : Nat)
    (s : Simulator Int Int Int) (hw : s.WF) (hg : 0 ≤ s.g) (hrho : s.RhoPos)
    (hnn : s.NonNeg) :
    Post b (tick (exactScalars K c08) iters depth s) fun r =>
      Frozen s r.1 ∧ r.1.RhoPos ∧ r.1.NonNeg := by
  unfold tick
  refine Post.bind (Post.mono (phase12_nonneg hv K c08 hw hg hrho hnn) fun s1 h1 => ?_)
  have hw1 := h1.1.wf hw
  refine Post.bind (Post.mono (Post.and (phase3_post hf (exactScalars K c08) iters depth s1 hw1)
    (phase3_flow hf K c08 iters depth s1 hw1 h1.2)) fun s2 h2 => ?_)
  have hf2 := h1.1.toFrozen.frozen_trans h2.1.1
  have hnn2 : s2.NonNeg := by
    intro x y i
    rw [h2.1.2.1.2.2]
    exact h1.2 x y i
  have hrho2 : s2.RhoPos := by
    intro x y ho
    rw [h2.1.2.1.1, h2.1.1.rho]
    exact smooth_rhoPos h1.1 hrho x y ((h2.1.1.open_iff x y).mp ho)
  refine Post.bind (Post.mono (phase3Apply_exact hv K c08 (hf2.wf hw) h2.2 hnn2)
    fun s3 h3 => ?_)
  have hf3 := hf2.frozen_trans h3.1.toFrozen
  refine Post.mono (phase4_post hf hm hn (exactScalars K c08) iters depth s3 (hf3.wf hw))
    fun r hr => ?_
  have hrho3 : Simulator.RhoPos { s3 with UT := s3.UT + 2 } :=
    fun x y ho => smooth_rhoPos h3.1 hrho2 x y ho
  have hnn3 : Simulator.NonNeg { s3 with UT := s3.UT + 2 } := h3.2.2
  exact ⟨hf3.frozen_trans ((Frozen.setUT s3 _).frozen_trans hr.1.toFrozen),
    hr.1.rhoPos hrho3, hr.1.nonNeg hnn3⟩

theorem ticks_exact {b : Err → Prop} (hf : ¬ b .outOfFuel) (hm : ¬ b .moveAssert)
    (hn : ¬ b .noDirection) (hv : ¬ b .divByZero) (K : Nat) (c08 : Int) (iters depth n : Nat)
    (s : Simulator Int Int Int) (hw : s.WF) (hg : 0 ≤ s.g) (hrho : s.RhoPos)
    (hnn : s.NonNeg) :
    Post b (ticks (exactScalars K c08) iters depth n s) fun s1 =>
      Frozen s s1 ∧ s1.RhoPos ∧ s1.NonNeg := by
  induction n with
  | zero => exact Post.ok ⟨Frozen.frozen_refl s, hrho, hnn⟩
  | succ n ih =>
    simp only [ticks]
    refine Post.bind (Post.mono ih fun s1 h1 => ?_)
    refine Post.bind (Post.mono (tick_exact hf hm hn hv K c08 iters depth s1 (h1.1.wf hw)
      (by rw [h1.1.g]; exact hg) h1.2.1 h1.2.2) fun r hr => ?_)
    exact Post.ok ⟨h1.1.frozen_trans hr.1, hr.2⟩

theorem runTicks_exact {b : Err → Prop} (hf : ¬ b .outOfFuel) (hm : ¬ b .moveAssert)
    (hn : ¬ b .noDirection) (hv : ¬ b .divByZero) (K : Nat) (c08 : Int) (iters depth n : Nat)
    (s : Simulator Int Int Int) (hw : s.WF) (hz : ∀ x y, s.dirs x y = 0) (hg : 0 ≤ s.g)
    (hrho : s.RhoPos) (hnn : s.NonNeg) :
    Post b (runTicks (exactScalars K c08) iters depth n s) fun s1 =>
      s1.WF ∧ 0 ≤ s1.g ∧ s1.RhoPos ∧ s1.NonNeg := by
  unfold runTicks
  refine Post.bind (Post.mono (Post.weaken (initDirs_post s hw hz) fun _ _ => trivial)
    fun s0 h0 => ?_)
  have hw0 : s0.WF := by
    rw [h0.1]; exact ⟨hw.boundary, hw.vn, hw.vm, hw.fn, hw.fm⟩
  have hg0 : 0 ≤ s0.g := by rw [h0.1]; exact hg
  have hrho0 : s0.RhoPos := by rw [h0.1]; exact hrho
  have hnn0 : s0.NonNeg := by rw [h0.1]; exact hnn
  refine Post.mono (ticks_exact hf hm hn hv K c08 iters depth n s0 hw0 hg0 hrho0 hnn0)
    fun s1 h1 => ?_
  exact ⟨h1.1.wf hw0, by rw [h1.1.g]; exact hg0, h1.2⟩

theorem get_flowOK {s : Simulator Int Int Int} (hflow : s.FlowOK) {x y : Int} {d : Int × Int}
    {old_v new_v : Int} (ho : s.velocity.Get x y d.1 d.2 = .ok old_v)
    (hn : s.velocity_flow.Get x y d.1 d.2 = .ok new_v) : new_v ≤ old_v := by
  unfold VectorField.Get at ho hn
  split_ifs at ho hn
  cases ho
  cases hn
  exact (hflow x y _).2

/-- C4. With exact fixed-point arithmetic (`P`, `V` and `VF` the same type, raw
values not wrapped), a grid whose border is walls, `g ≥ 0` and positive
densities of the open cells: no run stops at the assertion
`new_v <= old_v`, and in every tick, when the flow loop of phase 3 has
finished, every non-wall cell and every delta with
`old_v = velocity.Get(x, y, dx, dy) > 0` has
`new_v = velocity_flow.Get(x, y, dx, dy) ≤ old_v`, and the write-back loop that
follows does not stop at the assertion. -/
theorem flow_within_velocity (K : Nat) (c08 : Int) (iters depth n N M : Nat)
    (field : Int → Int → Char) (rho : Char → Int) (g : Int) (rnd : Nat → Nat)
    (hb : (Simulator.init (exactScalars K c08) N M field rho g rnd).wallBoundary)
    (hg : 0 ≤ g)
    (hrho : ∀ x y, (Simulator.init (exactScalars K c08) N M field rho g rnd).Open x y →
      0 < rho (field x y)) :
    runTicks (exactScalars K c08) iters depth n
        (Simulator.init (exactScalars K c08) N M field rho g rnd) ≠ .error .flowAssert ∧
      ∀ s1 s2 s3 : Simulator Int Int Int,
        runTicks (exactScalars K c08) iters depth n
          (Simulator.init (exactScalars K c08) N M field rho g rnd) = .ok s1 →
        phase12 (exactScalars K c08) s1 = .ok s2 →
        phase3 (exactScalars K c08) iters depth s2 = .ok s3 →
        (∀ x y, s3.field x y ≠ '#' → ∀ d ∈ deltas, ∀ old_v new_v,
          s3.velocity.Get x y d.1 d.2 = .ok old_v →
          s3.velocity_flow.Get x y d.1 d.2 = .ok new_v →
          (exactScalars K c08).vLt ((exactScalars K c08).vOfInt 0) old_v = true →
          (exactScalars K c08).vfLe new_v ((exactScalars K c08).vfOfV old_v) = true) ∧
        phase3Apply (exactScalars K c08) s3 ≠ .error .flowAssert := by
  have hrun := runTicks_exact (b := Err.isDefect) (fun h => h) (fun h => h) (fun h => h)
    (fun h => h) K c08 iters depth n _ (init_wf (exactScalars K c08) N M field rho g rnd hb)
    (fun _ _ => rfl) hg hrho (fun _ _ _ => le_refl _)
  refine ⟨fun he => ?_, fun s1 s2 s3 h1 h2 h3 => ?_⟩
  · rw [he] at hrun
    exact hrun trivial
  have hs1 := hrun.elim h1
  have hs2 := (phase12_nonneg (b := Err.isDefect) (fun h => h) K c08 hs1.1 hs1.2.1 hs1.2.2.1
    hs1.2.2.2).elim h2
  have hw2 := hs2.1.wf hs1.1
  have hs3 := (phase3_post (b := Err.isDefect) (fun h => h) (exactScalars K c08) iters depth s2
    hw2).elim h3
  have hflow := (phase3_flow (b := Err.isDefect) (fun h => h) K c08 iters depth s2 hw2
    hs2.2).elim h3
  have hnn3 : s3.NonNeg := by
    intro x y i
    rw [hs3.2.1.2.2]
    exact hs2.2 x y i
  refine ⟨fun x y _ d _ old_v new_v ho hn _ => ?_, fun he => ?_⟩
  · simp only [exactScalars, decide_eq_true_eq]
    exact get_flowOK hflow ho hn
  · have h4 := phase3Apply_exact (b := Err.isDefect) (fun h => h) K c08 (hs3.1.wf hw2) hflow
      hnn3
    rw [he] at h4
    exact h4 trivial

theorem dropRho_pos (c : Char) : 0 < dropRho c := by
  unfold dropRho
  split <;> decide

set_option maxRecDepth 100000 in
theorem flow_within_velocity_witness :
    runTicks (exactScalars 16 52428) 5 5 3 boxSim ≠ .error .flowAssert ∧
      ∃ s1 s2 s3, runTicks (exactScalars 16 52428) 5 5 3 boxSim = .ok s1 ∧
        phase12 (exactScalars 16 52428) s1 = .ok s2 ∧
        phase3 (exactScalars 16 52428) 5 5 s2 = .ok s3 ∧
        s3.velocity.Get 1 1 1 0 = .ok 2989 ∧ s3.velocity_flow.Get 1 1 1 0 = .ok 2989 ∧
        s3.velocity.Get 2 1 0 1 = .ok 212441797 ∧ s3.velocity_flow.Get 2 1 0 1 = .ok 2989 ∧
        (∀ x y, s3.field x y ≠ '#' → ∀ d ∈ deltas, ∀ old_v new_v,
          s3.velocity.Get x y d.1 d.2 = .ok old_v →
          s3.velocity_flow.Get x y d.1 d.2 = .ok new_v →
          (exactScalars 16 52428).vLt ((exactScalars 16 52428).vOfInt 0) old_v = true →
          (exactScalars 16 52428).vfLe new_v ((exactScalars 16 52428).vfOfV old_v) = true) ∧
        phase3Apply (exactScalars 16 52428) s3 ≠ .error .flowAssert := by
  have hthm := flow_within_velocity 16 52428 5 5 3 4 4 boxField dropRho 6553 (fun _ => 0)
    (by decide) (by decide) (fun x y _ => dropRho_pos (boxField x y))
  obtain ⟨s3, h, hq⟩ := okAnd_elim
    (m := runTicks (exactScalars 16 52428) 5 5 3 boxSim >>= fun s1 =>
      phase12 (exactScalars 16 52428) s1 >>= fun s2 =>
      phase3 (exactScalars 16 52428) 5 5 s2)
    (q := fun s => decide (s.velocity.n = 4 ∧ s.velocity.m = 4 ∧ s.velocity_flow.n = 4 ∧
      s.velocity_flow.m = 4 ∧ s.velocity.v 1 1 1 = 2989 ∧ s.velocity_flow.v 1 1 1 = 2989 ∧
      s.velocity.v 2 1 3 = 212441797 ∧ s.velocity_flow.v 2 1 3 = 2989)) (by decide)
  obtain ⟨s1, h1, h⟩ := bind_ok_elim h
  obtain ⟨s2, h2, h3⟩ := bind_ok_elim h
  obtain ⟨e1, e2, e3, e4, e5, e6, e7, e8⟩ := of_decide_eq_true hq
  have hd1 : deltaIndex 1 0 = 1 := by decide
  have hd2 : deltaIndex 0 1 = 3 := by decide
  have hget : ∀ f : VectorField Int, f.n = 4 → f.m = 4 →
      f.Get 1 1 1 0 = .ok (f.v 1 1 1) ∧ f.Get 2 1 0 1 = .ok (f.v 2 1 3) := by
    intro f hn hm
    simp [VectorField.Get, VectorField.inb, hn, hm, hd1, hd2, deltas]
  have hv := hget s3.velocity e1 e2
  have hvf := hget s3.velocity_flow e3 e4
  rw [e5, e7] at hv
  rw [e6, e8] at hvf
  exact ⟨hthm.1, s1, s2, s3, h1, h2, h3, hv.1, hvf.1, hv.2, hvf.2, hthm.2 s1 s2 s3 h1 h2 h3⟩

/-! ## Stamps of `PropagateStop` and `PropagateMove` -/

theorem Post.and_any {α : Type} {bad bad1 : Err → Prop} {m : Except Err α} {Q R : α → Prop}
    (h1 : Post bad m Q) (h2 : Post bad1 m R) : Post bad m fun a => Q a ∧ R a := by
  cases m with
  | error e => exact h1
  | ok a => exact ⟨h1, h2⟩

theorem Post.lax {α : Type} (m : Except Err α) : Post (fun _ => False) m fun _ => True := by
  cases m with
  | error e => exact fun h => h
  | ok a => exact trivial

theorem Post.rd_lax {α : Type} {s : Simulator P V VF} {a : Int → Int → α}
    {x y : Int} {Q : α → Prop} (h : Q (a x y)) : Post (fun _ => False) (s.rd a x y) Q := by
  unfold Simulator.rd
  split
  · exact h
  · exact fun h => h

theorem Post.setLastUse_lax {s : Simulator P V VF} {x y val : Int}
    {Q : Simulator P V VF → Prop} (h : Q { s with last_use := upd s.last_use x y val }) :
    Post (fun _ => False) (s.setLastUse x y val) Q := by
  unfold Simulator.setLastUse
  split
  · exact h
  · exact fun h => h

theorem Marks.marks_refl (s : Simulator P V VF) : Marks s s :=
  ⟨rfl, fun _ _ => Or.inl rfl, rfl⟩

theorem Marks.marks_trans {s s1 s2 : Simulator P V VF} (h1 : Marks s s1) (h2 : Marks s1 s2) :
    Marks s s2 where
  UT := h2.UT.trans h1.UT
  stamp := fun x y => by
    rcases h2.stamp x y with h | h
    · rw [h]; exact h1.stamp x y
    · exact Or.inr (h.trans h1.UT)
  flow := h2.flow.trans h1.flow

theorem Marks.stampUT (s : Simulator P V VF) (x y : Int) :
    Marks s { s with last_use := upd s.last_use x y s.UT } where
  UT := rfl
  stamp := fun a b => by
    by_cases h : a = x ∧ b = y
    · exact Or.inr (by simp only [upd, if_pos h])
    · exact Or.inl (by simp only [upd, if_neg h])
  flow := rfl

theorem Marks.marks_nextRnd (s : Simulator P V VF) : Marks s s.nextRnd.2 :=
  ⟨rfl, fun _ _ => Or.inl rfl, rfl⟩

theorem stopSpread_marks (A : Scalars P V VF)
    (call : Simulator P V VF → Int → Int → Except Err (Simulator P V VF))
    (hcall : ∀ s nx ny, Post (fun _ => False) (call s nx ny) fun s1 => Marks s s1)
    (x y : Int) (ds : List (Int × Int)) (s : Simulator P V VF) :
    Post (fun _ => False) (stopSpread A call x y ds s) fun s1 => Marks s s1 := by
  induction ds generalizing s with
  | nil => exact Post.ok (Marks.marks_refl s)
  | cons d rest ih =>
    obtain ⟨dx, dy⟩ := d
    simp only [stopSpread]
    refine Post.bind (Post.rd_lax ?_)
    refine Post.ite (fun _ => ih s) fun _ => ?_
    refine Post.bind (Post.rd_lax ?_)
    refine Post.ite (fun _ => ih s) fun _ => ?_
    refine Post.bind (Post.mono (Post.lax _) fun v _ => ?_)
    refine Post.ite (fun _ => ih s) fun _ => ?_
    refine Post.bind (Post.mono (hcall s _ _) fun s1 h1 => ?_)
    exact Post.mono (ih s1) fun s2 h2 => h1.marks_trans h2

theorem PropagateStop_marks (A : Scalars P V VF) (depth : Nat) (s : Simulator P V VF)
    (x y : Int) (force : Bool) :
    Post (fun _ => False) (PropagateStop A depth s x y force) fun s1 => Marks s s1 := by
  induction depth generalizing s x y force with
  | zero => exact Post.error fun h => h
  | succ depth ih =>
    simp only [PropagateStop]
    refine Post.bind (Post.mono (Post.lax _) fun stop _ => ?_)
    refine Post.ite (fun _ => Post.ok (Marks.marks_refl s)) fun _ => ?_
    refine Post.bind (Post.setLastUse_lax ?_)
    exact Post.mono (stopSpread_marks A _ (fun s2 nx ny => ih s2 nx ny false) x y deltas _)
      fun s2 h2 => (Marks.stampUT s x y).marks_trans h2

theorem moveStops_marks (A : Scalars P V VF) (depth : Nat) (x y : Int)
    (ds : List (Int × Int)) (s : Simulator P V VF) :
    Post (fun _ => False) (moveStops A depth x y ds s) fun s1 => Marks s s1 := by
  induction ds generalizing s with
  | nil => exact Post.ok (Marks.marks_refl s)
  | cons d rest ih =>
    obtain ⟨dx, dy⟩ := d
    simp only [moveStops]
    refine Post.bind (Post.rd_lax ?_)
    refine Post.ite (fun _ => ih s) fun _ => ?_
    refine Post.bind (Post.rd_lax ?_)
    refine Post.ite (fun _ => ih s) fun _ => ?_
    refine Post.bind (Post.mono (Post.lax _) fun v _ => ?_)
    refine Post.ite (fun _ => ih s) fun _ => ?_
    refine Post.bind (Post.mono (PropagateStop_marks A depth s _ _ false) fun s1 h1 => ?_)
    exact Post.mono (ih s1) fun s2 h2 => h1.marks_trans h2

theorem moveLoop_marks (A : Scalars P V VF)
    (call : Simulator P V VF → Int → Int → Except Err (Simulator P V VF × Bool))
    (hcall : ∀ s nx ny, Post (fun _ => False) (call s nx ny) fun r => Marks s r.1)
    (x y : Int) (iters : Nat) (s : Simulator P V VF) (nx ny : Int) :
    Post (fun _ => False) (moveLoop A call x y iters s nx ny) fun r => Marks s r.1 := by
  induction iters generalizing s nx ny with
  | zero => exact Post.error fun h => h
  | succ iters ih =>
    simp only [moveLoop]
    refine Post.bind (Post.mono (Post.lax _) fun ts _ => ?_)
    obtain ⟨tres, sum⟩ := ts
    simp only []
    refine Post.ite (fun _ => Post.ok (Marks.marks_refl s)) fun _ => ?_
    simp only [Simulator.Random01]
    have hm1 := Marks.marks_nextRnd s
    cases hget : deltas.get? (upperBound A tres (A.pMul (A.random01 s.nextRnd.1) sum)) with
    | none => exact Post.error fun h => h
    | some d =>
      obtain ⟨dx, dy⟩ := d
      simp only []
      refine Post.bind (Post.mono (Post.lax _) fun v _ => ?_)
      refine Post.ite (fun _ => Post.error fun h => h) fun _ => ?_
      refine Post.bind (Post.rd_lax ?_)
      refine Post.ite (fun _ => Post.error fun h => h) fun _ => ?_
      refine Post.bind (Post.rd_lax ?_)
      refine Post.ite (fun _ => Post.error fun h => h) fun _ => ?_
      refine Post.ite (fun _ => Post.ok hm1) fun _ => ?_
      refine Post.bind (Post.mono (hcall _ _ _) fun r hr => ?_)
      obtain ⟨s2, ret⟩ := r
      simp only []
      have hm2 : Marks s s2 := hm1.marks_trans hr
      refine Post.ite (fun _ => Post.ok hm2) fun _ => ?_
      exact Post.mono (ih s2 _ _) fun r3 h3 => hm2.marks_trans h3

theorem swapCells_marks (A : Scalars P V VF) (s : Simulator P V VF) (x y nx ny : Int) :
    Post (fun _ => False) (swapCells A s x y nx ny) fun s1 =>
      s1.last_use = s.last_use ∧ s1.UT = s.UT ∧ s1.velocity_flow = s.velocity_flow := by
  have key : ∀ (pp : ParticleParams P V) (s0 : Simulator P V VF) (a b : Int),
      Post (fun _ => False) (pp.SwapWith s0 a b) fun r =>
        r.2.last_use = s0.last_use ∧ r.2.UT = s0.UT ∧ r.2.velocity_flow = s0.velocity_flow := by
    intro pp s0 a b
    unfold ParticleParams.SwapWith
    split
    · split
      · exact ⟨rfl, rfl, rfl⟩
      · exact fun h => h
    · exact fun h => h
  unfold swapCells
  refine Post.bind (Post.mono (key _ s x y) fun r1 h1 => ?_)
  obtain ⟨pp1, s1⟩ := r1
  refine Post.bind (Post.mono (key _ s1 nx ny) fun r2 h2 => ?_)
  obtain ⟨pp2, s2⟩ := r2
  refine Post.bind (Post.mono (key _ s2 x y) fun r3 h3 => ?_)
  obtain ⟨pp3, s3⟩ := r3
  simp only [] at h1 h2 h3 ⊢
  exact Post.ok ⟨h3.1.trans (h2.1.trans h1.1), h3.2.1.trans (h2.2.1.trans h1.2.1),
    h3.2.2.trans (h2.2.2.trans h1.2.2)⟩

theorem PropagateMove_marks (A : Scalars P V VF) (iters depth : Nat) (s : Simulator P V VF)
    (x y : Int) (is_first : Bool) :
    Post (fun _ => False) (PropagateMove A iters depth s x y is_first) fun r =>
      Marks s r.1 ∧ r.1.last_use x y = s.UT := by
  induction depth generalizing s x y is_first with
  | zero => exact Post.error fun h => h
  | succ depth ih =>
    simp only [PropagateMove]
    refine Post.bind (Post.setLastUse_lax ?_)
    refine Post.bind (Post.mono (moveLoop_marks A _ (fun s3 x3 y3 =>
      Post.mono (ih s3 x3 y3 false) fun r hr => hr.1) x y iters _ (-1) (-1)) fun r hr => ?_)
    obtain ⟨s2, ret, nx, ny⟩ := r
    simp only [] at hr ⊢
    refine Post.bind (Post.setLastUse_lax ?_)
    refine Post.bind (Post.mono (moveStops_marks A depth x y deltas _) fun s5 h5 => ?_)
    have hUT2 : s2.UT = s.UT := hr.UT
    have hown5 : s5.last_use x y = s.UT := by
      rcases h5.stamp x y with h | h
      · rw [h]; simp [upd, hUT2]
      · rw [h]; exact hUT2
    have hm5 : Marks s s5 := by
      refine ⟨h5.UT.trans hUT2, fun a b => ?_, h5.flow.trans hr.flow⟩
      by_cases hab : a = x ∧ b = y
      · obtain ⟨rfl, rfl⟩ := hab
        exact Or.inr hown5
      · rcases h5.stamp a b with h | h
        · rw [h]
          simp only [upd, if_neg hab]
          rcases hr.stamp a b with h2 | h2
          · rw [h2]
            simp only [upd, if_neg hab]
            exact Or.inl trivial
          · exact Or.inr h2
        · exact Or.inr (h.trans hUT2)
    refine Post.ite (fun _ => ?_) fun _ => Post.ok ⟨hm5, hown5⟩
    refine Post.bind (Post.mono (swapCells_marks A s5 x y nx ny) fun s6 h6 => ?_)
    refine Post.ok ⟨⟨h6.2.1.trans hm5.UT, fun a b => ?_, h6.2.2.trans hm5.flow⟩, ?_⟩
    · rw [h6.1]; exact hm5.stamp a b
    · rw [h6.1]; exact hown5

/-- C17. For a state with a wall boundary, any numeric types and any generator
stream: when `PropagateMove(x, y, is_first)` returns `false`, `field`, `p` and
`velocity` are what they were before the call at every cell, and so is every
other member except `last_use` (and the state of the generator). -/
theorem PropagateMove_false_moves_nothing (A : Scalars P V VF) (iters depth : Nat)
    (s : Simulator P V VF) (x y : Int) (is_first : Bool) (hw : s.WF) (ho : s.Open x y)
    (s1 : Simulator P V VF)
    (h : PropagateMove A iters depth s x y is_first = .ok (s1, false)) :
    s1.field = s.field ∧ s1.p = s.p ∧ s1.velocity = s.velocity ∧
      s1 = { s with last_use := s1.last_use, rnd := s1.rnd } := by
  have hpost := (PropagateMove_post (b := Err.isAccess) (fun h => h) (fun h => h) (fun h => h)
    A iters depth s x y is_first hw ho).elim h
  have hmarks := ((PropagateMove_marks A iters depth s x y is_first).elim h).1
  obtain ⟨hfield, hp, hvel⟩ := hpost.2.1 rfl
  have hframe := hpost.1
  refine ⟨hfield, hp, hvel, ?_⟩
  have hN := hframe.N
  have hM := hframe.M
  have hrho := hframe.rho
  have hg := hframe.g
  have hdirs := hframe.dirs
  have hUT := hframe.UT
  have hold := hframe.old_p
  have hflow := hmarks.flow
  cases s
  cases s1
  simp only [Simulator.mk.injEq] at *
  exact ⟨hN, hM, hfield, hrho, hp, hold, hdirs, trivial, hUT, hg, hvel, hflow, trivial⟩

set_option maxRecDepth 100000 in
theorem PropagateMove_false_moves_nothing_witness :
    ∃ s1, PropagateMove (exactScalars 16 52428) 5 5 loopSim 1 1 true = .ok (s1, false) ∧
      s1.last_use 1 2 = 2 ∧ loopSim.last_use 1 2 = 0 ∧
      s1.field = loopSim.field ∧ s1.p = loopSim.p ∧ s1.velocity = loopSim.velocity ∧
      s1 = { loopSim with last_use := s1.last_use, rnd := s1.rnd } := by
  obtain ⟨r, h, hq⟩ := okAnd_elim
    (m := PropagateMove (exactScalars 16 52428) 5 5 loopSim 1 1 true)
    (q := fun r => decide (r.2 = false ∧ r.1.last_use 1 2 = 2)) (by decide)
  obtain ⟨s1, ret⟩ := r
  obtain ⟨hret, hlu⟩ := of_decide_eq_true hq
  simp only [] at hret hlu
  subst hret
  exact ⟨s1, h, hlu, by decide,
    PropagateMove_false_moves_nothing (exactScalars 16 52428) 5 5 loopSim 1 1 true
      ⟨by decide, rfl, rfl, rfl, rfl⟩ (by decide) s1 h⟩

/-! ## Pressure in phase 4 -/

theorem moveCell_still {b : Err → Prop} (hf : ¬ b .outOfFuel) (hm : ¬ b .moveAssert)
    (hn : ¬ b .noDirection) (A : Scalars P V VF) (iters depth : Nat)
    (sp : Simulator P V VF × Bool) (hw : sp.1.WF) {c : Int × Int}
    (hc : c ∈ cells sp.1.N sp.1.M) :
    Post b (moveCell A iters depth sp c) fun r =>
      r.2 = false → sp.2 = false ∧ Still sp.1 r.1 := by
  unfold moveCell
  refine Post.bind (Post.rd (inb_of_mem_cells hc) ?_)
  refine Post.ite (fun _ => Post.ok fun h => ⟨h, Still.still_refl _⟩) fun hne => ?_
  refine Post.bind (Post.rd (inb_of_mem_cells hc) ?_)
  refine Post.ite (fun _ => Post.ok fun h => ⟨h, Still.still_refl _⟩) fun _ => ?_
  simp only [Simulator.Random01]
  have hf1 := Frame.nextRnd sp.1
  have hw1 := hf1.wf hw
  have ho1 : sp.1.nextRnd.2.Open c.1 c.2 :=
    (hf1.open_iff _ _).mpr (open_of_mem_cells hc hne)
  refine Post.bind (Post.mono (moveProbLoop_post A hw1 ho1 deltas (fun _ h => h) _)
    fun mp _ => ?_)
  refine Post.ite (fun _ => ?_) fun _ => ?_
  · refine Post.bind (Post.mono (PropagateMove_post hf hm hn A iters depth _ c.1 c.2 true hw1 ho1)
      fun r _ => ?_)
    exact Post.ok fun h => Bool.noConfusion h
  · refine Post.bind (Post.mono (PropagateStop_post hf A depth _ c.1 c.2 true hw1 ho1)
      fun r hr => ?_)
    exact Post.ok fun h => ⟨h, Still.still_trans ⟨rfl, rfl, rfl⟩ hr.2.1⟩

theorem phase4_still {b : Err → Prop} (hf : ¬ b .outOfFuel) (hm : ¬ b .moveAssert)
    (hn : ¬ b .noDirection) (A : Scalars P V VF) (iters depth : Nat) (s : Simulator P V VF)
    (hw : s.WF) :
    Post b (phase4 A iters depth s) fun r => r.2 = false → Still s r.1 := by
  unfold phase4
  have h0 := Frozen.setUT s (s.UT + 2)
  refine Post.mono (Post.forEach
    (I := fun sp : Simulator P V VF × Bool =>
      Frame { s with UT := s.UT + 2 } sp.1 ∧ (sp.2 = false → Still s sp.1))
    (cells s.N s.M) (fun sp c hc hI => ?_) _ ⟨Frame.frame_refl _, fun _ => Still.still_refl s⟩)
    fun r hr => hr.2
  have hwp : sp.1.WF := hI.1.wf (h0.wf hw)
  have hcp : c ∈ cells sp.1.N sp.1.M := by rw [hI.1.N, hI.1.M]; exact hc
  refine Post.mono (Post.and (moveCell_post hf hm hn A iters depth sp hwp hcp)
    (moveCell_still hf hm hn A iters depth sp hwp hcp)) fun r hr => ?_
  refine ⟨hI.1.frame_trans hr.1.1, fun h => ?_⟩
  obtain ⟨h1, h2⟩ := hr.2 h
  exact (hI.2 h1).still_trans h2

theorem map_ok_elim {α β : Type} {m : Except Err α} {f : α → β} {b : β}
    (h : f <$> m = .ok b) : ∃ a, m = .ok a ∧ f a = b := by
  cases m with
  | error e => cases h
  | ok a => exact ⟨a, rfl, by cases h; rfl⟩

/-- C15, as the code has it. Phase 4 computes no pressure, but it moves it:
for a state with a wall boundary, `p` is unchanged at every wall cell, and the
values of `p` at the other cells are those of before, permuted together with
`field` and `velocity` (the exchange in `PropagateMove` swaps all three); when
phase 4 ends with `prop` false, `p` is unchanged at every cell. -/
theorem phase4_moves_pressure (A : Scalars P V VF) (iters depth : Nat) (s : Simulator P V VF)
    (hw : s.WF) (r : Simulator P V VF × Bool) (h : phase4 A iters depth s = .ok r) :
    (∃ σ : Equiv.Perm (Int × Int), (∀ c, ¬ s.Open c.1 c.2 → σ c = c) ∧
      ∀ c, r.1.p c.1 c.2 = s.p (σ c).1 (σ c).2 ∧ r.1.field c.1 c.2 = s.field (σ c).1 (σ c).2 ∧
        r.1.velocity.v c.1 c.2 = s.velocity.v (σ c).1 (σ c).2) ∧
      (∀ x y, s.field x y = '#' → r.1.p x y = s.p x y) ∧
      (r.2 = false → r.1.p = s.p) := by
  have hframe := ((phase4_post (b := Err.isAccess) (fun h => h) (fun h => h) (fun h => h)
    A iters depth s hw).elim h).1
  have hstill := (phase4_still (b := Err.isAccess) (fun h => h) (fun h => h) (fun h => h)
    A iters depth s hw).elim h
  obtain ⟨σ, hfix, hcont⟩ := hframe.perm
  refine ⟨⟨σ, hfix, fun c => ?_⟩, fun x y hwall => ?_, fun hfalse => (hstill hfalse).2.1⟩
  · have h1 := hcont c
    simp only [Simulator.content, Prod.mk.injEq] at h1
    exact ⟨h1.2.1, h1.1, h1.2.2⟩
  · have h1 := (hframe.closed x y (wall_not_open hwall)).1
    simp only [Simulator.content, Prod.mk.injEq] at h1
    exact h1.2.1

set_option maxRecDepth 100000 in
theorem phase4_moves_pressure_witness :
    ∃ s1 s2 s3 s4 r, runTicks (exactScalars 16 52428) 5 5 3 boxSim = .ok s1 ∧
      phase12 (exactScalars 16 52428) s1 = .ok s2 ∧
      phase3 (exactScalars 16 52428) 5 5 s2 = .ok s3 ∧
      phase3Apply (exactScalars 16 52428) s3 = .ok s4 ∧
      phase4 (exactScalars 16 52428) 5 5 s4 = .ok r ∧ r.2 = true ∧
      (∃ σ : Equiv.Perm (Int × Int), (∀ c, ¬ s4.Open c.1 c.2 → σ c = c) ∧
        ∀ c, r.1.p c.1 c.2 = s4.p (σ c).1 (σ c).2 ∧
          r.1.field c.1 c.2 = s4.field (σ c).1 (σ c).2 ∧
          r.1.velocity.v c.1 c.2 = s4.velocity.v (σ c).1 (σ c).2) ∧
      (∀ x y, s4.field x y = '#' → r.1.p x y = s4.p x y) ∧
      (r.2 = false → r.1.p = s4.p) := by
  obtain ⟨q, h, hq⟩ := okAnd_elim
    (m := runTicks (exactScalars 16 52428) 5 5 3 boxSim >>= fun s1 =>
      phase12 (exactScalars 16 52428) s1 >>= fun s2 =>
      phase3 (exactScalars 16 52428) 5 5 s2 >>= fun s3 =>
      phase3Apply (exactScalars 16 52428) s3 >>= fun s4 =>
      (fun r => (s4, r)) <$> phase4 (exactScalars 16 52428) 5 5 s4)
    (q := fun q => decide (q.1.wallBoundary ∧ q.1.velocity.n = q.1.N ∧
      q.1.velocity.m = q.1.M ∧ q.1.velocity_flow.n = q.1.N ∧ q.1.velocity_flow.m = q.1.M ∧
      q.2.2 = true)) (by decide)
  obtain ⟨s1, h1, h⟩ := bind_ok_elim h
  obtain ⟨s2, h2, h⟩ := bind_ok_elim h
  obtain ⟨s3, h3, h⟩ := bind_ok_elim h
  obtain ⟨s4, h4, h⟩ := bind_ok_elim h
  obtain ⟨r, h5, rfl⟩ := map_ok_elim h
  obtain ⟨hb, hvn, hvm, hfn, hfm, hret⟩ := of_decide_eq_true hq
  exact ⟨s1, s2, s3, s4, r, h1, h2, h3, h4, h5, hret,
    phase4_moves_pressure (exactScalars 16 52428) 5 5 s4 ⟨hb, hvn, hvm, hfn, hfm⟩ r h5⟩

set_option maxRecDepth 100000 in
/-- C15 fails as stated: in the fourth tick of the run on the box of four open
cells, phase 4 moves the fluid, and the pressure of the cell `(1, 1)` after
phase 4 differs from the one before it. -/
theorem phase4_changes_pressure :
    ∃ s1 s2 s3 s4 r, runTicks (exactScalars 16 52428) 5 5 3 boxSim = .ok s1 ∧
      phase12 (exactScalars 16 52428) s1 = .ok s2 ∧
      phase3 (exactScalars 16 52428) 5 5 s2 = .ok s3 ∧
      phase3Apply (exactScalars 16 52428) s3 = .ok s4 ∧
      phase4 (exactScalars 16 52428) 5 5 s4 = .ok r ∧
      s4.p 1 1 = 327621 ∧ r.1.p 1 1 = 720811 ∧ r.1.p 1 1 ≠ s4.p 1 1 := by
  obtain ⟨q, h, hq⟩ := okAnd_elim
    (m := runTicks (exactScalars 16 52428) 5 5 3 boxSim >>= fun s1 =>
      phase12 (exactScalars 16 52428) s1 >>= fun s2 =>
      phase3 (exactScalars 16 52428) 5 5 s2 >>= fun s3 =>
      phase3Apply (exactScalars 16 52428) s3 >>= fun s4 =>
      (fun r => (s4, r)) <$> phase4 (exactScalars 16 52428) 5 5 s4)
    (q := fun q => decide (q.1.p 1 1 = 327621 ∧ q.2.1.p 1 1 = 720811)) (by decide)
  obtain ⟨s1, h1, h⟩ := bind_ok_elim h
  obtain ⟨s2, h2, h⟩ := bind_ok_elim h
  obtain ⟨s3, h3, h⟩ := bind_ok_elim h
  obtain ⟨s4, h4, h⟩ := bind_ok_elim h
  obtain ⟨r, h5, rfl⟩ := map_ok_elim h
  obtain ⟨hp4, hpr⟩ := of_decide_eq_true hq
  exact ⟨s1, s2, s3, s4, r, h1, h2, h3, h4, h5, hp4, hpr, by rw [hp4, hpr]; decide⟩

/-! ## Accesses stay inside the allocations -/

theorem InBounds.of_post {α : Type} {m : Except Err α} {Q : α → Prop}
    (h : Post Err.isAccess m Q) : InBounds m := by
  cases m with
  | ok a => exact ⟨fun h => Except.noConfusion h, fun h => Except.noConfusion h⟩
  | error e =>
    refine ⟨fun he => ?_, fun he => ?_⟩
    · cases he; exact h trivial
    · cases he; exact h trivial

theorem error_bind {α β : Type} (e : Err) (f : α → Except Err β) :
    ((.error e : Except Err α) >>= f) = .error e := rfl

theorem stopSpread_congr (A : Scalars P V VF)
    (call1 call2 : Simulator P V VF → Int → Int → Except Err (Simulator P V VF))
    (h : ∀ s nx ny, s.inb nx ny → s.field nx ny ≠ '#' → call1 s nx ny = call2 s nx ny)
    (x y : Int) (ds : List (Int × Int)) (s : Simulator P V VF) :
    stopSpread A call1 x y ds s = stopSpread A call2 x y ds s := by
  induction ds generalizing s with
  | nil => rfl
  | cons d rest ih =>
    obtain ⟨dx, dy⟩ := d
    simp only [stopSpread, Simulator.rd]
    by_cases hin : s.inb (x + dx) (y + dy)
    · simp only [if_pos hin, ok_bind]
      by_cases hc : s.field (x + dx) (y + dy) = '#'
      · simp only [if_pos hc]; exact ih s
      · simp only [if_neg hc]
        by_cases hl : s.last_use (x + dx) (y + dy) = s.UT
        · simp only [if_pos hl]; exact ih s
        · simp only [if_neg hl]
          cases s.velocity.Get x y dx dy with
          | error e => rfl
          | ok v =>
            simp only [ok_bind]
            by_cases hlt : A.vLt (A.vOfInt 0) v = true
            · simp only [if_pos hlt]; exact ih s
            · simp only [if_neg hlt]
              rw [h s _ _ hin hc]
              congr 1
              funext s1
              exact ih s1
    · simp only [if_neg hin, error_bind]

theorem flowDirs_congr (A : Scalars P V VF)
    (call1 call2 : Simulator P V VF → Int → Int → P →
      Except Err (Simulator P V VF × P × Bool × (Int × Int)))
    (h : ∀ s nx ny vp, s.inb nx ny → s.field nx ny ≠ '#' → call1 s nx ny vp = call2 s nx ny vp)
    (x y : Int) (lim : P) (ds : List (Int × Int)) (s : Simulator P V VF) (ret : P) :
    flowDirs A call1 x y lim ds s ret = flowDirs A call2 x y lim ds s ret := by
  induction ds generalizing s ret with
  | nil => rfl
  | cons d rest ih =>
    obtain ⟨dx, dy⟩ := d
    simp only [flowDirs, Simulator.rd]
    by_cases hin : s.inb (x + dx) (y + dy)
    · simp only [if_pos hin, ok_bind]
      by_cases hc : s.field (x + dx) (y + dy) = '#'
      · simp only [if_pos hc]; exact ih s ret
      · simp only [if_neg hc]
        by_cases hl : ¬ s.last_use (x + dx) (y + dy) < s.UT
        · simp only [if_pos hl]; exact ih s ret
        · simp only [if_neg hl]
          cases s.velocity.Get x y dx dy with
          | error e => rfl
          | ok cap =>
            simp only [ok_bind]
            cases s.velocity_flow.Get x y dx dy with
            | error e => rfl
            | ok flow =>
              simp only [ok_bind]
              by_cases heq : A.vfEq flow (A.vfOfV cap) = true
              · simp only [if_pos heq]; exact ih s ret
              · simp only [if_neg heq]
                by_cases hlu : s.last_use (x + dx) (y + dy) = s.UT - 1
                · simp only [if_pos hlu]
                · simp only [if_neg hlu]
                  rw [h s _ _ _ hin hc]
                  congr 1
                  funext r
                  obtain ⟨s1, t, prop, e⟩ := r
                  simp only []
                  by_cases hp : prop = true
                  · simp only [if_pos hp]
                  · simp only [if_neg hp]; exact ih s1 _
    · simp only [if_neg hin, error_bind]

theorem moveLoop_congr (A : Scalars P V VF)
    (call1 call2 : Simulator P V VF → Int → Int → Except Err (Simulator P V VF × Bool))
    (h : ∀ s nx ny, s.inb nx ny → s.field nx ny ≠ '#' → call1 s nx ny = call2 s nx ny)
    (x y : Int) (iters : Nat) (s : Simulator P V VF) (nx ny : Int) :
    moveLoop A call1 x y iters s nx ny = moveLoop A call2 x y iters s nx ny := by
  induction iters generalizing s nx ny with
  | zero => rfl
  | succ iters ih =>
    simp only [moveLoop]
    cases tresLoop A s x y deltas (A.pOfInt 0) with
    | error e => rfl
    | ok ts =>
      obtain ⟨tres, sum⟩ := ts
      simp only [ok_bind]
      by_cases hs : A.pEq sum (A.pOfInt 0) = true
      · simp only [if_pos hs]
      · simp only [if_neg hs, Simulator.Random01]
        cases deltas.get? (upperBound A tres (A.pMul (A.random01 s.nextRnd.1) sum)) with
        | none => rfl
        | some d =>
          obtain ⟨dx, dy⟩ := d
          simp only [Simulator.rd]
          cases s.nextRnd.2.velocity.Get x y dx dy with
          | error e => rfl
          | ok v =>
            simp only [ok_bind]
            by_cases hv : ¬ A.vLt (A.vOfInt 0) v = true
            · simp only [if_pos hv]
            · simp only [if_neg hv]
              by_cases hin : s.nextRnd.2.inb (x + dx) (y + dy)
              · simp only [if_pos hin, ok_bind]
                by_cases hc : s.nextRnd.2.field (x + dx) (y + dy) = '#'
                · simp only [if_pos hc]
                · simp only [if_neg hc]
                  by_cases hl : ¬ s.nextRnd.2.last_use (x + dx) (y + dy) < s.nextRnd.2.UT
                  · simp only [if_pos hl]
                  · simp only [if_neg hl]
                    by_cases hl1 : s.nextRnd.2.last_use (x + dx) (y + dy) = s.nextRnd.2.UT - 1
                    · simp only [if_pos hl1]
                    · simp only [if_neg hl1]
                      rw [h _ _ _ hin hc]
                      congr 1
                      funext r
                      obtain ⟨s2, ret⟩ := r
                      simp only []
                      by_cases hr : ret = true
                      · simp only [if_pos hr]
                      · simp only [if_neg hr]; exact ih s2 _ _
              · simp only [if_neg hin, error_bind]

theorem moveStops_wall (A : Scalars P V VF) (depth : Nat) (x y dx dy : Int)
    (rest : List (Int × Int)) (s : Simulator P V VF) (hin : s.inb (x + dx) (y + dy))
    (hwall : s.field (x + dx) (y + dy) = '#') :
    moveStops A depth x y ((dx, dy) :: rest) s = moveStops A depth x y rest s := by
  simp only [moveStops, Simulator.rd, if_pos hin, ok_bind, if_pos hwall]

theorem flowCell_wall (A : Scalars P V VF) (depth : Nat) (sp : Simulator P V VF × Bool)
    (c : Int × Int) (hin : sp.1.inb c.1 c.2) (hwall : sp.1.field c.1 c.2 = '#') :
    flowCell A depth sp c = .ok sp := by
  simp only [flowCell, Simulator.rd, if_pos hin, ok_bind, if_pos hwall]

theorem moveCell_wall (A : Scalars P V VF) (iters depth : Nat) (sp : Simulator P V VF × Bool)
    (c : Int × Int) (hin : sp.1.inb c.1 c.2) (hwall : sp.1.field c.1 c.2 = '#') :
    moveCell A iters depth sp c = .ok sp := by
  simp only [moveCell, Simulator.rd, if_pos hin, ok_bind, if_pos hwall]

/-- Accesses of the arrays of the simulator, the part of C20 that the code
satisfies: the statement follows a run up to a subscript `deltas[d]` that is
out of range, where the run of the model ends with `noDirection`. For a grid
whose outer boundary is all `'#'`, any numeric types, any fuel and any
generator stream: no tick of `Run` reads or writes `field`, `p`, `old_p`,
`dirs`, `last_use`, `velocity` or `velocity_flow` outside its allocation, and
every state reached keeps the wall boundary and the shape of the arrays; from any such state, `PropagateStop`, `MoveProb`, `PropagateMove`
and `PropagateFlow` called for a non-wall cell stay inside the allocations as
well. The kernels are invoked for non-wall cells only: the loops of `Run` do
nothing at a wall cell, the loop of `PropagateMove` that calls `PropagateStop`
skips a wall neighbour, and the three recursions depend on the recursive call
only at cells that are inside the arrays and are not walls. -/
theorem accesses_in_bounds (A : Scalars P V VF) (iters depth n N M : Nat)
    (field : Int → Int → Char) (rho : Char → P) (g : V) (rnd : Nat → Nat)
    (hb : (Simulator.init A N M field rho g rnd).wallBoundary) :
    InBounds (runTicks A iters depth n (Simulator.init A N M field rho g rnd)) ∧
    (∀ s1, runTicks A iters depth n (Simulator.init A N M field rho g rnd) = .ok s1 →
      s1.WF ∧ InBounds (tick A iters depth s1)) ∧
    (∀ s : Simulator P V VF, s.WF → ∀ x y, s.field x y ≠ '#' → 0 ≤ x → x < s.N → 0 ≤ y →
      y < s.M →
      (∀ force, InBounds (PropagateStop A depth s x y force)) ∧
      InBounds (MoveProb A s x y) ∧
      (∀ is_first, InBounds (PropagateMove A iters depth s x y is_first)) ∧
      ∀ lim, InBounds (PropagateFlow A depth s x y lim)) ∧
    (∀ (sp : Simulator P V VF × Bool) (c : Int × Int), sp.1.inb c.1 c.2 →
      sp.1.field c.1 c.2 = '#' →
      flowCell A depth sp c = .ok sp ∧ moveCell A iters depth sp c = .ok sp) ∧
    (∀ (s : Simulator P V VF) (x y dx dy : Int) (rest : List (Int × Int)),
      s.inb (x + dx) (y + dy) → s.field (x + dx) (y + dy) = '#' →
      moveStops A depth x y ((dx, dy) :: rest) s = moveStops A depth x y rest s) ∧
    (∀ call1 call2 : Simulator P V VF → Int → Int → Except Err (Simulator P V VF),
      (∀ s nx ny, s.inb nx ny → s.field nx ny ≠ '#' → call1 s nx ny = call2 s nx ny) →
      ∀ x y ds s, stopSpread A call1 x y ds s = stopSpread A call2 x y ds s) ∧
    (∀ call1 call2 : Simulator P V VF → Int → Int → Except Err (Simulator P V VF × Bool),
      (∀ s nx ny, s.inb nx ny → s.field nx ny ≠ '#' → call1 s nx ny = call2 s nx ny) →
      ∀ x y k s nx ny, moveLoop A call1 x y k s nx ny = moveLoop A call2 x y k s nx ny) ∧
    ∀ call1 call2 : Simulator P V VF → Int → Int → P →
        Except Err (Simulator P V VF × P × Bool × (Int × Int)),
      (∀ s nx ny vp, s.inb nx ny → s.field nx ny ≠ '#' →
        call1 s nx ny vp = call2 s nx ny vp) →
      ∀ x y lim ds s ret,
        flowDirs A call1 x y lim ds s ret = flowDirs A call2 x y lim ds s ret := by
  have hrun := runTicks_post (b := Err.isAccess) (fun h => h) (fun h => h) (fun h => h)
    (fun h => h) (fun h => h) A iters depth n _ (init_wf A N M field rho g rnd hb)
    (fun _ _ => rfl)
  refine ⟨InBounds.of_post hrun, fun s1 h1 => ?_, fun s hw x y hne hx0 hx1 hy0 hy1 => ?_,
    fun sp c hin hwall => ⟨flowCell_wall A depth sp c hin hwall,
      moveCell_wall A iters depth sp c hin hwall⟩,
    fun s x y dx dy rest hin hwall => moveStops_wall A depth x y dx dy rest s hin hwall,
    fun call1 call2 h x y ds s => stopSpread_congr A call1 call2 h x y ds s,
    fun call1 call2 h x y k s nx ny => moveLoop_congr A call1 call2 h x y k s nx ny,
    fun call1 call2 h x y lim ds s ret => flowDirs_congr A call1 call2 h x y lim ds s ret⟩
  · have hw1 := (hrun.elim h1).wf
    exact ⟨hw1, InBounds.of_post (tick_post (b := Err.isAccess) (fun h => h) (fun h => h)
      (fun h => h) (fun h => h) (fun h => h) A iters depth s1 hw1)⟩
  · have ho : s.Open x y := ⟨hx0, hx1, hy0, hy1, hne⟩
    refine ⟨fun force => InBounds.of_post
        (PropagateStop_post (b := Err.isAccess) (fun h => h) A depth s x y force hw ho),
      InBounds.of_post (moveProbLoop_post (b := Err.isAccess) A hw ho deltas (fun _ h => h) _),
      fun is_first => InBounds.of_post (PropagateMove_post (b := Err.isAccess) (fun h => h)
        (fun h => h) (fun h => h) A iters depth s x y is_first hw ho),
      fun lim => InBounds.of_post
        (PropagateFlow_post (b := Err.isAccess) (fun h => h) A depth s x y lim hw ho)⟩

set_option maxRecDepth 100000 in
theorem accesses_in_bounds_witness :
    boxSim.wallBoundary ∧ InBounds (runTicks (exactScalars 16 52428) 5 5 4 boxSim) ∧
      ∃ s1, runTicks (exactScalars 16 52428) 5 5 4 boxSim = .ok s1 ∧ s1.field 2 1 = '.' ∧
        s1.WF ∧ InBounds (tick (exactScalars 16 52428) 5 5 s1) := by
  have hthm := accesses_in_bounds (exactScalars 16 52428) 5 5 4 4 4 boxField dropRho 6553
    (fun _ => 0) (by decide)
  obtain ⟨s1, h1, hq⟩ := okAnd_elim (m := runTicks (exactScalars 16 52428) 5 5 4 boxSim)
    (q := fun s => decide (s.field 2 1 = '.')) (by decide)
  exact ⟨by decide, hthm.1, s1, h1, of_decide_eq_true hq, hthm.2.1 s1 h1⟩

/-! ## The direction chosen by `PropagateMove` -/

theorem rd_ok_elim {α : Type} {s : Simulator P V VF} {a : Int → Int → α} {x y : Int} {c : α}
    (h : s.rd a x y = .ok c) : s.inb x y ∧ c = a x y := by
  unfold Simulator.rd at h
  split at h
  · cases h
    exact ⟨‹_›, rfl⟩
  · cases h

/-- In exact arithmetic `tres` holds the running sums of the velocities of the
admissible directions: the final sum is not below the start value, and every
value `p` from the start value up to, but excluding, the final sum is first
exceeded at a direction that is admissible and has a positive velocity. -/
theorem tres_pick (K : Nat) (c08 : Int) (s : Simulator Int Int Int) (x y : Int)
    (ds : List (Int × Int)) (acc : Int) (tres : List Int) (sum : Int)
    (h : tresLoop (exactScalars K c08) s x y ds acc = .ok (tres, sum)) :
    acc ≤ sum ∧ ∀ p, acc ≤ p → p < sum →
      ∃ dx dy v, ds.get? (upperBound (exactScalars K c08) tres p) = some (dx, dy) ∧
        s.velocity.Get x y dx dy = .ok v ∧ 0 < v ∧ s.field (x + dx) (y + dy) ≠ '#' ∧
        s.last_use (x + dx) (y + dy) ≠ s.UT := by
  induction ds generalizing acc tres sum with
  | nil =>
    simp only [tresLoop] at h
    cases h
    exact ⟨le_refl _, fun p h1 h2 => absurd h2 (not_lt.mpr h1)⟩
  | cons d rest ih =>
    obtain ⟨dx, dy⟩ := d
    have skip : ∀ (r : Except Err (List Int × Int)),
        (fun r : List Int × Int => (acc :: r.1, r.2)) <$> r = .ok (tres, sum) →
        r = tresLoop (exactScalars K c08) s x y rest acc →
        acc ≤ sum ∧ ∀ p, acc ≤ p → p < sum →
          ∃ dx1 dy1 v, ((dx, dy) :: rest).get? (upperBound (exactScalars K c08) tres p) =
              some (dx1, dy1) ∧
            s.velocity.Get x y dx1 dy1 = .ok v ∧ 0 < v ∧ s.field (x + dx1) (y + dy1) ≠ '#' ∧
            s.last_use (x + dx1) (y + dy1) ≠ s.UT := by
      intro r hr hdef
      obtain ⟨r1, hr1, heq⟩ := map_ok_elim hr
      obtain ⟨tres1, sum1⟩ := r1
      simp only [Prod.mk.injEq] at heq
      obtain ⟨rfl, rfl⟩ := heq
      rw [hdef] at hr1
      obtain ⟨h1, h2⟩ := ih acc tres1 sum1 hr1
      refine ⟨h1, fun p hp1 hp2 => ?_⟩
      obtain ⟨dx1, dy1, v, hget, hrest⟩ := h2 p hp1 hp2
      refine ⟨dx1, dy1, v, ?_, hrest⟩
      have hnot : decide (p < acc) = false := decide_eq_false (not_lt.mpr hp1)
      simp only [upperBound, exactScalars, List.findIdx_cons, hnot, cond_false,
        List.get?_cons_succ]
      exact hget
    simp only [tresLoop] at h
    obtain ⟨c, hc, h⟩ := bind_ok_elim h
    obtain ⟨_, rfl⟩ := rd_ok_elim hc
    by_cases hwall : s.field (x + dx) (y + dy) = '#'
    · rw [if_pos hwall] at h
      exact skip _ h rfl
    rw [if_neg hwall] at h
    obtain ⟨lu, hlu, h⟩ := bind_ok_elim h
    obtain ⟨_, rfl⟩ := rd_ok_elim hlu
    by_cases hUT : s.last_use (x + dx) (y + dy) = s.UT
    · rw [if_pos hUT] at h
      exact skip _ h rfl
    rw [if_neg hUT] at h
    obtain ⟨v, hv, h⟩ := bind_ok_elim h
    by_cases hneg : (exactScalars K c08).vLt v ((exactScalars K c08).vOfInt 0) = true
    · rw [if_pos hneg] at h
      exact skip _ h rfl
    rw [if_neg hneg] at h
    have hv0 : 0 ≤ v := by
      simp only [exactScalars, zero_mul, decide_eq_true_eq, not_lt] at hneg
      exact hneg
    obtain ⟨r1, hr1, heq⟩ := map_ok_elim h
    obtain ⟨tres1, sum1⟩ := r1
    simp only [Prod.mk.injEq] at heq
    obtain ⟨rfl, rfl⟩ := heq
    obtain ⟨h1, h2⟩ := ih _ tres1 sum1 hr1
    have hadd : (exactScalars K c08).pAdd acc ((exactScalars K c08).pOfV v) = acc + v := rfl
    rw [hadd] at h1 h2 ⊢
    refine ⟨by omega, fun p hp1 hp2 => ?_⟩
    by_cases hlt : p < acc + v
    · refine ⟨dx, dy, v, ?_, hv, by omega, hwall, hUT⟩
      have hyes : decide (p < acc + v) = true := decide_eq_true hlt
      simp only [upperBound, exactScalars, List.findIdx_cons, hyes, cond_true]
      rfl
    · obtain ⟨dx1, dy1, v1, hget, hrest⟩ := h2 p (not_lt.mp hlt) hp2
      refine ⟨dx1, dy1, v1, ?_, hrest⟩
      have hnot : decide (p < acc + v) = false := decide_eq_false hlt
      simp only [upperBound, exactScalars, List.findIdx_cons, hnot, cond_false,
        List.get?_cons_succ]
      exact hget

theorem exact_scaled (K : Nat) (c08 : Int) {rv sum : Int} (h0 : 0 ≤ rv)
    (h1 : rv < (exactScalars K c08).pOfInt 1) (hsum : 0 < sum) :
    0 ≤ (exactScalars K c08).pMul rv sum ∧ (exactScalars K c08).pMul rv sum < sum := by
  simp only [exactScalars, one_mul] at h1 ⊢
  have hpos : (0 : Int) < 2 ^ K := by positivity
  have hs : (rv * sum) >>> K = rv * sum / 2 ^ K := by
    rw [Int.shiftRight_eq_div_pow]
    norm_cast
  rw [hs]
  constructor
  · exact Int.ediv_nonneg (by positivity) (le_of_lt hpos)
  · exact Int.ediv_lt_of_lt_mul hpos (by nlinarith)

theorem exact_random01 (K : Nat) (c08 : Int) (r : Nat) :
    0 ≤ (exactScalars K c08).random01 r ∧
      (exactScalars K c08).random01 r < (exactScalars K c08).pOfInt 1 := by
  simp only [exactScalars, one_mul]
  have hpos : (0 : Int) < 2 ^ K := by positivity
  exact ⟨Int.emod_nonneg _ (ne_of_gt hpos), Int.emod_lt_of_pos _ hpos⟩

theorem Post.with_eq {α : Type} {bad : Err → Prop} {m : Except Err α} {Q : α → Prop}
    (h : Post bad m Q) : Post bad m fun a => Q a ∧ m = .ok a := by
  cases m with
  | error e => exact h
  | ok a => exact ⟨h, rfl⟩

theorem Frame.capped {s s1 : Simulator P V VF} (h : Frame s s1) (hc : s.Capped) :
    s1.Capped := by
  intro x y
  rw [h.UT]
  rcases h.stamp x y with h1 | h1 | h1
  · rw [h1]; exact hc x y
  · rw [h1]
  · rw [h1]; omega

theorem capped_stamp (s : Simulator P V VF) (x y val : Int) (hc : s.Capped)
    (hval : val ≤ s.UT) :
    Simulator.Capped { s with last_use := upd s.last_use x y val } := by
  intro a b
  simp only [upd]
  split
  · exact hval
  · exact hc a b

theorem moveLoop_exact {b : Err → Prop} (hf : ¬ b .outOfFuel) (K : Nat) (c08 : Int)
    (call : Simulator Int Int Int → Int → Int → Except Err (Simulator Int Int Int × Bool))
    (hcall : ∀ s nx ny, s.WF → s.Open nx ny → s.Capped →
      Post b (call s nx ny) fun r => Frame s r.1)
    (x y : Int) (iters : Nat) (s : Simulator Int Int Int) (nx ny : Int) (hw : s.WF)
    (ho : s.Open x y) (hcap : s.Capped) :
    Post b (moveLoop (exactScalars K c08) call x y iters s nx ny) fun r => Frame s r.1 := by
  induction iters generalizing s nx ny with
  | zero => exact Post.error hf
  | succ iters ih =>
    have hin := hw.inb ho
    simp only [moveLoop]
    refine Post.bind (Post.mono (Post.with_eq
      (tresLoop_post (exactScalars K c08) hw ho deltas (fun _ h => h) _)) fun ts hts => ?_)
    obtain ⟨tres, sum⟩ := ts
    obtain ⟨hsum0, hpick⟩ := tres_pick K c08 s x y deltas _ tres sum hts.2
    simp only []
    refine Post.ite (fun _ => Post.ok (Frame.frame_refl s)) fun hne => ?_
    have hz : (exactScalars K c08).pOfInt 0 = 0 := by simp [exactScalars]
    rw [hz] at hsum0 hpick hne
    have hsum : 0 < sum := by
      have : sum ≠ 0 := by
        intro h0
        apply hne
        simp [exactScalars, h0]
      omega
    simp only [Simulator.Random01]
    have hr := exact_random01 K c08 s.nextRnd.1
    have hp := exact_scaled K c08 hr.1 hr.2 hsum
    obtain ⟨dx, dy, v, hget, hv, hvpos, hwall, hlu⟩ := hpick _ hp.1 hp.2
    have hf1 := Frame.nextRnd s
    have hw1 := hf1.wf hw
    have ho1 := (hf1.open_iff x y).mpr ho
    have hcap1 : s.nextRnd.2.Capped := hf1.capped hcap
    have hd : (dx, dy) ∈ deltas := List.get?_mem hget
    have hnb := hw1.inb_next ho1 hd
    rw [hget]
    simp only []
    have hv1 : s.nextRnd.2.velocity.Get x y dx dy = .ok v := hv
    rw [hv1]
    simp only [ok_bind]
    have hlt : (exactScalars K c08).vLt ((exactScalars K c08).vOfInt 0) v = true := by
      simp [exactScalars, hvpos]
    refine Post.ite (fun h => absurd hlt h) fun _ => ?_
    refine Post.bind (Post.rd hnb.1 ?_)
    refine Post.ite (fun h => absurd h hwall) fun hc => ?_
    have hon1 : s.nextRnd.2.Open (x + dx) (y + dy) := hw1.open_next ho1 hd hc
    refine Post.bind (Post.rd hnb.1 ?_)
    have hltUT : s.nextRnd.2.last_use (x + dx) (y + dy) < s.nextRnd.2.UT :=
      lt_of_le_of_ne (hcap (x + dx) (y + dy)) hlu
    refine Post.ite (fun h => absurd hltUT h) fun _ => ?_
    refine Post.ite (fun _ => Post.ok hf1) fun _ => ?_
    refine Post.bind (Post.mono (hcall _ _ _ hw1 hon1 hcap1) fun r hr => ?_)
    obtain ⟨s2, ret⟩ := r
    simp only []
    have hf2 : Frame s s2 := hf1.frame_trans hr
    refine Post.ite (fun _ => Post.ok hf2) fun _ => ?_
    exact Post.mono (ih s2 _ _ (hf2.wf hw) ((hf2.open_iff x y).mpr ho) (hf2.capped hcap))
      fun r3 h3 => hf2.frame_trans h3

theorem PropagateMove_exact {b : Err → Prop} (hf : ¬ b .outOfFuel) (K : Nat) (c08 : Int)
    (iters depth : Nat) (s : Simulator Int Int Int) (x y : Int) (is_first : Bool)
    (hw : s.WF) (ho : s.Open x y) (hcap : s.Capped) :
    Post b (PropagateMove (exactScalars K c08) iters depth s x y is_first) fun r =>
      Frame s r.1 := by
  induction depth generalizing s x y is_first with
  | zero => exact Post.error hf
  | succ depth ih =>
    have hin := hw.inb ho
    simp only [PropagateMove]
    refine Post.bind (Post.setLastUse hin.1 ?_)
    have hf1 := Frame.stampCell s x y (s.UT - if is_first = true then 1 else 0) ho
      (by cases is_first <;> simp)
    have hw1 := hf1.wf hw
    have ho1 := (hf1.open_iff x y).mpr ho
    have hcap1 := hf1.capped hcap
    refine Post.bind (Post.mono (Post.and_any
      (moveLoop_exact hf K c08 _ (fun s3 x3 y3 hw3 ho3 hc3 => ih s3 x3 y3 false hw3 ho3 hc3)
        x y iters _ (-1) (-1) hw1 ho1 hcap1)
      (moveLoop_post (b := Err.isAccess) (fun h => h) (fun h => h) (fun h => h)
        (exactScalars K c08) _ (fun s3 x3 y3 hw3 ho3 =>
          Post.mono (PropagateMove_post (b := Err.isAccess) (fun h => h) (fun h => h)
            (fun h => h) (exactScalars K c08) iters depth s3 x3 y3 false hw3 ho3)
            fun r hr => ⟨hr.1, hr.2.1⟩) x y iters _ (-1) (-1) hw1 ho1)) fun r hr => ?_)
    obtain ⟨s2, ret, nx, ny⟩ := r
    simp only [] at hr ⊢
    have hw2 := hr.1.wf hw1
    have ho2 := (hr.1.open_iff x y).mpr ho1
    refine Post.bind (Post.setLastUse (hw2.inb ho2).1 ?_)
    have hf3 := Frame.stampCell s2 x y s2.UT ho2 (Or.inl rfl)
    have hw3 := hf3.wf hw2
    have ho3 := (hf3.open_iff x y).mpr ho2
    refine Post.bind (Post.mono (moveStops_post hf (exactScalars K c08) depth x y deltas
      (fun _ h => h) _ hw3 ho3) fun s5 h5 => ?_)
    have hf5 : Frame s s5 := (hf1.frame_trans hr.1).frame_trans (hf3.frame_trans h5.1)
    refine Post.ite (fun hc => ?_) fun _ => Post.ok hf5
    have hret : ret = true := hc.1
    have hn := hr.2.2.2 hret
    have hw5 := hf5.wf hw
    have ho5 : s5.Open x y := (hf5.open_iff x y).mpr ho
    have hn5 : s5.Open nx ny :=
      (hf5.open_iff nx ny).mpr ((hf1.open_iff nx ny).mp hn.1)
    obtain ⟨s6, h6, hex⟩ := swapCells_spec (exactScalars K c08) s5 x y nx ny
      ⟨(hw5.inb ho5).1, (hw5.inb ho5).2.1⟩ ⟨(hw5.inb hn5).1, (hw5.inb hn5).2.1⟩ hn.2
    rw [h6]
    exact Post.ok (hf5.frame_trans (Frame.of_exchanged hex ho5 hn5))

/-- C19. In exact fixed-point arithmetic, for a state with a wall boundary in
which no stamp is above `UT`, and a non-wall cell `(x, y)`: whenever the sum
of `PropagateMove` is positive and `Random01` returns a value `r` in `[0, 1)`,
`p = r * sum` satisfies `0 ≤ p < sum`, the index `d` that `upper_bound(tres, p)`
returns is at most 3, and the direction `d` has a positive velocity, a
non-wall neighbour and a neighbour stamp below `UT`; `Random01` does return
such a value, and no call of `PropagateMove` stops at its assertion or indexes
`deltas` out of range. -/
theorem chosen_direction_valid (K : Nat) (c08 : Int) (s : Simulator Int Int Int) (x y : Int)
    (hw : s.WF) (ho : s.Open x y) (hcap : s.Capped) :
    (∀ tres sum, tresLoop (exactScalars K c08) s x y deltas ((exactScalars K c08).pOfInt 0) =
        .ok (tres, sum) → 0 < sum →
      ∀ rv : Int, 0 ≤ rv → rv < (exactScalars K c08).pOfInt 1 →
        0 ≤ (exactScalars K c08).pMul rv sum ∧ (exactScalars K c08).pMul rv sum < sum ∧
        upperBound (exactScalars K c08) tres ((exactScalars K c08).pMul rv sum) ≤ 3 ∧
        ∃ dx dy v,
          deltas.get? (upperBound (exactScalars K c08) tres
            ((exactScalars K c08).pMul rv sum)) = some (dx, dy) ∧
          s.velocity.Get x y dx dy = .ok v ∧ 0 < v ∧ s.field (x + dx) (y + dy) ≠ '#' ∧
          s.last_use (x + dx) (y + dy) < s.UT) ∧
    (∀ r, 0 ≤ (exactScalars K c08).random01 r ∧
      (exactScalars K c08).random01 r < (exactScalars K c08).pOfInt 1) ∧
    ∀ iters depth is_first,
      PropagateMove (exactScalars K c08) iters depth s x y is_first ≠ .error .moveAssert ∧
      PropagateMove (exactScalars K c08) iters depth s x y is_first ≠ .error .noDirection := by
  refine ⟨fun tres sum htres hsum rv hrv0 hrv1 => ?_, exact_random01 K c08,
    fun iters depth is_first => ?_⟩
  · have hp := exact_scaled K c08 hrv0 hrv1 hsum
    have hz : (exactScalars K c08).pOfInt 0 = 0 := by simp [exactScalars]
    obtain ⟨_, hpick⟩ := tres_pick K c08 s x y deltas _ tres sum htres
    rw [hz] at hpick
    obtain ⟨dx, dy, v, hget, hv, hvpos, hwall, hlu⟩ := hpick _ hp.1 hp.2
    refine ⟨hp.1, hp.2, ?_, dx, dy, v, hget, hv, hvpos, hwall,
      lt_of_le_of_ne (hcap _ _) hlu⟩
    have hlen := (List.get?_eq_some.mp hget).1
    have h4 : deltas.length = 4 := rfl
    omega
  · have hpost := PropagateMove_exact (b := fun e => e ≠ .outOfFuel) (fun h => h rfl) K c08
      iters depth s x y is_first hw ho hcap
    refine ⟨fun he => ?_, fun he => ?_⟩
    · rw [he] at hpost
      exact hpost (fun h => Err.noConfusion h)
    · rw [he] at hpost
      exact hpost (fun h => Err.noConfusion h)

set_option maxRecDepth 100000 in
theorem chosen_direction_valid_witness :
    loopSim.WF ∧ loopSim.Open 1 1 ∧ loopSim.Capped ∧
      tresLoop (exactScalars 16 52428) loopSim 1 1 deltas ((exactScalars 16 52428).pOfInt 0) =
        .ok ([0, 0, 0, 65536], 65536) ∧
      upperBound (exactScalars 16 52428) [0, 0, 0, 65536]
        ((exactScalars 16 52428).pMul 40000 65536) ≤ 3 ∧
      (∃ dx dy v,
        deltas.get? (upperBound (exactScalars 16 52428) [0, 0, 0, 65536]
          ((exactScalars 16 52428).pMul 40000 65536)) = some (dx, dy) ∧
        loopSim.velocity.Get 1 1 dx dy = .ok v ∧ 0 < v ∧
        loopSim.field (1 + dx) (1 + dy) ≠ '#' ∧
        loopSim.last_use (1 + dx) (1 + dy) < loopSim.UT) ∧
      PropagateMove (exactScalars 16 52428) 5 5 loopSim 1 1 true ≠ .error .moveAssert := by
  have hw : loopSim.WF := ⟨by decide, rfl, rfl, rfl, rfl⟩
  have hcap : loopSim.Capped := fun _ _ => show (0 : Int) ≤ 2 by decide
  have htres : tresLoop (exactScalars 16 52428) loopSim 1 1 deltas
      ((exactScalars 16 52428).pOfInt 0) = .ok ([0, 0, 0, 65536], 65536) := by
    obtain ⟨r, hr, hq⟩ := okAnd_elim
      (m := tresLoop (exactScalars 16 52428) loopSim 1 1 deltas
        ((exactScalars 16 52428).pOfInt 0))
      (q := fun r => decide (r = ([0, 0, 0, 65536], 65536))) (by decide)
    rw [hr, of_decide_eq_true hq]
  have hthm := chosen_direction_valid 16 52428 loopSim 1 1 hw (by decide) hcap
  have h1 := hthm.1 _ _ htres (by decide) 40000 (by decide) (by decide)
  exact ⟨hw, by decide, hcap, htres, h1.2.2.1, h1.2.2.2, (hthm.2.2 5 5 true).1⟩

/-! ## Exact arithmetic: the run stops only for lack of fuel -/

theorem openNeighbours_pos {s : Simulator P V VF} {x y : Int} {d : Int × Int}
    (hd : d ∈ deltas) (hne : s.field (x + d.1) (y + d.2) ≠ '#') :
    1 ≤ s.openNeighbours x y := by
  unfold Simulator.openNeighbours Simulator.countOpen
  have hmem : d ∈ deltas.filter fun d => decide (s.field (x + d.1) (y + d.2) ≠ '#') :=
    List.mem_filter.mpr ⟨hd, decide_eq_true hne⟩
  have := List.length_pos_of_mem hmem
  omega

theorem not_alone {s : Simulator P V VF} {x y : Int} (h : ¬ s.Alone x y) :
    1 ≤ s.openNeighbours x y := by
  unfold Simulator.Alone at h
  push_neg at h
  obtain ⟨d, hd, hne⟩ := h
  exact openNeighbours_pos hd hne

theorem neg_mem_deltas {d : Int × Int} (hd : d ∈ deltas) : (-d.1, -d.2) ∈ deltas := by
  rcases mem_deltas hd with rfl | rfl | rfl | rfl <;> decide

theorem Post.divide_ne {bad : Err → Prop} (K : Nat) (c08 : Int) {a b : Int} {Q : Int → Prop}
    (hb : b ≠ 0) (h : ∀ q, Q q) : Post bad (Fluid.divide (exactScalars K c08) a b) Q := by
  unfold Fluid.divide
  simp only [exactScalars, if_neg hb]
  exact h _

theorem exact_ofInt_ne (K : Nat) (c08 : Int) {n : Int} (h : 1 ≤ n) :
    (exactScalars K c08).pOfInt n ≠ 0 := by
  simp only [exactScalars]
  have : (0 : Int) < 2 ^ K := by positivity
  have : 0 < n * 2 ^ K := by positivity
  omega

theorem pressureDir_runs {b : Err → Prop} (K : Nat) (c08 : Int)
    {s : Simulator Int Int Int} (hw : s.WF) {x y : Int} (ho : s.Open x y) {d : Int × Int}
    (hd : d ∈ deltas) (hrho : s.RhoPos) (hdirs : s.DirsOK) :
    Post b (pressureDir (exactScalars K c08) x y s d) fun _ => True := by
  have hnb := hw.inb_next ho hd
  have hin := hw.inb ho
  unfold pressureDir
  refine Post.bind (Post.rd hnb.1 ?_)
  refine Post.ite (fun _ => Post.ok trivial) fun hne => ?_
  have hon := hw.open_next ho hd hne
  have hrn := hrho _ _ hon
  have hrc := hrho _ _ ho
  have hdr : 1 ≤ s.dirs x y := by
    rw [hdirs x y ho]
    exact openNeighbours_pos hd hne
  refine Post.bind (Post.rd hnb.1 ?_)
  refine Post.bind (Post.rd hin.1 ?_)
  refine Post.ite (fun _ => Post.ok trivial) fun _ => ?_
  refine Post.bind (Post.get (deltaIndex_neg_lt hd) hnb.2 ?_)
  refine Post.ite (fun _ => ?_) fun _ => ?_
  · refine Post.bind (Post.divide_ne K c08 (ne_of_gt hrn) fun q => ?_)
    exact Post.bind (Post.put (deltaIndex_neg_lt hd) hnb.2 (Post.ok trivial))
  · refine Post.bind (Post.put (deltaIndex_neg_lt hd) hnb.2 ?_)
    refine Post.bind (Post.rd hin.1 ?_)
    refine Post.bind (Post.divide_ne K c08 (ne_of_gt hrc) fun q => ?_)
    refine Post.bind (Post.add (deltaIndex_lt hd) hin.2.1 ?_)
    refine Post.bind (Post.rd hin.1 ?_)
    refine Post.bind (Post.divide_ne K c08 (exact_ofInt_ne K c08 hdr) fun q1 => ?_)
    refine Post.bind (Post.rd hin.1 ?_)
    exact Post.setP hin.1 trivial

theorem applyDir_runs {b : Err → Prop} (K : Nat) (c08 : Int)
    {s : Simulator Int Int Int} (hw : s.WF) {x y : Int} (ho : s.Open x y) {d : Int × Int}
    (hd : d ∈ deltas) (hflow : s.FlowOK) (hdirs : s.DirsOK) (hl : s.Lonely) :
    Post b (applyDir (exactScalars K c08) x y s d) fun _ => True := by
  have hnb := hw.inb_next ho hd
  have hin := hw.inb ho
  have hfl := hflow x y (deltaIndex d.1 d.2)
  unfold applyDir
  refine Post.bind (Post.get (deltaIndex_lt hd) hin.2.1 ?_)
  refine Post.bind (Post.get (deltaIndex_lt hd) hin.2.2 ?_)
  refine Post.ite (fun _ => Post.ok trivial) fun hpos => ?_
  refine Post.ite (fun hbad => ?_) fun _ => ?_
  · exact absurd (by simp only [exactScalars, decide_eq_true_eq]; exact hfl.2) hbad
  have hv : 0 < s.velocity.v x y (deltaIndex d.1 d.2) := by
    simp only [exactScalars, zero_mul, decide_eq_true_eq, not_not] at hpos
    exact hpos
  have hdr : 1 ≤ s.dirs x y := by
    rw [hdirs x y ho]
    refine not_alone fun ha => ?_
    have := hl x y ho ha (deltaIndex d.1 d.2)
    omega
  refine Post.bind (Post.put (deltaIndex_lt hd) hin.2.1 ?_)
  refine Post.bind (Post.rd hin.1 ?_)
  refine Post.bind (Post.rd hnb.1 ?_)
  refine Post.ite (fun _ => ?_) fun hne => ?_
  · refine Post.bind (Post.rd hin.1 ?_)
    refine Post.bind (Post.divide_ne K c08 (exact_ofInt_ne K c08 hdr) fun q => ?_)
    refine Post.bind (Post.rd hin.1 ?_)
    exact Post.setP hin.1 trivial
  · have hon := hw.open_next ho hd hne
    have hdn : 1 ≤ s.dirs (x + d.1) (y + d.2) := by
      rw [hdirs _ _ hon]
      refine openNeighbours_pos (neg_mem_deltas hd) ?_
      simp only [add_neg_cancel_right]
      exact ho.2.2.2.2
    refine Post.bind (Post.rd hnb.1 ?_)
    refine Post.bind (Post.divide_ne K c08 (exact_ofInt_ne K c08 hdn) fun q => ?_)
    refine Post.bind (Post.rd hnb.1 ?_)
    exact Post.setP hnb.1 trivial

theorem Kept.kept_refl (s : Simulator P V VF) : Kept s s :=
  ⟨fun _ _ => Iff.rfl, fun _ _ _ => rfl⟩

theorem Kept.alone_iff {s s1 : Simulator P V VF} (h : Kept s s1) (x y : Int) :
    s1.Alone x y ↔ s.Alone x y := by
  unfold Simulator.Alone
  exact ⟨fun h1 d hd => (h.walls _ _).mp (h1 d hd), fun h1 d hd => (h.walls _ _).mpr (h1 d hd)⟩

theorem Kept.kept_trans {s s1 s2 : Simulator P V VF} (h1 : Kept s s1) (h2 : Kept s1 s2) :
    Kept s s2 where
  walls := fun x y => (h2.walls x y).trans (h1.walls x y)
  rows := fun x y ha => (h2.rows x y ((h1.alone_iff x y).mpr ha)).trans (h1.rows x y ha)

theorem Kept.kept_of_still {s s1 : Simulator P V VF} (h : Still s s1) : Kept s s1 :=
  ⟨fun x y => by rw [h.1], fun x y _ => by rw [h.2.2]⟩

/-- A state that differs from `s` in the velocity entries of cells that have a
non-wall neighbour, and in members other than `field` and `velocity`. -/
theorem Kept.of_rows {s s1 : Simulator P V VF} (hfield : s1.field = s.field)
    (h : ∀ x y, s.Alone x y → s1.velocity.v x y = s.velocity.v x y) : Kept s s1 :=
  ⟨fun x y => by rw [hfield], h⟩

theorem Kept.lonely {s s1 : Simulator Int Int Int} (h : Kept s s1) (hf : Frozen s s1)
    (hl : s.Lonely) : s1.Lonely := by
  intro x y ho ha i
  have ha0 := (h.alone_iff x y).mp ha
  rw [h.rows x y ha0]
  exact hl x y ((hf.open_iff x y).mp ho) ha0 i

theorem alone_next {s : Simulator P V VF} {x y : Int} {d : Int × Int} (hd : d ∈ deltas)
    (hne : s.field x y ≠ '#') : ¬ s.Alone (x + d.1) (y + d.2) := by
  intro ha
  have := ha _ (neg_mem_deltas hd)
  simp only [add_neg_cancel_right] at this
  exact hne this

theorem alone_self {s : Simulator P V VF} {x y : Int} {d : Int × Int} (hd : d ∈ deltas)
    (hne : s.field (x + d.1) (y + d.2) ≠ '#') : ¬ s.Alone x y :=
  fun ha => hne (ha d hd)

theorem row_kept {T : Type} (v : Int → Int → Nat → T) (x y : Int) (k : Nat) (val : T)
    (a c : Int) (h : ¬ (a = x ∧ c = y)) :
    (fun i => if a = x ∧ c = y ∧ i = k then val else v a c i) = v a c := by
  funext i
  rw [if_neg]
  exact fun hh => h ⟨hh.1, hh.2.1⟩

theorem gravityCell_kept {b : Err → Prop} (A : Scalars P V VF) {s : Simulator P V VF}
    (hw : s.WF) {c : Int × Int} (hc : c ∈ cells s.N s.M) :
    Post b (gravityCell A s c) fun s1 => Kept s s1 := by
  unfold gravityCell
  refine Post.bind (Post.rd (inb_of_mem_cells hc) ?_)
  refine Post.ite (fun _ => Post.ok (Kept.kept_refl s)) fun hne => ?_
  have ho := open_of_mem_cells hc hne
  have hd : ((1 : Int), (0 : Int)) ∈ deltas := by decide
  have hnb := hw.inb_next ho hd
  simp only [add_zero] at hnb
  refine Post.bind (Post.rd hnb.1 ?_)
  refine Post.ite (fun hbelow => ?_) fun _ => Post.ok (Kept.kept_refl s)
  refine Post.bind (Post.add (deltaIndex_lt hd) (hw.inb ho).2.1 (Post.ok ?_))
  refine Kept.of_rows rfl fun a e ha => ?_
  refine row_kept _ _ _ _ _ _ _ fun hae => ?_
  obtain ⟨rfl, rfl⟩ := hae
  have := ha (1, 0) hd
  simp only [add_zero] at this
  exact hbelow this

theorem pressureDir_kept {b : Err → Prop} (hv : ¬ b .divByZero) (A : Scalars P V VF)
    {s : Simulator P V VF} (hw : s.WF) {x y : Int} (ho : s.Open x y) {d : Int × Int}
    (hd : d ∈ deltas) :
    Post b (pressureDir A x y s d) fun s1 => Kept s s1 := by
  have hnb := hw.inb_next ho hd
  have hin := hw.inb ho
  unfold pressureDir
  refine Post.bind (Post.rd hnb.1 ?_)
  refine Post.ite (fun _ => Post.ok (Kept.kept_refl s)) fun hne => ?_
  have hnext := alone_next (s := s) hd ho.2.2.2.2
  have hself := alone_self (s := s) (x := x) (y := y) hd hne
  refine Post.bind (Post.rd hnb.1 ?_)
  refine Post.bind (Post.rd hin.1 ?_)
  refine Post.ite (fun _ => Post.ok (Kept.kept_refl s)) fun _ => ?_
  refine Post.bind (Post.get (deltaIndex_neg_lt hd) hnb.2 ?_)
  refine Post.ite (fun _ => ?_) fun _ => ?_
  · refine Post.bind (Post.divide hv fun q => ?_)
    refine Post.bind (Post.put (deltaIndex_neg_lt hd) hnb.2 (Post.ok ?_))
    refine Kept.of_rows rfl fun a e ha => ?_
    refine row_kept _ _ _ _ _ _ _ fun hae => ?_
    obtain ⟨rfl, rfl⟩ := hae
    exact hnext ha
  · refine Post.bind (Post.put (deltaIndex_neg_lt hd) hnb.2 ?_)
    refine Post.bind (Post.rd hin.1 ?_)
    refine Post.bind (Post.divide hv fun q => ?_)
    refine Post.bind (Post.add (deltaIndex_lt hd) hin.2.1 ?_)
    refine Post.bind (Post.rd hin.1 ?_)
    refine Post.bind (Post.divide hv fun q1 => ?_)
    refine Post.bind (Post.rd hin.1 ?_)
    refine Post.setP hin.1 ?_
    refine Kept.of_rows rfl fun a e ha => ?_
    have h1 : ¬ (a = x ∧ e = y) := fun hae => by
      obtain ⟨rfl, rfl⟩ := hae
      exact hself ha
    have h2 : ¬ (a = x + d.1 ∧ e = y + d.2) := fun hae => by
      obtain ⟨rfl, rfl⟩ := hae
      exact hnext ha
    funext i
    simp only []
    rw [if_neg fun hh => h1 ⟨hh.1, hh.2.1⟩, if_neg fun hh => h2 ⟨hh.1, hh.2.1⟩]

theorem applyDir_kept {b : Err → Prop} (hv : ¬ b .divByZero) (ha : ¬ b .flowAssert)
    (K : Nat) (c08 : Int) {s : Simulator Int Int Int} (hw : s.WF) {x y : Int}
    (ho : s.Open x y) {d : Int × Int} (hd : d ∈ deltas) (hl : s.Lonely) :
    Post b (applyDir (exactScalars K c08) x y s d) fun s1 => Kept s s1 := by
  have hnb := hw.inb_next ho hd
  have hin := hw.inb ho
  unfold applyDir
  refine Post.bind (Post.get (deltaIndex_lt hd) hin.2.1 ?_)
  refine Post.bind (Post.get (deltaIndex_lt hd) hin.2.2 ?_)
  refine Post.ite (fun _ => Post.ok (Kept.kept_refl s)) fun hpos => ?_
  have hvpos : 0 < s.velocity.v x y (deltaIndex d.1 d.2) := by
    simp only [exactScalars, zero_mul, decide_eq_true_eq, not_not] at hpos
    exact hpos
  have hself : ¬ s.Alone x y := fun hal => by
    have := hl x y ho hal (deltaIndex d.1 d.2)
    omega
  have hk : ∀ s1 : Simulator Int Int Int, s1.field = s.field →
      s1.velocity.v = (fun x1 y1 i => if x1 = x ∧ y1 = y ∧ i = deltaIndex d.1 d.2
        then (exactScalars K c08).vOfVF (s.velocity_flow.v x y (deltaIndex d.1 d.2))
        else s.velocity.v x1 y1 i) → Kept s s1 := by
    intro s1 hfield hvel
    refine Kept.of_rows hfield fun a e hal => ?_
    rw [hvel]
    exact row_kept _ _ _ _ _ _ _ fun hae => by
      obtain ⟨rfl, rfl⟩ := hae
      exact hself hal
  refine Post.ite (fun _ => Post.error ha) fun _ => ?_
  refine Post.bind (Post.put (deltaIndex_lt hd) hin.2.1 ?_)
  refine Post.bind (Post.rd hin.1 ?_)
  refine Post.bind (Post.rd hnb.1 ?_)
  refine Post.ite (fun _ => ?_) fun hne => ?_
  · refine Post.bind (Post.rd hin.1 ?_)
    refine Post.bind (Post.divide hv fun q => ?_)
    refine Post.bind (Post.rd hin.1 ?_)
    exact Post.setP hin.1 (hk _ rfl rfl)
  · refine Post.bind (Post.rd hnb.1 ?_)
    refine Post.bind (Post.divide hv fun q => ?_)
    refine Post.bind (Post.rd hnb.1 ?_)
    exact Post.setP hnb.1 (hk _ rfl rfl)

theorem Simulator.Exact.of_smooth {s s1 : Simulator Int Int Int} (h : s.Exact) (hs : Smooth s s1)
    (hn : s1.NonNeg) (hk : Kept s s1) : s1.Exact where
  wf := hs.wf h.wf
  g := by rw [hs.g]; exact h.g
  rho := smooth_rhoPos hs h.rho
  nonneg := hn
  flow := fun x y i => by rw [hs.velocity_flow]; exact h.flow x y i
  dirs := fun x y ho => by
    rw [hs.dirs, h.dirs x y ((hs.open_iff x y).mp ho)]
    unfold Simulator.openNeighbours Simulator.countOpen
    rw [hs.field]
  lonely := hk.lonely hs.toFrozen h.lonely
  capped := fun x y => by rw [hs.last_use, hs.UT]; exact h.capped x y

theorem forEach_exact {bad : Err → Prop} {β : Type}
    {body : Simulator Int Int Int → β → Except Err (Simulator Int Int Int)}
    (J : Simulator Int Int Int → Prop) (cs : List β) (s : Simulator Int Int Int)
    (hJ : J s)
    (hbody : ∀ s1 c, c ∈ cs → Frozen s s1 → J s1 →
      Post bad (body s1 c) fun s2 => Smooth s1 s2 ∧ J s2) :
    Post bad (forEach body cs s) fun s1 => Smooth s s1 ∧ J s1 := by
  refine Post.mono (Post.forEach (I := fun s1 => Smooth s s1 ∧ J s1) cs (fun s1 c hc h1 => ?_) s
    ⟨Smooth.smooth_refl s, hJ⟩) fun _ h => h
  exact Post.mono (hbody s1 c hc h1.1.toFrozen h1.2)
    fun s2 h2 => ⟨h1.1.smooth_trans h2.1, h2.2⟩

theorem gravityCell_sound {b : Err → Prop} (K : Nat) (c08 : Int) {s : Simulator Int Int Int}
    (h : s.Exact) {c : Int × Int} (hc : c ∈ cells s.N s.M) :
    Post b (gravityCell (exactScalars K c08) s c) fun s1 => Smooth s s1 ∧ s1.Exact := by
  refine Post.mono (Post.and (Post.and (gravityCell_post (exactScalars K c08) h.wf hc)
    (gravityCell_nonneg K c08 h.wf hc h.g h.nonneg))
    (gravityCell_kept (exactScalars K c08) h.wf hc)) fun s1 h1 => ?_
  exact ⟨h1.1.1, h.of_smooth h1.1.1 h1.1.2 h1.2⟩

theorem pressureDir_sound {b : Err → Prop} (K : Nat) (c08 : Int) {s : Simulator Int Int Int}
    (h : s.Exact) {x y : Int} (ho : s.Open x y) {d : Int × Int} (hd : d ∈ deltas) :
    Post b (pressureDir (exactScalars K c08) x y s d) fun s1 => Smooth s s1 ∧ s1.Exact := by
  refine Post.mono (Post.and_any (Post.and_any (Post.and_any
    (pressureDir_runs (b := b) K c08 h.wf ho hd h.rho h.dirs)
    (pressureDir_post (b := Err.isAccess) (fun h => h) (exactScalars K c08) h.wf ho hd))
    (pressureDir_nonneg (b := Err.isAccess) (fun h => h) K c08 h.wf ho hd h.rho h.nonneg))
    (pressureDir_kept (b := Err.isAccess) (fun h => h) (exactScalars K c08) h.wf ho hd))
    fun s1 h1 => ?_
  exact ⟨h1.1.1.2, h.of_smooth h1.1.1.2 h1.1.2 h1.2⟩

theorem pressureCell_sound {b : Err → Prop} (K : Nat) (c08 : Int) {s : Simulator Int Int Int}
    (h : s.Exact) {c : Int × Int} (hc : c ∈ cells s.N s.M) :
    Post b (pressureCell (exactScalars K c08) s c) fun s1 => Smooth s s1 ∧ s1.Exact := by
  unfold pressureCell
  refine Post.bind (Post.rd (inb_of_mem_cells hc) ?_)
  refine Post.ite (fun _ => Post.ok ⟨Smooth.smooth_refl s, h⟩) fun hne => ?_
  have ho := open_of_mem_cells hc hne
  exact forEach_exact Simulator.Exact deltas s h fun s1 d hd hf h1 =>
    pressureDir_sound K c08 h1 ((hf.open_iff _ _).mpr ho) hd

theorem phase12_sound {b : Err → Prop} (K : Nat) (c08 : Int) {s : Simulator Int Int Int}
    (h : s.Exact) :
    Post b (phase12 (exactScalars K c08) s) fun s1 => Smooth s s1 ∧ s1.Exact := by
  unfold phase12
  refine Post.bind (Post.mono (forEach_exact Simulator.Exact (cells s.N s.M) s h
    fun s1 c hc hf h1 => gravityCell_sound K c08 h1 (by rw [hf.N, hf.M]; exact hc))
    fun s1 h1 => ?_)
  have h2 : Smooth s1 { s1 with old_p := s1.p } := Smooth.setOldP s1 s1.p
  have he2 : Simulator.Exact { s1 with old_p := s1.p } :=
    h1.2.of_smooth h2 h1.2.nonneg (Kept.of_rows rfl fun _ _ _ => rfl)
  refine Post.mono (forEach_exact Simulator.Exact (cells s1.N s1.M) _ he2
    fun s2 c hc hf h3 => pressureCell_sound K c08 h3
      (by rw [hf.N, hf.M]; exact hc)) fun s2 h3 => ?_
  exact ⟨h1.1.smooth_trans (h2.smooth_trans h3.1), h3.2⟩

theorem applyDir_sound {b : Err → Prop} (K : Nat) (c08 : Int) {s : Simulator Int Int Int}
    (h : s.Exact) (hflow : s.FlowOK) {x y : Int} (ho : s.Open x y) {d : Int × Int}
    (hd : d ∈ deltas) :
    Post b (applyDir (exactScalars K c08) x y s d) fun s1 =>
      Smooth s s1 ∧ s1.Exact ∧ s1.FlowOK := by
  refine Post.mono (Post.and_any (Post.and_any
    (applyDir_runs (b := b) K c08 h.wf ho hd hflow h.dirs h.lonely)
    (applyDir_exact (b := Err.isAccess) (fun h => h) K c08 h.wf ho hd hflow h.nonneg))
    (applyDir_kept (b := Err.isAccess) (fun h => h) (fun h => h) K c08 h.wf ho hd h.lonely))
    fun s1 h1 => ?_
  exact ⟨h1.1.2.1, h.of_smooth h1.1.2.1 h1.1.2.2.2 h1.2, h1.1.2.2.1⟩

theorem phase3Apply_sound {b : Err → Prop} (K : Nat) (c08 : Int) {s : Simulator Int Int Int}
    (h : s.Exact) (hflow : s.FlowOK) :
    Post b (phase3Apply (exactScalars K c08) s) fun s1 =>
      Smooth s s1 ∧ s1.Exact ∧ s1.FlowOK := by
  unfold phase3Apply
  refine forEach_exact (fun s1 => s1.Exact ∧ s1.FlowOK) (cells s.N s.M) s ⟨h, hflow⟩
    fun s1 c hc hf h1 => ?_
  have hc1 : c ∈ cells s1.N s1.M := by rw [hf.N, hf.M]; exact hc
  unfold applyCell
  refine Post.bind (Post.rd (inb_of_mem_cells hc1) ?_)
  refine Post.ite (fun _ => Post.ok ⟨Smooth.smooth_refl s1, h1⟩) fun hne => ?_
  have ho := open_of_mem_cells hc1 hne
  exact forEach_exact (fun s2 => s2.Exact ∧ s2.FlowOK) deltas s1 h1 fun s2 d hd hf2 h2 =>
    applyDir_sound K c08 h2.1 h2.2 ((hf2.open_iff _ _).mpr ho) hd

theorem Simulator.Exact.exact_of_still {s s1 : Simulator Int Int Int} (h : s.Exact)
    (hf : Frozen s s1)
    (hs : Still s s1) (hflow : s1.FlowNN) (hcap : s1.Capped) : s1.Exact where
  wf := hf.wf h.wf
  g := by rw [hf.g]; exact h.g
  rho := fun x y ho => by
    rw [hs.1, hf.rho]
    exact h.rho x y ((hf.open_iff x y).mp ho)
  nonneg := fun x y i => by rw [hs.2.2]; exact h.nonneg x y i
  flow := hflow
  dirs := fun x y ho => by
    rw [hf.dirs, h.dirs x y ((hf.open_iff x y).mp ho)]
    unfold Simulator.openNeighbours Simulator.countOpen
    rw [hs.1]
  lonely := (Kept.kept_of_still hs).lonely hf h.lonely
  capped := hcap

theorem capped_setUT {s : Simulator P V VF} (hc : s.Capped) :
    Simulator.Capped { s with UT := s.UT + 2 } := fun x y => by
  have := hc x y
  simp only []
  omega

theorem flowPasses_capped {b : Err → Prop} (hf : ¬ b .outOfFuel) (A : Scalars P V VF)
    (depth iters : Nat) (s : Simulator P V VF) (hw : s.WF) (hcap : s.Capped) :
    Post b (flowPasses A depth iters s) fun s1 => s1.Capped := by
  induction iters generalizing s with
  | zero => exact Post.error hf
  | succ iters ih =>
    simp only [flowPasses]
    have h0 := Frozen.setUT s (s.UT + 2)
    refine Post.bind (Post.mono (sweep_post (fun _ _ => True) (fun _ => trivial)
      (fun _ _ _ _ _ => trivial) { s with UT := s.UT + 2 } (h0.wf hw) (fun sp c hwp hc =>
        Post.mono (flowCell_post hf A depth sp hwp hc) fun r hr => ⟨hr.1, trivial, hr.2.2⟩)
      false) fun r hr => ?_)
    obtain ⟨s1, prop⟩ := r
    simp only [] at hr ⊢
    have hc1 : s1.Capped := hr.1.capped (capped_setUT hcap)
    refine Post.ite (fun _ => ?_) fun _ => Post.ok hc1
    exact ih s1 ((h0.frozen_trans hr.1.toFrozen).wf hw) hc1

theorem phase3_sound {b : Err → Prop} (hf : ¬ b .outOfFuel) (K : Nat) (c08 : Int)
    (iters depth : Nat) {s : Simulator Int Int Int} (h : s.Exact) :
    Post b (phase3 (exactScalars K c08) iters depth s) fun s1 =>
      s1.Exact ∧ s1.FlowOK ∧ Frozen s s1 ∧ Still s s1 := by
  have hcap : Post b (phase3 (exactScalars K c08) iters depth s) fun s1 => s1.Capped := by
    unfold phase3
    have h0 := Frozen.resetFlow s
      { n := s.N, m := s.M, v := fun _ _ _ => (exactScalars K c08).vfDefault }
      h.wf.fn.symm h.wf.fm.symm
    exact flowPasses_capped hf (exactScalars K c08) depth iters _ (h0.wf h.wf) h.capped
  refine Post.mono (Post.and (Post.and (phase3_post hf (exactScalars K c08) iters depth s h.wf)
    (phase3_flow hf K c08 iters depth s h.wf h.nonneg)) hcap) fun s1 h1 => ?_
  obtain ⟨⟨hpost, hflow⟩, hc⟩ := h1
  exact ⟨h.exact_of_still hpost.1 hpost.2.1 (fun x y i => (hflow x y i).1) hc, hflow, hpost.1,
    hpost.2.1⟩

/-! ### Phase 4 -/

theorem Kept.kept_of_exchanged {s s1 : Simulator P V VF} {x y : Int} {d : Int × Int}
    (hd : d ∈ deltas) (h : Exchanged s s1 x y (x + d.1) (y + d.2))
    (hx : s.field x y ≠ '#') (hn : s.field (x + d.1) (y + d.2) ≠ '#') : Kept s s1 := by
  obtain ⟨h1, h2, _, _, _, _, hrest, _⟩ := h
  have hnext := alone_next (s := s) hd hx
  have hself := alone_self (s := s) (x := x) (y := y) hd hn
  refine ⟨fun a c => ?_, fun a c ha => ?_⟩
  · by_cases hac : a = x ∧ c = y
    · obtain ⟨rfl, rfl⟩ := hac
      rw [h1]
      exact ⟨fun h => absurd h hn, fun h => absurd h hx⟩
    · by_cases hac2 : a = x + d.1 ∧ c = y + d.2
      · obtain ⟨rfl, rfl⟩ := hac2
        rw [h2]
        exact ⟨fun h => absurd h hx, fun h => absurd h hn⟩
      · rw [(hrest a c hac hac2).1]
  · have hac : ¬ (a = x ∧ c = y) := fun hh => by
      obtain ⟨rfl, rfl⟩ := hh
      exact hself ha
    have hac2 : ¬ (a = x + d.1 ∧ c = y + d.2) := fun hh => by
      obtain ⟨rfl, rfl⟩ := hh
      exact hnext ha
    funext i
    exact (hrest a c hac hac2).2.2 i

theorem Kept.stamp (s : Simulator P V VF) (x y val : Int) :
    Kept s { s with last_use := upd s.last_use x y val } :=
  Kept.of_rows rfl fun _ _ _ => rfl

theorem moveLoop_kept {b : Err → Prop} (hf : ¬ b .outOfFuel) (hm : ¬ b .moveAssert)
    (hn : ¬ b .noDirection) (A : Scalars P V VF)
    (call : Simulator P V VF → Int → Int → Except Err (Simulator P V VF × Bool))
    (hcall : ∀ s nx ny, s.WF → s.Open nx ny →
      Post b (call s nx ny) fun r => Frame s r.1 ∧ Kept s r.1)
    (x y : Int) (iters : Nat) (s : Simulator P V VF) (nx ny : Int) (hw : s.WF) (ho : s.Open x y) :
    Post b (moveLoop A call x y iters s nx ny) fun r =>
      Frame s r.1 ∧ Kept s r.1 ∧
      (r.2.1 = true → ∃ d ∈ deltas, r.2.2.1 = x + d.1 ∧ r.2.2.2 = y + d.2 ∧
        s.field (x + d.1) (y + d.2) ≠ '#') := by
  induction iters generalizing s nx ny with
  | zero => exact Post.error hf
  | succ iters ih =>
    have hin := hw.inb ho
    simp only [moveLoop]
    refine Post.bind (Post.mono (tresLoop_post A hw ho deltas (fun _ h => h) _) fun ts _ => ?_)
    obtain ⟨tres, sum⟩ := ts
    simp only []
    refine Post.ite (fun _ => Post.ok ⟨Frame.frame_refl s, Kept.kept_refl s,
      fun h => Bool.noConfusion h⟩) fun _ => ?_
    simp only [Simulator.Random01]
    have hf1 := Frame.nextRnd s
    have hk1 : Kept s s.nextRnd.2 := Kept.of_rows rfl fun _ _ _ => rfl
    have hw1 := hf1.wf hw
    have ho1 := (hf1.open_iff x y).mpr ho
    cases hget : deltas.get? (upperBound A tres (A.pMul (A.random01 s.nextRnd.1) sum)) with
    | none => exact Post.error hn
    | some d =>
      obtain ⟨dx, dy⟩ := d
      have hd : (dx, dy) ∈ deltas := List.get?_mem hget
      have hnb := hw1.inb_next ho1 hd
      have hin1 := hw1.inb ho1
      simp only []
      refine Post.bind (Post.get (deltaIndex_lt hd) hin1.2.1 ?_)
      refine Post.ite (fun _ => Post.error hm) fun _ => ?_
      refine Post.bind (Post.rd hnb.1 ?_)
      refine Post.ite (fun _ => Post.error hm) fun hc => ?_
      have hon1 : s.nextRnd.2.Open (x + dx) (y + dy) := hw1.open_next ho1 hd hc
      have hwalln : s.field (x + dx) (y + dy) ≠ '#' := hc
      refine Post.bind (Post.rd hnb.1 ?_)
      refine Post.ite (fun _ => Post.error hm) fun _ => ?_
      refine Post.ite (fun _ => Post.ok ⟨hf1, hk1,
        fun _ => ⟨(dx, dy), hd, rfl, rfl, hwalln⟩⟩) fun _ => ?_
      refine Post.bind (Post.mono (hcall _ _ _ hw1 hon1) fun r hr => ?_)
      obtain ⟨s2, ret⟩ := r
      simp only []
      have hf2 : Frame s s2 := hf1.frame_trans hr.1
      have hk2 : Kept s s2 := hk1.kept_trans hr.2
      refine Post.ite (fun _ => Post.ok ⟨hf2, hk2,
        fun _ => ⟨(dx, dy), hd, rfl, rfl, hwalln⟩⟩) fun hret => ?_
      refine Post.mono (ih s2 _ _ (hf2.wf hw) ((hf2.open_iff x y).mpr ho)) fun r3 h3 => ?_
      refine ⟨hf2.frame_trans h3.1, hk2.kept_trans h3.2.1, fun h => ?_⟩
      obtain ⟨d, hd3, h31, h32, h33⟩ := h3.2.2 h
      exact ⟨d, hd3, h31, h32, fun hh => h33 ((hf2.walls _ _).mpr hh)⟩

theorem PropagateMove_kept {b : Err → Prop} (hf : ¬ b .outOfFuel) (hm : ¬ b .moveAssert)
    (hn : ¬ b .noDirection) (A : Scalars P V VF) (iters depth : Nat) (s : Simulator P V VF)
    (x y : Int) (is_first : Bool) (hw : s.WF) (ho : s.Open x y) :
    Post b (PropagateMove A iters depth s x y is_first) fun r =>
      Frame s r.1 ∧ Kept s r.1 := by
  induction depth generalizing s x y is_first with
  | zero => exact Post.error hf
  | succ depth ih =>
    have hin := hw.inb ho
    simp only [PropagateMove]
    refine Post.bind (Post.setLastUse hin.1 ?_)
    have hf1 := Frame.stampCell s x y (s.UT - if is_first = true then 1 else 0) ho
      (by cases is_first <;> simp)
    have hk1 := Kept.stamp s x y (s.UT - if is_first = true then 1 else 0)
    have hw1 := hf1.wf hw
    have ho1 := (hf1.open_iff x y).mpr ho
    refine Post.bind (Post.mono (moveLoop_kept hf hm hn A _ (fun s3 x3 y3 hw3 ho3 =>
      ih s3 x3 y3 false hw3 ho3) x y iters _ (-1) (-1) hw1 ho1) fun r hr => ?_)
    obtain ⟨s2, ret, nx, ny⟩ := r
    simp only [] at hr ⊢
    have hw2 := hr.1.wf hw1
    have ho2 := (hr.1.open_iff x y).mpr ho1
    refine Post.bind (Post.setLastUse (hw2.inb ho2).1 ?_)
    have hf3 := Frame.stampCell s2 x y s2.UT ho2 (Or.inl rfl)
    have hk3 := Kept.stamp s2 x y s2.UT
    have hw3 := hf3.wf hw2
    have ho3 := (hf3.open_iff x y).mpr ho2
    refine Post.bind (Post.mono (moveStops_post hf A depth x y deltas (fun _ h => h) _ hw3 ho3)
      fun s5 h5 => ?_)
    have hf5 : Frame s s5 := (hf1.frame_trans hr.1).frame_trans (hf3.frame_trans h5.1)
    have hk5 : Kept s s5 :=
      (hk1.kept_trans hr.2.1).kept_trans (hk3.kept_trans (Kept.kept_of_still h5.2))
    refine Post.ite (fun hc => ?_) fun _ => Post.ok ⟨hf5, hk5⟩
    have hret : ret = true := hc.1
    obtain ⟨d, hd, rfl, rfl, hwn⟩ := hr.2.2 hret
    have hw5 := hf5.wf hw
    have ho5 : s5.Open x y := (hf5.open_iff x y).mpr ho
    have hwn5 : s5.field (x + d.1) (y + d.2) ≠ '#' :=
      fun hh => hwn ((hf1.walls _ _).mp ((hf5.walls _ _).mp hh))
    have hn5 : s5.Open (x + d.1) (y + d.2) := hw5.open_next ho5 hd hwn5
    have hne : ¬ (x + d.1 = x ∧ y + d.2 = y) := by
      rcases mem_deltas hd with h | h | h | h <;> rw [h] <;> simp
    obtain ⟨s6, h6, hex⟩ := swapCells_spec A s5 x y (x + d.1) (y + d.2)
      ⟨(hw5.inb ho5).1, (hw5.inb ho5).2.1⟩ ⟨(hw5.inb hn5).1, (hw5.inb hn5).2.1⟩ hne
    rw [h6]
    exact Post.ok ⟨hf5.frame_trans (Frame.of_exchanged hex ho5 hn5),
      hk5.kept_trans (Kept.kept_of_exchanged hd hex ho5.2.2.2.2 hwn5)⟩

theorem countOpen_of_walls {s s1 : Simulator P V VF}
    (h : ∀ x y, s1.field x y = '#' ↔ s.field x y = '#') (x y : Int) :
    s1.openNeighbours x y = s.openNeighbours x y := by
  unfold Simulator.openNeighbours Simulator.countOpen
  congr 2
  refine List.filter_congr fun d _ => ?_
  simp only [ne_eq, decide_not, h]

theorem Simulator.Exact.exact_setUT {s : Simulator Int Int Int} (h : s.Exact) :
    Simulator.Exact { s with UT := s.UT + 2 } where
  wf := (Frozen.setUT s (s.UT + 2)).wf h.wf
  g := h.g
  rho := h.rho
  nonneg := h.nonneg
  flow := h.flow
  dirs := h.dirs
  lonely := h.lonely
  capped := capped_setUT h.capped

theorem Simulator.Exact.exact_of_frame {s s1 : Simulator Int Int Int} (h : s.Exact)
    (hf : Frame s s1)
    (hk : Kept s s1) (hfl : s1.velocity_flow = s.velocity_flow) : s1.Exact where
  wf := hf.wf h.wf
  g := by rw [hf.g]; exact h.g
  rho := hf.rhoPos h.rho
  nonneg := hf.nonNeg h.nonneg
  flow := fun x y i => by rw [hfl]; exact h.flow x y i
  dirs := fun x y ho => by
    rw [hf.dirs, h.dirs x y ((hf.open_iff x y).mp ho), countOpen_of_walls hf.walls]
  lonely := hk.lonely hf.toFrozen h.lonely
  capped := hf.capped h.capped

theorem moveCell_sound {b : Err → Prop} (hf : ¬ b .outOfFuel) (K : Nat) (c08 : Int)
    (iters depth : Nat) (sp : Simulator Int Int Int × Bool) (hw : sp.1.WF)
    (hcap : sp.1.Capped) {c : Int × Int} (hc : c ∈ cells sp.1.N sp.1.M) :
    Post b (moveCell (exactScalars K c08) iters depth sp c) fun r =>
      Frame sp.1 r.1 ∧ Kept sp.1 r.1 ∧ r.1.velocity_flow = sp.1.velocity_flow := by
  unfold moveCell
  refine Post.bind (Post.rd (inb_of_mem_cells hc) ?_)
  refine Post.ite (fun _ => Post.ok ⟨Frame.frame_refl _, Kept.kept_refl _, rfl⟩) fun hne => ?_
  refine Post.bind (Post.rd (inb_of_mem_cells hc) ?_)
  refine Post.ite (fun _ => Post.ok ⟨Frame.frame_refl _, Kept.kept_refl _, rfl⟩) fun _ => ?_
  simp only [Simulator.Random01]
  have hf1 := Frame.nextRnd sp.1
  have hk1 : Kept sp.1 sp.1.nextRnd.2 := Kept.of_rows rfl fun _ _ _ => rfl
  have hw1 := hf1.wf hw
  have hcap1 : sp.1.nextRnd.2.Capped := hf1.capped hcap
  have ho1 : sp.1.nextRnd.2.Open c.1 c.2 :=
    (hf1.open_iff _ _).mpr (open_of_mem_cells hc hne)
  refine Post.bind (Post.mono (moveProbLoop_post (exactScalars K c08) hw1 ho1 deltas
    (fun _ h => h) _) fun mp _ => ?_)
  refine Post.ite (fun _ => ?_) fun _ => ?_
  · refine Post.bind (Post.mono (Post.and_any (Post.and_any
      (PropagateMove_exact hf K c08 iters depth _ c.1 c.2 true hw1 ho1 hcap1)
      (PropagateMove_kept (b := Err.isAccess) (fun h => h) (fun h => h) (fun h => h)
        (exactScalars K c08) iters depth _ c.1 c.2 true hw1 ho1))
      (PropagateMove_marks (exactScalars K c08) iters depth _ c.1 c.2 true)) fun r hr => ?_)
    exact Post.ok ⟨hf1.frame_trans hr.1.1, hk1.kept_trans hr.1.2.2, hr.2.1.flow⟩
  · refine Post.bind (Post.mono (Post.and_any
      (PropagateStop_post hf (exactScalars K c08) depth _ c.1 c.2 true hw1 ho1)
      (PropagateStop_marks (exactScalars K c08) depth _ c.1 c.2 true)) fun r hr => ?_)
    exact Post.ok ⟨hf1.frame_trans hr.1.1, hk1.kept_trans (Kept.kept_of_still hr.1.2.1),
      hr.2.flow⟩

theorem phase4_sound {b : Err → Prop} (hf : ¬ b .outOfFuel) (K : Nat) (c08 : Int)
    (iters depth : Nat) {s : Simulator Int Int Int} (h : s.Exact) :
    Post b (phase4 (exactScalars K c08) iters depth s) fun r => r.1.Exact := by
  unfold phase4
  have h0 : Simulator.Exact { s with UT := s.UT + 2 } := h.exact_setUT
  refine Post.mono (Post.forEach
    (I := fun sp : Simulator Int Int Int × Bool =>
      Frame { s with UT := s.UT + 2 } sp.1 ∧ Kept { s with UT := s.UT + 2 } sp.1 ∧
        sp.1.velocity_flow = s.velocity_flow)
    (cells s.N s.M) (fun sp c hc hI => ?_) _ ⟨Frame.frame_refl _, Kept.kept_refl _, rfl⟩)
    fun r hr => h0.exact_of_frame hr.1 hr.2.1 hr.2.2
  have hwp : sp.1.WF := hI.1.wf h0.wf
  have hcp : c ∈ cells sp.1.N sp.1.M := by rw [hI.1.N, hI.1.M]; exact hc
  refine Post.mono (moveCell_sound hf K c08 iters depth sp hwp (hI.1.capped h0.capped) hcp)
    fun r hr => ?_
  exact ⟨hI.1.frame_trans hr.1, hI.2.1.kept_trans hr.2.1, hr.2.2.trans hI.2.2⟩

theorem tick_sound {b : Err → Prop} (hf : ¬ b .outOfFuel) (K : Nat) (c08 : Int)
    (iters depth : Nat) {s : Simulator Int Int Int} (h : s.Exact) :
    Post b (tick (exactScalars K c08) iters depth s) fun r => r.1.Exact := by
  unfold tick
  refine Post.bind (Post.mono (phase12_sound K c08 h) fun s1 h1 => ?_)
  refine Post.bind (Post.mono (phase3_sound hf K c08 iters depth h1.2) fun s2 h2 => ?_)
  refine Post.bind (Post.mono (phase3Apply_sound K c08 h2.1 h2.2.1) fun s3 h3 => ?_)
  exact phase4_sound hf K c08 iters depth h3.2.1

theorem ticks_sound {b : Err → Prop} (hf : ¬ b .outOfFuel) (K : Nat) (c08 : Int)
    (iters depth n : Nat) {s : Simulator Int Int Int} (h : s.Exact) :
    Post b (ticks (exactScalars K c08) iters depth n s) fun s1 => s1.Exact := by
  induction n with
  | zero => exact Post.ok h
  | succ n ih =>
    simp only [ticks]
    refine Post.bind (Post.mono ih fun s1 h1 => ?_)
    refine Post.bind (Post.mono (tick_sound hf K c08 iters depth h1) fun r hr => ?_)
    exact Post.ok hr

theorem runTicks_sound {b : Err → Prop} (hf : ¬ b .outOfFuel) (K : Nat) (c08 : Int)
    (iters depth n N M : Nat) (field : Int → Int → Char) (rho : Char → Int) (g : Int)
    (rnd : Nat → Nat)
    (hb : (Simulator.init (exactScalars K c08) N M field rho g rnd).wallBoundary)
    (hg : 0 ≤ g)
    (hrho : ∀ x y, (Simulator.init (exactScalars K c08) N M field rho g rnd).Open x y →
      0 < rho (field x y)) :
    Post b (runTicks (exactScalars K c08) iters depth n
      (Simulator.init (exactScalars K c08) N M field rho g rnd)) fun s1 => s1.Exact := by
  unfold runTicks
  have hw := init_wf (exactScalars K c08) N M field rho g rnd hb
  refine Post.bind (Post.mono (Post.weaken (initDirs_post _ hw (fun _ _ => rfl))
    fun _ _ => trivial) fun s0 h0 => ?_)
  have h0e : ∃ d, s0 = { Simulator.init (exactScalars K c08) N M field rho g rnd with
      dirs := d } ∧ ∀ x y, d x y =
        if (Simulator.init (exactScalars K c08) N M field rho g rnd).Open x y then
          (Simulator.init (exactScalars K c08) N M field rho g rnd).openNeighbours x y
        else 0 := ⟨s0.dirs, h0.1, h0.2⟩
  obtain ⟨d, rfl, h2⟩ := h0e
  refine ticks_sound hf K c08 iters depth n ?_
  exact
    { wf := ⟨hw.boundary, hw.vn, hw.vm, hw.fn, hw.fm⟩
      g := hg
      rho := hrho
      nonneg := fun _ _ _ => le_refl _
      flow := fun _ _ _ => le_refl _
      dirs := fun x y ho => (h2 x y).trans (if_pos ho)
      lonely := fun _ _ _ _ _ => le_refl _
      capped := fun _ _ => le_refl _ }

/-! ## Conservation of the particles -/

theorem perm_open {s : Simulator P V VF} {σ : Equiv.Perm (Int × Int)}
    (hfix : ∀ c, ¬ s.Open c.1 c.2 → σ c = c) (c : Int × Int) :
    s.Open (σ c).1 (σ c).2 ↔ s.Open c.1 c.2 := by
  constructor
  · intro h
    by_contra hc
    rw [hfix c hc] at h
    exact hc h
  · intro h
    by_contra hc
    have h2 := hfix (σ c) hc
    rw [σ.injective h2] at hc
    exact hc h

theorem Rearranged.rearranged_refl (s : Simulator P V VF) : Rearranged s s :=
  ⟨rfl, rfl, 1, fun _ _ => rfl, fun _ => rfl⟩

theorem Rearranged.rearranged_open_iff {s s1 : Simulator P V VF} (h : Rearranged s s1)
    (x y : Int) :
    s1.Open x y ↔ s.Open x y := by
  obtain ⟨σ, hfix, hfield⟩ := h.perm
  have hf := hfield (x, y)
  constructor
  · intro ho
    by_contra hc
    rw [hfix (x, y) hc] at hf
    refine hc ⟨ho.1, ?_, ho.2.2.1, ?_, ?_⟩
    · have := ho.2.1; rwa [h.N] at this
    · have := ho.2.2.2.1; rwa [h.M] at this
    · have := ho.2.2.2.2; rwa [hf] at this
  · intro ho
    have h2 := (perm_open hfix (x, y)).mpr ho
    refine ⟨ho.1, ?_, ho.2.2.1, ?_, ?_⟩
    · rw [h.N]; exact ho.2.1
    · rw [h.M]; exact ho.2.2.2.1
    · rw [hf]; exact h2.2.2.2.2

theorem Rearranged.rearranged_trans {s s1 s2 : Simulator P V VF} (h1 : Rearranged s s1)
    (h2 : Rearranged s1 s2) : Rearranged s s2 where
  N := h2.N.trans h1.N
  M := h2.M.trans h1.M
  perm := by
    obtain ⟨σ1, f1, c1⟩ := h1.perm
    obtain ⟨σ2, f2, c2⟩ := h2.perm
    refine ⟨σ1 * σ2, fun c hc => ?_, fun c => ?_⟩
    · have : σ2 c = c := f2 c (fun ho => hc ((h1.rearranged_open_iff c.1 c.2).mp ho))
      rw [Equiv.Perm.mul_apply, this, f1 c hc]
    · rw [c2, c1, Equiv.Perm.mul_apply]

theorem Rearranged.of_field {s s1 : Simulator P V VF} (hN : s1.N = s.N) (hM : s1.M = s.M)
    (hf : s1.field = s.field) : Rearranged s s1 :=
  ⟨hN, hM, 1, fun _ _ => rfl, fun _ => by rw [hf]; rfl⟩

theorem Rearranged.rearranged_of_frame {s s1 : Simulator P V VF} (h : Frame s s1) :
    Rearranged s s1 where
  N := h.N
  M := h.M
  perm := by
    obtain ⟨σ, hfix, hc⟩ := h.perm
    exact ⟨σ, hfix, fun c => congrArg Prod.fst (hc c)⟩

theorem Rearranged.count {s s1 : Simulator P V VF} (h : Rearranged s s1) (ch : Char) :
    s1.count ch = s.count ch := by
  obtain ⟨σ, hfix, hfield⟩ := h.perm
  have hmem : ∀ c : Int × Int, σ c ∈ cells s.N s.M ↔ c ∈ cells s.N s.M := fun c => by
    by_cases ho : s.Open c.1 c.2
    · have h2 := (perm_open hfix c).mpr ho
      exact ⟨fun _ => open_mem_cells ho, fun _ => open_mem_cells h2⟩
    · rw [hfix c ho]
  unfold Simulator.count
  rw [h.N, h.M]
  have e1 := List.toFinset_card_of_nodup ((cells_nodup s.N s.M).filter
    fun c => decide (s1.field c.1 c.2 = ch))
  have e2 := List.toFinset_card_of_nodup ((cells_nodup s.N s.M).filter
    fun c => decide (s.field c.1 c.2 = ch))
  rw [← e1, ← e2]
  refine Finset.card_bij (fun c _ => σ c) (fun c hc => ?_) (fun a _ b _ hab => σ.injective hab)
    fun c hc => ?_
  · rw [List.mem_toFinset, List.mem_filter] at hc ⊢
    refine ⟨(hmem c).mpr hc.1, ?_⟩
    have := of_decide_eq_true hc.2
    rw [hfield c] at this
    exact decide_eq_true this
  · rw [List.mem_toFinset, List.mem_filter] at hc
    refine ⟨σ.symm c, ?_, σ.apply_symm_apply c⟩
    rw [List.mem_toFinset, List.mem_filter]
    refine ⟨(hmem (σ.symm c)).mp (by rw [σ.apply_symm_apply]; exact hc.1), ?_⟩
    refine decide_eq_true ?_
    rw [hfield, σ.apply_symm_apply]
    exact of_decide_eq_true hc.2

theorem tick_rearranged {b : Err → Prop} (hf : ¬ b .outOfFuel) (hm : ¬ b .moveAssert)
    (hn : ¬ b .noDirection) (hv : ¬ b .divByZero) (ha : ¬ b .flowAssert) (A : Scalars P V VF)
    (iters depth : Nat) (s : Simulator P V VF) (hw : s.WF) :
    Post b (tick A iters depth s) fun r => Rearranged s r.1 ∧ r.1.WF := by
  unfold tick
  refine Post.bind (Post.mono (phase12_post hv A hw) fun s1 h1 => ?_)
  refine Post.bind (Post.mono (phase3_post hf A iters depth s1 (h1.wf hw)) fun s2 h2 => ?_)
  have hf2 := h1.toFrozen.frozen_trans h2.1
  refine Post.bind (Post.mono (phase3Apply_post hv ha A (hf2.wf hw)) fun s3 h3 => ?_)
  have hf3 := hf2.frozen_trans h3.toFrozen
  refine Post.mono (phase4_post hf hm hn A iters depth s3 (hf3.wf hw)) fun r hr => ?_
  have hfield : s3.field = s.field := (h3.field.trans h2.2.1.1).trans h1.field
  have h4 : Rearranged s { s3 with UT := s3.UT + 2 } := Rearranged.of_field hf3.N hf3.M hfield
  exact ⟨h4.rearranged_trans (Rearranged.rearranged_of_frame hr.1),
    (hf3.frozen_trans ((Frozen.setUT s3 _).frozen_trans hr.1.toFrozen)).wf hw⟩

theorem ticks_rearranged {b : Err → Prop} (hf : ¬ b .outOfFuel) (hm : ¬ b .moveAssert)
    (hn : ¬ b .noDirection) (hv : ¬ b .divByZero) (ha : ¬ b .flowAssert) (A : Scalars P V VF)
    (iters depth n : Nat) (s : Simulator P V VF) (hw : s.WF) :
    Post b (ticks A iters depth n s) fun s1 => Rearranged s s1 ∧ s1.WF := by
  induction n with
  | zero => exact Post.ok ⟨Rearranged.rearranged_refl s, hw⟩
  | succ n ih =>
    simp only [ticks]
    refine Post.bind (Post.mono ih fun s1 h1 => ?_)
    refine Post.bind (Post.mono (tick_rearranged hf hm hn hv ha A iters depth s1 h1.2)
      fun r hr => ?_)
    exact Post.ok ⟨h1.1.rearranged_trans hr.1, hr.2⟩

theorem runTicks_rearranged {b : Err → Prop} (hf : ¬ b .outOfFuel) (hm : ¬ b .moveAssert)
    (hn : ¬ b .noDirection) (hv : ¬ b .divByZero) (ha : ¬ b .flowAssert) (A : Scalars P V VF)
    (iters depth n : Nat) (s : Simulator P V VF) (hw : s.WF) :
    Post b (runTicks A iters depth n s) fun s1 => Rearranged s s1 := by
  unfold runTicks initDirs
  refine Post.bind (Post.mono (Post.weaken (initLoop_post s hw (cells s.N s.M) (fun _ h => h)
    (cells_nodup _ _)) fun _ _ => trivial) fun s0 h0 => ?_)
  have hfield : s0.field = s.field := by rw [h0.1]
  have hN : s0.N = s.N := by rw [h0.1]
  have hM : s0.M = s.M := by rw [h0.1]
  have hw0 : s0.WF := by
    rw [h0.1]; exact ⟨hw.boundary, hw.vn, hw.vm, hw.fn, hw.fm⟩
  refine Post.mono (ticks_rearranged hf hm hn hv ha A iters depth n s0 hw0) fun s1 h1 => ?_
  exact (Rearranged.of_field hN hM hfield).rearranged_trans h1.1

/-- C23. Particles are conserved. For every grid with a wall boundary, every
numeric type, every random stream and every amount of fuel: the field after a
tick is the field before it with the characters permuted among the non-wall
cells, and after any number of ticks of `Run` the field is such a permutation
of the input grid; the number of cells holding a given character (such as
`'.'`, `' '` or `'#'`) is the same as before the tick and as in the input. -/
theorem particles_conserved (A : Scalars P V VF) (iters depth n : Nat) (s : Simulator P V VF)
    (hw : s.WF) :
    (∀ r, tick A iters depth s = .ok r →
      Rearranged s r.1 ∧ ∀ ch, r.1.count ch = s.count ch) ∧
    ∀ s1, runTicks A iters depth n s = .ok s1 →
      Rearranged s s1 ∧ ∀ ch, s1.count ch = s.count ch := by
  refine ⟨fun r hr => ?_, fun s1 h1 => ?_⟩
  · have h := (tick_rearranged (b := fun _ => False) (fun h => h) (fun h => h) (fun h => h)
      (fun h => h) (fun h => h) A iters depth s hw).elim hr
    exact ⟨h.1, h.1.count⟩
  · have h := (runTicks_rearranged (b := fun _ => False) (fun h => h) (fun h => h) (fun h => h)
      (fun h => h) (fun h => h) A iters depth n s hw).elim h1
    exact ⟨h, h.count⟩

set_option maxRecDepth 100000 in
theorem particles_conserved_witness :
    boxSim.WF ∧ boxSim.count '.' = 1 ∧ boxSim.count ' ' = 3 ∧ boxSim.count '#' = 12 ∧
      ∃ s1 r, runTicks (exactScalars 16 52428) 5 5 3 boxSim = .ok s1 ∧
        tick (exactScalars 16 52428) 5 5 s1 = .ok r ∧ r.2 = true ∧
        (Rearranged boxSim s1 ∧ ∀ ch, s1.count ch = boxSim.count ch) ∧
        Rearranged s1 r.1 ∧ ∀ ch, r.1.count ch = s1.count ch := by
  have hw : boxSim.WF := ⟨by decide, rfl, rfl, rfl, rfl⟩
  obtain ⟨q, h, hq⟩ := okAnd_elim
    (m := runTicks (exactScalars 16 52428) 5 5 3 boxSim >>= fun s1 =>
      (fun r => (s1, r)) <$> tick (exactScalars 16 52428) 5 5 s1)
    (q := fun q => decide (q.1.wallBoundary ∧ q.1.velocity.n = q.1.N ∧
      q.1.velocity.m = q.1.M ∧ q.1.velocity_flow.n = q.1.N ∧ q.1.velocity_flow.m = q.1.M ∧
      q.2.2 = true)) (by decide)
  obtain ⟨s1, h1, h⟩ := bind_ok_elim h
  obtain ⟨r, h2, rfl⟩ := map_ok_elim h
  obtain ⟨hb, hvn, hvm, hfn, hfm, hret⟩ := of_decide_eq_true hq
  exact ⟨hw, by decide, by decide, by decide, s1, r, h1, h2, hret,
    (particles_conserved (exactScalars 16 52428) 5 5 3 boxSim hw).2 s1 h1,
    (particles_conserved (exactScalars 16 52428) 5 5 3 s1 ⟨hb, hvn, hvm, hfn, hfm⟩).1 r h2⟩

/-! ## Signs of the velocities and the branches they rule out -/

theorem get_nonneg {s : Simulator Int Int Int} (hn : s.NonNeg) (K : Nat) (c08 : Int)
    {x y dx dy v : Int} (h : s.velocity.Get x y dx dy = .ok v) :
    (exactScalars K c08).vLt v ((exactScalars K c08).vOfInt 0) = false := by
  unfold VectorField.Get at h
  split_ifs at h
  cases h
  simp only [exactScalars, zero_mul, decide_eq_false_iff_not, not_lt]
  exact hn _ _ _

theorem moveStops_nonneg (K : Nat) (c08 : Int) (depth : Nat) (x y : Int) (ds : List (Int × Int))
    (hds : ∀ d ∈ ds, d ∈ deltas) (s : Simulator Int Int Int) (hw : s.WF) (ho : s.Open x y)
    (hn : s.NonNeg) : moveStops (exactScalars K c08) depth x y ds s = .ok s := by
  induction ds with
  | nil => rfl
  | cons d rest ih =>
    obtain ⟨dx, dy⟩ := d
    have hd := hds (dx, dy) (List.mem_cons_self _ _)
    have ih := ih fun d h => hds d (List.mem_cons_of_mem _ h)
    have hnb := hw.inb_next ho hd
    have hin := hw.inb ho
    have hdl : deltaIndex dx dy < deltas.length := deltaIndex_lt hd
    have hget : s.velocity.Get x y dx dy = .ok (s.velocity.v x y (deltaIndex dx dy)) := by
      unfold VectorField.Get
      rw [if_pos hdl, if_pos hin.2.1]
    simp only [moveStops, Simulator.rd, if_pos hnb.1, ok_bind, hget]
    rw [get_nonneg hn K c08 hget]
    simp only [Bool.false_eq_true, not_false_eq_true, if_true, ih, ite_self]

theorem PropagateMove_skips_stops (K : Nat) (c08 : Int) (iters depth : Nat)
    (s : Simulator Int Int Int) (x y : Int) (is_first : Bool) (hw : s.WF) (ho : s.Open x y)
    (hn : s.NonNeg) :
    PropagateMove (exactScalars K c08) iters (depth + 1) s x y is_first = (do
      let s1 ← s.setLastUse x y (s.UT - if is_first then 1 else 0)
      let (s2, ret, nx, ny) ←
        moveLoop (exactScalars K c08)
          (fun s3 x3 y3 => PropagateMove (exactScalars K c08) iters depth s3 x3 y3 false)
          x y iters s1 (-1) (-1)
      let s4 ← s2.setLastUse x y s2.UT
      if ret ∧ ¬ is_first then do
        let s6 ← swapCells (exactScalars K c08) s4 x y nx ny
        .ok (s6, ret)
      else .ok (s4, ret)) := by
  have hin := hw.inb ho
  simp only [PropagateMove]
  have hf1 := Frame.stampCell s x y (s.UT - if is_first = true then 1 else 0) ho
    (by cases is_first <;> simp)
  have hw1 := hf1.wf hw
  have ho1 := (hf1.open_iff x y).mpr ho
  have e1 : s.setLastUse x y (s.UT - if is_first = true then 1 else 0) =
      .ok { s with last_use := upd s.last_use x y (s.UT - if is_first = true then 1 else 0) } := by
    unfold Simulator.setLastUse
    rw [if_pos hin.1]
  rw [e1, ok_bind, ok_bind]
  have hloop := moveLoop_post (b := fun _ => False) (fun h => h) (fun h => h) (fun h => h)
    (exactScalars K c08)
    (fun s3 x3 y3 => PropagateMove (exactScalars K c08) iters depth s3 x3 y3 false)
    (fun s3 x3 y3 hw3 ho3 => Post.mono (PropagateMove_post (fun h => h) (fun h => h) (fun h => h)
      (exactScalars K c08) iters depth s3 x3 y3 false hw3 ho3) fun r hr => ⟨hr.1, hr.2.1⟩)
    x y iters _ (-1) (-1) hw1 ho1
  generalize moveLoop (exactScalars K c08)
    (fun s3 x3 y3 => PropagateMove (exactScalars K c08) iters depth s3 x3 y3 false)
    x y iters _ (-1) (-1) = m at hloop ⊢
  cases m with
  | error e => rfl
  | ok r =>
    obtain ⟨s2, ret, nx, ny⟩ := r
    have hr : Frame _ s2 := hloop.1
    have hw2 := hr.wf hw1
    have ho2 := (hr.open_iff x y).mpr ho1
    have hf3 := Frame.stampCell s2 x y s2.UT ho2 (Or.inl rfl)
    have e3 : s2.setLastUse x y s2.UT =
        .ok { s2 with last_use := upd s2.last_use x y s2.UT } := by
      unfold Simulator.setLastUse
      rw [if_pos (hw2.inb ho2).1]
    have hn3 : Simulator.NonNeg { s2 with last_use := upd s2.last_use x y s2.UT } :=
      hf3.nonNeg (hr.nonNeg (hf1.nonNeg hn))
    simp only [ok_bind, e3, moveStops_nonneg K c08 depth x y deltas (fun _ h => h) _
      (hf3.wf hw2) ((hf3.open_iff x y).mpr ho2) hn3]

theorem Simulator.Exact.divisors {s : Simulator Int Int Int} (h : s.Exact) (x y : Int)
    (ho : s.Open x y) :
    s.dirs x y = s.openNeighbours x y ∧ (¬ s.Alone x y → 1 ≤ s.dirs x y) ∧
      (s.Alone x y → ∀ i, s.velocity.v x y i ≤ 0) :=
  ⟨h.dirs x y ho, fun ha => by rw [h.dirs x y ho]; exact not_alone ha, h.lonely x y ho⟩

theorem divide_zero_iff (K : Nat) (c08 : Int) (a d : Int) :
    divide (exactScalars K c08) a ((exactScalars K c08).pOfInt d) = .error .divByZero ↔
      d = 0 := by
  unfold divide
  by_cases hd : d = 0
  · subst hd
    simp [exactScalars]
  · have h2 : d * 2 ^ K ≠ 0 := mul_ne_zero hd (by positivity)
    simp only [exactScalars, if_neg h2]
    exact ⟨fun h => Except.noConfusion h, fun h => absurd h hd⟩

/-- C21. No division by a zero neighbour count. In exact arithmetic, for a grid
with a wall boundary, `g ≥ 0` and positive densities, every random stream and
every amount of fuel: a quotient `force / dirs[..][..]` fails exactly when the
`dirs` entry is `0`, and no run, no phase 2 and no write-back of phase 3 stops
at a division by zero. In every state the run reaches, and in the state the
write-back of phase 3 starts from, `dirs` of a non-wall cell is the number of
its non-wall neighbours, it is at least `1` when the cell has a non-wall
neighbour, and a non-wall cell without a non-wall neighbour has no positive
velocity component. -/
theorem dirs_divisor_positive (K : Nat) (c08 : Int) (iters depth n N M : Nat)
    (field : Int → Int → Char) (rho : Char → Int) (g : Int) (rnd : Nat → Nat)
    (hb : (Simulator.init (exactScalars K c08) N M field rho g rnd).wallBoundary)
    (hg : 0 ≤ g)
    (hrho : ∀ x y, (Simulator.init (exactScalars K c08) N M field rho g rnd).Open x y →
      0 < rho (field x y)) :
    (∀ a d : Int,
      divide (exactScalars K c08) a ((exactScalars K c08).pOfInt d) = .error .divByZero ↔
        d = 0) ∧
    runTicks (exactScalars K c08) iters depth n
      (Simulator.init (exactScalars K c08) N M field rho g rnd) ≠ .error .divByZero ∧
    ∀ s, runTicks (exactScalars K c08) iters depth n
        (Simulator.init (exactScalars K c08) N M field rho g rnd) = .ok s →
      (∀ x y, s.Open x y →
        s.dirs x y = s.openNeighbours x y ∧ (¬ s.Alone x y → 1 ≤ s.dirs x y) ∧
          (s.Alone x y → ∀ i, s.velocity.v x y i ≤ 0)) ∧
      phase12 (exactScalars K c08) s ≠ .error .divByZero ∧
      tick (exactScalars K c08) iters depth s ≠ .error .divByZero ∧
      ∀ s1, phase12 (exactScalars K c08) s = .ok s1 →
        ∀ s2, phase3 (exactScalars K c08) iters depth s1 = .ok s2 →
          (∀ x y, s2.Open x y →
            s2.dirs x y = s2.openNeighbours x y ∧ (¬ s2.Alone x y → 1 ≤ s2.dirs x y) ∧
              (s2.Alone x y → ∀ i, s2.velocity.v x y i ≤ 0)) ∧
          phase3Apply (exactScalars K c08) s2 ≠ .error .divByZero := by
  have hf : ¬ (fun e : Err => e = .divByZero) .outOfFuel := fun h => Err.noConfusion h
  have hrun := runTicks_sound (b := fun e : Err => e = .divByZero) hf K c08 iters depth n N M
    field rho g rnd hb hg hrho
  refine ⟨divide_zero_iff K c08, fun he => ?_, fun s hs => ?_⟩
  · rw [he] at hrun
    exact hrun rfl
  have h0 := hrun.elim hs
  have h12 := phase12_sound (b := fun e : Err => e = .divByZero) K c08 h0
  have ht := tick_sound (b := fun e : Err => e = .divByZero) hf K c08 iters depth h0
  refine ⟨h0.divisors, fun he => ?_, fun he => ?_, fun s1 hs1 s2 hs2 => ?_⟩
  · rw [he] at h12
    exact h12 rfl
  · rw [he] at ht
    exact ht rfl
  have h1 := h12.elim hs1
  have h2 := (phase3_sound (b := fun e : Err => e = .divByZero) hf K c08 iters depth
    h1.2).elim hs2
  refine ⟨h2.1.divisors, fun he => ?_⟩
  have h3 := phase3Apply_sound (b := fun e : Err => e = .divByZero) K c08 h2.1 h2.2.1
  rw [he] at h3
  exact h3 rfl

set_option maxRecDepth 100000 in
theorem dirs_divisor_positive_witness :
    boxSim.wallBoundary ∧
      runTicks (exactScalars 16 52428) 5 5 3 boxSim ≠ .error .divByZero ∧
      ∃ s s1 s2 s3, runTicks (exactScalars 16 52428) 5 5 3 boxSim = .ok s ∧
        phase12 (exactScalars 16 52428) s = .ok s1 ∧
        phase3 (exactScalars 16 52428) 5 5 s1 = .ok s2 ∧
        phase3Apply (exactScalars 16 52428) s2 = .ok s3 ∧
        s.dirs 1 1 = 2 ∧ s2.dirs 2 2 = 2 ∧
        (∀ x y, s.Open x y → 1 ≤ s.openNeighbours x y → 1 ≤ s.dirs x y) ∧
        ∀ x y, s2.Open x y →
          s2.dirs x y = s2.openNeighbours x y ∧ (¬ s2.Alone x y → 1 ≤ s2.dirs x y) ∧
            (s2.Alone x y → ∀ i, s2.velocity.v x y i ≤ 0) := by
  have hthm := dirs_divisor_positive 16 52428 5 5 3 4 4 boxField dropRho 6553 (fun _ => 0)
    (by decide) (by decide) (fun x y _ => dropRho_pos (boxField x y))
  obtain ⟨q, h, hq⟩ := okAnd_elim
    (m := runTicks (exactScalars 16 52428) 5 5 3 boxSim >>= fun s =>
      phase12 (exactScalars 16 52428) s >>= fun s1 =>
      phase3 (exactScalars 16 52428) 5 5 s1 >>= fun s2 =>
      (fun s3 => (s, s2, s3)) <$> phase3Apply (exactScalars 16 52428) s2)
    (q := fun q => decide (q.1.dirs 1 1 = 2 ∧ q.2.1.dirs 2 2 = 2)) (by decide)
  obtain ⟨s, h0, h⟩ := bind_ok_elim h
  obtain ⟨s1, h1, h⟩ := bind_ok_elim h
  obtain ⟨s2, h2, h⟩ := bind_ok_elim h
  obtain ⟨s3, h3, rfl⟩ := map_ok_elim h
  obtain ⟨e1, e2⟩ := of_decide_eq_true hq
  have hs := hthm.2.2 s h0
  exact ⟨by decide, hthm.2.1, s, s1, s2, s3, h0, h1, h2, h3, e1, e2,
    fun x y ho hpos => by rw [(hs.1 x y ho).1]; exact hpos, (hs.2.2.2 s1 h1 s2 h2).1⟩

/-- C22. Velocities are never negative. In exact arithmetic, from the all-zero
initial state of a grid with a wall boundary, with `g ≥ 0` and positive
densities: in every state a run reaches at the start of a tick, and after
phases 1 and 2, after the flow loop of phase 3, after the write-back of phase 3
and after phase 4 of the tick, every component of `velocity` and of
`velocity_flow` is `≥ 0`. In a state without a negative velocity component the
test `velocity < 0` is false for every value `velocity.Get` returns (the skips
of `MoveProb` and `PropagateMove`), the loop at the end of `PropagateMove`
leaves the state as it is without a call of `PropagateStop`, so that
`PropagateMove` is the function without that loop, and the states
`PropagateMove` and `PropagateStop` return have no negative velocity component
either. -/
theorem velocities_never_negative (K : Nat) (c08 : Int) (iters depth n N M : Nat)
    (field : Int → Int → Char) (rho : Char → Int) (g : Int) (rnd : Nat → Nat)
    (hb : (Simulator.init (exactScalars K c08) N M field rho g rnd).wallBoundary)
    (hg : 0 ≤ g)
    (hrho : ∀ x y, (Simulator.init (exactScalars K c08) N M field rho g rnd).Open x y →
      0 < rho (field x y)) :
    (∀ s, runTicks (exactScalars K c08) iters depth n
        (Simulator.init (exactScalars K c08) N M field rho g rnd) = .ok s →
      (s.NonNeg ∧ s.FlowNN) ∧
      ∀ s1, phase12 (exactScalars K c08) s = .ok s1 → (s1.NonNeg ∧ s1.FlowNN) ∧
      ∀ s2, phase3 (exactScalars K c08) iters depth s1 = .ok s2 → (s2.NonNeg ∧ s2.FlowNN) ∧
      ∀ s3, phase3Apply (exactScalars K c08) s2 = .ok s3 → (s3.NonNeg ∧ s3.FlowNN) ∧
      ∀ r, phase4 (exactScalars K c08) iters depth s3 = .ok r → r.1.NonNeg ∧ r.1.FlowNN) ∧
    ∀ s : Simulator Int Int Int, s.WF → s.NonNeg →
      (∀ x y dx dy v, s.velocity.Get x y dx dy = .ok v →
        (exactScalars K c08).vLt v ((exactScalars K c08).vOfInt 0) = false) ∧
      ∀ x y, s.Open x y → ∀ (it d : Nat) (is_first : Bool),
        moveStops (exactScalars K c08) d x y deltas s = .ok s ∧
        PropagateMove (exactScalars K c08) it (d + 1) s x y is_first = (do
          let s1 ← s.setLastUse x y (s.UT - if is_first then 1 else 0)
          let (s2, ret, nx, ny) ←
            moveLoop (exactScalars K c08)
              (fun s3 x3 y3 => PropagateMove (exactScalars K c08) it d s3 x3 y3 false)
              x y it s1 (-1) (-1)
          let s4 ← s2.setLastUse x y s2.UT
          if ret ∧ ¬ is_first then do
            let s6 ← swapCells (exactScalars K c08) s4 x y nx ny
            .ok (s6, ret)
          else .ok (s4, ret)) ∧
        (∀ r, PropagateMove (exactScalars K c08) it d s x y is_first = .ok r → r.1.NonNeg) ∧
        ∀ s1, PropagateStop (exactScalars K c08) d s x y is_first = .ok s1 → s1.NonNeg := by
  have hf : ¬ (fun _ : Err => False) .outOfFuel := fun h => h
  have hrun := runTicks_sound (b := fun _ => False) hf K c08 iters depth n N M field rho g rnd
    hb hg hrho
  refine ⟨fun s hs => ?_, fun s hw hn => ⟨fun x y dx dy v hv => get_nonneg hn K c08 hv,
    fun x y ho it d is_first => ⟨moveStops_nonneg K c08 d x y deltas (fun _ h => h) s hw ho hn,
      PropagateMove_skips_stops K c08 it d s x y is_first hw ho hn, fun r hr => ?_,
      fun s1 hs1 => ?_⟩⟩⟩
  · have h0 := hrun.elim hs
    refine ⟨⟨h0.nonneg, h0.flow⟩, fun s1 hs1 => ?_⟩
    have h1 := (phase12_sound (b := fun _ => False) K c08 h0).elim hs1
    refine ⟨⟨h1.2.nonneg, h1.2.flow⟩, fun s2 hs2 => ?_⟩
    have h2 := (phase3_sound (b := fun _ => False) hf K c08 iters depth h1.2).elim hs2
    refine ⟨⟨h2.1.nonneg, h2.1.flow⟩, fun s3 hs3 => ?_⟩
    have h3 := (phase3Apply_sound (b := fun _ => False) K c08 h2.1 h2.2.1).elim hs3
    refine ⟨⟨h3.2.1.nonneg, h3.2.1.flow⟩, fun r hr => ?_⟩
    have h4 := (phase4_sound (b := fun _ => False) hf K c08 iters depth h3.2.1).elim hr
    exact ⟨h4.nonneg, h4.flow⟩
  · exact ((PropagateMove_post (b := fun _ => False) (fun h => h) (fun h => h) (fun h => h)
      (exactScalars K c08) it d s x y is_first hw ho).elim hr).1.nonNeg hn
  · exact ((PropagateStop_post (b := fun _ => False) (fun h => h) (exactScalars K c08) d s x y
      is_first hw ho).elim hs1).1.nonNeg hn

set_option maxRecDepth 100000 in
theorem velocities_never_negative_witness :
    boxSim.wallBoundary ∧
      ∃ s s1 s2 s3 r, runTicks (exactScalars 16 52428) 5 5 3 boxSim = .ok s ∧
        phase12 (exactScalars 16 52428) s = .ok s1 ∧
        phase3 (exactScalars 16 52428) 5 5 s1 = .ok s2 ∧
        phase3Apply (exactScalars 16 52428) s2 = .ok s3 ∧
        phase4 (exactScalars 16 52428) 5 5 s3 = .ok r ∧
        (s.NonNeg ∧ s.FlowNN) ∧ (s1.NonNeg ∧ s1.FlowNN) ∧ (s2.NonNeg ∧ s2.FlowNN) ∧
        (s3.NonNeg ∧ s3.FlowNN) ∧ r.1.NonNeg ∧ r.1.FlowNN ∧
        moveStops (exactScalars 16 52428) 5 1 1 deltas s3 = .ok s3 := by
  have hthm := velocities_never_negative 16 52428 5 5 3 4 4 boxField dropRho 6553 (fun _ => 0)
    (by decide) (by decide) (fun x y _ => dropRho_pos (boxField x y))
  obtain ⟨q, h, hq⟩ := okAnd_elim
    (m := runTicks (exactScalars 16 52428) 5 5 3 boxSim >>= fun s =>
      phase12 (exactScalars 16 52428) s >>= fun s1 =>
      phase3 (exactScalars 16 52428) 5 5 s1 >>= fun s2 =>
      phase3Apply (exactScalars 16 52428) s2 >>= fun s3 =>
      (fun r => (s, s1, s2, s3, r)) <$> phase4 (exactScalars 16 52428) 5 5 s3)
    (q := fun q => decide (q.2.2.2.1.wallBoundary ∧ q.2.2.2.1.velocity.n = q.2.2.2.1.N ∧
      q.2.2.2.1.velocity.m = q.2.2.2.1.M ∧ q.2.2.2.1.velocity_flow.n = q.2.2.2.1.N ∧
      q.2.2.2.1.velocity_flow.m = q.2.2.2.1.M ∧ q.2.2.2.1.Open 1 1)) (by decide)
  obtain ⟨s, h0, h⟩ := bind_ok_elim h
  obtain ⟨s1, h1, h⟩ := bind_ok_elim h
  obtain ⟨s2, h2, h⟩ := bind_ok_elim h
  obtain ⟨s3, h3, h⟩ := bind_ok_elim h
  obtain ⟨r, h4, rfl⟩ := map_ok_elim h
  obtain ⟨hb3, hvn, hvm, hfn, hfm, ho3⟩ := of_decide_eq_true hq
  have a0 := hthm.1 s h0
  have a1 := a0.2 s1 h1
  have a2 := a1.2 s2 h2
  have a3 := a2.2 s3 h3
  have a4 := a3.2 r h4
  exact ⟨by decide, s, s1, s2, s3, r, h0, h1, h2, h3, h4, a0.1, a1.1, a2.1, a3.1, a4.1, a4.2,
    ((hthm.2 s3 ⟨hb3, hvn, hvm, hfn, hfm⟩ a3.1.1).2 1 1 ho3 5 5 true).1⟩

/-! ## Fuel: the depth of the recursion of the kernels -/

theorem failsWith_elim {α : Type} {m : Except Err α} {e : Err} (h : failsWith m e = true) :
    m = .error e := by
  cases m with
  | ok a => exact absurd h (by simp [failsWith])
  | error e1 =>
    have : e1 = e := of_decide_eq_true h
    rw [this]

theorem bitLength_top {r : Nat} (h1 : 2 ^ 63 ≤ r) : bitLength r = 64 := by
  unfold bitLength
  rw [List.filter_eq_self.mpr, List.length_range]
  intro k hk
  rw [List.mem_range] at hk
  refine decide_eq_true (le_trans (Nat.pow_le_pow_right (by decide) ?_) h1)
  omega

/-- The generator outputs from `2^64 - 2^39` on are converted to the `float`
`2^64`, as `std::mt19937_64::max()` is: for them the quotient of `Random01`
for `float` is `1.0f`. -/
theorem toFloat_top (r : Nat) (h1 : 2 ^ 64 - 2 ^ 39 ≤ r) (h2 : r < 2 ^ 64) :
    toFloat r = 2 ^ 64 ∧ toFloat r = toFloat (2 ^ 64 - 1) := by
  have key : ∀ n : Nat, 2 ^ 64 - 2 ^ 39 ≤ n → n < 2 ^ 64 → toFloat n = 2 ^ 64 := by
    intro n hn1 hn2
    have hb : bitLength n = 64 := bitLength_top (by norm_num at hn1 ⊢; omega)
    unfold toFloat
    rw [hb]
    norm_num at hn1 hn2 ⊢
    have hq : n / 1099511627776 = 16777215 := by omega
    have hm : 549755813888 ≤ n % 1099511627776 := by omega
    rw [if_neg, hq]
    rw [hq]
    omega
  exact ⟨key r h1 h2, (key r h1 h2).trans (key _ (by norm_num) (by norm_num)).symm⟩

theorem tresLoop_bound (A : Scalars P V VF) (hirr : ∀ a, A.pLt a a = false)
    (htrans : ∀ a b c, A.pLt b a = false → A.pLt c b = false → A.pLt c a = false)
    (hadd : ∀ a v, A.vLt v (A.vOfInt 0) = false → A.pLt (A.pAdd a (A.pOfV v)) a = false)
    (s : Simulator P V VF) (x y : Int) (ds : List (Int × Int)) (acc : P) (tres : List P)
    (sum : P) (h : tresLoop A s x y ds acc = .ok (tres, sum)) :
    A.pLt sum acc = false ∧ (∀ t ∈ tres, A.pLt sum t = false) ∧ tres.length = ds.length := by
  induction ds generalizing acc tres sum with
  | nil =>
    simp only [tresLoop] at h
    cases h
    exact ⟨hirr _, fun t ht => absurd ht (List.not_mem_nil t), rfl⟩
  | cons d rest ih =>
    obtain ⟨dx, dy⟩ := d
    have skip : ∀ (r : Except Err (List P × P)),
        (fun r : List P × P => (acc :: r.1, r.2)) <$> r = .ok (tres, sum) →
        r = tresLoop A s x y rest acc →
        A.pLt sum acc = false ∧ (∀ t ∈ tres, A.pLt sum t = false) ∧
          tres.length = ((dx, dy) :: rest).length := by
      intro r hr hdef
      obtain ⟨r1, hr1, heq⟩ := map_ok_elim hr
      obtain ⟨tres1, sum1⟩ := r1
      simp only [Prod.mk.injEq] at heq
      obtain ⟨rfl, rfl⟩ := heq
      rw [hdef] at hr1
      obtain ⟨h1, h2, h3⟩ := ih acc tres1 sum1 hr1
      refine ⟨h1, fun t ht => ?_, by simp only [List.length_cons, h3]⟩
      rcases List.mem_cons.mp ht with rfl | ht
      · exact h1
      · exact h2 t ht
    simp only [tresLoop] at h
    obtain ⟨c, hc, h⟩ := bind_ok_elim h
    obtain ⟨_, rfl⟩ := rd_ok_elim hc
    by_cases hwall : s.field (x + dx) (y + dy) = '#'
    · rw [if_pos hwall] at h
      exact skip _ h rfl
    rw [if_neg hwall] at h
    obtain ⟨lu, hlu, h⟩ := bind_ok_elim h
    obtain ⟨_, rfl⟩ := rd_ok_elim hlu
    by_cases hUT : s.last_use (x + dx) (y + dy) = s.UT
    · rw [if_pos hUT] at h
      exact skip _ h rfl
    rw [if_neg hUT] at h
    obtain ⟨v, hv, h⟩ := bind_ok_elim h
    by_cases hneg : A.vLt v (A.vOfInt 0) = true
    · rw [if_pos hneg] at h
      exact skip _ h rfl
    rw [if_neg hneg] at h
    obtain ⟨r1, hr1, heq⟩ := map_ok_elim h
    obtain ⟨tres1, sum1⟩ := r1
    simp only [Prod.mk.injEq] at heq
    obtain ⟨rfl, rfl⟩ := heq
    obtain ⟨h1, h2, h3⟩ := ih _ tres1 sum1 hr1
    have hstep := hadd acc v (Bool.eq_false_iff.mpr hneg)
    refine ⟨htrans _ _ _ hstep h1, fun t ht => ?_, by simp only [List.length_cons, h3]⟩
    rcases List.mem_cons.mp ht with rfl | ht
    · exact h1
    · exact h2 t ht

theorem upperBound_length (A : Scalars P V VF) (tres : List P) (p : P)
    (h : ∀ t ∈ tres, A.pLt p t = false) : upperBound A tres p = tres.length := by
  unfold upperBound
  induction tres with
  | nil => rfl
  | cons t rest ih =>
    rw [List.findIdx_cons, h t (List.mem_cons_self _ _), cond_false,
      ih fun u hu => h u (List.mem_cons_of_mem _ hu)]
    rfl

/-- C20. `PropagateMove` reads `deltas[d]` with `d = 4`, outside the array,
and takes the neighbour index `(x + dx, y + dy)` from it. For every numeric
type with the order laws of `float`, `double` and the fixed-point types (`<`
irreflexive, `≤` transitive, adding a non-negative velocity does not lower a
sum): whenever the loop of `PropagateMove` finds `sum ≠ 0` and `Random01() * sum`
is `sum` (as for `float`, whose `Random01` returns `1.0f`), no entry of `tres`
is above `p`, `upper_bound` returns `4`, and the subscript `deltas[4]` is out
of range. -/
theorem deltas_read_out_of_range (A : Scalars P V VF) (hirr : ∀ a, A.pLt a a = false)
    (htrans : ∀ a b c, A.pLt b a = false → A.pLt c b = false → A.pLt c a = false)
    (hadd : ∀ a v, A.vLt v (A.vOfInt 0) = false → A.pLt (A.pAdd a (A.pOfV v)) a = false)
    (call : Simulator P V VF → Int → Int → Except Err (Simulator P V VF × Bool))
    (x y : Int) (iters : Nat) (s : Simulator P V VF) (nx ny : Int) (tres : List P) (sum : P)
    (ht : tresLoop A s x y deltas (A.pOfInt 0) = .ok (tres, sum))
    (hs : A.pEq sum (A.pOfInt 0) = false)
    (hr : A.pMul (A.random01 s.nextRnd.1) sum = sum) :
    upperBound A tres (A.pMul (A.random01 s.nextRnd.1) sum) = 4 ∧
      deltas.length = 4 ∧ deltas.get? 4 = none ∧
      moveLoop A call x y (iters + 1) s nx ny = .error .noDirection := by
  obtain ⟨_, h2, h3⟩ := tresLoop_bound A hirr htrans hadd s x y deltas _ tres sum ht
  have hub : upperBound A tres (A.pMul (A.random01 s.nextRnd.1) sum) = 4 := by
    rw [hr, upperBound_length A tres sum h2, h3]
    rfl
  refine ⟨hub, rfl, rfl, ?_⟩
  simp only [moveLoop, ht, ok_bind, hs, Bool.false_eq_true, if_false, Simulator.Random01, hub]
  rfl

set_option maxRecDepth 100000 in
theorem deltas_read_out_of_range_witness :
    (floatEdgeScalars 16 52428).random01 edgeSim.nextRnd.1 =
        (floatEdgeScalars 16 52428).pOfInt 1 ∧
      tresLoop (floatEdgeScalars 16 52428) edgeSim 1 1 deltas
        ((floatEdgeScalars 16 52428).pOfInt 0) = .ok ([0, 0, 0, 65536], 65536) ∧
      upperBound (floatEdgeScalars 16 52428) [0, 0, 0, 65536]
        ((floatEdgeScalars 16 52428).pMul
          ((floatEdgeScalars 16 52428).random01 edgeSim.nextRnd.1) 65536) = 4 ∧
      deltas.get? 4 = none ∧
      moveLoop (floatEdgeScalars 16 52428)
        (fun s nx ny => PropagateMove (floatEdgeScalars 16 52428) 5 4 s nx ny false)
        1 1 5 edgeSim (-1) (-1) = .error .noDirection ∧
      edgeSim.wallBoundary ∧ edgeSim.Open 1 1 ∧
      PropagateMove (floatEdgeScalars 16 52428) 5 5 edgeSim 1 1 true = .error .noDirection ∧
      (Simulator.init (floatEdgeScalars 16 52428) 4 4 boxField dropRho 6553
        edgeStream).wallBoundary ∧
      runTicks (floatEdgeScalars 16 52428) 5 5 4
        (Simulator.init (floatEdgeScalars 16 52428) 4 4 boxField dropRho 6553 edgeStream) =
          .error .noDirection := by
  have htres : tresLoop (floatEdgeScalars 16 52428) edgeSim 1 1 deltas
      ((floatEdgeScalars 16 52428).pOfInt 0) = .ok ([0, 0, 0, 65536], 65536) := by
    obtain ⟨r, hr, hq⟩ := okAnd_elim
      (m := tresLoop (floatEdgeScalars 16 52428) edgeSim 1 1 deltas
        ((floatEdgeScalars 16 52428).pOfInt 0))
      (q := fun r => decide (r = ([0, 0, 0, 65536], 65536))) (by decide)
    rw [hr, of_decide_eq_true hq]
  have hthm := deltas_read_out_of_range (floatEdgeScalars 16 52428)
    (fun a => decide_eq_false (lt_irrefl a))
    (fun a b c h1 h2 => decide_eq_false (not_lt.mpr
      (le_trans (not_lt.mp (of_decide_eq_false h1)) (not_lt.mp (of_decide_eq_false h2)))))
    (fun a v h => decide_eq_false (not_lt.mpr (by
      have hv : ¬ v < 0 * 2 ^ 16 := of_decide_eq_false h
      show a ≤ a + v
      omega)))
    (fun s nx ny => PropagateMove (floatEdgeScalars 16 52428) 5 4 s nx ny false)
    1 1 4 edgeSim (-1) (-1) [0, 0, 0, 65536] 65536 htres (by decide) (by decide)
  exact ⟨by decide, htres, hthm.1, hthm.2.2.1, hthm.2.2.2, by decide, by decide,
    failsWith_elim (by decide), by decide, failsWith_elim (by decide)⟩

/-- In exact fixed-point arithmetic, on a grid with a wall boundary with
`g ≥ 0` and positive densities, a run stops early only when its stack or
iteration budget is used up: no array is accessed out of range, no assertion
fails, `deltas[d]` is subscripted in range and no divisor is zero. -/
theorem exact_run_stops_only_for_fuel (K : Nat) (c08 : Int) (iters depth n N M : Nat)
    (field : Int → Int → Char) (rho : Char → Int) (g : Int) (rnd : Nat → Nat)
    (hb : (Simulator.init (exactScalars K c08) N M field rho g rnd).wallBoundary)
    (hg : 0 ≤ g)
    (hrho : ∀ x y, (Simulator.init (exactScalars K c08) N M field rho g rnd).Open x y →
      0 < rho (field x y)) (e : Err)
    (he : runTicks (exactScalars K c08) iters depth n
      (Simulator.init (exactScalars K c08) N M field rho g rnd) = .error e) :
    e = .outOfFuel := by
  have hrun := runTicks_sound (b := fun e : Err => e ≠ .outOfFuel) (fun h => h rfl) K c08 iters
    depth n N M field rho g rnd hb hg hrho
  exact not_not.mp (hrun.not_bad he)

end

/-! ## `Fixed<N, K>` -/

theorem two_pow_split {N : Nat} (hN : 0 < N) : (2 : Int) ^ N = 2 * 2 ^ (N - 1) := by
  obtain ⟨n, rfl⟩ : ∃ n, N = n + 1 := ⟨N - 1, by omega⟩
  simp [pow_succ, mul_comm]

theorem wrap_of_inRange {N : Nat} (hN : 0 < N) {x : Int} (hx : inRange N x) : wrap N x = x := by
  obtain ⟨h1, h2⟩ := hx
  have hp := two_pow_split hN
  have hpos : (0 : Int) < 2 ^ (N - 1) := by positivity
  unfold wrap
  rw [Int.bmod_def]
  have hcast : ((2 ^ N : Nat) : Int) = 2 * 2 ^ (N - 1) := by rw [← hp]; norm_cast
  rw [hcast]
  have hhalf : (2 * (2 : Int) ^ (N - 1) + 1) / 2 = 2 ^ (N - 1) := by omega
  rw [hhalf]
  by_cases hx0 : 0 ≤ x
  · have : x % (2 * 2 ^ (N - 1)) = x := Int.emod_eq_of_lt hx0 (by omega)
    rw [this, if_pos h2]
  · have h3 : (x + 2 * 2 ^ (N - 1)) % (2 * 2 ^ (N - 1)) = x + 2 * 2 ^ (N - 1) :=
      Int.emod_eq_of_lt (by omega) (by omega)
    rw [Int.add_emod_self] at h3
    rw [h3, if_neg (by omega)]
    omega

theorem validWidth_pos {N : Nat} (hN : validWidth N) : 0 < N := by
  rcases hN with h | h | h | h <;> omega

/-- C8. For `N ∈ {8, 16, 32, 64}`, `K < N` and every `x` in the range of the
`N`-bit signed type, `Fixed<N,K>::from_raw(x).raw_value() == x`. -/
theorem from_raw_raw_value (N K : Nat) (hN : validWidth N) (_hK : K < N) (x : Int)
    (hx : inRange N x) : (Fixed.from_raw N K x).raw_value = x := by
  unfold Fixed.from_raw Fixed.raw_value
  exact wrap_of_inRange (validWidth_pos hN) hx

theorem from_raw_raw_value_witness : (Fixed.from_raw 8 3 (-128)).raw_value = -128 :=
  from_raw_raw_value 8 3 (by decide) (by decide) (-128) (by decide)

/-- For the widths up to 32 bits the constructor from `int` stores `n · 2^K`
whenever that is representable. -/
theorem ofInt_exact_upto32 (N K : Nat) (hN : N = 8 ∨ N = 16 ∨ N = 32) (hK : K < N) (n : Int)
    (hn : inRange 32 n) (hr : inRange N (n * 2 ^ K)) :
    Fixed.ofInt N K n = some { v_ := n * 2 ^ K } := by
  have hK32 : K < 32 := by rcases hN with h | h | h <;> omega
  have hr32 : inRange 32 (n * 2 ^ K) := by
    obtain ⟨h1, h2⟩ := hr
    have hle : (2 : Int) ^ (N - 1) ≤ 2 ^ (32 - 1) :=
      pow_le_pow_right₀ (by norm_num) (by rcases hN with h | h | h <;> omega)
    exact ⟨by omega, by omega⟩
  unfold Fixed.ofInt
  rw [if_pos hK32, wrap_of_inRange (by norm_num) hn, wrap_of_inRange (by norm_num) hr32,
    wrap_of_inRange (by rcases hN with h | h | h <;> omega) hr]

/-- C9 fails for `N = 64`: `1 · 2^31` is representable in 64 bits, but
`Fixed<64,31>(1)` has the raw value `-2^31`, because `value << K` is computed
in `int`; for `K ≥ 32` the shift has no defined result at all. -/
theorem ofInt_64_31_wrong :
    validWidth 64 ∧ 31 < 64 ∧ inRange 64 (1 * 2 ^ 31) ∧
      (Fixed.ofInt 64 31 1).map Fixed.raw_value = some (-2147483648) ∧
      (Fixed.ofInt 64 31 1).map Fixed.raw_value ≠ some (1 * 2 ^ 31) ∧
      Fixed.ofInt 64 32 1 = none := by
  refine ⟨by decide, by decide, by decide, by decide, by decide, by decide⟩

theorem inRange_mul {N : Nat} (hN : 0 < N) {a b : Int} (ha : inRange N a) (hb : inRange N b) :
    inRange (2 * N) (a * b) := by
  obtain ⟨a1, a2⟩ := ha
  obtain ⟨b1, b2⟩ := hb
  have hp : (2 : Int) ^ (2 * N - 1) = 2 * (2 ^ (N - 1) * 2 ^ (N - 1)) := by
    rw [← pow_add, ← pow_succ']
    congr 1
    omega
  have hpos : (0 : Int) < 2 ^ (N - 1) := by positivity
  have habs : |a * b| ≤ 2 ^ (N - 1) * 2 ^ (N - 1) := by
    rw [abs_mul]
    exact mul_le_mul (abs_le.mpr ⟨a1, by omega⟩) (abs_le.mpr ⟨b1, by omega⟩) (abs_nonneg _)
      (by positivity)
  have := abs_le.mp habs
  constructor
  · rw [hp]; nlinarith
  · rw [hp]; nlinarith

theorem inRange_mono {N M : Nat} (h : N ≤ M) {x : Int} (hx : inRange N x) : inRange M x := by
  obtain ⟨h1, h2⟩ := hx
  have hle : (2 : Int) ^ (N - 1) ≤ 2 ^ (M - 1) := pow_le_pow_right₀ (by norm_num) (by omega)
  exact ⟨by omega, by omega⟩

/-- C10. For `N ∈ {8, 16, 32, 64}`, `K < N` and all `a`, `b` of type
`Fixed<N,K>`: the product of the raw values fits `DoubleLengthType`, the raw
value of `a * b` is `⌊a.raw · b.raw / 2^K⌋` reduced to `N` bits, and when that
floor fits in `N` bits the value of `a * b` lies in `(va·vb − 2^(−K), va·vb]`. -/
theorem mul_spec (N K : Nat) (hN : validWidth N) (_hK : K < N) (a b : Fixed N K)
    (ha : inRange N a.v_) (hb : inRange N b.v_) :
    inRange (doubleLength N) (a.v_ * b.v_) ∧
      Fixed.mul a b = some { v_ := wrap N (a.v_ * b.v_ / 2 ^ K) } ∧
      (inRange N (a.v_ * b.v_ / 2 ^ K) → ∀ c, Fixed.mul a b = some c →
        c.raw_value = a.v_ * b.v_ / 2 ^ K ∧
        a.value * b.value - 1 / 2 ^ K < c.value ∧ c.value ≤ a.value * b.value) := by
  have hpos := validWidth_pos hN
  have hwide : inRange (doubleLength N) (a.v_ * b.v_) := by
    refine inRange_mono ?_ (inRange_mul hpos ha hb)
    unfold doubleLength
    rcases hN with h | h | h | h <;> subst h <;> decide
  have hmul : Fixed.mul a b = some { v_ := wrap N (a.v_ * b.v_ / 2 ^ K) } := by
    unfold Fixed.mul Fixed.from_raw
    rw [if_pos hwide, Int.shiftRight_eq_div_pow]
    simp only [wrap, Int.bmod_bmod]
    norm_cast
  refine ⟨hwide, hmul, fun hfit c hc => ?_⟩
  rw [hmul] at hc
  cases hc
  have hraw : wrap N (a.v_ * b.v_ / 2 ^ K) = a.v_ * b.v_ / 2 ^ K := wrap_of_inRange hpos hfit
  simp only [Fixed.raw_value, Fixed.value, hraw]
  have h2 : (0 : Int) < 2 ^ K := by positivity
  have hq : (0 : ℚ) < 2 ^ K := by positivity
  have hlo : a.v_ * b.v_ / 2 ^ K * 2 ^ K ≤ a.v_ * b.v_ := Int.ediv_mul_le _ (ne_of_gt h2)
  have hhi : a.v_ * b.v_ < (a.v_ * b.v_ / 2 ^ K + 1) * 2 ^ K :=
    Int.lt_ediv_add_one_mul_self _ h2
  have hloq : ((a.v_ * b.v_ / 2 ^ K : Int) : ℚ) * 2 ^ K ≤ (a.v_ : ℚ) * b.v_ := by
    exact_mod_cast hlo
  have hhiq : (a.v_ : ℚ) * b.v_ < (((a.v_ * b.v_ / 2 ^ K : Int) : ℚ) + 1) * 2 ^ K := by
    exact_mod_cast hhi
  refine ⟨trivial, ?_, ?_⟩
  · rw [div_mul_div_comm, sub_lt_iff_lt_add, ← add_div, div_lt_div_iff₀ (by positivity) hq]
    nlinarith
  · rw [div_mul_div_comm, div_le_div_iff₀ hq (by positivity)]
    nlinarith

theorem mul_spec_witness :
    inRange (doubleLength 8) ((20 : Int) * (-12)) ∧
      Fixed.mul ({ v_ := 20 } : Fixed 8 3) { v_ := -12 } =
        some { v_ := wrap 8 ((20 : Int) * (-12) / 2 ^ 3) } ∧
      (inRange 8 ((20 : Int) * (-12) / 2 ^ 3) →
        ∀ c, Fixed.mul ({ v_ := 20 } : Fixed 8 3) { v_ := -12 } = some c →
        c.raw_value = (20 : Int) * (-12) / 2 ^ 3 ∧
        Fixed.value ({ v_ := 20 } : Fixed 8 3) * Fixed.value ({ v_ := -12 } : Fixed 8 3)
            - 1 / 2 ^ 3 < c.value ∧
          c.value ≤
            Fixed.value ({ v_ := 20 } : Fixed 8 3) * Fixed.value ({ v_ := -12 } : Fixed 8 3)) :=
  mul_spec 8 3 (by decide) (by decide) { v_ := 20 } { v_ := -12 } (by decide) (by decide)

theorem inRange_shift {N : Nat} (K : Nat) (hN : 0 < N) {a : Int} (ha : inRange N a) :
    inRange (N + K) (a * 2 ^ K) := by
  obtain ⟨h1, h2⟩ := ha
  have hp : (2 : Int) ^ (N + K - 1) = 2 ^ (N - 1) * 2 ^ K := by
    rw [← pow_add]
    congr 1
    omega
  have hpos : (0 : Int) < 2 ^ K := by positivity
  unfold inRange
  rw [hp]
  constructor
  · nlinarith
  · nlinarith

theorem inRange_natAbs {N : Nat} {x : Int} (h : x.natAbs < 2 ^ (N - 1)) : inRange N x := by
  have h2 : ((x.natAbs : Nat) : Int) < ((2 ^ (N - 1) : Nat) : Int) := by exact_mod_cast h
  rw [Int.natCast_natAbs] at h2
  push_cast at h2
  have := abs_lt.mp h2
  exact ⟨by omega, by omega⟩

theorem natAbs_of_inRange {N : Nat} {x : Int} (h : inRange N x) : x.natAbs ≤ 2 ^ (N - 1) := by
  obtain ⟨h1, h2⟩ := h
  have h3 : |x| ≤ 2 ^ (N - 1) := abs_le.mpr ⟨h1, by omega⟩
  rw [← Int.natCast_natAbs] at h3
  exact_mod_cast h3

theorem inRange_tdiv {N : Nat} (hN : 0 < N) {x : Int} (hx : inRange N x) (b : Int) :
    inRange (N + 1) (x.tdiv b) := by
  apply inRange_natAbs
  rw [Int.natAbs_tdiv]
  have h1 : x.natAbs / b.natAbs ≤ x.natAbs := Nat.div_le_self _ _
  have h2 := natAbs_of_inRange hx
  have h3 : 2 ^ (N - 1) < 2 ^ (N + 1 - 1) := Nat.pow_lt_pow_right (by norm_num) (by omega)
  exact lt_of_le_of_lt (le_trans h1 h2) h3

theorem shift_fits_double {N K : Nat} (hN : validWidth N) (hK : K < N) {a : Int}
    (ha : inRange N a) : inRange (doubleLength N - 1) (a * 2 ^ K) := by
  refine inRange_mono ?_ (inRange_shift K (validWidth_pos hN) ha)
  unfold doubleLength
  rcases hN with h | h | h | h <;> subst h <;> simp <;> omega

/-- C11. For `N ∈ {8, 16, 32, 64}`, `K < N` and all `a`, `b` of type
`Fixed<N,K>` with `b.raw ≠ 0`: the shifted dividend `a.raw · 2^K` fits
`DoubleLengthType`, and `(a / b).raw_value()` is the quotient
`(a.raw · 2^K) / b.raw` truncated toward zero, reduced to `N` bits. -/
theorem div_spec (N K : Nat) (hN : validWidth N) (hK : K < N) (a b : Fixed N K)
    (ha : inRange N a.v_) (_hb : inRange N b.v_) (hb0 : b.raw_value ≠ 0) :
    inRange (doubleLength N) (a.v_ * 2 ^ K) ∧
      ∃ c, Fixed.div a b = some c ∧ c.raw_value = wrap N ((a.v_ * 2 ^ K).tdiv b.v_) := by
  have hpos := validWidth_pos hN
  have hfit := shift_fits_double hN hK ha
  have hD : 1 < doubleLength N := by
    unfold doubleLength
    split <;> omega
  have hwide : inRange (doubleLength N) (a.v_ * 2 ^ K) := inRange_mono (by omega) hfit
  have hq : inRange (doubleLength N) ((a.v_ * 2 ^ K).tdiv b.v_) := by
    have := inRange_tdiv (by omega) hfit b.v_
    rwa [Nat.sub_add_cancel (by omega)] at this
  have hKD : K < doubleLength N := by
    unfold doubleLength
    rcases hN with h | h | h | h <;> subst h <;> simp <;> omega
  have hb1 : b.v_ ≠ 0 := hb0
  have hdiv : Fixed.div a b = some { v_ := wrap N ((a.v_ * 2 ^ K).tdiv b.v_) } := by
    unfold Fixed.div Fixed.from_raw
    rw [if_neg hb1, if_pos hKD, wrap_of_inRange (by omega) hwide, if_pos hq]
    simp only [wrap, Int.bmod_bmod]
  exact ⟨hwide, _, hdiv, rfl⟩

theorem div_spec_witness :
    inRange (doubleLength 8) ((-100 : Int) * 2 ^ 3) ∧
      ∃ c, Fixed.div ({ v_ := -100 } : Fixed 8 3) { v_ := 3 } = some c ∧
        c.raw_value = wrap 8 (((-100 : Int) * 2 ^ 3).tdiv 3) :=
  div_spec 8 3 (by decide) (by decide) { v_ := -100 } { v_ := 3 } (by decide) (by decide)
    (by decide)

theorem promoted_ge (N : Nat) : N ≤ promoted N := by
  unfold promoted
  split <;> omega

/-- Where the left shift of the converting constructor does not leave the
promoted source type (the target has at most 32 bits, or the source has 64),
widening is lossless: the raw value `r` becomes `r · 2^(K - K2)`, and the
conversion back returns `r`. -/
theorem ofFixed_lossless (N2 K2 N K : Nat) (hN2 : validWidth N2) (hN : validWidth N)
    (hK : K < N) (hle : K2 ≤ K) (hfit : N2 + K ≤ N + K2) (hno : N ≤ 32 ∨ N2 = 64)
    (r : Int) (hr : inRange N2 r) :
    Fixed.ofFixed N K (Fixed.from_raw N2 K2 r) = some { v_ := r * 2 ^ (K - K2) } ∧
      Fixed.ofFixed N2 K2 ({ v_ := r * 2 ^ (K - K2) } : Fixed N K) = some { v_ := r } := by
  have hpos2 := validWidth_pos hN2
  have hpos := validWidth_pos hN
  have hsh := inRange_shift (K - K2) hpos2 hr
  have hprom : N2 + (K - K2) ≤ promoted N2 := by
    rcases hno with h | h
    · have : 32 ≤ promoted N2 := by unfold promoted; split <;> omega
      omega
    · have := promoted_ge N2
      rcases hN with h1 | h1 | h1 | h1 <;> omega
  have hcount : K - K2 < promoted N2 := by omega
  have hraw : (Fixed.from_raw N2 K2 r).raw_value = r := wrap_of_inRange hpos2 hr
  constructor
  · unfold Fixed.ofFixed
    rw [if_neg (by omega), if_pos hcount, hraw,
      wrap_of_inRange (by omega) (inRange_mono hprom hsh),
      wrap_of_inRange hpos (inRange_mono (by omega) hsh)]
  · unfold Fixed.ofFixed
    have hN' := promoted_ge N
    by_cases hlt : K > K2
    · rw [if_pos hlt, if_pos (by omega)]
      simp only [Fixed.raw_value]
      rw [Int.shiftRight_eq_div_pow]
      have h2 : ((2 ^ (K - K2) : Nat) : Int) ≠ 0 := by positivity
      have hcancel : r * 2 ^ (K - K2) / ((2 ^ (K - K2) : Nat) : Int) = r := by
        push_cast
        exact Int.mul_ediv_cancel r (by positivity)
      rw [hcancel, wrap_of_inRange hpos2 hr]
    · have hKK : K = K2 := by omega
      subst hKK
      rw [if_neg hlt, if_pos (by omega)]
      simp only [Fixed.raw_value, Nat.sub_self, pow_zero, mul_one]
      rw [wrap_of_inRange (by omega) (inRange_mono (by omega) hr), wrap_of_inRange hpos2 hr]

/-- C12 fails for a 64-bit target and a source of at most 32 bits:
`Fixed<32,16>` with raw value `65536` (the value `1`) is representable in
`Fixed<64,40>` as `65536 · 2^24`, but the converting constructor shifts the
32-bit `int` before it widens, gives the raw value `0`, and the conversion
back gives `0`, not `65536`. -/
theorem ofFixed_32_16_to_64_40_wrong :
    validWidth 32 ∧ validWidth 64 ∧ 16 ≤ 40 ∧ 32 - 16 ≤ 64 - 40 ∧ inRange 32 65536 ∧
      inRange 64 (65536 * 2 ^ (40 - 16)) ∧
      (Fixed.ofFixed 64 40 (Fixed.from_raw 32 16 65536)).map Fixed.raw_value = some 0 ∧
      (Fixed.ofFixed 64 40 (Fixed.from_raw 32 16 65536)).map Fixed.raw_value ≠
        some (65536 * 2 ^ (40 - 16)) ∧
      ((Fixed.ofFixed 64 40 (Fixed.from_raw 32 16 65536)).bind fun c =>
        (Fixed.ofFixed 32 16 c).map Fixed.raw_value) = some 0 := by
  refine ⟨by decide, by decide, by decide, by decide, by decide, by decide, by decide,
    by decide, by decide⟩

/-- C13 fails for `P = Fixed<64,40>`, `V = Fixed<32,16>` and `x = 1`, which is
in the range of both: `V(1.0)` has the raw value `65536`, the conversion to `P`
shifts it in 32-bit `int` and gives the raw value `0`, the value `0`, while
`P(1.0)` has the value `1`; the difference `1` is above `2 · 2^(-16)`. -/
theorem ofFloat_via_32_16_wrong :
    Fixed.representable 64 40 1 ∧ Fixed.representable 32 16 1 ∧
      Fixed.ofFloat 32 16 1 = some { v_ := 65536 } ∧
      Fixed.ofFixed 64 40 ({ v_ := 65536 } : Fixed 32 16) = some { v_ := 0 } ∧
      Fixed.ofFloat 64 40 1 = some { v_ := 2 ^ 40 } ∧
      2 * (2 : ℚ)⁻¹ ^ min 40 16 <
        |Fixed.value ({ v_ := 0 } : Fixed 64 40) - Fixed.value ({ v_ := 2 ^ 40 } : Fixed 64 40)| := by
  refine ⟨?_, ?_, ?_, by decide, ?_, ?_⟩
  · unfold Fixed.representable; norm_num
  · unfold Fixed.representable; norm_num
  · have h : (1 : ℚ) * ((wrap 32 (2 ^ 16) : Int) : ℚ) = ((65536 : Int) : ℚ) := by
      have : wrap 32 (2 ^ 16) = 65536 := by decide
      rw [this]; norm_num
    unfold Fixed.ofFloat truncate
    rw [h, Rat.num_intCast, Rat.den_intCast]
    decide
  · have h : (1 : ℚ) * ((wrap 64 (2 ^ 40) : Int) : ℚ) = ((2 ^ 40 : Int) : ℚ) := by
      have : wrap 64 (2 ^ 40) = 2 ^ 40 := by decide
      rw [this]; norm_num
    unfold Fixed.ofFloat truncate
    rw [h, Rat.num_intCast, Rat.den_intCast]
    decide
  · unfold Fixed.value
    norm_num

/-- For `K ≤ 30` the mask `(1 << K) - 1` is computed without overflow, and
`Random01` for `type_p = Fixed<N, K>` returns the low `K` bits of the generator
output: the raw value is in `[0, 2^K)` and the value in `[0, 1)`. -/
theorem Random01_low_bits (N K : Nat) (hN : validWidth N) (hK : K < N) (hK30 : K ≤ 30)
    (r : Nat) :
    ∃ c, Fixed.Random01 N K r = some c ∧ c.raw_value = ((r % 2 ^ K : Nat) : Int) ∧
      0 ≤ c.raw_value ∧ c.raw_value < 2 ^ K ∧ 0 ≤ c.value ∧ c.value < 1 := by
  have hpos := validWidth_pos hN
  have hle : (2 : Int) ^ K ≤ 2 ^ 30 := pow_le_pow_right₀ (by norm_num) hK30
  have hp : (0 : Int) < 2 ^ K := by positivity
  have hsh : wrap 32 (2 ^ K) = 2 ^ K :=
    wrap_of_inRange (by norm_num) ⟨by norm_num; omega, by norm_num; omega⟩
  have hmask : inRange 32 ((2 : Int) ^ K - 1) := ⟨by norm_num; omega, by norm_num; omega⟩
  have hmod : ((2 : Int) ^ K - 1) % 2 ^ 64 = 2 ^ K - 1 :=
    Int.emod_eq_of_lt (by omega) (by norm_num; omega)
  have hnat : ((2 : Int) ^ K - 1).toNat = 2 ^ K - 1 := by
    have h1 : ((2 : Int) ^ K - 1) = ((2 ^ K - 1 : Nat) : Int) := by
      have : 1 ≤ 2 ^ K := Nat.one_le_two_pow
      push_cast [Nat.cast_sub this]
      rfl
    rw [h1, Int.toNat_natCast]
  have hand : (r % 2 ^ 64) &&& (2 ^ K - 1) = r % 2 ^ K := by
    rw [Nat.and_pow_two_sub_one_eq_mod]
    exact Nat.mod_mod_of_dvd r (pow_dvd_pow 2 (by omega))
  have hlt : r % 2 ^ K < 2 ^ K := Nat.mod_lt _ (by positivity)
  have hlti : ((r % 2 ^ K : Nat) : Int) < 2 ^ K := by exact_mod_cast hlt
  have hN1 : (2 : Int) ^ K ≤ 2 ^ (N - 1) := pow_le_pow_right₀ (by norm_num) (by omega)
  have hfit : inRange N ((r % 2 ^ K : Nat) : Int) := by
    have h0 : (0 : Int) ≤ ((r % 2 ^ K : Nat) : Int) := Int.natCast_nonneg _
    have hp1 : (0 : Int) < 2 ^ (N - 1) := by positivity
    exact ⟨by omega, by omega⟩
  have hres : Fixed.Random01 N K r = some { v_ := ((r % 2 ^ K : Nat) : Int) } := by
    unfold Fixed.Random01 Fixed.from_raw
    rw [if_pos (by omega), hsh, if_pos hmask, hmod, hnat, hand, wrap_of_inRange hpos hfit]
  refine ⟨_, hres, rfl, Int.natCast_nonneg _, hlti, ?_, ?_⟩
  · unfold Fixed.value
    positivity
  · unfold Fixed.value
    rw [div_lt_one (by positivity)]
    have h : (((r % 2 ^ K : Nat) : Int) : ℚ) < 2 ^ K := by exact_mod_cast hlt
    exact h

/-- C14 fails for `K ≥ 31`: `Fixed<64,32>` and `Fixed<32,31>` have
`N ∈ {8, 16, 32, 64}` and `K < N`, but `1 << 32` in `int` has no defined
result, and `(1 << 31) - 1` overflows `int`, so `Random01` has no defined
result for any generator output. -/
theorem Random01_mask_undefined :
    validWidth 64 ∧ 32 < 64 ∧ validWidth 32 ∧ 31 < 32 ∧
      ∀ r, Fixed.Random01 64 32 r = none ∧ Fixed.Random01 32 31 r = none := by
  refine ⟨by decide, by decide, by decide, by decide, fun r => ⟨?_, ?_⟩⟩
  · unfold Fixed.Random01
    rw [if_neg (by decide)]
  · unfold Fixed.Random01
    rw [if_pos (by decide), if_neg (by decide)]

/-! ## `FastFixed<N, K>` -/

theorem fastWidth_ge {w : FastWidths} (hw : w.Valid) {N : Nat} (hN : validWidth N) :
    N ≤ fastWidth w N := by
  obtain ⟨h8, h16, h32, h64, _⟩ := hw
  unfold fastWidth
  rcases hN with h | h | h | h <;> subst h <;> simp <;> omega

theorem wrap_of_le {N M : Nat} (hN : 0 < N) (h : N ≤ M) {x : Int} (hx : inRange N x) :
    wrap M x = x :=
  wrap_of_inRange (by omega) (inRange_mono h hx)

theorem promoted_mono {N M : Nat} (h : N ≤ M) : promoted N ≤ promoted M := by
  unfold promoted
  split <;> split <;> omega

theorem shiftRight_pow (r : Int) (d : Nat) : r >>> d = r / 2 ^ d := by
  rw [Int.shiftRight_eq_div_pow]
  norm_cast

/-- The sum, the difference and the negation agree in `Fixed` and `FastFixed`
when the operands and the result fit `N` bits. -/
theorem fast_add_sub_neg {w : FastWidths} (hw : w.Valid) {N : Nat} (K : Nat) (hN : validWidth N)
    {x : Int} (hx : inRange N x) :
    (inRange (promoted N) x ∧ (Fixed.from_raw N K x).raw_value = x) ∧
      inRange (promoted (fastWidth w N)) x ∧ (FastFixed.from_raw w N K x).raw_value = x := by
  have hpos := validWidth_pos hN
  have hge := fastWidth_ge hw hN
  exact ⟨⟨inRange_mono (promoted_ge N) hx, wrap_of_inRange hpos hx⟩,
    inRange_mono (le_trans hge (promoted_ge _)) hx, wrap_of_le hpos hge hx⟩

/-- Where `FastFixed` and `Fixed` agree, the part of C18 that the code
satisfies. For `N ∈ {8, 16, 32, 64}`, `K < N` and raw inputs that fit `N` bits,
whenever the mathematical result fits `N` bits too, `operator+`, `operator-`, `operator*`, `operator/` (non-zero divisor) and unary
minus of `FastFixed<N,K>` give the raw value that `Fixed<N,K>` gives, for any
choice of the fast integer types; the converting constructor from `(N2, K2)`
does so when it shifts right (`K2 > K`), and when it shifts left provided the
target has at most 32 bits or the source has 64. -/
theorem fastFixed_agrees (w : FastWidths) (hw : w.Valid) (N K : Nat) (hN : validWidth N)
    (hK : K < N) (a b : Int) (ha : inRange N a) (hb : inRange N b) :
    (inRange N (a + b) →
      (Fixed.add (⟨a⟩ : Fixed N K) ⟨b⟩).map Fixed.raw_value = some (a + b) ∧
      (FastFixed.add w (⟨a⟩ : FastFixed N K) ⟨b⟩).map FastFixed.raw_value = some (a + b)) ∧
    (inRange N (a - b) →
      (Fixed.sub (⟨a⟩ : Fixed N K) ⟨b⟩).map Fixed.raw_value = some (a - b) ∧
      (FastFixed.sub w (⟨a⟩ : FastFixed N K) ⟨b⟩).map FastFixed.raw_value = some (a - b)) ∧
    (inRange N (-a) →
      (Fixed.neg (⟨a⟩ : Fixed N K)).map Fixed.raw_value = some (-a) ∧
      (FastFixed.neg w (⟨a⟩ : FastFixed N K)).map FastFixed.raw_value = some (-a)) ∧
    (inRange N (a * b / 2 ^ K) →
      (Fixed.mul (⟨a⟩ : Fixed N K) ⟨b⟩).map Fixed.raw_value = some (a * b / 2 ^ K) ∧
      (FastFixed.mul w (⟨a⟩ : FastFixed N K) ⟨b⟩).map FastFixed.raw_value =
        some (a * b / 2 ^ K)) ∧
    (b ≠ 0 → inRange N ((a * 2 ^ K).tdiv b) →
      (Fixed.div (⟨a⟩ : Fixed N K) ⟨b⟩).map Fixed.raw_value = some ((a * 2 ^ K).tdiv b) ∧
      (FastFixed.div w (⟨a⟩ : FastFixed N K) ⟨b⟩).map FastFixed.raw_value =
        some ((a * 2 ^ K).tdiv b)) ∧
    ∀ N2 K2 : Nat, validWidth N2 → K2 < N2 → ∀ r : Int, inRange N2 r →
      (K < K2 → inRange N (r / 2 ^ (K2 - K)) →
        (Fixed.ofFixed N K (⟨r⟩ : Fixed N2 K2)).map Fixed.raw_value =
          some (r / 2 ^ (K2 - K)) ∧
        (FastFixed.ofFastFixed w N K (⟨r⟩ : FastFixed N2 K2)).map FastFixed.raw_value =
          some (r / 2 ^ (K2 - K))) ∧
      (K2 ≤ K → inRange N (r * 2 ^ (K - K2)) → (N ≤ 32 ∨ N2 = 64) →
        (Fixed.ofFixed N K (⟨r⟩ : Fixed N2 K2)).map Fixed.raw_value =
          some (r * 2 ^ (K - K2)) ∧
        (FastFixed.ofFastFixed w N K (⟨r⟩ : FastFixed N2 K2)).map FastFixed.raw_value =
          some (r * 2 ^ (K - K2))) := by
  have hpos := validWidth_pos hN
  have hge := fastWidth_ge hw hN
  have hD : 2 * N ≤ doubleLength N := by
    unfold doubleLength
    rcases hN with h | h | h | h <;> subst h <;> simp
  have hwide : inRange (doubleLength N) (a * b) := inRange_mono hD (inRange_mul hpos ha hb)
  have hshift := shift_fits_double hN hK ha
  have hshiftD : inRange (doubleLength N) (a * 2 ^ K) := inRange_mono (by omega) hshift
  have hKD : K < doubleLength N := by omega
  refine ⟨fun h => ?_, fun h => ?_, fun h => ?_, fun h => ?_, fun hb0 h => ?_,
    fun N2 K2 hN2 hK2 r hr => ⟨fun hlt h => ?_, fun hle h hno => ?_⟩⟩
  · obtain ⟨⟨h1, h2⟩, h3, h4⟩ := fast_add_sub_neg hw K hN h
    simp only [Fixed.add, FastFixed.add, if_pos h1, if_pos h3, Option.map_some', h2, h4,
      and_self]
  · obtain ⟨⟨h1, h2⟩, h3, h4⟩ := fast_add_sub_neg hw K hN h
    simp only [Fixed.sub, FastFixed.sub, if_pos h1, if_pos h3, Option.map_some', h2, h4,
      and_self]
  · obtain ⟨⟨h1, h2⟩, h3, h4⟩ := fast_add_sub_neg hw K hN h
    simp only [Fixed.neg, FastFixed.neg, if_pos h1, if_pos h3, Option.map_some', h2, h4,
      and_self]
  · simp only [Fixed.mul, FastFixed.mul, if_pos hwide, Option.map_some', shiftRight_pow,
      Fixed.from_raw, FastFixed.from_raw, Fixed.raw_value, FastFixed.raw_value,
      wrap_of_inRange hpos h, wrap_of_le hpos hge h, and_self]
  · have hq : inRange (doubleLength N) ((a * 2 ^ K).tdiv b) := by
      have := inRange_tdiv (N := doubleLength N - 1) (by omega) hshift b
      rwa [Nat.sub_add_cancel (by omega)] at this
    simp only [Fixed.div, FastFixed.div, if_neg hb0, if_pos hKD,
      wrap_of_inRange (by omega : 0 < doubleLength N) hshiftD, if_pos hq, Option.map_some',
      Fixed.from_raw, FastFixed.from_raw, Fixed.raw_value, FastFixed.raw_value,
      wrap_of_inRange hpos h, wrap_of_le hpos hge h, and_self]
  · have hge2 := fastWidth_ge hw hN2
    have hp2 := promoted_ge N2
    have hpf2 := promoted_ge (fastWidth w N2)
    simp only [Fixed.ofFixed, FastFixed.ofFastFixed, if_pos hlt,
      if_pos (by omega : K2 - K < promoted N2),
      if_pos (by omega : K2 - K < promoted (fastWidth w N2)), Option.map_some',
      shiftRight_pow, Fixed.raw_value, FastFixed.raw_value,
      wrap_of_inRange hpos h, wrap_of_le hpos hge h, and_self]
  · have hge2 := fastWidth_ge hw hN2
    have hN64 : N ≤ 64 := by rcases hN with h1 | h1 | h1 | h1 <;> omega
    have hNp : N ≤ promoted N2 := by
      unfold promoted
      split <;> omega
    have hNf : N ≤ promoted (fastWidth w N2) := le_trans hNp (promoted_mono hge2)
    simp only [Fixed.ofFixed, FastFixed.ofFastFixed, if_neg (by omega : ¬ K2 > K),
      if_pos (by omega : K - K2 < promoted N2),
      if_pos (by omega : K - K2 < promoted (fastWidth w N2)), Option.map_some',
      Fixed.raw_value, FastFixed.raw_value, wrap_of_le hpos hNp h, wrap_of_le hpos hNf h,
      wrap_of_inRange hpos h, wrap_of_le hpos hge h, and_self]

theorem fastFixed_agrees_witness :
    glibc64.Valid ∧
      ((Fixed.add (⟨300⟩ : Fixed 16 8) ⟨-7⟩).map Fixed.raw_value = some (300 + -7) ∧
        (FastFixed.add glibc64 (⟨300⟩ : FastFixed 16 8) ⟨-7⟩).map FastFixed.raw_value =
          some (300 + -7)) ∧
      ((Fixed.mul (⟨300⟩ : Fixed 16 8) ⟨-7⟩).map Fixed.raw_value = some (300 * -7 / 2 ^ 8) ∧
        (FastFixed.mul glibc64 (⟨300⟩ : FastFixed 16 8) ⟨-7⟩).map FastFixed.raw_value =
          some (300 * -7 / 2 ^ 8)) ∧
      ((Fixed.div (⟨300⟩ : Fixed 16 8) ⟨-7⟩).map Fixed.raw_value =
          some ((300 * 2 ^ 8 : Int).tdiv (-7)) ∧
        (FastFixed.div glibc64 (⟨300⟩ : FastFixed 16 8) ⟨-7⟩).map FastFixed.raw_value =
          some ((300 * 2 ^ 8 : Int).tdiv (-7))) ∧
      ((Fixed.ofFixed 16 8 (⟨65536⟩ : Fixed 32 16)).map Fixed.raw_value =
          some (65536 / 2 ^ (16 - 8)) ∧
        (FastFixed.ofFastFixed glibc64 16 8 (⟨65536⟩ : FastFixed 32 16)).map
          FastFixed.raw_value = some (65536 / 2 ^ (16 - 8))) ∧
      ((Fixed.ofFixed 16 8 (⟨-3⟩ : Fixed 8 2)).map Fixed.raw_value =
          some (-3 * 2 ^ (8 - 2)) ∧
        (FastFixed.ofFastFixed glibc64 16 8 (⟨-3⟩ : FastFixed 8 2)).map
          FastFixed.raw_value = some (-3 * 2 ^ (8 - 2))) := by
  have h := fastFixed_agrees glibc64 (by decide) 16 8 (by decide) (by decide) 300 (-7)
    (by decide) (by decide)
  exact ⟨by decide, h.1 (by decide), h.2.2.2.1 (by decide),
    h.2.2.2.2.1 (by decide) (by decide),
    (h.2.2.2.2.2 32 16 (by decide) (by decide) 65536 (by decide)).1 (by decide) (by decide),
    (h.2.2.2.2.2 8 2 (by decide) (by decide) (-3) (by decide)).2 (by decide) (by decide)
      (by decide)⟩

/-- C18. `FastFixed` and `Fixed` do not give the same raw value in the
converting constructor to a 64-bit target from a source of at most 32 bits,
where the fast type of the source is wider than `int` (glibc on x86-64): the
raw value `65536` of `(32, 16)` and the result `65536 · 2^24` fit,
`FastFixed<64,40>` shifts in the 64-bit `long` and stores `2^40`,
`Fixed<64,40>` shifts in the 32-bit `int` and stores `0`. -/
theorem fastFixed_conversion_differs :
    glibc64.Valid ∧ validWidth 64 ∧ validWidth 32 ∧ inRange 32 65536 ∧
      inRange 64 (65536 * 2 ^ (40 - 16)) ∧
      (FastFixed.ofFastFixed glibc64 64 40 (⟨65536⟩ : FastFixed 32 16)).map
        FastFixed.raw_value = some (65536 * 2 ^ (40 - 16)) ∧
      (Fixed.ofFixed 64 40 (⟨65536⟩ : Fixed 32 16)).map Fixed.raw_value = some 0 := by
  refine ⟨by decide, by decide, by decide, by decide, by decide, by decide, by decide⟩

/-! ## `min` and `max` -/

/-- `min` of `Fixed.hpp`, `max` of `Fixed.hpp` and `min` of `FastFixed.hpp`
return the operand with the smaller (larger) raw value, `b` being converted to
`(N, K)` first. -/
theorem min_max_raw {N K N2 K2 : Nat} (w : FastWidths) :
    (∀ (a : Fixed N K) (b : Fixed N2 K2),
      (Fixed.min a b).map Fixed.raw_value =
        (Fixed.ofFixed N K b).map (fun x => min a.raw_value x.raw_value) ∧
      (Fixed.max a b).map Fixed.raw_value =
        (Fixed.ofFixed N K b).map (fun x => max a.raw_value x.raw_value)) ∧
    ∀ (a : FastFixed N K) (b : FastFixed N2 K2),
      (FastFixed.min w a b).map FastFixed.raw_value =
        (FastFixed.ofFastFixed w N K b).map (fun x => min a.raw_value x.raw_value) := by
  refine ⟨fun a b => ⟨?_, ?_⟩, fun a b => ?_⟩
  · unfold Fixed.min
    cases Fixed.ofFixed N K b with
    | none => rfl
    | some x =>
      simp only [Option.some_bind, Option.map_some', Fixed.raw_value]
      by_cases h : a.v_ < x.v_
      · rw [if_pos h, Option.map_some', min_eq_left h.le]; rfl
      · rw [if_neg h, Option.map_some', min_eq_right (not_lt.mp h)]; rfl
  · unfold Fixed.max
    cases Fixed.ofFixed N K b with
    | none => rfl
    | some x =>
      simp only [Option.some_bind, Option.map_some', Fixed.raw_value]
      by_cases h : a.v_ < x.v_
      · rw [if_pos h, Option.map_some', max_eq_right h.le]; rfl
      · rw [if_neg h, Option.map_some', max_eq_left (not_lt.mp h)]; rfl
  · unfold FastFixed.min
    cases FastFixed.ofFastFixed w N K b with
    | none => rfl
    | some x =>
      simp only [Option.some_bind, Option.map_some', FastFixed.raw_value]
      by_cases h : a.v_ < x.v_
      · rw [if_pos h, Option.map_some', min_eq_left h.le]; rfl
      · rw [if_neg h, Option.map_some', min_eq_right (not_lt.mp h)]; rfl

/-- C24. `max` of `FastFixed.hpp` does not return the larger operand: for every
`a` and `b` it returns `b` converted to `(N, K)`, whatever `a` is. For
`FastFixed<16,8>` operands with raw values `a = 5` and `b = 3` the result has
raw value `3`, the larger raw value is `5`. -/
theorem fastFixed_max_returns_b :
    (∀ (w : FastWidths) (N K N2 K2 : Nat) (a : FastFixed N K) (b : FastFixed N2 K2),
      FastFixed.max w a b = FastFixed.ofFastFixed w N K b) ∧
    glibc64.Valid ∧
    (FastFixed.ofFastFixed glibc64 16 8 (⟨3⟩ : FastFixed 16 8)).map FastFixed.raw_value
      = some 3 ∧
    (FastFixed.max glibc64 (⟨5⟩ : FastFixed 16 8) (⟨3⟩ : FastFixed 16 8)).map
      FastFixed.raw_value = some 3 ∧
    max (5 : Int) 3 = 5 := by
  refine ⟨fun w N K N2 K2 a b => ?_, by decide, by decide, by decide, by decide⟩
  unfold FastFixed.max
  cases h : FastFixed.ofFastFixed w N K b with
  | none => rfl
  | some x =>
    simp only [Option.some_bind]
    by_cases hlt : a.v_ < x.v_
    · rw [if_pos hlt]
    · rw [if_neg hlt]

end Fluid
